import Mathlib

set_option maxHeartbeats 1000000

/-!
Shallow embedding of `src/chapter_19/fibonacci_heap.rs` (CLRS Fibonacci heap,
`FibonacciHeap<K, V>` instantiated at `K = Int`, `V = Int`).

The Rust code stores nodes as `Rc<RefCell<FibNode>>`.  We model the `Rc`
memory as a global `Store` (a list of nodes; a `NodeRef` is an index into it)
and thread it through every operation.  `Weak` references are indices as well:
`Weak::upgrade` succeeds iff the strong count of the target is positive, and in
this implementation every node ever allocated keeps strong self-references
(`remove_from_root_list` / `remove_from_child_list` set `left = right = self`
instead of dropping the node), so no node is ever deallocated and `upgrade`
succeeds exactly for indices that were ever allocated.

Ring-walk loops (`collect_children`, the root walk and linking loop of
`consolidate`, `cascading_cut`) are fueled; fuel exhaustion is an `.error`
distinct from the Rust panics, which are modelled as `.error` with the
source's panic message.
-/

namespace FibHeap

/-- One heap node, mirroring `struct FibNode<K, V>` at `K = Int`, `V = Int`.
`left`/`right` are plain ids rather than `Option`: in the source they are
`Option<NodeRef>` only to allow two-phase construction inside `FibNode::new`,
are set to `Some(self)` there before the node is ever visible, and are never
assigned `None` afterwards. -/
structure FibNode where
  key : Int
  value : Option Int
  degree : Nat
  mark : Bool
  parent : Option Nat
  child : Option Nat
  left : Nat
  right : Nat
deriving Repr, DecidableEq, Inhabited

/-- The `Rc` memory: every node ever allocated, in allocation order. -/
structure Store where
  nodes : List FibNode
deriving Repr, DecidableEq, Inhabited

/-- Mirrors `struct FibonacciHeap<K, V> { min, total_nodes }`. -/
structure FibonacciHeap where
  min : Option Nat
  total_nodes : Nat
deriving Repr, DecidableEq, Inhabited

/-- Mirrors `FibNodeHandle`: a `Weak` reference to a node. -/
structure FibNodeHandle where
  node : Nat
deriving Repr, DecidableEq

/-- State captured at the moment a Rust `panic!`/`expect` would fire inside
`decrease_key`, together with the panic message. -/
structure PanicData where
  msg : String
  s : Store
  h : FibonacciHeap
deriving Repr, DecidableEq

/-- Dereference a `NodeRef` (an `Rc` deref never fails in Rust; ids out of
range never arise from the operations below). -/
def getN (s : Store) (i : Nat) : FibNode :=
  s.nodes.getD i default

/-- Write through a `NodeRef` (`borrow_mut` and assign). -/
def setN (s : Store) (i : Nat) (n : FibNode) : Store :=
  ⟨s.nodes.set i n⟩

/-- `FibNode::new`: allocate a fresh node whose sibling ring is itself. -/
def newNode (s : Store) (key value : Int) : Store × Nat :=
  let i := s.nodes.length
  (⟨s.nodes ++ [{ key := key, value := some value, degree := 0, mark := false,
                  parent := none, child := none, left := i, right := i }]⟩, i)

/-- `FibNodeHandle::upgrade` (`Weak::upgrade`): succeeds iff the id was ever
allocated, because allocated nodes keep strong self-references forever. -/
def upgrade (s : Store) (h : FibNodeHandle) : Option Nat :=
  if h.node < s.nodes.length then some h.node else none

/-- `FibonacciHeap::insert_into_list`: insert `node` right after `reference`
in `reference`'s ring. -/
def insert_into_list (s : Store) (reference node : Nat) : Store :=
  let r := (getN s reference).right
  let s := setN s node { getN s node with left := reference, right := r }
  let s := setN s reference { getN s reference with right := node }
  let s := setN s r { getN s r with left := node }
  s

/-- `FibonacciHeap::add_to_root_list`. -/
def add_to_root_list (s : Store) (h : FibonacciHeap) (node : Nat) :
    Store × FibonacciHeap :=
  let s := setN s node { getN s node with parent := none, mark := false }
  match h.min with
  | some min_node =>
    let s := insert_into_list s min_node node
    let node_key := (getN s node).key
    let min_key := (getN s min_node).key
    if node_key < min_key then (s, { h with min := some node }) else (s, h)
  | none =>
    let s := setN s node { getN s node with left := node, right := node }
    (s, { h with min := some node })

/-- `FibonacciHeap::concatenate_root_lists`. -/
def concatenate_root_lists (s : Store) (h : FibonacciHeap) (other_min : Nat) :
    Store × FibonacciHeap :=
  match h.min with
  | some self_min =>
    let self_right := (getN s self_min).right
    let other_left := (getN s other_min).left
    let s := setN s self_min { getN s self_min with right := other_min }
    let s := setN s other_min { getN s other_min with left := self_min }
    let s := setN s other_left { getN s other_left with right := self_right }
    let s := setN s self_right { getN s self_right with left := other_left }
    let other_key := (getN s other_min).key
    let self_key := (getN s self_min).key
    if other_key < self_key then (s, { h with min := some other_min })
    else (s, h)
  | none => (s, { h with min := some other_min })

/-- `FibonacciHeap::remove_from_root_list`. -/
def remove_from_root_list (s : Store) (node : Nat) : Store × Option Nat :=
  let l := (getN s node).left
  let r := (getN s node).right
  if l = node then
    let s := setN s node { getN s node with left := node, right := node }
    (s, none)
  else
    let s := setN s l { getN s l with right := r }
    let s := setN s r { getN s r with left := l }
    let s := setN s node { getN s node with left := node, right := node }
    (s, some r)

/-- Loop body of `collect_children`: walk the child ring, resetting each
visited node to a singleton ring. -/
def collect_children_go (child : Nat) :
    Nat → Store → Nat → List Nat → Except String (List Nat × Store)
  | 0, _, _, _ => .error "out of fuel"
  | fuel + 1, s, current, children =>
    let next := (getN s current).right
    let children := children ++ [current]
    let s := setN s current { getN s current with left := current, right := current }
    if next = child then .ok (children, s)
    else collect_children_go child fuel s next children

/-- `FibonacciHeap::collect_children`. -/
def collect_children (s : Store) (node : Nat) :
    Except String (List Nat × Store) :=
  let child_opt := (getN s node).child
  let s := setN s node { getN s node with child := none }
  match child_opt with
  | none => .ok ([], s)
  | some child => collect_children_go child (s.nodes.length + 1) s child []

/-- `FibonacciHeap::link`: remove `child` from the root list and make it a
child of `parent`. -/
def link (s : Store) (child parent : Nat) : Store :=
  let l := (getN s child).left
  let r := (getN s child).right
  let s := setN s l { getN s l with right := r }
  let s := setN s r { getN s r with left := l }
  let s := setN s child { getN s child with parent := some parent, mark := false }
  match (getN s parent).child with
  | some existing_child =>
    let s := insert_into_list s existing_child child
    let s := setN s parent { getN s parent with degree := (getN s parent).degree + 1 }
    s
  | none =>
    let s := setN s child { getN s child with left := child, right := child }
    let s := setN s parent
      { getN s parent with child := some child, degree := (getN s parent).degree + 1 }
    s

/-- `FibonacciHeap::remove_from_child_list`.  The `.unwrap()` on
`parent.child` is modelled as an error. -/
def remove_from_child_list (s : Store) (parent node : Nat) :
    Except String Store :=
  let singleton := (getN s node).right = node
  if singleton then
    let s := setN s parent { getN s parent with child := none }
    let s := setN s node { getN s node with left := node, right := node, parent := none }
    .ok s
  else
    let l := (getN s node).left
    let r := (getN s node).right
    let s := setN s l { getN s l with right := r }
    let s := setN s r { getN s r with left := l }
    match (getN s parent).child with
    | none => .error "called unwrap on a None value"
    | some parent_child =>
      let s := if parent_child = node
        then setN s parent { getN s parent with child := some r } else s
      let s := setN s node { getN s node with left := node, right := node, parent := none }
      .ok s

/-- `FibonacciHeap::cut`.  `parent.degree -= 1` is `usize` subtraction;
in every state the code reaches, `degree` is positive there. -/
def cut (s : Store) (h : FibonacciHeap) (node parent : Nat) :
    Except String (Store × FibonacciHeap) :=
  match remove_from_child_list s parent node with
  | .error e => .error e
  | .ok s =>
    let s := setN s parent { getN s parent with degree := (getN s parent).degree - 1 }
    let (s, h) := add_to_root_list s h node
    .ok (s, h)

/-- `FibonacciHeap::cascading_cut` (fueled recursion up the parent chain;
the `Weak::upgrade` of the parent always succeeds, see `upgrade`). -/
def cascading_cut : Nat → Store → FibonacciHeap → Nat →
    Except String (Store × FibonacciHeap)
  | 0, _, _, _ => .error "out of fuel"
  | fuel + 1, s, h, node =>
    match (getN s node).parent with
    | none => .ok (s, h)
    | some parent =>
      if (getN s node).mark = false then
        .ok (setN s node { getN s node with mark := true }, h)
      else
        match cut s h node parent with
        | .error e => .error e
        | .ok (s, h) => cascading_cut fuel s h parent

/-- `FibonacciHeap::approx_degree_bound`: the source computes
`(n as f64).log2().ceil() as usize + 2` with `n = total_nodes.max(1)`;
modelled as the exact ceiling of the base-2 logarithm. -/
def approx_degree_bound (h : FibonacciHeap) : Nat :=
  let n := max h.total_nodes 1
  (if n ≤ 1 then 0 else Nat.log2 (n - 1) + 1) + 2

/-- Root walk at the top of `consolidate`: collect the root ring starting at
`min` and following `right` until the walk returns to `min`. -/
def root_walk (min_node : Nat) :
    Nat → Store → Nat → List Nat → Except String (List Nat)
  | 0, _, _, _ => .error "out of fuel"
  | fuel + 1, s, current, roots =>
    if current = min_node then .ok roots
    else root_walk min_node fuel s ((getN s current).right) (roots ++ [current])

/-- Inner `loop` of `consolidate` for one root: resize the degree table as
needed, then either park `x` in slot `d` or link it with the slot's occupant
and continue at the merged tree's degree. -/
def consolidate_go :
    Nat → Store → Nat → Nat → List (Option Nat) →
    Except String (Store × List (Option Nat))
  | 0, _, _, _, _ => .error "out of fuel"
  | fuel + 1, s, x, d, degree_table =>
    let degree_table := if degree_table.length ≤ d
      then degree_table ++ List.replicate (d + 1 - degree_table.length) none
      else degree_table
    match degree_table.get? d with
    | none => .error "index out of bounds"
    | some slot =>
      match slot with
      | none => .ok (s, degree_table.set d (some x))
      | some y0 =>
        let degree_table := degree_table.set d none
        let xy := if (getN s x).key > (getN s y0).key then (y0, x) else (x, y0)
        let s := link s xy.2 xy.1
        consolidate_go fuel s xy.1 ((getN s xy.1).degree) degree_table

/-- The `for node in roots` loop of `consolidate`. -/
def consolidate_entries (fuel : Nat) :
    List Nat → Store → List (Option Nat) →
    Except String (Store × List (Option Nat))
  | [], s, degree_table => .ok (s, degree_table)
  | node :: rest, s, degree_table =>
    match consolidate_go fuel s node ((getN s node).degree) degree_table with
    | .error e => .error e
    | .ok (s, degree_table) => consolidate_entries fuel rest s degree_table

/-- Rebuild loop at the end of `consolidate`: re-thread the root list from the
occupied degree-table slots, tracking the minimum. -/
def rebuild_go : List Nat → Store → FibonacciHeap →
    Except String (Store × FibonacciHeap)
  | [], s, h => .ok (s, h)
  | entry :: rest, s, h =>
    match h.min with
    | none =>
      let s := setN s entry { getN s entry with left := entry, right := entry }
      rebuild_go rest s { h with min := some entry }
    | some _ =>
      let (s, h) := add_to_root_list s h entry
      match h.min with
      | none => .error "called unwrap on a None value"
      | some m =>
        if (getN s entry).key < (getN s m).key then
          rebuild_go rest s { h with min := some entry }
        else rebuild_go rest s h

/-- `FibonacciHeap::consolidate`. -/
def consolidate (s : Store) (h : FibonacciHeap) :
    Except String (Store × FibonacciHeap) :=
  let rootsE : Except String (List Nat) :=
    match h.min with
    | none => .ok []
    | some min_node =>
      root_walk min_node (s.nodes.length + 1) s ((getN s min_node).right) [min_node]
  match rootsE with
  | .error e => .error e
  | .ok roots =>
    let degree_table : List (Option Nat) :=
      List.replicate (approx_degree_bound h) none
    match consolidate_entries (roots.length + 1) roots s degree_table with
    | .error e => .error e
    | .ok (s, degree_table) =>
      rebuild_go (degree_table.filterMap id) s { h with min := none }

/-- The `for child in children` loop of `extract_min`. -/
def add_children : List Nat → Store → FibonacciHeap → Store × FibonacciHeap
  | [], s, h => (s, h)
  | child :: rest, s, h =>
    let s := setN s child { getN s child with parent := none, mark := false }
    let (s, h) := add_to_root_list s h child
    add_children rest s h

/-- `FibonacciHeap::new`. -/
def new : FibonacciHeap :=
  { min := none, total_nodes := 0 }

/-- A fresh program has an empty `Rc` memory. -/
def emptyStore : Store := ⟨[]⟩

/-- `FibonacciHeap::is_empty`. -/
def is_empty (h : FibonacciHeap) : Bool :=
  h.total_nodes == 0

/-- `FibonacciHeap::len`. -/
def len (h : FibonacciHeap) : Nat :=
  h.total_nodes

/-- `FibonacciHeap::minimum`. -/
def minimum (s : Store) (h : FibonacciHeap) : Option (Int × Int) :=
  h.min.bind fun node =>
    ((getN s node).value).map fun value => ((getN s node).key, value)

/-- `FibonacciHeap::insert`. -/
def insert (s : Store) (h : FibonacciHeap) (key value : Int) :
    Store × FibonacciHeap × FibNodeHandle :=
  let p := newNode s key value
  let h := { h with total_nodes := h.total_nodes + 1 }
  let q := add_to_root_list p.1 h p.2
  (q.1, q.2, ⟨p.2⟩)

/-- `FibonacciHeap::union`. -/
def union (s : Store) (a b : FibonacciHeap) : Store × FibonacciHeap :=
  match a.min with
  | none => (s, b)
  | some _ =>
    match b.min with
    | none => (s, a)
    | some other_min =>
      let p := concatenate_root_lists s a other_min
      (p.1, { p.2 with total_nodes := p.2.total_nodes + b.total_nodes })

/-- `FibonacciHeap::extract_min`.  The `expect("node should still hold a
value")` panic is modelled as an error. -/
def extract_min (s : Store) (h : FibonacciHeap) :
    Except String (Option (Int × Int) × Store × FibonacciHeap) :=
  match h.min with
  | none => .ok (none, s, h)
  | some min_node =>
    let h := { h with min := none }
    let extracted_key := (getN s min_node).key
    let value_opt := (getN s min_node).value
    let s := setN s min_node { getN s min_node with value := none }
    match value_opt with
    | none => .error "node should still hold a value"
    | some extracted_value =>
      match collect_children s min_node with
      | .error e => .error e
      | .ok (children, s) =>
        let p := remove_from_root_list s min_node
        let h := { h with min := p.2 }
        let q := add_children children p.1 h
        let h := { q.2 with total_nodes := q.2.total_nodes - 1 }
        match h.min with
        | some _ =>
          match consolidate q.1 h with
          | .error e => .error e
          | .ok (s, h) => .ok (some (extracted_key, extracted_value), s, h)
        | none => .ok (some (extracted_key, extracted_value), q.1, h)

/-- `FibonacciHeap::decrease_key`.  Both panics are modelled as `.error`
carrying the state at the moment the panic fires. -/
def decrease_key (s : Store) (h : FibonacciHeap) (handle : FibNodeHandle)
    (new_key : Int) : Except PanicData (Store × FibonacciHeap) :=
  match upgrade s handle with
  | none => .error ⟨"Cannot decrease key on a node that no longer exists", s, h⟩
  | some node_rc =>
    if new_key > (getN s node_rc).key then
      .error ⟨"new key is greater than current key", s, h⟩
    else
      let s := setN s node_rc { getN s node_rc with key := new_key }
      let step : Except String (Store × FibonacciHeap) :=
        match (getN s node_rc).parent with
        | some parent_rc =>
          if (getN s node_rc).key < (getN s parent_rc).key then
            match cut s h node_rc parent_rc with
            | .error e => .error e
            | .ok (s, h) => cascading_cut (s.nodes.length + 1) s h parent_rc
          else .ok (s, h)
        | none => .ok (s, h)
      match step with
      | .error e => .error ⟨e, s, h⟩
      | .ok (s, h) =>
        match h.min with
        | some min_node =>
          if (getN s node_rc).key < (getN s min_node).key then
            .ok (s, { h with min := some node_rc })
          else .ok (s, h)
        | none => .ok (s, { h with min := some node_rc })

/-- Repeatedly `extract_min` until it returns `none`, collecting the
extracted key/value pairs (the `collect_sorted` helper of the source's
tests). -/
def drain : Nat → Store → FibonacciHeap → Except String (List (Int × Int))
  | 0, _, _ => .error "out of fuel"
  | fuel + 1, s, h =>
    match extract_min s h with
    | .error e => .error e
    | .ok (none, _, _) => .ok []
    | .ok (some kv, s, h) =>
      match drain fuel s h with
      | .error e => .error e
      | .ok rest => .ok (kv :: rest)

/-- Insert a list of key/value pairs in order. -/
def insert_list : List (Int × Int) → Store × FibonacciHeap → Store × FibonacciHeap
  | [], sh => sh
  | kv :: rest, sh =>
    let p := insert sh.1 sh.2 kv.1 kv.2
    insert_list rest (p.1, p.2.1)

/-- Store after `insert(1, 10)` followed by `extract_min()`: the extracted
node is still allocated (it holds strong self-references) but its value has
been handed back to the caller. -/
def staleS : Store :=
  ⟨[{ key := 1, value := none, degree := 0, mark := false,
      parent := none, child := none, left := 0, right := 0 }]⟩

/-- Heap after `insert(1, 10)` followed by `extract_min()`: empty. -/
def staleH : FibonacciHeap :=
  { min := none, total_nodes := 0 }

/-- Heap A of the source's union test: keys 5 and 9. -/
def uA : Store × FibonacciHeap := insert_list [(5, 105), (9, 109)] (emptyStore, new)

/-- Heap B of the source's union test: keys 2 and 8, allocated in the same
store after A's nodes. -/
def uB : Store × FibonacciHeap := insert_list [(2, 102), (8, 108)] (uA.1, new)

/-! ### Abstract forest representation

The pointer structure of a well-formed heap is described by a forest of rose
trees of node ids; the predicates below tie the `Store` pointers to that
abstract forest. -/

/-- A rose tree of node ids: one heap tree. -/
inductive Tree where
  | node (id : Nat) (children : List Tree)
deriving Repr

/-- Root id of a tree. -/
def Tree.rootId : Tree → Nat
  | .node i _ => i

/-- Child list of a tree's root. -/
def Tree.childTrees : Tree → List Tree
  | .node _ cs => cs

mutual
/-- All node ids of a tree, root first. -/
def Tree.ids : Tree → List Nat
  | .node i cs => i :: Forest.ids cs

/-- All node ids of a forest, in order. -/
def Forest.ids : List Tree → List Nat
  | [] => []
  | t :: ts => Tree.ids t ++ Forest.ids ts
end

mutual
/-- Remove the child subtree whose root is `x` from a tree: the tree-level
effect of `cut`. -/
def Tree.pruneChild (x : Nat) : Tree → Tree
  | .node r cs => .node r (Forest.pruneChild x cs)

/-- Remove the subtree rooted at `x` from a forest, descending into
children. -/
def Forest.pruneChild (x : Nat) : List Tree → List Tree
  | [] => []
  | c :: cs => if c.rootId = x then cs
      else Tree.pruneChild x c :: Forest.pruneChild x cs
end

/-- A parent-pointer path from a node up to an ancestor: the chain
`cascading_cut` walks. -/
inductive PathUp (s : Store) : Nat → Nat → List Nat → Prop where
  | refl (j : Nat) : PathUp s j j [j]
  | step (j q r : Nat) (ch : List Nat) : (getN s j).parent = some q →
      PathUp s q r ch → PathUp s j r (j :: ch)

/-- The sibling relation recorded by a ring: `a.right = b` and `b.left = a`. -/
def rlink (s : Store) (a b : Nat) : Prop :=
  (getN s a).right = b ∧ (getN s b).left = a

/-- A list of ids forms a circular doubly-linked ring, in this cyclic order:
consecutive elements are `rlink`ed and the last links back to the first. -/
def ringP (s : Store) : List Nat → Prop
  | [] => True
  | x :: rest => List.Chain' (rlink s) (x :: rest) ∧ rlink s (rest.getLastD x) x

/-- The pointer structure rooted at one tree is well formed: degrees count
children, the `child` field designates the head of the child ring, children
form a ring, point back to their parent, and satisfy min-heap order. -/
inductive wfTree (s : Store) : Tree → Prop where
  | mk : ∀ (i : Nat) (cs : List Tree),
      (getN s i).degree = cs.length →
      (getN s i).child = (cs.head?).map Tree.rootId →
      ringP s (cs.map Tree.rootId) →
      (∀ c ∈ cs, (getN s (Tree.rootId c)).parent = some i) →
      (∀ c ∈ cs, (getN s i).key ≤ (getN s (Tree.rootId c)).key) →
      (∀ c ∈ cs, wfTree s c) →
      wfTree s (.node i cs)

/-- `wfTree` without the min-heap key clause: the pointer shape alone.
`decrease_key` passes through states (after the key write, before the cut)
where the shape is intact but one parent/child key pair is inverted. -/
inductive wfShape (s : Store) : Tree → Prop where
  | mk : ∀ (i : Nat) (cs : List Tree),
      (getN s i).degree = cs.length →
      (getN s i).child = (cs.head?).map Tree.rootId →
      ringP s (cs.map Tree.rootId) →
      (∀ c ∈ cs, (getN s (Tree.rootId c)).parent = some i) →
      (∀ c ∈ cs, wfShape s c) →
      wfShape s (.node i cs)

/-- Structural heap invariant: the heap `h` over store `s` is represented by
the forest `F` (root list in ring order starting at the minimum root). -/
def InvStruct (s : Store) (h : FibonacciHeap) (F : List Tree) : Prop :=
  ((h.min = none ∧ F = []) ∨
    (∃ t rest, F = t :: rest ∧ h.min = some t.rootId ∧
      ∀ u ∈ F, (getN s t.rootId).key ≤ (getN s (Tree.rootId u)).key)) ∧
  ringP s (F.map Tree.rootId) ∧
  (∀ t ∈ F, wfTree s t ∧ (getN s (Tree.rootId t)).parent = none) ∧
  (Forest.ids F).Nodup ∧
  (∀ i ∈ Forest.ids F, i < s.nodes.length ∧ (getN s i).value.isSome = true)

/-- Weak structural invariant: as `InvStruct` but without requiring the
`min` root to carry the smallest root key.  `extract_min` passes through
transient states (after `remove_from_root_list`, before `consolidate`
recomputes the minimum) where `min` names an arbitrary root. -/
def InvStruct0 (s : Store) (h : FibonacciHeap) (F : List Tree) : Prop :=
  ((h.min = none ∧ F = []) ∨
    (∃ t rest, F = t :: rest ∧ h.min = some t.rootId)) ∧
  ringP s (F.map Tree.rootId) ∧
  (∀ t ∈ F, wfTree s t ∧ (getN s (Tree.rootId t)).parent = none) ∧
  (Forest.ids F).Nodup ∧
  (∀ i ∈ Forest.ids F, i < s.nodes.length ∧ (getN s i).value.isSome = true)

/-- Full heap invariant: structure plus the node-count equation. -/
def Inv (s : Store) (h : FibonacciHeap) (F : List Tree) : Prop :=
  InvStruct s h F ∧ h.total_nodes = (Forest.ids F).length

/-- The key/value pair stored at a live node. -/
def idKV (s : Store) (i : Nat) : Int × Int :=
  ((getN s i).key, ((getN s i).value).getD 0)

/-- Agreement on every field a ring predicate reads. -/
def agreeLR (a b : FibNode) : Prop :=
  a.left = b.left ∧ a.right = b.right

/-- Agreement on every field except the ring links: splice operations only
rewrite `left`/`right`. -/
def agreeStatic (a b : FibNode) : Prop :=
  a.key = b.key ∧ a.value = b.value ∧ a.degree = b.degree ∧
  a.mark = b.mark ∧ a.parent = b.parent ∧ a.child = b.child

/-- Reset each listed node to a singleton ring, in order (the store effect of
the `collect_children` walk on the visited nodes). -/
def resetLR : Store → List Nat → Store
  | s, [] => s
  | s, x :: xs => resetLR (setN s x { getN s x with left := x, right := x }) xs

/-- Agreement on every field `wfTree` reads from a non-root node. -/
def agreeCore (a b : FibNode) : Prop :=
  a.key = b.key ∧ a.degree = b.degree ∧ a.parent = b.parent ∧
  a.child = b.child ∧ a.left = b.left ∧ a.right = b.right

/-- Agreement on every field `wfTree` reads from a tree root. -/
def agreeRoot (a b : FibNode) : Prop :=
  a.key = b.key ∧ a.degree = b.degree ∧ a.child = b.child

/-- Agreement on every field `wfShape` reads from a tree root. -/
def agreeRootS (a b : FibNode) : Prop :=
  a.degree = b.degree ∧ a.child = b.child

/-- Agreement on every field `wfShape` reads from a non-root node. -/
def agreeCoreS (a b : FibNode) : Prop :=
  a.degree = b.degree ∧ a.parent = b.parent ∧
  a.child = b.child ∧ a.left = b.left ∧ a.right = b.right

/-! ### Derived lemmas about the store -/

theorem length_setN (s : Store) (i : Nat) (n : FibNode) :
    (setN s i n).nodes.length = s.nodes.length := by
  simp [setN]

theorem getN_setN_self (s : Store) (i : Nat) (n : FibNode)
    (hi : i < s.nodes.length) :
    getN (setN s i n) i = n := by
  simp only [getN, setN]
  rw [List.getD_eq_getElem _ _ (by simpa using hi)]
  simp [List.getElem_set]

theorem getN_setN_ne (s : Store) (i j : Nat) (n : FibNode) (hij : j ≠ i) :
    getN (setN s i n) j = getN s j := by
  simp only [getN, setN]
  rcases Nat.lt_or_ge j s.nodes.length with hj | hj
  · rw [List.getD_eq_getElem _ _ (by simpa using hj),
      List.getD_eq_getElem _ _ hj]
    rw [List.getElem_set]
    rw [if_neg (fun h => hij h.symm)]
  · rw [List.getD_eq_default _ _ (by simpa using hj), List.getD_eq_default _ _ hj]

/-! ### Forest lemmas -/

theorem tree_ind (P : Tree → Prop)
    (step : ∀ i cs, (∀ c ∈ cs, P c) → P (Tree.node i cs)) : ∀ t, P t := by
  have key : ∀ n, ∀ t : Tree, sizeOf t ≤ n → P t := by
    intro n
    induction n with
    | zero =>
      intro t ht
      cases t with
      | node i cs =>
        simp at ht
    | succ n ihn =>
      intro t ht
      cases t with
      | node i cs =>
        apply step
        intro c hc
        apply ihn
        have h1 := List.sizeOf_lt_of_mem hc
        simp at ht
        omega
  intro t
  exact key (sizeOf t) t le_rfl

theorem rootId_mem_ids (t : Tree) : t.rootId ∈ t.ids := by
  cases t with
  | node i cs =>
    rw [Tree.ids, Tree.rootId]
    exact List.mem_cons_self i _

theorem mem_forest_ids_of_mem (cs : List Tree) (c : Tree) (hc : c ∈ cs)
    (j : Nat) (hj : j ∈ c.ids) : j ∈ Forest.ids cs := by
  induction cs with
  | nil => cases hc
  | cons t ts ih =>
    rw [Forest.ids, List.mem_append]
    rcases List.mem_cons.mp hc with rfl | hc
    · exact Or.inl hj
    · exact Or.inr (ih hc)

theorem forest_ids_cons (t : Tree) (ts : List Tree) :
    Forest.ids (t :: ts) = t.ids ++ Forest.ids ts := by
  rw [Forest.ids]

theorem mem_ids_node (i : Nat) (cs : List Tree) (j : Nat) :
    j ∈ (Tree.node i cs).ids ↔ j = i ∨ j ∈ Forest.ids cs := by
  rw [Tree.ids]
  exact List.mem_cons

theorem agreeCore_to_agreeRoot {a b : FibNode} (h : agreeCore a b) : agreeRoot a b :=
  ⟨h.1, h.2.1, h.2.2.2.1⟩

theorem agreeCore_to_agreeLR {a b : FibNode} (h : agreeCore a b) : agreeLR a b :=
  ⟨h.2.2.2.2.1, h.2.2.2.2.2⟩

theorem chain'_transfer {R S : Nat → Nat → Prop} :
    ∀ l : List Nat, (∀ a ∈ l, ∀ b ∈ l, R a b → S a b) → l.Chain' R → l.Chain' S := by
  intro l
  induction l with
  | nil => intro _ _; exact List.chain'_nil
  | cons x rest ih =>
    intro hab hch
    cases rest with
    | nil => exact List.chain'_singleton x
    | cons y rest2 =>
      rw [List.chain'_cons] at hch ⊢
      refine ⟨hab x (by simp) y (by simp) hch.1, ?_⟩
      exact ih (fun a ha b hb hr => hab a (List.mem_cons_of_mem _ ha) b (List.mem_cons_of_mem _ hb) hr) hch.2

theorem getLastD_mem (l : List Nat) (x : Nat) : l.getLastD x ∈ x :: l := by
  induction l generalizing x with
  | nil => simp [List.getLastD]
  | cons y rest ih =>
    rw [List.getLastD_cons]
    rcases List.mem_cons.mp (ih y) with h | h
    · rw [h]
      simp
    · exact List.mem_cons_of_mem _ (List.mem_cons_of_mem _ h)

theorem ringP_congr (s s' : Store) (l : List Nat)
    (hag : ∀ j ∈ l, agreeLR (getN s' j) (getN s j)) (hr : ringP s l) : ringP s' l := by
  cases l with
  | nil => trivial
  | cons x rest =>
    obtain ⟨hch, hwrap⟩ := hr
    have hrl : ∀ a ∈ x :: rest, ∀ b ∈ x :: rest, rlink s a b → rlink s' a b := by
      intro a ha b hb hab
      have h1 := hag a ha
      have h2 := hag b hb
      exact ⟨h1.2.trans hab.1, h2.1.trans hab.2⟩
    refine ⟨chain'_transfer _ hrl hch, ?_⟩
    exact hrl _ (getLastD_mem rest x) _ (by simp) hwrap

theorem wfTree_congr (s s' : Store) :
    ∀ t : Tree,
      agreeRoot (getN s' t.rootId) (getN s t.rootId) →
      (∀ j ∈ Forest.ids t.childTrees, agreeCore (getN s' j) (getN s j)) →
      wfTree s t → wfTree s' t := by
  apply tree_ind (P := fun t => agreeRoot (getN s' t.rootId) (getN s t.rootId) →
      (∀ j ∈ Forest.ids t.childTrees, agreeCore (getN s' j) (getN s j)) →
      wfTree s t → wfTree s' t)
  intro i cs ih hroot hrest hwf
  rw [Tree.rootId] at hroot
  rw [Tree.childTrees] at hrest
  cases hwf with
  | mk _ _ hdeg hchild hring hpar hkey hcs =>
    have hcsub : ∀ c ∈ cs, ∀ j ∈ Tree.ids c, agreeCore (getN s' j) (getN s j) := by
      intro c hc j hj
      exact hrest j (mem_forest_ids_of_mem cs c hc j hj)
    refine wfTree.mk i cs ?_ ?_ ?_ ?_ ?_ ?_
    · rw [hroot.2.1, hdeg]
    · rw [hroot.2.2, hchild]
    · apply ringP_congr s s'
      · intro j hj
        obtain ⟨c, hc, hcj⟩ := List.mem_map.mp hj
        exact agreeCore_to_agreeLR (hcsub c hc j (hcj ▸ rootId_mem_ids c))
      · exact hring
    · intro c hc
      rw [(hcsub c hc _ (rootId_mem_ids c)).2.2.1]
      exact hpar c hc
    · intro c hc
      rw [hroot.1, (hcsub c hc _ (rootId_mem_ids c)).1]
      exact hkey c hc
    · intro c hc
      apply ih c hc
      · exact agreeCore_to_agreeRoot (hcsub c hc _ (rootId_mem_ids c))
      · intro j hj
        cases c with
        | node ci ccs =>
          apply hcsub _ hc
          rw [Tree.childTrees] at hj
          rw [mem_ids_node]
          exact Or.inr hj
      · exact hcs c hc

/-! ### Ring lemmas -/

theorem set_oob_list (l : List FibNode) (i : Nat) (n : FibNode)
    (h : l.length ≤ i) : l.set i n = l := by
  induction l generalizing i with
  | nil => rfl
  | cons a l ih =>
    cases i with
    | zero => simp at h
    | succ i =>
      rw [List.set_cons_succ]
      rw [ih i (by simpa using h)]

theorem setN_oob (s : Store) (i : Nat) (n : FibNode)
    (h : s.nodes.length ≤ i) : setN s i n = s := by
  simp only [setN]
  rw [set_oob_list s.nodes i n h]

theorem agreeStatic_refl (a : FibNode) : agreeStatic a a :=
  ⟨rfl, rfl, rfl, rfl, rfl, rfl⟩

theorem agreeStatic_trans {a b c : FibNode} (h1 : agreeStatic a b)
    (h2 : agreeStatic b c) : agreeStatic a c :=
  ⟨h1.1.trans h2.1, h1.2.1.trans h2.2.1, h1.2.2.1.trans h2.2.2.1,
   h1.2.2.2.1.trans h2.2.2.2.1, h1.2.2.2.2.1.trans h2.2.2.2.2.1,
   h1.2.2.2.2.2.trans h2.2.2.2.2.2⟩

theorem getN_setN_agreeStatic (s : Store) (i : Nat) (R : FibNode)
    (hR : agreeStatic R (getN s i)) (j : Nat) :
    agreeStatic (getN (setN s i R) j) (getN s j) := by
  by_cases hij : j = i
  · subst hij
    by_cases hj : j < s.nodes.length
    · rw [getN_setN_self s j R hj]
      exact hR
    · rw [setN_oob s j R (by omega)]
      exact agreeStatic_refl _
  · rw [getN_setN_ne s i j R hij]
    exact agreeStatic_refl _

theorem setN_lr_agreeStatic (s : Store) (i lft rgt : Nat) (j : Nat) :
    agreeStatic (getN (setN s i
      { key := (getN s i).key, value := (getN s i).value, degree := (getN s i).degree,
        mark := (getN s i).mark, parent := (getN s i).parent, child := (getN s i).child,
        left := lft, right := rgt }) j) (getN s j) :=
  getN_setN_agreeStatic s i
    { key := (getN s i).key, value := (getN s i).value, degree := (getN s i).degree,
      mark := (getN s i).mark, parent := (getN s i).parent, child := (getN s i).child,
      left := lft, right := rgt } ⟨rfl, rfl, rfl, rfl, rfl, rfl⟩ j

theorem getLast?_cons_eq_getLastD (x : Nat) (rest : List Nat) :
    (x :: rest).getLast? = some (rest.getLastD x) := by
  induction rest generalizing x with
  | nil => rfl
  | cons y rest ih =>
    rw [List.getLastD_cons]
    rw [show (x :: y :: rest).getLast? = (y :: rest).getLast? from rfl]
    exact ih y

theorem ringP_transfer (s s' : Store) (l : List Nat)
    (h : ∀ a ∈ l, ∀ b ∈ l, rlink s a b → rlink s' a b) (hr : ringP s l) :
    ringP s' l := by
  cases l with
  | nil => trivial
  | cons x rest =>
    obtain ⟨hch, hwrap⟩ := hr
    refine ⟨chain'_transfer _ h hch, ?_⟩
    exact h _ (getLastD_mem rest x) _ (by simp) hwrap

theorem ring_succ (s : Store) (x : Nat) (rest : List Nat)
    (hr : ringP s (x :: rest)) :
    ∀ pre c post, x :: rest = pre ++ c :: post →
      rlink s c (post.headD x) := by
  intro pre c post heq
  obtain ⟨hch, hwrap⟩ := hr
  cases post with
  | nil =>
    have hlast : rest.getLastD x = c := by
      have h1 : (x :: rest).getLast? = some c := by
        rw [heq]
        have : pre ++ [c] = pre ++ [c] ++ [] := by simp
        rw [show pre ++ c :: ([] : List Nat) = pre ++ [c] from rfl]
        exact List.getLast?_concat _
      rw [getLast?_cons_eq_getLastD] at h1
      exact Option.some.inj h1
    rw [List.headD]
    rw [← hlast]
    exact hwrap
  | cons d post' =>
    have hch2 : List.Chain' (rlink s) (c :: d :: post') := by
      rw [heq] at hch
      exact hch.right_of_append
    rw [List.headD]
    exact (List.chain'_cons.mp hch2).1

theorem ringP_rotate (s : Store) (x : Nat) (rest : List Nat)
    (h : ringP s (x :: rest)) : ringP s (rest ++ [x]) := by
  cases rest with
  | nil => exact h
  | cons y rest' =>
    obtain ⟨hch, hwrap⟩ := h
    rw [List.getLastD_cons] at hwrap
    have h3 : ((y :: rest') ++ [x]).getLast? = some x := List.getLast?_concat _
    rw [show (y :: rest') ++ [x] = y :: (rest' ++ [x]) from rfl,
      getLast?_cons_eq_getLastD] at h3
    have hlast : (rest' ++ [x]).getLastD y = x := Option.some.inj h3
    constructor
    · show List.Chain' (rlink s) ((y :: rest') ++ [x])
      apply List.Chain'.append
      · exact (List.chain'_cons.mp hch).2
      · exact List.chain'_singleton x
      · intro a ha b hb
        rw [getLast?_cons_eq_getLastD] at ha
        rw [show ([x] : List Nat).head? = some x from rfl] at hb
        rw [← Option.some.inj ha, ← Option.some.inj hb]
        exact hwrap
    · show rlink s ((rest' ++ [x]).getLastD y) y
      rw [hlast]
      exact (List.chain'_cons.mp hch).1

theorem ring_insert (s : Store) (a n : Nat) (rest : List Nat)
    (hr : ringP s (a :: rest))
    (hnodup : (a :: rest).Nodup)
    (hn : n ∉ a :: rest)
    (hlen : ∀ j ∈ a :: rest, j < s.nodes.length)
    (hnlen : n < s.nodes.length) :
    ringP (insert_into_list s a n) (a :: n :: rest) ∧
    (∀ j, agreeStatic (getN (insert_into_list s a n) j) (getN s j)) ∧
    (∀ j, j ≠ a → j ≠ n → j ≠ (getN s a).right →
      getN (insert_into_list s a n) j = getN s j) := by
  have hna : n ≠ a := fun h => hn (h ▸ List.mem_cons_self a rest)
  have halen : a < s.nodes.length := hlen a (List.mem_cons_self a rest)
  obtain ⟨s1, hs1⟩ : ∃ x, x = setN s n
      { getN s n with left := a, right := (getN s a).right } := ⟨_, rfl⟩
  obtain ⟨s2, hs2⟩ : ∃ x, x = setN s1 a { getN s1 a with right := n } := ⟨_, rfl⟩
  obtain ⟨s3, hs3⟩ : ∃ x, x = setN s2 ((getN s a).right)
      { getN s2 ((getN s a).right) with left := n } := ⟨_, rfl⟩
  have heq : insert_into_list s a n = s3 := by
    rw [hs3, hs2, hs1]
    rfl
  have len1 : s1.nodes.length = s.nodes.length := by
    rw [hs1]
    exact length_setN _ _ _
  have g1n : getN s1 n = { getN s n with left := a, right := (getN s a).right } := by
    rw [hs1]
    exact getN_setN_self _ _ _ hnlen
  have g1 : ∀ j, j ≠ n → getN s1 j = getN s j := by
    intro j hj
    rw [hs1]
    exact getN_setN_ne _ _ _ _ hj
  have len2 : s2.nodes.length = s.nodes.length := by
    rw [hs2, length_setN]
    exact len1
  have g2a : getN s2 a = { getN s1 a with right := n } := by
    rw [hs2]
    exact getN_setN_self _ _ _ (by rw [len1]; exact halen)
  have g2 : ∀ j, j ≠ a → getN s2 j = getN s1 j := by
    intro j hj
    rw [hs2]
    exact getN_setN_ne _ _ _ _ hj
  have g3 : ∀ j, j ≠ (getN s a).right → getN s3 j = getN s2 j := by
    intro j hj
    rw [hs3]
    exact getN_setN_ne _ _ _ _ hj
  have hAS : ∀ j, agreeStatic (getN s3 j) (getN s j) := by
    intro j
    rw [hs3]
    refine agreeStatic_trans (getN_setN_agreeStatic _ _ _ ?_ j) ?_
    · exact ⟨rfl, rfl, rfl, rfl, rfl, rfl⟩
    · rw [hs2]
      refine agreeStatic_trans (getN_setN_agreeStatic _ _ _ ?_ j) ?_
      · exact ⟨rfl, rfl, rfl, rfl, rfl, rfl⟩
      · rw [hs1]
        refine getN_setN_agreeStatic _ _ _ ?_ j
        exact ⟨rfl, rfl, rfl, rfl, rfl, rfl⟩
  have hFr : ∀ j, j ≠ a → j ≠ n → j ≠ (getN s a).right → getN s3 j = getN s j := by
    intro j hja hjn hjr
    rw [g3 j hjr, g2 j hja, g1 j hjn]
  rw [heq]
  refine ⟨?_, hAS, hFr⟩
  cases rest with
  | nil =>
    have hra : (getN s a).right = a := hr.2.1
    have hN : getN s3 n = { getN s n with left := a, right := (getN s a).right } := by
      rw [g3 n (by rw [hra]; exact hna), g2 n hna, g1n]
    have hs3a : s3 = setN s2 a { getN s2 a with left := n } := by
      rw [hs3]
      rw [hra]
    have hA : getN s3 a = { { getN s a with right := n } with left := n } := by
      rw [hs3a, getN_setN_self _ _ _ (by rw [len2]; exact halen), g2a,
        g1 a (Ne.symm hna)]
    constructor
    · rw [List.chain'_cons]
      refine ⟨⟨?_, ?_⟩, List.chain'_singleton n⟩
      · rw [hA]
      · rw [hN]
    · show rlink s3 n a
      refine ⟨?_, ?_⟩
      · rw [hN]
        exact hra
      · rw [hA]
  | cons y rest' =>
    obtain ⟨hch, hwrap⟩ := hr
    have hray : (getN s a).right = y :=
      (ring_succ s a (y :: rest') ⟨hch, hwrap⟩ [] a (y :: rest') rfl).1
    have hay : a ≠ y := by
      intro h
      exact (List.nodup_cons.mp hnodup).1 (h ▸ List.mem_cons_self y rest')
    have hny : n ≠ y := by
      intro h
      exact hn (by rw [h]; exact List.mem_cons_of_mem a (List.mem_cons_self y rest'))
    have hylen : y < s.nodes.length :=
      hlen y (List.mem_cons_of_mem a (List.mem_cons_self y rest'))
    have hN : getN s3 n = { getN s n with left := a, right := (getN s a).right } := by
      rw [g3 n (by rw [hray]; exact hny), g2 n hna, g1n]
    have hA : getN s3 a = { getN s a with right := n } := by
      rw [g3 a (by rw [hray]; exact fun h => hay h), g2a, g1 a (Ne.symm hna)]
    have hY : getN s3 y = { getN s y with left := n } := by
      have h1 : getN s3 y = { getN s2 y with left := n } := by
        rw [hs3]
        rw [hray]
        exact getN_setN_self _ _ _ (by rw [len2]; exact hylen)
      rw [h1, g2 y (Ne.symm hay), g1 y (Ne.symm hny)]
    have hO : ∀ j, j ∈ rest' → getN s3 j = getN s j := by
      intro j hj
      apply hFr
      · intro h
        exact (List.nodup_cons.mp hnodup).1 (h ▸ List.mem_cons_of_mem y hj)
      · intro h
        exact hn (h ▸ List.mem_cons_of_mem a (List.mem_cons_of_mem y hj))
      · rw [hray]
        intro h
        exact (List.nodup_cons.mp (List.nodup_cons.mp hnodup).2).1 (h ▸ hj)
    constructor
    · rw [List.chain'_cons]
      refine ⟨⟨?_, ?_⟩, ?_⟩
      · rw [hA]
      · rw [hN]
      · rw [List.chain'_cons]
        refine ⟨⟨?_, ?_⟩, ?_⟩
        · rw [hN]
          exact hray
        · rw [hY]
        · apply chain'_transfer (R := rlink s)
          · intro u hu v hv huv
            refine ⟨?_, ?_⟩
            · rcases List.mem_cons.mp hu with rfl | hu2
              · rw [hY]
                exact huv.1
              · rw [hO u hu2]
                exact huv.1
            · rcases List.mem_cons.mp hv with hvy | hv2
              · exfalso
                have hyl : (getN s y).left = a := (List.chain'_cons.mp hch).1.2
                have h2 := huv.2
                rw [hvy, hyl] at h2
                exact (List.nodup_cons.mp hnodup).1 (by rw [h2]; exact hu)
              · rw [hO v hv2]
                exact huv.2
          · exact (List.chain'_cons.mp hch).2
    · show rlink s3 ((y :: rest').getLastD n) a
      rw [List.getLastD_cons]
      have hw : (y :: rest').getLastD a = rest'.getLastD y := List.getLastD_cons _ _ _
      rw [hw] at hwrap
      have hwmem : rest'.getLastD y ∈ y :: rest' := getLastD_mem rest' y
      refine ⟨?_, ?_⟩
      · rcases List.mem_cons.mp hwmem with hwy | hwr
        · rw [hwy, hY]
          show (getN s y).right = a
          rw [← hwy]
          exact hwrap.1
        · rw [hO _ hwr]
          exact hwrap.1
      · rw [hA]
        exact hwrap.2

theorem ring_remove_head (s : Store) (m : Nat) (rest : List Nat)
    (hr : ringP s (m :: rest))
    (hnodup : (m :: rest).Nodup)
    (hlen : ∀ j ∈ m :: rest, j < s.nodes.length) :
    (∀ j, agreeStatic (getN (remove_from_root_list s m).1 j) (getN s j)) ∧
    (∀ j, j ∉ m :: rest → getN (remove_from_root_list s m).1 j = getN s j) ∧
    (rest = [] → (remove_from_root_list s m).2 = none) ∧
    (∀ y rest2, rest = y :: rest2 →
      (remove_from_root_list s m).2 = some y ∧
      ringP (remove_from_root_list s m).1 (y :: rest2)) := by
  have hmlen : m < s.nodes.length := hlen m (List.mem_cons_self m rest)
  cases rest with
  | nil =>
    have hlm : (getN s m).left = m := hr.2.2
    have heq : remove_from_root_list s m =
        (setN s m { getN s m with left := m, right := m }, none) := by
      unfold remove_from_root_list
      rw [if_pos hlm]
    rw [heq]
    refine ⟨?_, ?_, fun _ => rfl, ?_⟩
    · intro j
      refine getN_setN_agreeStatic _ _ _ ?_ j
      exact ⟨rfl, rfl, rfl, rfl, rfl, rfl⟩
    · intro j hj
      have hjm : j ≠ m := fun h => hj (h ▸ List.mem_cons_self m [])
      exact getN_setN_ne _ _ _ _ hjm
    · intro y rest2 h
      cases h
  | cons y rest2 =>
    obtain ⟨hch, hwrap⟩ := hr
    rw [List.getLastD_cons] at hwrap
    have hwmem : rest2.getLastD y ∈ y :: rest2 := getLastD_mem rest2 y
    have hmny : m ∉ y :: rest2 := (List.nodup_cons.mp hnodup).1
    have hwm : rest2.getLastD y ≠ m := fun h => hmny (h ▸ hwmem)
    have hlm : (getN s m).left = rest2.getLastD y := hwrap.2
    have hrm : (getN s m).right = y :=
      (ring_succ s m (y :: rest2) ⟨hch, by rw [List.getLastD_cons]; exact hwrap⟩
        [] m (y :: rest2) rfl).1
    have hym : y ≠ m := fun h => hmny (h ▸ List.mem_cons_self y rest2)
    have hylen : y < s.nodes.length :=
      hlen y (List.mem_cons_of_mem m (List.mem_cons_self y rest2))
    have hwlen : rest2.getLastD y < s.nodes.length :=
      hlen _ (List.mem_cons_of_mem m hwmem)
    obtain ⟨s1, hs1⟩ : ∃ x, x = setN s ((getN s m).left)
        { getN s ((getN s m).left) with right := (getN s m).right } := ⟨_, rfl⟩
    obtain ⟨s2, hs2⟩ : ∃ x, x = setN s1 ((getN s m).right)
        { getN s1 ((getN s m).right) with left := (getN s m).left } := ⟨_, rfl⟩
    obtain ⟨s3, hs3⟩ : ∃ x, x = setN s2 m
        { getN s2 m with left := m, right := m } := ⟨_, rfl⟩
    have heq : remove_from_root_list s m = (s3, some ((getN s m).right)) := by
      rw [hs3, hs2, hs1]
      unfold remove_from_root_list
      rw [if_neg (by rw [hlm]; exact hwm)]
    have len1 : s1.nodes.length = s.nodes.length := by
      rw [hs1]
      exact length_setN _ _ _
    have len2 : s2.nodes.length = s.nodes.length := by
      rw [hs2, length_setN]
      exact len1
    have g1 : ∀ j, j ≠ (getN s m).left → getN s1 j = getN s j := by
      intro j hj
      rw [hs1]
      exact getN_setN_ne _ _ _ _ hj
    have g2 : ∀ j, j ≠ (getN s m).right → getN s2 j = getN s1 j := by
      intro j hj
      rw [hs2]
      exact getN_setN_ne _ _ _ _ hj
    have g3 : ∀ j, j ≠ m → getN s3 j = getN s2 j := by
      intro j hj
      rw [hs3]
      exact getN_setN_ne _ _ _ _ hj
    have hAS : ∀ j, agreeStatic (getN s3 j) (getN s j) := by
      intro j
      rw [hs3]
      refine agreeStatic_trans (getN_setN_agreeStatic _ _ _ ?_ j) ?_
      · exact ⟨rfl, rfl, rfl, rfl, rfl, rfl⟩
      · rw [hs2]
        refine agreeStatic_trans (getN_setN_agreeStatic _ _ _ ?_ j) ?_
        · exact ⟨rfl, rfl, rfl, rfl, rfl, rfl⟩
        · rw [hs1]
          refine getN_setN_agreeStatic _ _ _ ?_ j
          exact ⟨rfl, rfl, rfl, rfl, rfl, rfl⟩
    have hFr : ∀ j, j ∉ m :: y :: rest2 → getN s3 j = getN s j := by
      intro j hj
      have hjm : j ≠ m := fun h => hj (h ▸ List.mem_cons_self m _)
      have hjy : j ≠ y := fun h =>
        hj (by rw [h]; exact List.mem_cons_of_mem m (List.mem_cons_self y rest2))
      have hjw : j ≠ rest2.getLastD y := fun h =>
        hj (by rw [h]; exact List.mem_cons_of_mem m hwmem)
      rw [g3 j hjm, g2 j (by rw [hrm]; exact hjy), g1 j (by rw [hlm]; exact hjw)]
    rw [heq]
    refine ⟨hAS, hFr, ?_, ?_⟩
    · intro h
      cases h
    · intro y2 rest3 h
      cases h
      refine ⟨by rw [hrm], ?_⟩
      cases rest2 with
      | nil =>
        have hY : getN s3 y = { { getN s y with right := y } with left := y } := by
          have e1 : getN s1 y = { getN s y with right := y } := by
            rw [hs1, hlm, hrm]
            rw [show List.getLastD [] y = y from rfl]
            exact getN_setN_self _ _ _ hylen
          have e2 : getN s2 y = { getN s1 y with left := y } := by
            rw [hs2, hrm, hlm]
            rw [show List.getLastD [] y = y from rfl]
            exact getN_setN_self _ _ _ (by rw [len1]; exact hylen)
          rw [g3 y hym, e2, e1]
        constructor
        · exact List.chain'_singleton y
        · show rlink s3 y y
          refine ⟨?_, ?_⟩
          · rw [hY]
          · rw [hY]
      | cons z rest4 =>
        have hwin : ((z :: rest4).getLastD y) ∈ z :: rest4 := by
          show (z :: rest4).getLastD y ∈ z :: rest4
          rw [List.getLastD_cons]
          rcases List.mem_cons.mp (getLastD_mem rest4 z) with h1 | h1
          · rw [h1]
            exact List.mem_cons_self z rest4
          · exact List.mem_cons_of_mem z h1
        have hwy : ((z :: rest4).getLastD y) ≠ y := by
          intro h
          exact (List.nodup_cons.mp (List.nodup_cons.mp hnodup).2).1 (h ▸ hwin)
        have hch_tail : List.Chain' (rlink s) (y :: z :: rest4) :=
          (List.chain'_cons.mp hch).2
        have e1 : getN s1 (((z :: rest4).getLastD y)) = { getN s (((z :: rest4).getLastD y)) with right := y } := by
          rw [hs1, hlm, hrm]
          exact getN_setN_self _ _ _ hwlen
        have eW : getN s3 (((z :: rest4).getLastD y)) = { getN s (((z :: rest4).getLastD y)) with right := y } := by
          rw [g3 _ hwm, g2 _ (by rw [hrm]; exact hwy), e1]
        have e2 : getN s2 y = { getN s1 y with left := ((z :: rest4).getLastD y) } := by
          rw [hs2, hrm, hlm]
          exact getN_setN_self _ _ _ (by rw [len1]; exact hylen)
        have e2i : getN s1 y = getN s y := g1 y (by rw [hlm]; exact fun h => hwy h.symm)
        have hY : getN s3 y = { getN s y with left := ((z :: rest4).getLastD y) } := by
          rw [g3 y hym, e2, e2i]
        have eO : ∀ j, j ∈ z :: rest4 → j ≠ ((z :: rest4).getLastD y) → getN s3 j = getN s j := by
          intro j hj hjw
          have hjm : j ≠ m := fun h =>
            hmny (by rw [← h]; exact List.mem_cons_of_mem y hj)
          have hjy : j ≠ y := fun h =>
            (List.nodup_cons.mp (List.nodup_cons.mp hnodup).2).1 (h ▸ hj)
          rw [g3 j hjm, g2 j (by rw [hrm]; exact hjy), g1 j (by rw [hlm]; exact hjw)]
        have hLz : ∀ v, v ∈ z :: rest4 → (getN s3 v).left = (getN s v).left := by
          intro v hv
          by_cases hvw : v = ((z :: rest4).getLastD y)
          · rw [hvw, eW]
          · rw [eO v hv hvw]
        have hRz : (getN s3 y).right = (getN s y).right := by
          rw [hY]
        constructor
        · rw [List.chain'_cons]
          refine ⟨⟨?_, ?_⟩, ?_⟩
          · rw [hRz]
            exact (List.chain'_cons.mp hch_tail).1.1
          · rw [hLz z (List.mem_cons_self z rest4)]
            exact (List.chain'_cons.mp hch_tail).1.2
          · apply chain'_transfer (R := rlink s)
            · intro u hu v hv huv
              refine ⟨?_, ?_⟩
              · by_cases huw : u = ((z :: rest4).getLastD y)
                · exfalso
                  have h1 := huv.1
                  rw [huw, hwrap.1] at h1
                  exact hmny (by rw [h1]; exact List.mem_cons_of_mem y hv)
                · rw [eO u hu huw]
                  exact huv.1
              · rw [hLz v hv]
                exact huv.2
            · exact (List.chain'_cons.mp hch_tail).2
        · show rlink s3 ((z :: rest4).getLastD y) y
          rw [show (z :: rest4).getLastD y = ((z :: rest4).getLastD y) from rfl]
          refine ⟨?_, ?_⟩
          · rw [eW]
          · rw [hY]

/-! ### Walk lemmas -/

theorem resetLR_length (s : Store) (l : List Nat) :
    (resetLR s l).nodes.length = s.nodes.length := by
  induction l generalizing s with
  | nil => rfl
  | cons x xs ih =>
    rw [resetLR, ih, length_setN]

theorem resetLR_append (s : Store) (l : List Nat) (x : Nat) :
    resetLR s (l ++ [x]) =
      setN (resetLR s l) x { getN (resetLR s l) x with left := x, right := x } := by
  induction l generalizing s with
  | nil => rfl
  | cons y ys ih =>
    rw [List.cons_append, resetLR, resetLR, ih]

theorem resetLR_notmem (s : Store) (l : List Nat) (j : Nat) (hj : j ∉ l) :
    getN (resetLR s l) j = getN s j := by
  induction l generalizing s with
  | nil => rfl
  | cons x xs ih =>
    rw [resetLR, ih _ (fun h => hj (List.mem_cons_of_mem x h)),
      getN_setN_ne _ _ _ _ (fun h => hj (by rw [h]; exact List.mem_cons_self x xs))]

theorem resetLR_agreeStatic (s : Store) (l : List Nat) (j : Nat) :
    agreeStatic (getN (resetLR s l) j) (getN s j) := by
  induction l generalizing s with
  | nil => exact agreeStatic_refl _
  | cons x xs ih =>
    rw [resetLR]
    refine agreeStatic_trans (ih _) ?_
    refine getN_setN_agreeStatic _ _ _ ?_ j
    exact ⟨rfl, rfl, rfl, rfl, rfl, rfl⟩

theorem resetLR_mem (s : Store) (l : List Nat) (j : Nat) (hnd : l.Nodup)
    (hj : j ∈ l) (hlen : j < s.nodes.length) :
    getN (resetLR s l) j = { getN s j with left := j, right := j } := by
  induction l generalizing s with
  | nil => cases hj
  | cons x xs ih =>
    rw [resetLR]
    rcases List.mem_cons.mp hj with rfl | hj2
    · rw [resetLR_notmem _ _ _ (List.nodup_cons.mp hnd).1,
        getN_setN_self _ _ _ hlen]
    · have hjx : j ≠ x := fun h =>
        (List.nodup_cons.mp hnd).1 (h ▸ hj2)
      rw [ih _ (List.nodup_cons.mp hnd).2 hj2 (by rw [length_setN]; exact hlen),
        getN_setN_ne _ _ _ _ hjx]

theorem nodup_lt_length_le (l : List Nat) (n : Nat) (hnd : l.Nodup)
    (hlt : ∀ j ∈ l, j < n) : l.length ≤ n := by
  have h1 : l.toFinset ⊆ Finset.range n := by
    intro j hj
    rw [Finset.mem_range]
    exact hlt j (List.mem_toFinset.mp hj)
  have h2 := Finset.card_le_card h1
  rw [Finset.card_range] at h2
  rw [← List.toFinset_card_of_nodup hnd]
  exact h2

theorem headD_append_single (post : List Nat) (m : Nat) :
    (post ++ [m]).headD 0 = post.headD m := by
  cases post with
  | nil => rfl
  | cons d post' => rfl

theorem mem_tail_of_append_eq (c : Nat) (rest pre : List Nat) (cur d : Nat)
    (post : List Nat) (heq : c :: rest = pre ++ cur :: d :: post) : d ∈ rest := by
  have h2 : c :: rest = (pre ++ [cur]) ++ (d :: post) := by
    rw [heq]
    simp
  cases hpre : pre ++ [cur] with
  | nil =>
    exact absurd hpre (by simp)
  | cons p0 t =>
    rw [hpre] at h2
    rw [List.cons_append] at h2
    have h3 := List.cons.inj h2
    rw [h3.2]
    exact List.mem_append_right t (List.mem_cons_self d post)

theorem collect_go_spec (s : Store) (c : Nat) (rest : List Nat)
    (hr : ringP s (c :: rest)) (hnodup : (c :: rest).Nodup) :
    ∀ post cur pre fuel, c :: rest = pre ++ cur :: post →
      post.length + 1 ≤ fuel →
      collect_children_go c fuel (resetLR s pre) cur pre =
        .ok (c :: rest, resetLR s (c :: rest)) := by
  intro post
  induction post with
  | nil =>
    intro cur pre fuel heq hfuel
    cases fuel with
    | zero => omega
    | succ f =>
      have hcur_pre : cur ∉ pre := by
        have h1 := heq ▸ hnodup
        rcases List.nodup_append.mp h1 with ⟨_, _, hdisj⟩
        intro hc
        exact hdisj hc (List.mem_cons_self cur [])
      have hnext : (getN (resetLR s pre) cur).right = c := by
        rw [resetLR_notmem _ _ _ hcur_pre]
        exact (ring_succ s c rest hr pre cur [] heq).1
      rw [collect_children_go]
      rw [hnext]
      rw [if_pos rfl]
      rw [← heq]
      have : resetLR s (pre ++ [cur]) =
          setN (resetLR s pre) cur
            { getN (resetLR s pre) cur with left := cur, right := cur } :=
        resetLR_append s pre cur
      rw [← this, heq]
  | cons d post' ih =>
    intro cur pre fuel heq hfuel
    cases fuel with
    | zero => omega
    | succ f =>
      have hcur_pre : cur ∉ pre := by
        have h1 := heq ▸ hnodup
        rcases List.nodup_append.mp h1 with ⟨_, _, hdisj⟩
        intro hc
        exact hdisj hc (List.mem_cons_self cur _)
      have hnext : (getN (resetLR s pre) cur).right = d := by
        rw [resetLR_notmem _ _ _ hcur_pre]
        have := (ring_succ s c rest hr pre cur (d :: post') heq).1
        rw [this]
        rfl
      have hdc : d ≠ c := by
        intro h
        have hdm := mem_tail_of_append_eq c rest pre cur d post' heq
        exact (List.nodup_cons.mp hnodup).1 (h ▸ hdm)
      rw [collect_children_go]
      rw [hnext]
      rw [if_neg hdc]
      have hstep : setN (resetLR s pre) cur
          { getN (resetLR s pre) cur with left := cur, right := cur } =
          resetLR s (pre ++ [cur]) := (resetLR_append s pre cur).symm
      rw [hstep]
      apply ih d (pre ++ [cur]) f
      · rw [heq]
        simp
      · rw [List.length_cons] at hfuel
        omega

theorem collect_children_spec (s : Store) (i : Nat) (c : Nat) (rest : List Nat)
    (hchild : (getN s i).child = some c)
    (hr : ringP s (c :: rest)) (hnodup : (c :: rest).Nodup)
    (hlen : ∀ j ∈ c :: rest, j < s.nodes.length)
    (hi : i ∉ c :: rest) :
    collect_children s i =
      .ok (c :: rest,
        resetLR (setN s i { getN s i with child := none }) (c :: rest)) := by
  have hs0 : ∀ j, j ∈ c :: rest →
      getN (setN s i { getN s i with child := none }) j = getN s j := by
    intro j hj
    exact getN_setN_ne _ _ _ _ (fun h => hi (h ▸ hj))
  have hr0 : ringP (setN s i { getN s i with child := none }) (c :: rest) := by
    apply ringP_transfer s _ _ ?_ hr
    intro a ha b hb hab
    exact ⟨(hs0 a ha).symm ▸ hab.1, (hs0 b hb).symm ▸ hab.2⟩
  have hlen0 : ∀ j ∈ c :: rest,
      j < (setN s i { getN s i with child := none }).nodes.length := by
    intro j hj
    rw [length_setN]
    exact hlen j hj
  have hfuel : (c :: rest).length ≤ s.nodes.length :=
    nodup_lt_length_le _ _ hnodup hlen
  have := collect_go_spec (setN s i { getN s i with child := none }) c rest
    hr0 hnodup rest c [] ((setN s i { getN s i with child := none }).nodes.length + 1)
    rfl (by rw [length_setN]; rw [List.length_cons] at hfuel; omega)
  unfold collect_children
  rw [hchild]
  exact this

theorem collect_children_none (s : Store) (i : Nat)
    (hchild : (getN s i).child = none) :
    collect_children s i = .ok ([], setN s i { getN s i with child := none }) := by
  unfold collect_children
  rw [hchild]

theorem root_walk_go_spec (s : Store) (m : Nat) (rest : List Nat)
    (hr : ringP s (m :: rest)) (hnodup : (m :: rest).Nodup) :
    ∀ post pre fuel, m :: rest = pre ++ post → post.length + 1 ≤ fuel →
      pre ≠ [] →
      root_walk m fuel s (post.headD m) pre = .ok (m :: rest) := by
  intro post
  induction post with
  | nil =>
    intro pre fuel heq hfuel hpre
    cases fuel with
    | zero => omega
    | succ f =>
      rw [root_walk, List.headD, if_pos rfl]
      rw [heq]
      simp
  | cons d post' ih =>
    intro pre fuel heq hfuel hpre
    cases fuel with
    | zero => omega
    | succ f =>
      have hdm : d ≠ m := by
        cases pre with
        | nil => exact absurd rfl hpre
        | cons p0 t =>
          rw [List.cons_append] at heq
          have h3 := List.cons.inj heq
          intro h
          apply (List.nodup_cons.mp hnodup).1
          rw [← h, h3.2]
          exact List.mem_append_right t (List.mem_cons_self d post')
      have hsucc : (getN s d).right = post'.headD m :=
        (ring_succ s m rest hr pre d post' heq).1
      rw [root_walk, List.headD, if_neg hdm, hsucc]
      apply ih (pre ++ [d]) f
      · rw [heq]
        simp
      · rw [List.length_cons] at hfuel
        omega
      · simp

theorem root_walk_spec (s : Store) (m : Nat) (rest : List Nat)
    (hr : ringP s (m :: rest)) (hnodup : (m :: rest).Nodup)
    (hlen : ∀ j ∈ m :: rest, j < s.nodes.length) :
    root_walk m (s.nodes.length + 1) s ((getN s m).right) [m] =
      .ok (m :: rest) := by
  have hfuel : (m :: rest).length ≤ s.nodes.length :=
    nodup_lt_length_le _ _ hnodup hlen
  have hsucc : (getN s m).right = rest.headD m :=
    (ring_succ s m rest hr [] m rest rfl).1
  rw [hsucc]
  apply root_walk_go_spec s m rest hr hnodup rest [m] _ rfl
  · rw [List.length_cons] at hfuel
    omega
  · simp

/-! ### Forest preservation lemmas -/

theorem roots_sub_ids (F : List Tree) (w : Nat) (hw : w ∈ F.map Tree.rootId) :
    w ∈ Forest.ids F := by
  obtain ⟨u, hu, huw⟩ := List.mem_map.mp hw
  exact mem_forest_ids_of_mem F u hu w (huw ▸ rootId_mem_ids u)

theorem roots_nodup (F : List Tree) (hnd : (Forest.ids F).Nodup) :
    (F.map Tree.rootId).Nodup := by
  induction F with
  | nil => exact List.nodup_nil
  | cons t ts ih =>
    rw [forest_ids_cons] at hnd
    rcases List.nodup_append.mp hnd with ⟨hnd1, hnd2, hdisj⟩
    rw [List.map_cons, List.nodup_cons]
    refine ⟨?_, ih hnd2⟩
    intro hmem
    exact hdisj (rootId_mem_ids t) (roots_sub_ids ts _ hmem)

theorem mem_forest_ids_split (cs : List Tree) (j : Nat) (hj : j ∈ Forest.ids cs) :
    ∃ c ∈ cs, j ∈ c.ids := by
  induction cs with
  | nil => cases hj
  | cons c0 cs' ih =>
    rw [forest_ids_cons] at hj
    rcases List.mem_append.mp hj with h1 | h1
    · exact ⟨c0, List.mem_cons_self _ _, h1⟩
    · obtain ⟨c, hc, hcj⟩ := ih h1
      exact ⟨c, List.mem_cons_of_mem c0 hc, hcj⟩

theorem interior_root_ne (allT : List Tree) (hnd : (Forest.ids allT).Nodup) :
    ∀ u ∈ allT, ∀ j ∈ Forest.ids u.childTrees, ∀ w ∈ allT, j ≠ w.rootId := by
  induction allT with
  | nil => intro u hu; cases hu
  | cons u0 ts ih =>
    rw [forest_ids_cons] at hnd
    rcases List.nodup_append.mp hnd with ⟨hnd1, hnd2, hdisj⟩
    intro u hu j hj w hw
    have hju : j ∈ u.ids := by
      cases u with
      | node i cs =>
        rw [mem_ids_node]
        exact Or.inr hj
    rcases List.mem_cons.mp hu with hu1 | hu2 <;>
      rcases List.mem_cons.mp hw with hw1 | hw2
    · rw [hw1]
      rw [hu1] at hj
      cases u0 with
      | node i cs =>
        rw [Tree.childTrees] at hj
        rw [Tree.ids] at hnd1
        rw [Tree.rootId]
        intro h
        exact (List.nodup_cons.mp hnd1).1 (h ▸ hj)
    · rw [hu1] at hju
      intro h
      exact hdisj hju
        (by rw [h]; exact mem_forest_ids_of_mem ts w hw2 _ (rootId_mem_ids w))
    · rw [hw1]
      intro h
      exact hdisj (by rw [h]; exact rootId_mem_ids u0)
        (mem_forest_ids_of_mem ts u hu2 j hju)
    · exact ih hnd2 u hu2 j hj w hw2

theorem agreeStatic_to_agreeRoot {a b : FibNode} (h : agreeStatic a b) :
    agreeRoot a b :=
  ⟨h.1, h.2.2.1, h.2.2.2.2.2⟩

theorem forest_ids_append (A B : List Tree) :
    Forest.ids (A ++ B) = Forest.ids A ++ Forest.ids B := by
  induction A with
  | nil => rfl
  | cons t ts ih =>
    rw [List.cons_append, forest_ids_cons, forest_ids_cons, ih, List.append_assoc]

theorem forest_ids_nil : Forest.ids ([] : List Tree) = [] := rfl

theorem wfForest_preserved (allT : List Tree) (s s' : Store)
    (hnd : (Forest.ids allT).Nodup)
    (hAR : ∀ j, agreeRoot (getN s' j) (getN s j))
    (touched : List Nat)
    (huntouched : ∀ j, j ∉ touched → getN s' j = getN s j)
    (htouched : ∀ j ∈ touched, ∃ u ∈ allT, j = u.rootId) :
    ∀ u ∈ allT, wfTree s u → wfTree s' u := by
  intro u hu hwf
  apply wfTree_congr s s' u
  · exact hAR u.rootId
  · intro j hj
    have hne : j ∉ touched := by
      intro hjt
      obtain ⟨w, hw, hjw⟩ := htouched j hjt
      exact interior_root_ne allT hnd u hu j hj w hw hjw
    rw [huntouched j hne]
    exact ⟨rfl, rfl, rfl, rfl, rfl, rfl⟩
  · exact hwf

theorem wfTree_root_le_all (s : Store) :
    ∀ t : Tree, wfTree s t → ∀ j ∈ t.ids, (getN s t.rootId).key ≤ (getN s j).key := by
  apply tree_ind (P := fun t => wfTree s t →
      ∀ j ∈ t.ids, (getN s t.rootId).key ≤ (getN s j).key)
  intro i cs ih hwf j hj
  cases hwf with
  | mk _ _ hdeg hchild hring hpar hkey hcs =>
    rw [Tree.rootId]
    rcases (mem_ids_node i cs j).mp hj with rfl | hj2
    · exact le_refl _
    · obtain ⟨c, hc, hcj⟩ := mem_forest_ids_split cs j hj2
      calc (getN s i).key ≤ (getN s c.rootId).key := hkey c hc
        _ ≤ (getN s j).key := ih c hc (hcs c hc) j hcj

theorem headD_mem (m : Nat) (l : List Nat) : l.headD m ∈ m :: l := by
  cases l with
  | nil => exact List.mem_cons_self m []
  | cons d l' => exact List.mem_cons_of_mem m (List.mem_cons_self d l')

theorem Inv_new : Inv emptyStore new [] := by
  refine ⟨⟨Or.inl ⟨rfl, rfl⟩, trivial, ?_, List.nodup_nil, ?_⟩, rfl⟩
  · intro t ht
    cases ht
  · intro i hi
    cases hi

theorem forest_ids_rotate_perm (t t0 : Tree) (rest : List Tree) :
    (Forest.ids (t :: rest ++ [t0])).Perm (Forest.ids (t :: t0 :: rest)) := by
  rw [forest_ids_cons, forest_ids_cons, forest_ids_append, forest_ids_cons,
    forest_ids_cons, forest_ids_nil, List.append_nil, List.append_assoc]
  exact List.Perm.append_left _ List.perm_append_comm

theorem forest_ids_swap_perm (t t0 : Tree) (rest : List Tree) :
    (Forest.ids (t0 :: t :: rest)).Perm (Forest.ids (t :: t0 :: rest)) := by
  rw [forest_ids_cons, forest_ids_cons, forest_ids_cons, forest_ids_cons,
    ← List.append_assoc, ← List.append_assoc]
  exact List.Perm.append_right _ List.perm_append_comm

theorem add_to_root_list_spec0 (s : Store) (h : FibonacciHeap) (F : List Tree)
    (t : Tree)
    (hInv : InvStruct0 s h F)
    (hwf : wfTree s t)
    (hnodupAll : (Tree.ids t ++ Forest.ids F).Nodup)
    (hlenT : ∀ j ∈ Tree.ids t, j < s.nodes.length)
    (hvalT : ∀ j ∈ Tree.ids t, (getN s j).value.isSome = true) :
    ∃ F', InvStruct0 (add_to_root_list s h t.rootId).1
        (add_to_root_list s h t.rootId).2 F' ∧
      (F = [] ∧ F' = [t] ∧
        (add_to_root_list s h t.rootId).2 = { h with min := some t.rootId } ∨
       ∃ t0 rest, F = t0 :: rest ∧
        ((getN s t.rootId).key < (getN s t0.rootId).key ∧ F' = t :: rest ++ [t0] ∧
          (add_to_root_list s h t.rootId).2 = { h with min := some t.rootId } ∨
         ¬ (getN s t.rootId).key < (getN s t0.rootId).key ∧ F' = t0 :: t :: rest ∧
          (add_to_root_list s h t.rootId).2 = h)) ∧
      (∀ j, j ≠ t.rootId →
        agreeStatic (getN (add_to_root_list s h t.rootId).1 j) (getN s j)) ∧
      ((getN (add_to_root_list s h t.rootId).1 t.rootId).key =
          (getN s t.rootId).key ∧
       (getN (add_to_root_list s h t.rootId).1 t.rootId).value =
          (getN s t.rootId).value ∧
       (getN (add_to_root_list s h t.rootId).1 t.rootId).degree =
          (getN s t.rootId).degree ∧
       (getN (add_to_root_list s h t.rootId).1 t.rootId).child =
          (getN s t.rootId).child ∧
       (getN (add_to_root_list s h t.rootId).1 t.rootId).parent = none ∧
       (getN (add_to_root_list s h t.rootId).1 t.rootId).mark = false) ∧
      (∀ t0 rest, F = t0 :: rest → ∀ j, j ≠ t.rootId → j ≠ t0.rootId →
        j ≠ (getN s t0.rootId).right →
        getN (add_to_root_list s h t.rootId).1 j = getN s j) ∧
      (F = [] → ∀ j, j ≠ t.rootId →
        getN (add_to_root_list s h t.rootId).1 j = getN s j) ∧
      (add_to_root_list s h t.rootId).1.nodes.length = s.nodes.length ∧
      (add_to_root_list s h t.rootId).2.total_nodes = h.total_nodes := by
  obtain ⟨hhead, hring, hwfF, hnodupF, hbv⟩ := hInv
  rcases List.nodup_append.mp hnodupAll with ⟨hndT, hndF, hdisjTF⟩
  have hnroot : t.rootId ∈ t.ids := rootId_mem_ids t
  have hnlen : t.rootId < s.nodes.length := hlenT _ hnroot
  have hnF : t.rootId ∉ Forest.ids F := hdisjTF hnroot
  have hndCons : (Forest.ids (t :: F)).Nodup := by
    rw [forest_ids_cons]
    exact hnodupAll
  obtain ⟨s0, hs0⟩ : ∃ x, x = setN s t.rootId
      { getN s t.rootId with parent := none, mark := false } := ⟨_, rfl⟩
  have len0 : s0.nodes.length = s.nodes.length := by
    rw [hs0]
    exact length_setN _ _ _
  have g0n : getN s0 t.rootId =
      { getN s t.rootId with parent := none, mark := false } := by
    rw [hs0]
    exact getN_setN_self _ _ _ hnlen
  have g0 : ∀ j, j ≠ t.rootId → getN s0 j = getN s j := by
    intro j hj
    rw [hs0]
    exact getN_setN_ne _ _ _ _ hj
  have hAR0 : ∀ j, agreeRoot (getN s0 j) (getN s j) := by
    intro j
    by_cases hj : j = t.rootId
    · rw [hj, g0n]
      exact ⟨rfl, rfl, rfl⟩
    · rw [g0 j hj]
      exact ⟨rfl, rfl, rfl⟩
  have hKV0 : ∀ j, (getN s0 j).key = (getN s j).key ∧
      (getN s0 j).value = (getN s j).value := by
    intro j
    by_cases hj : j = t.rootId
    · rw [hj, g0n]
      exact ⟨rfl, rfl⟩
    · rw [g0 j hj]
      exact ⟨rfl, rfl⟩
  have wf0 : ∀ u ∈ t :: F, wfTree s0 u := by
    intro u hu
    refine wfForest_preserved (t :: F) s s0 hndCons hAR0 [t.rootId] ?_ ?_ u hu ?_
    · intro j hj
      exact g0 j (fun h2 => hj (h2 ▸ List.mem_cons_self _ []))
    · intro j hj
      rcases List.mem_cons.mp hj with rfl | hf
      · exact ⟨t, List.mem_cons_self t F, rfl⟩
      · cases hf
    · rcases List.mem_cons.mp hu with rfl | hf
      · exact hwf
      · exact (hwfF u hf).1
  have hrootsF_sub : ∀ w ∈ F.map Tree.rootId, w ∈ Forest.ids F := fun w hw =>
    roots_sub_ids F w hw
  have ring0 : ringP s0 (F.map Tree.rootId) := by
    apply ringP_transfer s s0 _ ?_ hring
    intro a ha b hb hab
    refine ⟨?_, ?_⟩
    · rw [g0 a (fun h2 => hnF (h2 ▸ hrootsF_sub a ha))]
      exact hab.1
    · rw [g0 b (fun h2 => hnF (h2 ▸ hrootsF_sub b hb))]
      exact hab.2
  have hval0 : ∀ j ∈ Tree.ids t ++ Forest.ids F,
      (getN s0 j).value.isSome = true := by
    intro j hj
    rw [(hKV0 j).2]
    rcases List.mem_append.mp hj with h1 | h1
    · exact hvalT j h1
    · exact (hbv j h1).2
  have hparent0 : ∀ u ∈ t :: F, (getN s0 (Tree.rootId u)).parent = none := by
    intro u hu
    rcases List.mem_cons.mp hu with rfl | hf
    · rw [g0n]
    · rw [g0 _ (fun h2 => hnF (h2 ▸ hrootsF_sub _
        (List.mem_map_of_mem Tree.rootId hf)))]
      exact (hwfF u hf).2
  cases hmm : h.min with
  | none =>
    have hFnil : F = [] := by
      rcases hhead with ⟨_, hF⟩ | ⟨t0, rest, hF, hmin⟩
      · exact hF
      · rw [hmm] at hmin
        cases hmin
    subst hFnil
    have heq : add_to_root_list s h t.rootId =
        (setN s0 t.rootId { getN s0 t.rootId with left := t.rootId, right := t.rootId },
         { h with min := some t.rootId }) := by
      unfold add_to_root_list
      rw [hmm, hs0]
    rw [heq]
    have g1n : getN (setN s0 t.rootId
        { getN s0 t.rootId with left := t.rootId, right := t.rootId }) t.rootId =
        { getN s0 t.rootId with left := t.rootId, right := t.rootId } :=
      getN_setN_self _ _ _ (by rw [len0]; exact hnlen)
    have g1 : ∀ j, j ≠ t.rootId → getN (setN s0 t.rootId
        { getN s0 t.rootId with left := t.rootId, right := t.rootId }) j =
        getN s0 j := fun j hj => getN_setN_ne _ _ _ _ hj
    have hAR1 : ∀ j, agreeRoot (getN (setN s0 t.rootId
        { getN s0 t.rootId with left := t.rootId, right := t.rootId }) j)
        (getN s0 j) := by
      intro j
      by_cases hj : j = t.rootId
      · rw [hj, g1n]
        exact ⟨rfl, rfl, rfl⟩
      · rw [g1 j hj]
        exact ⟨rfl, rfl, rfl⟩
    refine ⟨[t], ⟨?_, ?_, ?_, ?_, ?_⟩, ?_, ?_, ?_, ?_, ?_, ?_, rfl⟩
    · exact Or.inr ⟨t, [], rfl, rfl⟩
    · refine ⟨List.chain'_singleton _, ?_⟩
      show rlink (setN s0 t.rootId
        { getN s0 t.rootId with left := t.rootId, right := t.rootId })
        t.rootId t.rootId
      refine ⟨?_, ?_⟩
      · rw [g1n]
      · rw [g1n]
    · intro u hu
      rcases List.mem_cons.mp hu with rfl | hu2
      · constructor
        · refine wfForest_preserved [u] s0 _ ?_ hAR1 [u.rootId]
            (fun j hj => g1 j (fun h2 => hj (h2 ▸ List.mem_cons_self _ [])))
            ?_ u (List.mem_cons_self u []) (wf0 u (List.mem_cons_self u []))
          · rw [forest_ids_cons, forest_ids_nil, List.append_nil]
            exact hndT
          · intro j hj
            rcases List.mem_cons.mp hj with rfl | hf
            · exact ⟨u, List.mem_cons_self u [], rfl⟩
            · cases hf
        · rw [g1n, g0n]
      · cases hu2
    · rw [forest_ids_cons, forest_ids_nil, List.append_nil]
      exact hndT
    · intro i hi
      rw [forest_ids_cons, forest_ids_nil, List.append_nil] at hi
      constructor
      · rw [length_setN, len0]
        exact hlenT i hi
      · have hv := hval0 i (by rw [Forest.ids, List.append_nil]; exact hi)
        by_cases hj : i = t.rootId
        · rw [hj, g1n]
          rw [hj] at hv
          exact hv
        · rw [g1 i hj]
          exact hv
    · exact Or.inl ⟨rfl, rfl, rfl⟩
    · intro j hj
      rw [g1 j hj, g0 j hj]
      exact agreeStatic_refl _
    · rw [g1n, g0n]
      exact ⟨rfl, rfl, rfl, rfl, rfl, rfl⟩
    · intro t0 rest habs
      cases habs
    · intro _ j hj
      rw [g1 j hj, g0 j hj]
    · rw [length_setN, len0]
  | some m =>
    have hsome' : ∃ t0 rest, F = t0 :: rest ∧ h.min = some t0.rootId := by
      rcases hhead with ⟨hnone, _⟩ | hsome
      · rw [hmm] at hnone
        cases hnone
      · exact hsome
    obtain ⟨t0, rest, hF, hmin⟩ := hsome'
    have hmt0 : m = t0.rootId := by
      rw [hmm] at hmin
      exact Option.some.inj hmin
    subst hmt0
    subst hF
    have hring0' : ringP s0 (t0.rootId :: rest.map Tree.rootId) := by
      rw [List.map_cons] at ring0
      exact ring0
    have hrootsnd : (t0.rootId :: rest.map Tree.rootId).Nodup := by
      have := roots_nodup _ hnodupF
      rw [List.map_cons] at this
      exact this
    have hnroots : t.rootId ∉ t0.rootId :: rest.map Tree.rootId := by
      intro hmem
      apply hnF
      apply hrootsF_sub
      rw [List.map_cons]
      exact hmem
    have hlenroots : ∀ j ∈ t0.rootId :: rest.map Tree.rootId,
        j < s0.nodes.length := by
      intro j hj
      rw [len0]
      exact (hbv j (hrootsF_sub j (by rw [List.map_cons]; exact hj))).1
    obtain ⟨ri, rAS, rFr⟩ := ring_insert s0 t0.rootId t.rootId
      (rest.map Tree.rootId) hring0' hrootsnd hnroots hlenroots
      (by rw [len0]; exact hnlen)
    have heq : add_to_root_list s h t.rootId =
        (if (getN (insert_into_list s0 t0.rootId t.rootId) t.rootId).key <
            (getN (insert_into_list s0 t0.rootId t.rootId) t0.rootId).key
         then (insert_into_list s0 t0.rootId t.rootId, { h with min := some t.rootId })
         else (insert_into_list s0 t0.rootId t.rootId, h)) := by
      unfold add_to_root_list
      rw [hmm, hs0]
    have hKV1 : ∀ j, (getN (insert_into_list s0 t0.rootId t.rootId) j).key =
        (getN s j).key ∧
        (getN (insert_into_list s0 t0.rootId t.rootId) j).value =
        (getN s j).value := by
      intro j
      have h1 := rAS j
      exact ⟨h1.1.trans (hKV0 j).1, h1.2.1.trans (hKV0 j).2⟩
    have hr0mem : (getN s0 t0.rootId).right ∈ t0.rootId :: rest.map Tree.rootId := by
      have := (ring_succ s0 t0.rootId (rest.map Tree.rootId) hring0'
        [] t0.rootId (rest.map Tree.rootId) rfl).1
      rw [this]
      exact headD_mem _ _
    have wf1 : ∀ u ∈ t :: t0 :: rest, wfTree (insert_into_list s0 t0.rootId t.rootId) u := by
      intro u hu
      refine wfForest_preserved (t :: t0 :: rest) s0 _ ?_
        (fun j => agreeStatic_to_agreeRoot (rAS j))
        [t0.rootId, t.rootId, (getN s0 t0.rootId).right] ?_ ?_ u hu
        (wf0 u hu)
      · exact hndCons
      · intro j hj
        apply rFr
        · intro h2
          exact hj (by rw [h2]; exact List.mem_cons_self _ _)
        · intro h2
          exact hj (by rw [h2]; exact List.mem_cons_of_mem _ (List.mem_cons_self _ _))
        · intro h2
          refine hj ?_
          rw [h2]
          exact List.mem_cons_of_mem _ (List.mem_cons_of_mem _ (List.mem_cons_self _ _))
      · intro j hj
        rcases List.mem_cons.mp hj with rfl | hj2
        · exact ⟨t0, List.mem_cons_of_mem _ (List.mem_cons_self _ _), rfl⟩
        rcases List.mem_cons.mp hj2 with rfl | hj3
        · exact ⟨t, List.mem_cons_self _ _, rfl⟩
        rcases List.mem_cons.mp hj3 with hj4 | hj5
        · rcases List.mem_cons.mp (hj4 ▸ hr0mem) with hr1 | hr2
          · exact ⟨t0, List.mem_cons_of_mem _ (List.mem_cons_self _ _), hr1⟩
          · obtain ⟨u2, hu2, hu2e⟩ := List.mem_map.mp hr2
            exact ⟨u2, List.mem_cons_of_mem _ (List.mem_cons_of_mem _ hu2), hu2e.symm⟩
        · cases hj5
    have hpar1 : ∀ u ∈ t :: t0 :: rest,
        (getN (insert_into_list s0 t0.rootId t.rootId) (Tree.rootId u)).parent =
          none := by
      intro u hu
      rw [(rAS (Tree.rootId u)).2.2.2.2.1]
      exact hparent0 u hu
    have hnd1 : (Forest.ids (t :: t0 :: rest)).Nodup := by
      rw [forest_ids_cons]
      exact hnodupAll
    have hbv1 : ∀ i ∈ Forest.ids (t :: t0 :: rest),
        i < (insert_into_list s0 t0.rootId t.rootId).nodes.length ∧
        (getN (insert_into_list s0 t0.rootId t.rootId) i).value.isSome = true := by
      intro i hi
      rw [forest_ids_cons] at hi
      constructor
      · rw [show (insert_into_list s0 t0.rootId t.rootId).nodes.length =
            s.nodes.length from by
          unfold insert_into_list
          rw [length_setN, length_setN, length_setN, len0]]
        rcases List.mem_append.mp hi with h1 | h1
        · exact hlenT i h1
        · exact (hbv i h1).1
      · rw [(hKV1 i).2]
        rcases List.mem_append.mp hi with h1 | h1
        · rw [← (hKV0 i).2]
          exact hval0 i (List.mem_append_left _ h1)
        · exact (hbv i h1).2
    have hkeyn : (getN (insert_into_list s0 t0.rootId t.rootId) t.rootId).key =
        (getN s t.rootId).key := (hKV1 t.rootId).1
    have hkeym : (getN (insert_into_list s0 t0.rootId t.rootId) t0.rootId).key =
        (getN s t0.rootId).key := (hKV1 t0.rootId).1
    have hlen1 : (insert_into_list s0 t0.rootId t.rootId).nodes.length =
        s.nodes.length := by
      unfold insert_into_list
      rw [length_setN, length_setN, length_setN, len0]
    have ht0ne : t0.rootId ≠ t.rootId := by
      intro hh
      exact hnF (hh ▸ mem_forest_ids_of_mem _ t0 (List.mem_cons_self _ _) _
        (rootId_mem_ids t0))
    have hAS' : ∀ j, j ≠ t.rootId →
        agreeStatic (getN (insert_into_list s0 t0.rootId t.rootId) j)
          (getN s j) := by
      intro j hj
      have h2 := rAS j
      rw [g0 j hj] at h2
      exact h2
    have hroot' :
        (getN (insert_into_list s0 t0.rootId t.rootId) t.rootId).key =
          (getN s t.rootId).key ∧
        (getN (insert_into_list s0 t0.rootId t.rootId) t.rootId).value =
          (getN s t.rootId).value ∧
        (getN (insert_into_list s0 t0.rootId t.rootId) t.rootId).degree =
          (getN s t.rootId).degree ∧
        (getN (insert_into_list s0 t0.rootId t.rootId) t.rootId).child =
          (getN s t.rootId).child ∧
        (getN (insert_into_list s0 t0.rootId t.rootId) t.rootId).parent = none ∧
        (getN (insert_into_list s0 t0.rootId t.rootId) t.rootId).mark = false := by
      have h2 := rAS t.rootId
      rw [g0n] at h2
      exact ⟨h2.1, h2.2.1, h2.2.2.1, h2.2.2.2.2.2, h2.2.2.2.2.1, h2.2.2.2.1⟩
    have hright0 : (getN s0 t0.rootId).right = (getN s t0.rootId).right := by
      rw [g0 t0.rootId ht0ne]
    have hunt' : ∀ j, j ≠ t.rootId → j ≠ t0.rootId →
        j ≠ (getN s t0.rootId).right →
        getN (insert_into_list s0 t0.rootId t.rootId) j = getN s j := by
      intro j h1 h2 h3
      refine (rFr j h2 h1 ?_).trans (g0 j h1)
      rw [hright0]
      exact h3
    rw [heq]
    by_cases hlt : (getN (insert_into_list s0 t0.rootId t.rootId) t.rootId).key <
        (getN (insert_into_list s0 t0.rootId t.rootId) t0.rootId).key
    · rw [if_pos hlt]
      rw [hkeyn, hkeym] at hlt
      refine ⟨t :: rest ++ [t0], ⟨?_, ?_, ?_, ?_, ?_⟩, ?_, hAS', hroot', ?_, ?_,
        hlen1, rfl⟩
      · exact Or.inr ⟨t, rest ++ [t0], rfl, rfl⟩
      · have hrot := ringP_rotate (insert_into_list s0 t0.rootId t.rootId)
          t0.rootId (t.rootId :: rest.map Tree.rootId) ri
        have hmapeq : (t :: rest ++ [t0]).map Tree.rootId =
            (t.rootId :: rest.map Tree.rootId) ++ [t0.rootId] := by
          simp
        rw [hmapeq]
        exact hrot
      · intro u hu
        have hu' : u ∈ t :: t0 :: rest := by
          rcases List.mem_cons.mp hu with rfl | hu2
          · exact List.mem_cons_self _ _
          rcases List.mem_append.mp hu2 with h1 | h1
          · exact List.mem_cons_of_mem _ (List.mem_cons_of_mem _ h1)
          · rcases List.mem_cons.mp h1 with rfl | h2
            · exact List.mem_cons_of_mem _ (List.mem_cons_self _ _)
            · cases h2
        exact ⟨wf1 u hu', hpar1 u hu'⟩
      · exact (List.Perm.nodup_iff (forest_ids_rotate_perm t t0 rest)).mpr hnd1
      · intro i hi
        apply hbv1
        exact (forest_ids_rotate_perm t t0 rest).mem_iff.mp hi
      · exact Or.inr ⟨t0, rest, rfl, Or.inl ⟨hlt, rfl, rfl⟩⟩
      · intro t0' rest' heqF j h1 h2 h3
        cases heqF
        exact hunt' j h1 h2 h3
      · intro habs
        cases habs
    · rw [if_neg hlt]
      rw [hkeyn, hkeym] at hlt
      refine ⟨t0 :: t :: rest, ⟨?_, ?_, ?_, ?_, ?_⟩, ?_, hAS', hroot', ?_, ?_,
        hlen1, rfl⟩
      · exact Or.inr ⟨t0, t :: rest, rfl, hmm⟩
      · rw [List.map_cons, List.map_cons]
        exact ri
      · intro u hu
        have hu' : u ∈ t :: t0 :: rest := by
          rcases List.mem_cons.mp hu with rfl | hu2
          · exact List.mem_cons_of_mem _ (List.mem_cons_self _ _)
          rcases List.mem_cons.mp hu2 with rfl | h2
          · exact List.mem_cons_self _ _
          · exact List.mem_cons_of_mem _ (List.mem_cons_of_mem _ h2)
        exact ⟨wf1 u hu', hpar1 u hu'⟩
      · exact (List.Perm.nodup_iff (forest_ids_swap_perm t t0 rest)).mpr hnd1
      · intro i hi
        apply hbv1
        exact (forest_ids_swap_perm t t0 rest).mem_iff.mp hi
      · exact Or.inr ⟨t0, rest, rfl, Or.inr ⟨hlt, rfl, rfl⟩⟩
      · intro t0' rest' heqF j h1 h2 h3
        cases heqF
        exact hunt' j h1 h2 h3
      · intro habs
        cases habs

theorem add_to_root_list_spec (s : Store) (h : FibonacciHeap) (F : List Tree)
    (t : Tree)
    (hInv : InvStruct s h F)
    (hwf : wfTree s t)
    (hnodupAll : (Tree.ids t ++ Forest.ids F).Nodup)
    (hlenT : ∀ j ∈ Tree.ids t, j < s.nodes.length)
    (hvalT : ∀ j ∈ Tree.ids t, (getN s j).value.isSome = true) :
    ∃ F', InvStruct (add_to_root_list s h t.rootId).1
        (add_to_root_list s h t.rootId).2 F' ∧
      (Forest.ids F').Perm (Tree.ids t ++ Forest.ids F) ∧
      (∀ j, (getN (add_to_root_list s h t.rootId).1 j).key = (getN s j).key ∧
            (getN (add_to_root_list s h t.rootId).1 j).value = (getN s j).value) ∧
      (add_to_root_list s h t.rootId).1.nodes.length = s.nodes.length ∧
      (add_to_root_list s h t.rootId).2.total_nodes = h.total_nodes := by
  obtain ⟨hhead, hring, hwfF, hnodupF, hbv⟩ := hInv
  have hInv0 : InvStruct0 s h F := by
    refine ⟨?_, hring, hwfF, hnodupF, hbv⟩
    rcases hhead with ⟨h1, h2⟩ | ⟨t0, rest, hF, hmin, _⟩
    · exact Or.inl ⟨h1, h2⟩
    · exact Or.inr ⟨t0, rest, hF, hmin⟩
  obtain ⟨F', hI0, hshape, hAS, hroot6, huntS, huntN, hlen, htot⟩ :=
    add_to_root_list_spec0 s h F t hInv0 hwf hnodupAll hlenT hvalT
  have hKV : ∀ j, (getN (add_to_root_list s h t.rootId).1 j).key =
      (getN s j).key ∧
      (getN (add_to_root_list s h t.rootId).1 j).value = (getN s j).value := by
    intro j
    by_cases hj : j = t.rootId
    · rw [hj]
      exact ⟨hroot6.1, hroot6.2.1⟩
    · exact ⟨(hAS j hj).1, (hAS j hj).2.1⟩
  refine ⟨F', ⟨?_, hI0.2.1, hI0.2.2.1, hI0.2.2.2.1, hI0.2.2.2.2⟩, ?_, hKV,
    hlen, htot⟩
  · rcases hshape with ⟨hFnil, hF', hh⟩ | ⟨t0, rest, hF, hcase⟩
    · subst hFnil
      subst hF'
      refine Or.inr ⟨t, [], rfl, ?_, ?_⟩
      · rw [hh]
      · intro u hu
        rcases List.mem_cons.mp hu with rfl | h2
        · exact le_refl _
        · cases h2
    · have hmin : h.min = some t0.rootId := by
        rcases hhead with ⟨hn, hFn⟩ | ⟨t1, rest1, hF1, hmin1, _⟩
        · rw [hF] at hFn
          cases hFn
        · rw [hF] at hF1
          cases hF1
          exact hmin1
      have hminkey : ∀ u ∈ F,
          (getN s t0.rootId).key ≤ (getN s (Tree.rootId u)).key := by
        rcases hhead with ⟨hn, hFn⟩ | ⟨t1, rest1, hF1, hmin1, hmk⟩
        · rw [hF] at hFn
          cases hFn
        · rw [hF] at hF1
          cases hF1
          exact hmk
      rcases hcase with ⟨hlt, hF', hh⟩ | ⟨hnlt, hF', hh⟩
      · subst hF'
        refine Or.inr ⟨t, rest ++ [t0], rfl, ?_, ?_⟩
        · rw [hh]
        · intro u hu
          rw [(hKV t.rootId).1, (hKV (Tree.rootId u)).1]
          rcases List.mem_cons.mp hu with rfl | hu2
          · exact le_refl _
          rcases List.mem_append.mp hu2 with h1 | h1
          · exact le_of_lt (lt_of_lt_of_le hlt
              (hminkey u (by rw [hF]; exact List.mem_cons_of_mem _ h1)))
          · rcases List.mem_cons.mp h1 with rfl | h2
            · exact le_of_lt hlt
            · cases h2
      · subst hF'
        refine Or.inr ⟨t0, t :: rest, rfl, ?_, ?_⟩
        · rw [hh]
          exact hmin
        · intro u hu
          rw [(hKV t0.rootId).1, (hKV (Tree.rootId u)).1]
          rcases List.mem_cons.mp hu with rfl | hu2
          · exact le_refl _
          rcases List.mem_cons.mp hu2 with rfl | h2
          · exact le_of_not_lt hnlt
          · exact hminkey u (by rw [hF]; exact List.mem_cons_of_mem _ h2)
  · rcases hshape with ⟨hFnil, hF', _⟩ | ⟨t0, rest, hF, hcase⟩
    · subst hFnil
      subst hF'
      rw [forest_ids_cons, forest_ids_nil]
    · rcases hcase with ⟨_, hF', _⟩ | ⟨_, hF', _⟩
      · subst hF'
        subst hF
        rw [← forest_ids_cons]
        exact forest_ids_rotate_perm t t0 rest
      · subst hF'
        subst hF
        rw [← forest_ids_cons]
        exact forest_ids_swap_perm t t0 rest

theorem newNode_getN_new (s : Store) (k v : Int) :
    getN (newNode s k v).1 s.nodes.length =
      { key := k, value := some v, degree := 0, mark := false,
        parent := none, child := none,
        left := s.nodes.length, right := s.nodes.length } := by
  show (s.nodes ++ [_]).getD s.nodes.length default = _
  rw [List.getD_append_right _ _ _ _ (le_refl _), Nat.sub_self]
  rfl

theorem newNode_getN_old (s : Store) (k v : Int) (j : Nat)
    (hj : j < s.nodes.length) :
    getN (newNode s k v).1 j = getN s j := by
  show (s.nodes ++ [_]).getD j default = s.nodes.getD j default
  rw [List.getD_append _ _ _ _ hj]

theorem newNode_length (s : Store) (k v : Int) :
    (newNode s k v).1.nodes.length = s.nodes.length + 1 := by
  show (s.nodes ++ [_]).length = _
  rw [List.length_append]
  rfl

theorem insert_spec (s : Store) (h : FibonacciHeap) (F : List Tree) (k v : Int)
    (hInv : Inv s h F) :
    ∃ F', Inv (insert s h k v).1 (insert s h k v).2.1 F' ∧
      (insert s h k v).2.2 = ⟨s.nodes.length⟩ ∧
      (Forest.ids F').Perm (s.nodes.length :: Forest.ids F) ∧
      (∀ j ∈ Forest.ids F, idKV (insert s h k v).1 j = idKV s j) ∧
      idKV (insert s h k v).1 s.nodes.length = (k, v) ∧
      (insert s h k v).1.nodes.length = s.nodes.length + 1 ∧
      (insert s h k v).2.1.total_nodes = h.total_nodes + 1 := by
  obtain ⟨⟨hhead, hring, hwfF, hnodupF, hbv⟩, htotal⟩ := hInv
  obtain ⟨s2, hs2⟩ : ∃ x, x = (newNode s k v).1 := ⟨_, rfl⟩
  have hg_new : getN s2 s.nodes.length =
      { key := k, value := some v, degree := 0, mark := false,
        parent := none, child := none,
        left := s.nodes.length, right := s.nodes.length } := by
    rw [hs2]
    exact newNode_getN_new s k v
  have hg_old : ∀ j, j < s.nodes.length → getN s2 j = getN s j := by
    intro j hj
    rw [hs2]
    exact newNode_getN_old s k v j hj
  have hlen2 : s2.nodes.length = s.nodes.length + 1 := by
    rw [hs2]
    exact newNode_length s k v
  have hids_lt : ∀ j ∈ Forest.ids F, j < s.nodes.length := fun j hj => (hbv j hj).1
  have hg_ids : ∀ j ∈ Forest.ids F, getN s2 j = getN s j := fun j hj =>
    hg_old j (hids_lt j hj)
  have hInv2 : InvStruct s2 { h with total_nodes := h.total_nodes + 1 } F := by
    refine ⟨?_, ?_, ?_, hnodupF, ?_⟩
    · rcases hhead with ⟨h1, h2⟩ | ⟨t0, rest, hF, hmin, hminkey⟩
      · exact Or.inl ⟨h1, h2⟩
      · refine Or.inr ⟨t0, rest, hF, hmin, ?_⟩
        intro u hu
        have hm0 : t0.rootId ∈ Forest.ids F := by
          rw [hF]
          exact mem_forest_ids_of_mem _ t0 (List.mem_cons_self _ _) _
            (rootId_mem_ids t0)
        have hmu : u.rootId ∈ Forest.ids F :=
          mem_forest_ids_of_mem _ u hu _ (rootId_mem_ids u)
        rw [hg_ids t0.rootId hm0, hg_ids u.rootId hmu]
        exact hminkey u hu
    · apply ringP_transfer s s2 _ ?_ hring
      intro a ha b hb hab
      refine ⟨?_, ?_⟩
      · rw [hg_ids a (roots_sub_ids _ _ ha)]
        exact hab.1
      · rw [hg_ids b (roots_sub_ids _ _ hb)]
        exact hab.2
    · intro u hu
      refine ⟨?_, ?_⟩
      · refine wfTree_congr s s2 u ?_ ?_ (hwfF u hu).1
        · rw [hg_ids _ (mem_forest_ids_of_mem F u hu _ (rootId_mem_ids u))]
          exact ⟨rfl, rfl, rfl⟩
        · intro j hj
          cases u with
          | node i cs =>
            have hjm : j ∈ Tree.ids (Tree.node i cs) :=
              (mem_ids_node i cs j).mpr (Or.inr hj)
            rw [hg_ids j (mem_forest_ids_of_mem F _ hu _ hjm)]
            exact ⟨rfl, rfl, rfl, rfl, rfl, rfl⟩
      · rw [hg_ids _ (mem_forest_ids_of_mem F u hu _ (rootId_mem_ids u))]
        exact (hwfF u hu).2
    · intro i hi
      rw [hg_ids i hi, hlen2]
      have := hbv i hi
      exact ⟨by omega, this.2⟩
  have hwfT : wfTree s2 (Tree.node s.nodes.length []) := by
    refine wfTree.mk _ _ ?_ ?_ ?_ ?_ ?_ ?_
    · rw [hg_new]
      rfl
    · rw [hg_new]
      rfl
    · exact trivial
    · intro c hc
      cases hc
    · intro c hc
      cases hc
    · intro c hc
      cases hc
  have hnodupAll : (Tree.ids (Tree.node s.nodes.length []) ++
      Forest.ids F).Nodup := by
    rw [Tree.ids, forest_ids_nil, List.cons_append, List.nil_append]
    refine List.nodup_cons.mpr ⟨?_, hnodupF⟩
    intro hmem
    exact absurd (hids_lt _ hmem) (by omega)
  obtain ⟨F', hInv', hPerm', hKV', hlen', htot'⟩ :=
    add_to_root_list_spec s2 { h with total_nodes := h.total_nodes + 1 } F
      (Tree.node s.nodes.length []) hInv2 hwfT
      (by
        rw [Tree.ids, forest_ids_nil] at hnodupAll ⊢
        exact hnodupAll)
      (by
        intro j hj
        rw [Tree.ids, forest_ids_nil] at hj
        rcases List.mem_cons.mp hj with rfl | h2
        · omega
        · cases h2)
      (by
        intro j hj
        rw [Tree.ids, forest_ids_nil] at hj
        rcases List.mem_cons.mp hj with rfl | h2
        · rw [hg_new]
          rfl
        · cases h2)
  have hins : insert s h k v =
      ((add_to_root_list s2 { h with total_nodes := h.total_nodes + 1 }
          s.nodes.length).1,
       (add_to_root_list s2 { h with total_nodes := h.total_nodes + 1 }
          s.nodes.length).2,
       ⟨s.nodes.length⟩) := by
    rw [hs2]
    rfl
  rw [hins]
  have hroot_eq : (Tree.node s.nodes.length []).rootId = s.nodes.length := rfl
  rw [hroot_eq] at hKV' hlen' htot'
  refine ⟨F', ⟨hInv', ?_⟩, rfl, ?_, ?_, ?_, ?_, ?_⟩
  · rw [htot', hPerm'.length_eq, Tree.ids, forest_ids_nil, List.cons_append,
      List.nil_append, List.length_cons, htotal]
  · refine hPerm'.trans ?_
    rw [Tree.ids, forest_ids_nil, List.cons_append, List.nil_append]
  · intro j hj
    unfold idKV
    rw [(hKV' j).1, (hKV' j).2, hg_ids j hj]
  · unfold idKV
    rw [(hKV' s.nodes.length).1, (hKV' s.nodes.length).2, hg_new]
    rfl
  · rw [hlen', hlen2]
  · rw [htot']

/-! ### C1: stale handle passed to `decrease_key` -/

/-- C1: the claim that a `decrease_key` on a handle whose node has already
been returned by `extract_min` is detected and surfaced, without mutating the
heap, FAILS on the code.  After `insert(1,10); extract_min()`, the extracted
node keeps strong self-references in `left`/`right`, so the handle still
upgrades; `decrease_key(handle, 0)` then runs to completion (no error) and
mutates the heap: it installs the extracted node as `min` of the empty heap. -/
theorem C1_stale_decrease_key_not_detected :
    extract_min (insert emptyStore new 1 10).1 (insert emptyStore new 1 10).2.1 =
      .ok (some (1, 10), staleS, staleH) ∧
    staleH.min = none ∧ is_empty staleH = true ∧
    decrease_key staleS staleH ⟨0⟩ 0 =
      .ok (⟨[{ key := 0, value := none, degree := 0, mark := false,
               parent := none, child := none, left := 0, right := 0 }]⟩,
           { min := some 0, total_nodes := 0 }) :=
  ⟨rfl, rfl, rfl, rfl⟩

/-! ### C7: `decrease_key` with a larger key -/

/-- C7: `decrease_key` with `new_key` strictly greater than the node's
current key panics with "new key is greater than current key", and the state
captured at the moment of the panic is exactly the input store and heap: the
check precedes every write. -/
theorem C7_invalid_key_increase_rejected (s : Store) (h : FibonacciHeap)
    (handle : FibNodeHandle) (new_key : Int) (i : Nat)
    (hup : upgrade s handle = some i) (hk : new_key > (getN s i).key) :
    decrease_key s h handle new_key =
      .error ⟨"new key is greater than current key", s, h⟩ := by
  unfold decrease_key
  rw [hup]
  simp [hk]

/-- Witness for C7 at a concrete input. -/
theorem C7_invalid_key_increase_rejected_witness :
    upgrade (insert emptyStore new 1 10).1 ⟨0⟩ = some 0 ∧
    (2 : Int) > (getN (insert emptyStore new 1 10).1 0).key ∧
    decrease_key (insert emptyStore new 1 10).1 (insert emptyStore new 1 10).2.1 ⟨0⟩ 2 =
      .error ⟨"new key is greater than current key",
              (insert emptyStore new 1 10).1, (insert emptyStore new 1 10).2.1⟩ :=
  ⟨by decide, by decide,
    C7_invalid_key_increase_rejected _ _ _ _ 0 (by decide) (by decide)⟩

theorem getN_setN_key_value (s : Store) (i : Nat) (R : FibNode)
    (hk : R.key = (getN s i).key) (hv : R.value = (getN s i).value) (j : Nat) :
    (getN (setN s i R) j).key = (getN s j).key ∧
    (getN (setN s i R) j).value = (getN s j).value := by
  by_cases hij : j = i
  · subst hij
    by_cases hj : j < s.nodes.length
    · rw [getN_setN_self s j R hj]
      exact ⟨hk, hv⟩
    · have h1 : getN (setN s j R) j = default := by
        simp only [getN]
        apply List.getD_eq_default
        rw [length_setN]
        omega
      have h2 : getN s j = default := by
        simp only [getN]
        apply List.getD_eq_default
        omega
      rw [h1, h2]
      exact ⟨rfl, rfl⟩
  · rw [getN_setN_ne s i j R hij]
    exact ⟨rfl, rfl⟩

theorem getN_setN_lr_key_value (s : Store) (i : Nat) (lft rgt : Nat) (j : Nat) :
    (getN (setN s i
      { key := (getN s i).key, value := (getN s i).value, degree := (getN s i).degree,
        mark := (getN s i).mark, parent := (getN s i).parent, child := (getN s i).child,
        left := lft, right := rgt }) j).key = (getN s j).key ∧
    (getN (setN s i
      { key := (getN s i).key, value := (getN s i).value, degree := (getN s i).degree,
        mark := (getN s i).mark, parent := (getN s i).parent, child := (getN s i).child,
        left := lft, right := rgt }) j).value = (getN s j).value :=
  getN_setN_key_value s i
    { key := (getN s i).key, value := (getN s i).value, degree := (getN s i).degree,
      mark := (getN s i).mark, parent := (getN s i).parent, child := (getN s i).child,
      left := lft, right := rgt } rfl rfl j

theorem concat_preserves_key_value (s : Store) (h : FibonacciHeap) (om j : Nat) :
    (getN (concatenate_root_lists s h om).1 j).key = (getN s j).key ∧
    (getN (concatenate_root_lists s h om).1 j).value = (getN s j).value := by
  unfold concatenate_root_lists
  cases hm : h.min with
  | none => exact ⟨rfl, rfl⟩
  | some self_min =>
    dsimp only
    constructor
    · split
      all_goals
        rw [(getN_setN_lr_key_value _ _ _ _ j).1, (getN_setN_lr_key_value _ _ _ _ j).1,
          (getN_setN_lr_key_value _ _ _ _ j).1, (getN_setN_lr_key_value _ _ _ _ j).1]
    · split
      all_goals
        rw [(getN_setN_lr_key_value _ _ _ _ j).2, (getN_setN_lr_key_value _ _ _ _ j).2,
          (getN_setN_lr_key_value _ _ _ _ j).2, (getN_setN_lr_key_value _ _ _ _ j).2]

theorem concat_total (s : Store) (h : FibonacciHeap) (om : Nat) :
    (concatenate_root_lists s h om).2.total_nodes = h.total_nodes := by
  unfold concatenate_root_lists
  cases hm : h.min with
  | none => rfl
  | some self_min =>
    dsimp only
    split
    · rfl
    · rfl

theorem concat_eq (s : Store) (h : FibonacciHeap) (om self_min : Nat)
    (hm : h.min = some self_min) :
    concatenate_root_lists s h om =
      ((concatenate_root_lists s h om).1,
        if (getN (concatenate_root_lists s h om).1 om).key <
            (getN (concatenate_root_lists s h om).1 self_min).key
        then { h with min := some om } else h) := by
  unfold concatenate_root_lists
  rw [hm]
  dsimp only
  split
  next hc => rfl
  next hc => rfl

theorem concat_min (s : Store) (h : FibonacciHeap) (om self_min : Nat)
    (hm : h.min = some self_min) :
    (concatenate_root_lists s h om).2.min =
      if (getN s om).key < (getN s self_min).key then some om else some self_min := by
  conv_lhs => rw [concat_eq s h om self_min hm]
  rw [(concat_preserves_key_value s h om om).1,
    (concat_preserves_key_value s h om self_min).1]
  split
  · rfl
  · rw [hm]

/-! ### C5: union unit laws, size, and minimum -/

/-- C5: `union` with a fresh empty heap is behaviorally identical to the
input heap (same minimum, same length, same extraction sequence, in either
argument order), and for two heaps living in one store, the union's length
is the sum of lengths and its minimum entry is the smaller of the two
minimums.  The hypotheses say each heap is not corrupted in the one way that
matters here: an empty root list implies a zero node count. -/
theorem C5_union_identity_length_min (s : Store) (h a b : FibonacciHeap)
    (fuel : Nat)
    (hwf : h.min = none → h.total_nodes = 0)
    (hwa : a.min = none → a.total_nodes = 0)
    (hwb : b.min = none → b.total_nodes = 0) :
    minimum (union s h new).1 (union s h new).2 = minimum s h ∧
    len (union s h new).2 = len h ∧
    drain fuel (union s h new).1 (union s h new).2 = drain fuel s h ∧
    union s new h = (s, h) ∧
    len (union s a b).2 = len a + len b ∧
    (∀ ma mb, a.min = some ma → b.min = some mb →
      minimum (union s a b).1 (union s a b).2 =
        if (getN s mb).key < (getN s ma).key then minimum s b
        else minimum s a) := by
  have trio : minimum (union s h new).1 (union s h new).2 = minimum s h ∧
      len (union s h new).2 = len h ∧
      drain fuel (union s h new).1 (union s h new).2 = drain fuel s h := by
    cases hhm : h.min with
    | some m =>
      have h1 : union s h new = (s, h) := by
        unfold union
        rw [hhm]
        rfl
      rw [h1]
      exact ⟨rfl, rfl, rfl⟩
    | none =>
      have h1 : union s h new = (s, new) := by
        unfold union
        rw [hhm]
      rw [h1]
      refine ⟨?_, ?_, ?_⟩
      · show minimum s new = minimum s h
        unfold minimum
        rw [hhm]
        rfl
      · show len new = len h
        unfold len new
        rw [hwf hhm]
      · cases fuel with
        | zero => rfl
        | succ f =>
          show drain (f + 1) s new = drain (f + 1) s h
          have e1 : drain (f + 1) s h = .ok [] := by
            unfold drain extract_min
            rw [hhm]
          have e2 : drain (f + 1) s new = .ok [] := rfl
          rw [e1, e2]
  refine ⟨trio.1, trio.2.1, trio.2.2, rfl, ?_, ?_⟩
  · show len (union s a b).2 = len a + len b
    cases ham : a.min with
    | none =>
      have h1 : union s a b = (s, b) := by
        unfold union
        rw [ham]
      rw [h1]
      unfold len
      dsimp only
      rw [hwa ham]
      omega
    | some am =>
      cases hbm : b.min with
      | none =>
        have h1 : union s a b = (s, a) := by
          unfold union
          rw [ham, hbm]
        rw [h1]
        unfold len
        dsimp only
        rw [hwb hbm]
        omega
      | some bm =>
        unfold union
        rw [ham, hbm]
        dsimp only
        unfold len
        rw [concat_total]
  · intro ma mb hma hmb
    unfold union
    rw [hma, hmb]
    dsimp only
    unfold minimum
    dsimp only
    rw [concat_min s a mb ma hma]
    by_cases hc : (getN s mb).key < (getN s ma).key
    · rw [if_pos hc, if_pos hc]
      rw [hmb]
      dsimp only [Option.bind]
      rw [(concat_preserves_key_value s a mb mb).1,
        (concat_preserves_key_value s a mb mb).2]
    · rw [if_neg hc, if_neg hc]
      rw [hma]
      dsimp only [Option.bind]
      rw [(concat_preserves_key_value s a mb ma).1,
        (concat_preserves_key_value s a mb ma).2]

/-- Witness for C5 on the source's own union test: heap A holds keys 5 and 9,
heap B holds 2 and 8, in one shared store. -/
theorem C5_union_identity_length_min_witness :
    (uA.2.min = none → uA.2.total_nodes = 0) ∧
    (uB.2.min = none → uB.2.total_nodes = 0) ∧
    (minimum (union uB.1 uA.2 new).1 (union uB.1 uA.2 new).2 = minimum uB.1 uA.2 ∧
     len (union uB.1 uA.2 new).2 = len uA.2 ∧
     drain 5 (union uB.1 uA.2 new).1 (union uB.1 uA.2 new).2 = drain 5 uB.1 uA.2 ∧
     union uB.1 new uA.2 = (uB.1, uA.2) ∧
     len (union uB.1 uA.2 uB.2).2 = len uA.2 + len uB.2 ∧
     (∀ ma mb, uA.2.min = some ma → uB.2.min = some mb →
       minimum (union uB.1 uA.2 uB.2).1 (union uB.1 uA.2 uB.2).2 =
         if (getN uB.1 mb).key < (getN uB.1 ma).key then minimum uB.1 uB.2
         else minimum uB.1 uA.2)) :=
  ⟨by decide, by decide,
   C5_union_identity_length_min uB.1 uA.2 uA.2 uB.2 5
     (by decide) (by decide) (by decide)⟩

/-! ### C10: the degree table is always accessed in bounds -/

theorem resize_bound (dt : List (Option Nat)) (d : Nat) :
    d < (if dt.length ≤ d then dt ++ List.replicate (d + 1 - dt.length) (none : Option Nat)
         else dt).length := by
  split
  · rw [List.length_append, List.length_replicate]
    omega
  · omega

theorem consolidate_go_ne_oob (fuel : Nat) :
    ∀ s x d dt, consolidate_go fuel s x d dt ≠ .error "index out of bounds" := by
  induction fuel with
  | zero =>
    intro s x d dt h
    rw [consolidate_go] at h
    injection h with h
    exact absurd h (by decide)
  | succ f ih =>
    intro s x d dt h
    rw [consolidate_go] at h
    cases hq : (if dt.length ≤ d then dt ++ List.replicate (d + 1 - dt.length) none
        else dt).get? d with
    | none =>
      have h1 := List.get?_eq_none.mp hq
      have h2 := resize_bound dt d
      omega
    | some slot =>
      rw [hq] at h
      cases slot with
      | none => cases h
      | some y0 => exact ih _ _ _ _ h

theorem consolidate_entries_ne_oob (fuel : Nat) (roots : List Nat) :
    ∀ s dt, consolidate_entries fuel roots s dt ≠ .error "index out of bounds" := by
  induction roots with
  | nil =>
    intro s dt h
    cases h
  | cons node rest ih =>
    intro s dt h
    rw [consolidate_entries] at h
    cases hg : consolidate_go fuel s node ((getN s node).degree) dt with
    | error e =>
      rw [hg] at h
      cases h
      exact consolidate_go_ne_oob fuel s node ((getN s node).degree) dt hg
    | ok p =>
      rw [hg] at h
      exact ih _ _ h

theorem rebuild_go_ne_oob (entries : List Nat) :
    ∀ s h, rebuild_go entries s h ≠ .error "index out of bounds" := by
  induction entries with
  | nil =>
    intro s h hc
    cases hc
  | cons entry rest ih =>
    intro s h hc
    rw [rebuild_go] at hc
    cases hm : h.min with
    | none =>
      rw [hm] at hc
      exact ih _ _ hc
    | some m =>
      rw [hm] at hc
      dsimp only at hc
      cases hm2 : (add_to_root_list s h entry).2.min with
      | none =>
        rw [hm2] at hc
        injection hc with hc
        exact absurd hc (by decide)
      | some m2 =>
        rw [hm2] at hc
        dsimp only at hc
        split at hc
        · exact ih _ _ hc
        · exact ih _ _ hc

theorem root_walk_ne_oob (min_node : Nat) (fuel : Nat) :
    ∀ s cur acc, root_walk min_node fuel s cur acc ≠ .error "index out of bounds" := by
  induction fuel with
  | zero =>
    intro s cur acc h
    rw [root_walk] at h
    injection h with h
    exact absurd h (by decide)
  | succ f ih =>
    intro s cur acc h
    rw [root_walk] at h
    split at h
    · cases h
    · exact ih _ _ _ h

/-- C10: every degree-table access in `consolidate` is in bounds: the table
is resized before slot `d` is read or written whenever `d` is not below its
length, so no run of the linking loop, for any store, any starting degree and
any initial table (hence regardless of the `approx_degree_bound` estimate),
ever fails with an index-out-of-bounds panic; neither does `consolidate`
itself on any state. -/
theorem C10_consolidate_in_bounds :
    (∀ fuel s x d degree_table,
      consolidate_go fuel s x d degree_table ≠ .error "index out of bounds") ∧
    (∀ fuel roots s degree_table,
      consolidate_entries fuel roots s degree_table ≠ .error "index out of bounds") ∧
    (∀ s h, consolidate s h ≠ .error "index out of bounds") := by
  refine ⟨consolidate_go_ne_oob, fun fuel roots => consolidate_entries_ne_oob fuel roots, ?_⟩
  intro s h hc
  unfold consolidate at hc
  cases hm : h.min with
  | none =>
    rw [hm] at hc
    dsimp only at hc
    cases he : consolidate_entries (([] : List Nat).length + 1) [] s
        (List.replicate (approx_degree_bound h) none) with
    | error e =>
      rw [he] at hc
      cases hc
      exact consolidate_entries_ne_oob _ _ _ _ he
    | ok p =>
      rw [he] at hc
      exact rebuild_go_ne_oob _ _ _ hc
  | some min_node =>
    rw [hm] at hc
    dsimp only at hc
    cases hw : root_walk min_node (s.nodes.length + 1) s ((getN s min_node).right)
        [min_node] with
    | error e =>
      rw [hw] at hc
      cases hc
      exact root_walk_ne_oob _ _ _ _ _ hw
    | ok roots =>
      rw [hw] at hc
      dsimp only at hc
      cases he : consolidate_entries (roots.length + 1) roots s
          (List.replicate (approx_degree_bound h) none) with
      | error e =>
        rw [he] at hc
        cases hc
        exact consolidate_entries_ne_oob _ _ _ _ he
      | ok p =>
        rw [he] at hc
        exact rebuild_go_ne_oob _ _ _ hc

/-! ### C8: `decrease_key` that stays at or above the parent's key -/

/-- C8: a `decrease_key` whose `new_key` satisfies the precondition and does
not fall strictly below the parent's key never cuts: the returned store is
the input store with only node `i`'s `key` field rewritten (parent/child
edges, rings, marks, degrees of every node untouched), and the heap is either
unchanged or has `min` redirected to `i`. -/
theorem C8_no_cut_when_not_below_parent (s : Store) (h : FibonacciHeap)
    (handle : FibNodeHandle) (new_key : Int) (i : Nat)
    (hup : upgrade s handle = some i)
    (hk : ¬ new_key > (getN s i).key)
    (hpar : ∀ p, (getN s i).parent = some p → ¬ new_key < (getN s p).key) :
    ∃ h', decrease_key s h handle new_key =
        .ok (setN s i { getN s i with key := new_key }, h') ∧
      (h' = h ∨ h' = { h with min := some i }) := by
  have hi : i < s.nodes.length := by
    unfold upgrade at hup
    by_cases hb : handle.node < s.nodes.length
    · rw [if_pos hb] at hup
      cases hup
      exact hb
    · rw [if_neg hb] at hup
      cases hup
  have hmin : ∀ (R : FibNode), R.key = new_key → ∀ s1 h1, s1 = setN s i R → (h1 = h ∨ h1 = { h with min := some i }) →
      ∃ h', (match h1.min with
             | some min_node =>
               if (getN s1 i).key < (getN s1 min_node).key then
                 Except.ok (s1, { h1 with min := some i })
               else Except.ok (s1, h1)
             | none => Except.ok (s1, { h1 with min := some i })) =
          (Except.ok (s1, h') : Except PanicData (Store × FibonacciHeap)) ∧
        (h' = h ∨ h' = { h with min := some i }) := by
    intro R hR s1 h1 hs1 hh1
    cases hm : h1.min with
    | none =>
      refine ⟨{ h1 with min := some i }, rfl, ?_⟩
      rcases hh1 with rfl | rfl
      · exact Or.inr rfl
      · exact Or.inr rfl
    | some m =>
      by_cases hc : (getN s1 i).key < (getN s1 m).key
      · refine ⟨{ h1 with min := some i }, by dsimp only; rw [if_pos hc], ?_⟩
        rcases hh1 with rfl | rfl
        · exact Or.inr rfl
        · exact Or.inr rfl
      · refine ⟨h1, by dsimp only; rw [if_neg hc], ?_⟩
        rcases hh1 with rfl | rfl
        · exact Or.inl rfl
        · exact Or.inr rfl
  unfold decrease_key
  simp only [hup]
  rw [if_neg hk]
  simp only [getN_setN_self s i _ hi]
  cases hp : (getN s i).parent with
  | none =>
    exact hmin _ rfl _ _ rfl (Or.inl rfl)
  | some p =>
    have hnc : ∀ (R : FibNode), R.key = new_key →
        ¬ new_key < (getN (setN s i R) p).key := by
      intro R hR
      by_cases hpi : p = i
      · subst hpi
        rw [getN_setN_self s p R hi, hR]
        exact lt_irrefl _
      · rw [getN_setN_ne s i p R hpi]
        exact hpar p hp
    dsimp only
    rw [if_neg (hnc _ rfl)]
    exact hmin _ rfl _ _ rfl (Or.inl rfl)

/-- Witness for C8: a two-node heap (root key 1 with one child of key 5);
decreasing the child's key to 3 stays above the parent's key. -/
theorem C8_no_cut_when_not_below_parent_witness :
    upgrade ⟨[{ key := 1, value := some 10, degree := 1, mark := false,
                parent := none, child := some 1, left := 0, right := 0 },
              { key := 5, value := some 50, degree := 0, mark := false,
                parent := some 0, child := none, left := 1, right := 1 }]⟩ ⟨1⟩ = some 1 ∧
    ∃ h', decrease_key
        ⟨[{ key := 1, value := some 10, degree := 1, mark := false,
            parent := none, child := some 1, left := 0, right := 0 },
          { key := 5, value := some 50, degree := 0, mark := false,
            parent := some 0, child := none, left := 1, right := 1 }]⟩
        { min := some 0, total_nodes := 2 } ⟨1⟩ 3 =
        .ok (setN ⟨[{ key := 1, value := some 10, degree := 1, mark := false,
                      parent := none, child := some 1, left := 0, right := 0 },
                    { key := 5, value := some 50, degree := 0, mark := false,
                      parent := some 0, child := none, left := 1, right := 1 }]⟩ 1
               { getN ⟨[{ key := 1, value := some 10, degree := 1, mark := false,
                          parent := none, child := some 1, left := 0, right := 0 },
                        { key := 5, value := some 50, degree := 0, mark := false,
                          parent := some 0, child := none, left := 1, right := 1 }]⟩ 1
                 with key := 3 }, h') ∧
      (h' = { min := some 0, total_nodes := 2 } ∨
       h' = { min := some 1, total_nodes := 2 }) :=
  ⟨by decide,
    C8_no_cut_when_not_below_parent _ _ _ _ 1 (by decide) (by decide)
      (by intro p hp; cases hp; decide)⟩

/-! ### Generic frame and congruence lemmas for the simulation of
`extract_min` and `decrease_key` -/

theorem forest_ids_eq_nil (cs : List Tree) (h : Forest.ids cs = []) : cs = [] := by
  cases cs with
  | nil => rfl
  | cons t ts =>
    rw [forest_ids_cons] at h
    cases t with
    | node i cs0 =>
      rw [Tree.ids] at h
      cases h

theorem wfTree_eq_congr (s s' : Store) (t : Tree)
    (hg : ∀ j ∈ Tree.ids t, getN s' j = getN s j) :
    wfTree s t → wfTree s' t := by
  cases t with
  | node i cs =>
    apply wfTree_congr
    · rw [hg _ (rootId_mem_ids (Tree.node i cs))]
      exact ⟨rfl, rfl, rfl⟩
    · intro j hj
      rw [hg j ((mem_ids_node i cs j).mpr (Or.inr hj))]
      exact ⟨rfl, rfl, rfl, rfl, rfl, rfl⟩

theorem InvStruct0_frame (s s' : Store) (h h' : FibonacciHeap) (F : List Tree)
    (hg : ∀ j ∈ Forest.ids F, getN s' j = getN s j)
    (hlen : s.nodes.length ≤ s'.nodes.length)
    (hmin : h'.min = h.min)
    (hInv : InvStruct0 s h F) : InvStruct0 s' h' F := by
  obtain ⟨hhead, hring, hwfF, hnd, hbv⟩ := hInv
  refine ⟨?_, ?_, ?_, hnd, ?_⟩
  · rcases hhead with ⟨h1, h2⟩ | ⟨t0, rest, hF, hm⟩
    · exact Or.inl ⟨by rw [hmin, h1], h2⟩
    · exact Or.inr ⟨t0, rest, hF, by rw [hmin, hm]⟩
  · apply ringP_transfer s s' _ ?_ hring
    intro a ha b hb hab
    exact ⟨by rw [hg a (roots_sub_ids F a ha)]; exact hab.1,
           by rw [hg b (roots_sub_ids F b hb)]; exact hab.2⟩
  · intro u hu
    refine ⟨wfTree_eq_congr s s' u
      (fun j hj => hg j (mem_forest_ids_of_mem F u hu j hj)) (hwfF u hu).1, ?_⟩
    rw [hg _ (mem_forest_ids_of_mem F u hu _ (rootId_mem_ids u))]
    exact (hwfF u hu).2
  · intro i hi
    rw [hg i hi]
    exact ⟨lt_of_lt_of_le (hbv i hi).1 hlen, (hbv i hi).2⟩

/-! ### Degree-table lemmas (the `Vec<Option<Rc<...>>>` of `consolidate`) -/

theorem filterMap_id_replicate_none (k : Nat) :
    (List.replicate k (none : Option Nat)).filterMap id = [] := by
  induction k with
  | zero => rfl
  | succ n ih =>
    rw [List.replicate_succ, List.filterMap_cons]
    exact ih

theorem filterMap_id_append_replicate (dt : List (Option Nat)) (k : Nat) :
    (dt ++ List.replicate k none).filterMap id = dt.filterMap id := by
  rw [List.filterMap_append, filterMap_id_replicate_none, List.append_nil]

theorem dt_set_perm_none_to_some (dt : List (Option Nat)) :
    ∀ (d x : Nat), dt.get? d = some none →
    ((dt.set d (some x)).filterMap id).Perm (x :: dt.filterMap id) := by
  induction dt with
  | nil =>
    intro d x hd
    rw [List.get?_nil] at hd
    cases hd
  | cons o dt' ih =>
    intro d x hd
    cases d with
    | zero =>
      rw [List.get?_cons_zero] at hd
      have ho : o = none := Option.some.inj hd
      subst ho
      rw [List.set_cons_zero, List.filterMap_cons, List.filterMap_cons]
      exact List.Perm.refl _
    | succ d' =>
      rw [List.get?_cons_succ] at hd
      rw [List.set_cons_succ]
      cases o with
      | none =>
        rw [List.filterMap_cons, List.filterMap_cons]
        exact ih d' x hd
      | some y =>
        rw [List.filterMap_cons, List.filterMap_cons]
        refine (List.Perm.cons y (ih d' x hd)).trans ?_
        exact List.Perm.swap x y _

theorem dt_set_perm_some_to_none (dt : List (Option Nat)) :
    ∀ (d y : Nat), dt.get? d = some (some y) →
    (dt.filterMap id).Perm (y :: (dt.set d none).filterMap id) := by
  induction dt with
  | nil =>
    intro d y hd
    rw [List.get?_nil] at hd
    cases hd
  | cons o dt' ih =>
    intro d y hd
    cases d with
    | zero =>
      rw [List.get?_cons_zero] at hd
      have ho : o = some y := Option.some.inj hd
      subst ho
      rw [List.set_cons_zero, List.filterMap_cons, List.filterMap_cons]
      exact List.Perm.refl _
    | succ d' =>
      rw [List.get?_cons_succ] at hd
      rw [List.set_cons_succ]
      cases o with
      | none =>
        rw [List.filterMap_cons, List.filterMap_cons]
        exact ih d' y hd
      | some z =>
        rw [List.filterMap_cons, List.filterMap_cons]
        refine (List.Perm.cons z (ih d' y hd)).trans ?_
        exact List.Perm.swap y z _

theorem slot_of_mem_filterMap (dt : List (Option Nat)) :
    ∀ x : Nat, x ∈ dt.filterMap id → ∃ d, dt.get? d = some (some x) := by
  induction dt with
  | nil =>
    intro x hx
    cases hx
  | cons o dt' ih =>
    intro x hx
    cases o with
    | none =>
      rw [List.filterMap_cons] at hx
      obtain ⟨d, hd⟩ := ih x hx
      exact ⟨d + 1, hd⟩
    | some y =>
      rw [List.filterMap_cons] at hx
      rcases List.mem_cons.mp hx with rfl | h2
      · exact ⟨0, rfl⟩
      · obtain ⟨d, hd⟩ := ih x h2
        exact ⟨d + 1, hd⟩

theorem get?_set_self (dt : List (Option Nat)) :
    ∀ d : Nat, d < dt.length → ∀ v, (dt.set d v).get? d = some v := by
  induction dt with
  | nil =>
    intro d hd
    rw [List.length] at hd
    omega
  | cons o dt' ih =>
    intro d hd v
    cases d with
    | zero => rfl
    | succ d' =>
      rw [List.set_cons_succ, List.get?_cons_succ]
      rw [List.length_cons] at hd
      exact ih d' (by omega) v

theorem get?_set_ne (dt : List (Option Nat)) :
    ∀ d e : Nat, d ≠ e → ∀ v, (dt.set d v).get? e = dt.get? e := by
  induction dt with
  | nil =>
    intro d e _ v
    rw [List.set_nil]
  | cons o dt' ih =>
    intro d e hde v
    cases d with
    | zero =>
      cases e with
      | zero => exact absurd rfl hde
      | succ e' => rfl
    | succ d' =>
      cases e with
      | zero => rfl
      | succ e' =>
        rw [List.set_cons_succ, List.get?_cons_succ, List.get?_cons_succ]
        exact ih d' e' (fun hh => hde (by rw [hh])) v

theorem get?_append_left (dt : List (Option Nat)) (ext : List (Option Nat)) :
    ∀ d : Nat, d < dt.length → (dt ++ ext).get? d = dt.get? d := by
  induction dt with
  | nil =>
    intro d hd
    rw [List.length] at hd
    omega
  | cons o dt' ih =>
    intro d hd
    cases d with
    | zero => rfl
    | succ d' =>
      rw [List.cons_append, List.get?_cons_succ, List.get?_cons_succ]
      rw [List.length_cons] at hd
      exact ih d' (by omega)

theorem get?_replicate_none (k : Nat) :
    ∀ d : Nat, d < k →
      (List.replicate k (none : Option Nat)).get? d = some none := by
  induction k with
  | zero =>
    intro d hd
    omega
  | succ n ih =>
    intro d hd
    cases d with
    | zero => rfl
    | succ d' =>
      rw [List.replicate_succ, List.get?_cons_succ]
      exact ih d' (by omega)

theorem get?_append_right_replicate (dt : List (Option Nat)) (k d : Nat)
    (h1 : dt.length ≤ d) (h2 : d < dt.length + k) :
    (dt ++ List.replicate k (none : Option Nat)).get? d = some none := by
  induction dt generalizing d with
  | nil =>
    rw [List.nil_append]
    exact get?_replicate_none k d (by rw [List.length] at h2; omega)
  | cons o dt' ih =>
    cases d with
    | zero =>
      rw [List.length_cons] at h1
      omega
    | succ d' =>
      rw [List.cons_append, List.get?_cons_succ]
      rw [List.length_cons] at h1 h2
      exact ih d' (by omega) (by omega)

/-! ### Fold lemmas shared by `extract_min` (children re-insertion) and
`consolidate` (rebuild) -/

theorem wfTree_set_static (s : Store) (c : Tree) (R : FibNode)
    (hA : (Tree.ids c).Nodup)
    (hk : R.key = (getN s c.rootId).key)
    (hd : R.degree = (getN s c.rootId).degree)
    (hch : R.child = (getN s c.rootId).child)
    (hwf : wfTree s c) : wfTree (setN s c.rootId R) c := by
  cases c with
  | node i cs0 =>
    refine wfTree_congr s _ (Tree.node i cs0) ?_ ?_ hwf
    · rw [show (Tree.node i cs0).rootId = i from rfl]
      by_cases hb : i < s.nodes.length
      · rw [getN_setN_self s i R hb]
        exact ⟨hk, hd, hch⟩
      · rw [setN_oob s i R (by omega)]
        exact ⟨rfl, rfl, rfl⟩
    · intro j hj
      have hji : j ≠ i := by
        intro hji
        rw [Tree.ids] at hA
        exact (List.nodup_cons.mp hA).1 (hji ▸ hj)
      rw [show (Tree.node i cs0).rootId = i from rfl, getN_setN_ne s i j R hji]
      exact ⟨rfl, rfl, rfl, rfl, rfl, rfl⟩

theorem forest_shape_perm (t : Tree) (F F' : List Tree)
    (h : F = [] ∧ F' = [t] ∨ ∃ t0 rest, F = t0 :: rest ∧
      (F' = t :: rest ++ [t0] ∨ F' = t0 :: t :: rest)) :
    (Forest.ids F').Perm (Tree.ids t ++ Forest.ids F) := by
  rcases h with ⟨hF, hF'⟩ | ⟨t0, rest, hF, hF' | hF'⟩
  · subst hF
    subst hF'
    rw [forest_ids_cons, forest_ids_nil]
  · subst hF'
    subst hF
    rw [← forest_ids_cons]
    exact forest_ids_rotate_perm t t0 rest
  · subst hF'
    subst hF
    rw [← forest_ids_cons]
    exact forest_ids_swap_perm t t0 rest

theorem shape_minkey (s s' : Store) (t : Tree) (F F' : List Tree)
    (hKV : ∀ j, (getN s' j).key = (getN s j).key)
    (hmk : ∀ t0 rest, F = t0 :: rest →
      ∀ u ∈ F, (getN s t0.rootId).key ≤ (getN s (Tree.rootId u)).key)
    (hshape : F = [] ∧ F' = [t] ∨ ∃ t0 rest, F = t0 :: rest ∧
       ((getN s t.rootId).key < (getN s t0.rootId).key ∧ F' = t :: rest ++ [t0] ∨
        ¬ (getN s t.rootId).key < (getN s t0.rootId).key ∧
          F' = t0 :: t :: rest)) :
    ∀ t1 rest1, F' = t1 :: rest1 →
      ∀ u ∈ F', (getN s' t1.rootId).key ≤ (getN s' (Tree.rootId u)).key := by
  intro t1 rest1 hF' u hu
  rw [hKV t1.rootId, hKV (Tree.rootId u)]
  rcases hshape with ⟨hF, hFt⟩ | ⟨t0, rest, hF, ⟨hlt, hFt⟩ | ⟨hnlt, hFt⟩⟩
  · rw [hFt] at hF'
    have ht1 : t1 = t := (List.cons.inj hF'.symm).1
    rw [ht1]
    rw [hFt] at hu
    rcases List.mem_cons.mp hu with rfl | h2
    · exact le_refl _
    · cases h2
  · rw [hFt] at hF'
    have ht1 : t1 = t := (List.cons.inj hF'.symm).1
    rw [ht1]
    rw [hFt] at hu
    rcases List.mem_cons.mp hu with rfl | hu2
    · exact le_refl _
    rcases List.mem_append.mp hu2 with h1 | h1
    · exact le_of_lt (lt_of_lt_of_le hlt
        (hmk t0 rest hF u (by rw [hF]; exact List.mem_cons_of_mem _ h1)))
    · rcases List.mem_cons.mp h1 with rfl | h2
      · exact le_of_lt hlt
      · cases h2
  · rw [hFt] at hF'
    have ht1 : t1 = t0 := (List.cons.inj hF'.symm).1
    rw [ht1]
    rw [hFt] at hu
    rcases List.mem_cons.mp hu with rfl | hu2
    · exact le_refl _
    rcases List.mem_cons.mp hu2 with rfl | h2
    · exact le_of_not_lt hnlt
    · exact hmk t0 rest hF u (by rw [hF]; exact List.mem_cons_of_mem _ h2)

theorem InvStruct_iff (s : Store) (h : FibonacciHeap) (F : List Tree) :
    InvStruct s h F ↔ (InvStruct0 s h F ∧ ∀ t0 rest, F = t0 :: rest →
      ∀ u ∈ F, (getN s t0.rootId).key ≤ (getN s (Tree.rootId u)).key) := by
  constructor
  · intro ⟨hhead, h2, h3, h4, h5⟩
    refine ⟨⟨?_, h2, h3, h4, h5⟩, ?_⟩
    · rcases hhead with ⟨ha, hb⟩ | ⟨t0, rest, hF, hm, _⟩
      · exact Or.inl ⟨ha, hb⟩
      · exact Or.inr ⟨t0, rest, hF, hm⟩
    · intro t0 rest hF u hu
      rcases hhead with ⟨ha, hb⟩ | ⟨t1, rest1, hF1, hm, hmk⟩
      · rw [hb] at hF
        cases hF
      · rw [hF1] at hF
        cases hF
        exact hmk u hu
  · intro ⟨⟨hhead, h2, h3, h4, h5⟩, hmk⟩
    refine ⟨?_, h2, h3, h4, h5⟩
    rcases hhead with ⟨ha, hb⟩ | ⟨t0, rest, hF, hm⟩
    · exact Or.inl ⟨ha, hb⟩
    · exact Or.inr ⟨t0, rest, hF, hm, hmk t0 rest hF⟩

theorem add_children_spec (cs : List Tree) :
    ∀ (s : Store) (h : FibonacciHeap) (F : List Tree),
    InvStruct0 s h F →
    (∀ c ∈ cs, wfTree s c) →
    ((Forest.ids cs ++ Forest.ids F).Nodup) →
    (∀ j ∈ Forest.ids cs, j < s.nodes.length) →
    (∀ j ∈ Forest.ids cs, (getN s j).value.isSome = true) →
    ∃ F', InvStruct0 (add_children (cs.map Tree.rootId) s h).1
        (add_children (cs.map Tree.rootId) s h).2 F' ∧
      (Forest.ids F').Perm (Forest.ids cs ++ Forest.ids F) ∧
      (∀ j, (getN (add_children (cs.map Tree.rootId) s h).1 j).key =
          (getN s j).key ∧
        (getN (add_children (cs.map Tree.rootId) s h).1 j).value =
          (getN s j).value ∧
        (getN (add_children (cs.map Tree.rootId) s h).1 j).degree =
          (getN s j).degree) ∧
      (add_children (cs.map Tree.rootId) s h).1.nodes.length =
        s.nodes.length ∧
      (add_children (cs.map Tree.rootId) s h).2.total_nodes =
        h.total_nodes := by
  induction cs with
  | nil =>
    intro s h F hInv _ _ _ _
    refine ⟨F, hInv, ?_, fun j => ⟨rfl, rfl, rfl⟩, rfl, rfl⟩
    rw [forest_ids_nil, List.nil_append]
  | cons c cs' ih =>
    intro s h F hInv hwf hnodup hlen hval
    have hmemA : ∀ j ∈ Tree.ids c, j ∈ Forest.ids (c :: cs') :=
      fun j hj => mem_forest_ids_of_mem _ c (List.mem_cons_self _ _) j hj
    have hmemB : ∀ j ∈ Forest.ids cs', j ∈ Forest.ids (c :: cs') := by
      intro j hj
      obtain ⟨u, hu, hju⟩ := mem_forest_ids_split cs' j hj
      exact mem_forest_ids_of_mem _ u (List.mem_cons_of_mem _ hu) j hju
    have hrootA : c.rootId ∈ Tree.ids c := rootId_mem_ids c
    have hrootlen : c.rootId < s.nodes.length := hlen _ (hmemA _ hrootA)
    rw [forest_ids_cons] at hnodup
    rw [List.append_assoc] at hnodup
    have hACB : ((Tree.ids c ++ Forest.ids F) ++ Forest.ids cs').Nodup := by
      rw [List.append_assoc]
      exact (List.Perm.nodup_iff
        (List.Perm.append_left (Tree.ids c) List.perm_append_comm)).mp hnodup
    obtain ⟨hAC, hB, hdisjACB⟩ := List.nodup_append.mp hACB
    obtain ⟨hAnd, hCnd, hdisjAC⟩ := List.nodup_append.mp hAC
    obtain ⟨s_a, hs_a⟩ : ∃ x, x = setN s c.rootId
        { getN s c.rootId with parent := none, mark := false } := ⟨_, rfl⟩
    have len_a : s_a.nodes.length = s.nodes.length := by
      rw [hs_a]
      exact length_setN _ _ _
    have g_a_root : getN s_a c.rootId =
        { getN s c.rootId with parent := none, mark := false } := by
      rw [hs_a]
      exact getN_setN_self _ _ _ hrootlen
    have g_a : ∀ j, j ≠ c.rootId → getN s_a j = getN s j := by
      intro j hj
      rw [hs_a]
      exact getN_setN_ne _ _ _ _ hj
    have hrootC : c.rootId ∉ Forest.ids F := hdisjAC hrootA
    have hrootB : c.rootId ∉ Forest.ids cs' := hdisjACB
      (List.mem_append_left _ hrootA)
    have hInv_a : InvStruct0 s_a h F := by
      refine InvStruct0_frame s s_a h h F ?_ (le_of_eq len_a.symm) rfl hInv
      intro j hj
      exact g_a j (fun hh => hrootC (hh ▸ hj))
    have hwf_a_c : wfTree s_a c := by
      rw [hs_a]
      refine wfTree_set_static s c _ hAnd rfl rfl rfl (hwf c (List.mem_cons_self _ _))
    have hwf_a : ∀ c' ∈ cs', wfTree s_a c' := by
      intro c' hc'
      refine wfTree_eq_congr s s_a c' ?_ (hwf c' (List.mem_cons_of_mem _ hc'))
      intro j hj
      exact g_a j (fun hh => hrootB (hh ▸ mem_forest_ids_of_mem cs' c' hc' j hj))
    have hvalA : ∀ j ∈ Tree.ids c, (getN s_a j).value.isSome = true := by
      intro j hj
      by_cases hjr : j = c.rootId
      · rw [hjr, g_a_root]
        exact hval _ (hmemA _ (hjr ▸ hj))
      · rw [g_a j hjr]
        exact hval _ (hmemA _ hj)
    obtain ⟨F1, hI1, hshape1, hAS1, hroot1, huntS1, huntN1, hlen1, htot1⟩ :=
      add_to_root_list_spec0 s_a h F c hInv_a hwf_a_c
        (by
          refine (List.Perm.nodup_iff ?_).mpr hAC
          exact List.Perm.refl _)
        (by
          intro j hj
          rw [len_a]
          exact hlen _ (hmemA _ hj))
        hvalA
    have hperm1 : (Forest.ids F1).Perm (Tree.ids c ++ Forest.ids F) := by
      refine forest_shape_perm c F F1 ?_
      rcases hshape1 with ⟨hF, hF1, _⟩ | ⟨t0, rest, hF, ⟨_, hF1, _⟩ | ⟨_, hF1, _⟩⟩
      · exact Or.inl ⟨hF, hF1⟩
      · exact Or.inr ⟨t0, rest, hF, Or.inl hF1⟩
      · exact Or.inr ⟨t0, rest, hF, Or.inr hF1⟩
    have hkvd1 : ∀ j, (getN (add_to_root_list s_a h c.rootId).1 j).key =
        (getN s_a j).key ∧
        (getN (add_to_root_list s_a h c.rootId).1 j).value =
          (getN s_a j).value ∧
        (getN (add_to_root_list s_a h c.rootId).1 j).degree =
          (getN s_a j).degree := by
      intro j
      by_cases hj : j = c.rootId
      · rw [hj]
        exact ⟨hroot1.1, hroot1.2.1, hroot1.2.2.1⟩
      · exact ⟨(hAS1 j hj).1, (hAS1 j hj).2.1, (hAS1 j hj).2.2.1⟩
    have hkvd_a : ∀ j, (getN s_a j).key = (getN s j).key ∧
        (getN s_a j).value = (getN s j).value ∧
        (getN s_a j).degree = (getN s j).degree := by
      intro j
      by_cases hj : j = c.rootId
      · rw [hj, g_a_root]
        exact ⟨rfl, rfl, rfl⟩
      · rw [g_a j hj]
        exact ⟨rfl, rfl, rfl⟩
    have hwf_b : ∀ c' ∈ cs', wfTree (add_to_root_list s_a h c.rootId).1 c' := by
      intro c' hc'
      refine wfTree_eq_congr s_a _ c' ?_ (hwf_a c' hc')
      intro j hj
      have hjB : j ∈ Forest.ids cs' := mem_forest_ids_of_mem cs' c' hc' j hj
      have hjc : j ≠ c.rootId := fun hh => hrootB (hh ▸ hjB)
      have hjC : j ∉ Forest.ids F := fun hh =>
        hdisjACB (List.mem_append_right _ hh) hjB
      rcases hshape1 with ⟨hF, _, _⟩ | ⟨t0, rest, hF, _⟩
      · exact huntN1 hF j hjc
      · refine huntS1 t0 rest hF j hjc ?_ ?_
        · intro hh
          exact hjC (hh ▸ mem_forest_ids_of_mem F t0
            (by rw [hF]; exact List.mem_cons_self _ _) _ (rootId_mem_ids t0))
        · obtain ⟨_, hring_a, _, _, _⟩ := hInv_a
          have hsucc : (getN s_a t0.rootId).right =
              ((rest.map Tree.rootId).headD t0.rootId) := by
            have := ring_succ s_a t0.rootId (rest.map Tree.rootId)
              (by rw [hF, List.map_cons] at hring_a; exact hring_a)
              [] t0.rootId (rest.map Tree.rootId) rfl
            exact this.1
          rw [hsucc]
          intro hh
          apply hjC
          have hmem : ((rest.map Tree.rootId).headD t0.rootId) ∈
              t0.rootId :: rest.map Tree.rootId := headD_mem _ _
          rw [← hh] at hmem
          have : j ∈ F.map Tree.rootId := by
            rw [hF, List.map_cons]
            exact hmem
          exact roots_sub_ids F j this
    have hstep : add_children ((c :: cs').map Tree.rootId) s h =
        add_children (cs'.map Tree.rootId)
          (add_to_root_list s_a h c.rootId).1
          (add_to_root_list s_a h c.rootId).2 := by
      rw [hs_a]
      rfl
    have hnodup_b : (Forest.ids cs' ++ Forest.ids F1).Nodup := by
      have hp : (Forest.ids cs' ++ Forest.ids F1).Perm
          (Forest.ids cs' ++ (Tree.ids c ++ Forest.ids F)) :=
        List.Perm.append_left _ hperm1
      have hq : (Forest.ids cs' ++ (Tree.ids c ++ Forest.ids F)).Nodup :=
        (List.Perm.nodup_iff
          (@List.perm_append_comm _ (Forest.ids cs')
            (Tree.ids c ++ Forest.ids F))).mpr hACB
      exact (List.Perm.nodup_iff hp).mpr hq
    obtain ⟨F2, hI2, hperm2, hkvd2, hlen2, htot2⟩ :=
      ih (add_to_root_list s_a h c.rootId).1
        (add_to_root_list s_a h c.rootId).2 F1 hI1 hwf_b hnodup_b
        (by
          intro j hj
          rw [hlen1, len_a]
          exact hlen _ (hmemB _ hj))
        (by
          intro j hj
          rw [(hkvd1 j).2.1, (hkvd_a j).2.1]
          exact hval _ (hmemB _ hj))
    rw [hstep]
    refine ⟨F2, hI2, ?_, ?_, ?_, ?_⟩
    · refine hperm2.trans ?_
      refine (List.Perm.append_left _ hperm1).trans ?_
      rw [forest_ids_cons, ← List.append_assoc]
      exact List.Perm.append_right _ List.perm_append_comm
    · intro j
      refine ⟨?_, ?_, ?_⟩
      · rw [(hkvd2 j).1, (hkvd1 j).1, (hkvd_a j).1]
      · rw [(hkvd2 j).2.1, (hkvd1 j).2.1, (hkvd_a j).2.1]
      · rw [(hkvd2 j).2.2, (hkvd1 j).2.2, (hkvd_a j).2.2]
    · rw [hlen2, hlen1, len_a]
    · rw [htot2, htot1]

theorem mem_filterMap_of_slot (dt : List (Option Nat)) :
    ∀ d x : Nat, dt.get? d = some (some x) → x ∈ dt.filterMap id := by
  induction dt with
  | nil =>
    intro d x hd
    rw [List.get?_nil] at hd
    cases hd
  | cons o dt' ih =>
    intro d x hd
    cases d with
    | zero =>
      rw [List.get?_cons_zero] at hd
      have ho : o = some x := Option.some.inj hd
      subst ho
      rw [List.filterMap_cons]
      exact List.mem_cons_self _ _
    | succ d' =>
      rw [List.get?_cons_succ] at hd
      cases o with
      | none =>
        rw [List.filterMap_cons]
        exact ih d' x hd
      | some y =>
        rw [List.filterMap_cons]
        exact List.mem_cons_of_mem _ (ih d' x hd)

theorem ringP_rotate_to (s : Store) :
    ∀ (pre : List Nat) (x : Nat) (post : List Nat),
    ringP s (pre ++ x :: post) → ringP s (x :: post ++ pre) := by
  intro pre
  induction pre with
  | nil =>
    intro x post hr
    rw [List.nil_append] at hr
    rw [List.append_nil]
    exact hr
  | cons a pre' ih =>
    intro x post hr
    rw [List.cons_append] at hr
    have h1 := ringP_rotate s a (pre' ++ x :: post) hr
    rw [List.append_assoc, List.cons_append] at h1
    have h2 := ih x (post ++ [a]) h1
    rw [List.cons_append, List.append_assoc, List.singleton_append] at h2
    rw [List.cons_append]
    exact h2

theorem ring_splice_out (s s1 s2 : Store) (x y : Nat) (rest2 : List Nat)
    (hr : ringP s (x :: y :: rest2)) (hnd : (x :: y :: rest2).Nodup)
    (hlen : ∀ j ∈ x :: y :: rest2, j < s.nodes.length)
    (hs1 : s1 = setN s ((getN s x).left)
      { getN s ((getN s x).left) with right := (getN s x).right })
    (hs2 : s2 = setN s1 ((getN s x).right)
      { getN s1 ((getN s x).right) with left := (getN s x).left }) :
    ringP s2 (y :: rest2) ∧
    (∀ j, agreeStatic (getN s2 j) (getN s j)) ∧
    (∀ j, j ≠ (getN s x).left → j ≠ (getN s x).right → getN s2 j = getN s j) ∧
    s2.nodes.length = s.nodes.length := by
  have hwrap : rlink s ((y :: rest2).getLastD x) x := hr.2
  rw [List.getLastD_cons] at hwrap
  have hlmem : rest2.getLastD y ∈ y :: rest2 := getLastD_mem rest2 y
  have hlx : (getN s x).left = rest2.getLastD y := hwrap.2
  have hxny : x ∉ y :: rest2 := (List.nodup_cons.mp hnd).1
  have hlne : ¬ (getN s x).left = x := by
    rw [hlx]
    intro hh
    exact hxny (hh ▸ hlmem)
  have hrx : (getN s x).right = y := (List.chain'_cons.mp hr.1).1.1
  have hrne : (getN s x).right ≠ x := by
    rw [hrx]
    intro hh
    exact hxny (hh ▸ List.mem_cons_self _ _)
  have heq : remove_from_root_list s x =
      (setN s2 x { getN s2 x with left := x, right := x },
        some ((getN s x).right)) := by
    rw [hs2, hs1]
    unfold remove_from_root_list
    rw [if_neg hlne]
  have g2 : ∀ j, j ≠ (getN s x).left → j ≠ (getN s x).right →
      getN s2 j = getN s j := by
    intro j h1 h2
    rw [hs2, getN_setN_ne _ _ _ _ h2, hs1, getN_setN_ne _ _ _ _ h1]
  have g2x : getN s2 x = getN s x := g2 x (fun hh => hlne hh.symm)
    (fun hh => hrne hh.symm)
  have grem : ∀ j, j ≠ x → getN (remove_from_root_list s x).1 j = getN s2 j := by
    intro j hj
    rw [heq]
    exact getN_setN_ne _ _ _ _ hj
  obtain ⟨hAS, hunt, _, hcons⟩ := ring_remove_head s x (y :: rest2) hr hnd hlen
  obtain ⟨_, hringRem⟩ := hcons y rest2 rfl
  refine ⟨?_, ?_, g2, ?_⟩
  · apply ringP_transfer (remove_from_root_list s x).1 s2 _ ?_ hringRem
    intro a ha b hb hab
    have hax : a ≠ x := fun hh => hxny (hh ▸ ha)
    have hbx : b ≠ x := fun hh => hxny (hh ▸ hb)
    exact ⟨by rw [← grem a hax]; exact hab.1, by rw [← grem b hbx]; exact hab.2⟩
  · intro j
    by_cases hj : j = x
    · rw [hj, g2x]
      exact agreeStatic_refl _
    · rw [← grem j hj]
      exact hAS j
  · rw [hs2, length_setN, hs1, length_setN]

theorem link_spec (s : Store) (cr : Nat) (ccs : List Tree) (p : Nat)
    (csp : List Tree) (y : Nat) (restRing : List Nat)
    (hwc : wfTree s (Tree.node cr ccs))
    (hwp : wfTree s (Tree.node p csp))
    (hnd : (Tree.ids (Tree.node cr ccs) ++ Tree.ids (Tree.node p csp)).Nodup)
    (hlenT : ∀ j ∈ Tree.ids (Tree.node cr ccs) ++ Tree.ids (Tree.node p csp),
      j < s.nodes.length)
    (hkey : (getN s p).key ≤ (getN s cr).key)
    (hring : ringP s (cr :: y :: restRing))
    (hndRing : (cr :: y :: restRing).Nodup)
    (hlenRing : ∀ j ∈ cr :: y :: restRing, j < s.nodes.length)
    (hRingNoInt : ∀ m ∈ cr :: y :: restRing,
      m ∉ Forest.ids ccs ∧ m ∉ Forest.ids csp) :
    ∃ cs', wfTree (link s cr p) (Tree.node p cs') ∧
      (Tree.ids (Tree.node p cs')).Perm
        (Tree.ids (Tree.node cr ccs) ++ Tree.ids (Tree.node p csp)) ∧
      (getN (link s cr p) p).parent = (getN s p).parent ∧
      ringP (link s cr p) (y :: restRing) ∧
      (∀ j, (getN (link s cr p) j).key = (getN s j).key ∧
            (getN (link s cr p) j).value = (getN s j).value) ∧
      (∀ j, j ≠ p → (getN (link s cr p) j).degree = (getN s j).degree) ∧
      (getN (link s cr p) p).degree = (getN s p).degree + 1 ∧
      (∀ j, j ∉ Tree.ids (Tree.node cr ccs) →
        j ∉ Tree.ids (Tree.node p csp) →
        agreeStatic (getN (link s cr p) j) (getN s j)) ∧
      (∀ j, j ∉ Tree.ids (Tree.node cr ccs) →
        j ∉ Tree.ids (Tree.node p csp) → j ∉ cr :: y :: restRing →
        getN (link s cr p) j = getN s j) ∧
      (link s cr p).nodes.length = s.nodes.length := by
  obtain ⟨hndU, hndP, hdisjUP⟩ := List.nodup_append.mp hnd
  have hcrU : cr ∈ Tree.ids (Tree.node cr ccs) := rootId_mem_ids (Tree.node cr ccs)
  have hpP : p ∈ Tree.ids (Tree.node p csp) := rootId_mem_ids (Tree.node p csp)
  have hcrp : cr ≠ p := fun hh => hdisjUP hcrU (hh ▸ hpP)
  have hpne_cr : p ≠ cr := fun hh => hcrp hh.symm
  have hcrlen : cr < s.nodes.length := hlenT cr (List.mem_append_left _ hcrU)
  have hplen : p < s.nodes.length := hlenT p (List.mem_append_right _ hpP)
  have hccs_sub : ∀ j ∈ Forest.ids ccs, j ∈ Tree.ids (Tree.node cr ccs) :=
    fun j hj => (mem_ids_node cr ccs j).mpr (Or.inr hj)
  have hcsp_sub : ∀ j ∈ Forest.ids csp, j ∈ Tree.ids (Tree.node p csp) :=
    fun j hj => (mem_ids_node p csp j).mpr (Or.inr hj)
  have hcr_nccs : cr ∉ Forest.ids ccs := by
    rw [Tree.ids] at hndU
    exact (List.nodup_cons.mp hndU).1
  have hp_ncsp : p ∉ Forest.ids csp := by
    rw [Tree.ids] at hndP
    exact (List.nodup_cons.mp hndP).1
  have hcr_ncsp : cr ∉ Forest.ids csp := fun hh =>
    hdisjUP hcrU (hcsp_sub cr hh)
  have hp_nccs : p ∉ Forest.ids ccs := fun hh =>
    hdisjUP (hccs_sub p hh) hpP
  have hxny : cr ∉ y :: restRing := (List.nodup_cons.mp hndRing).1
  have hwrap : rlink s ((y :: restRing).getLastD cr) cr := hring.2
  rw [List.getLastD_cons] at hwrap
  have hLdef : (getN s cr).left = restRing.getLastD y := hwrap.2
  have hLmem : (getN s cr).left ∈ y :: restRing := by
    rw [hLdef]
    exact getLastD_mem restRing y
  have hRdef : (getN s cr).right = y := (List.chain'_cons.mp hring.1).1.1
  have hRmem : (getN s cr).right ∈ y :: restRing := by
    rw [hRdef]
    exact List.mem_cons_self _ _
  have hLnint := hRingNoInt _ (List.mem_cons_of_mem _ hLmem)
  have hRnint := hRingNoInt _ (List.mem_cons_of_mem _ hRmem)
  have hLncr : (getN s cr).left ≠ cr := fun hh => hxny (hh ▸ hLmem)
  have hRncr : (getN s cr).right ≠ cr := fun hh => hxny (hh ▸ hRmem)
  obtain ⟨s1, hs1⟩ : ∃ z, z = setN s ((getN s cr).left)
      { getN s ((getN s cr).left) with right := (getN s cr).right } := ⟨_, rfl⟩
  obtain ⟨s2, hs2⟩ : ∃ z, z = setN s1 ((getN s cr).right)
      { getN s1 ((getN s cr).right) with left := (getN s cr).left } := ⟨_, rfl⟩
  obtain ⟨ring2, AS2, unt2, len2⟩ :=
    ring_splice_out s s1 s2 cr y restRing hring hndRing hlenRing hs1 hs2
  obtain ⟨s3, hs3⟩ : ∃ z, z = setN s2 cr
      { getN s2 cr with parent := some p, mark := false } := ⟨_, rfl⟩
  have g2cr : getN s2 cr = getN s cr :=
    unt2 cr (fun hh => hLncr hh.symm) (fun hh => hRncr hh.symm)
  have len3 : s3.nodes.length = s.nodes.length := by
    rw [hs3, length_setN, len2]
  have g3cr : getN s3 cr = { getN s cr with parent := some p, mark := false } := by
    rw [hs3, getN_setN_self s2 cr _ (by rw [len2]; exact hcrlen), g2cr]
  have g3 : ∀ j, j ≠ cr → getN s3 j = getN s2 j := by
    intro j hj
    rw [hs3]
    exact getN_setN_ne _ _ _ _ hj
  have hAS3 : ∀ j, j ≠ cr → agreeStatic (getN s3 j) (getN s j) := by
    intro j hj
    rw [g3 j hj]
    exact AS2 j
  have hunt3 : ∀ j, j ≠ cr → j ≠ (getN s cr).left → j ≠ (getN s cr).right →
      getN s3 j = getN s j := by
    intro j h1 h2 h3
    rw [g3 j h1]
    exact unt2 j h2 h3
  have hint_ccs : ∀ j ∈ Forest.ids ccs, getN s3 j = getN s j := by
    intro j hj
    refine hunt3 j ?_ ?_ ?_
    · exact fun hh => hcr_nccs (hh ▸ hj)
    · exact fun hh => hLnint.1 (hh ▸ hj)
    · exact fun hh => hRnint.1 (hh ▸ hj)
  have hint_csp : ∀ j ∈ Forest.ids csp, getN s3 j = getN s j := by
    intro j hj
    refine hunt3 j ?_ ?_ ?_
    · exact fun hh => hcr_ncsp (hh ▸ hj)
    · exact fun hh => hLnint.2 (hh ▸ hj)
    · exact fun hh => hRnint.2 (hh ▸ hj)
  have hkd3 : ∀ j, (getN s3 j).key = (getN s j).key ∧
      (getN s3 j).value = (getN s j).value ∧
      (getN s3 j).degree = (getN s j).degree ∧
      (getN s3 j).child = (getN s j).child := by
    intro j
    by_cases hj : j = cr
    · rw [hj, g3cr]
      exact ⟨rfl, rfl, rfl, rfl⟩
    · exact ⟨(hAS3 j hj).1, (hAS3 j hj).2.1, (hAS3 j hj).2.2.1,
        (hAS3 j hj).2.2.2.2.2⟩
  have hring3 : ringP s3 (y :: restRing) := by
    apply ringP_transfer s2 s3 _ ?_ ring2
    intro a ha b hb hab
    have hac : a ≠ cr := fun hh => hxny (hh ▸ ha)
    have hbc : b ≠ cr := fun hh => hxny (hh ▸ hb)
    exact ⟨by rw [g3 a hac]; exact hab.1, by rw [g3 b hbc]; exact hab.2⟩
  cases hwp with
  | mk _ _ hdegP hchildP hringP2 hparP hkeyP hcsP =>
  have hchild3p : (getN s3 p).child = (getN s p).child := (hkd3 p).2.2.2
  cases hwc with
  | mk _ _ hdegU hchildU hringU hparU hkeyU hcsU =>
  cases csp with
  | nil =>
    have hchild3 : (getN s3 p).child = none := by
      rw [hchild3p, hchildP]
      rfl
    obtain ⟨s4, hs4⟩ : ∃ z, z = setN s3 cr
        { getN s3 cr with left := cr, right := cr } := ⟨_, rfl⟩
    obtain ⟨s5, hs5⟩ : ∃ z, z = setN s4 p
        { getN s4 p with
          child := some cr
          degree := (getN s4 p).degree + 1 } := ⟨_, rfl⟩
    have hfin : link s cr p = s5 := by
      have hc := hchild3
      rw [hs3, hs2, hs1] at hc
      rw [hs5, hs4, hs3, hs2, hs1]
      unfold link
      dsimp only
      rw [hc]
    have len4 : s4.nodes.length = s.nodes.length := by
      rw [hs4, length_setN, len3]
    have len5 : s5.nodes.length = s.nodes.length := by
      rw [hs5, length_setN, len4]
    have g4cr : getN s4 cr = { getN s3 cr with left := cr, right := cr } := by
      rw [hs4]
      exact getN_setN_self _ _ _ (by rw [len3]; exact hcrlen)
    have g4 : ∀ j, j ≠ cr → getN s4 j = getN s3 j := by
      intro j hj
      rw [hs4]
      exact getN_setN_ne _ _ _ _ hj
    have g5p : getN s5 p = { getN s4 p with
        child := some cr
        degree := (getN s4 p).degree + 1 } := by
      rw [hs5]
      exact getN_setN_self _ _ _ (by rw [len4]; exact hplen)
    have g5 : ∀ j, j ≠ p → getN s5 j = getN s4 j := by
      intro j hj
      rw [hs5]
      exact getN_setN_ne _ _ _ _ hj
    have g4p : getN s4 p = getN s3 p := g4 p hpne_cr
    have g5cr : getN s5 cr = { getN s3 cr with left := cr, right := cr } := by
      rw [g5 cr hcrp, g4cr]
    have hkv5 : ∀ j, (getN s5 j).key = (getN s j).key ∧
        (getN s5 j).value = (getN s j).value := by
      intro j
      by_cases hjp : j = p
      · rw [hjp, g5p, g4p]
        exact ⟨(hkd3 p).1, (hkd3 p).2.1⟩
      · by_cases hjc : j = cr
        · rw [hjc, g5cr, g3cr]
          exact ⟨rfl, rfl⟩
        · rw [g5 j hjp, g4 j hjc]
          exact ⟨(hkd3 j).1, (hkd3 j).2.1⟩
    have hdeg5 : ∀ j, j ≠ p → (getN s5 j).degree = (getN s j).degree := by
      intro j hjp
      by_cases hjc : j = cr
      · rw [hjc, g5cr, g3cr]
      · rw [g5 j hjp, g4 j hjc]
        exact (hkd3 j).2.2.1
    have hdeg5p : (getN s5 p).degree = (getN s p).degree + 1 := by
      rw [g5p]
      show (getN s4 p).degree + 1 = _
      rw [g4p, (hkd3 p).2.2.1]
    have hint5_ccs : ∀ j ∈ Forest.ids ccs, getN s5 j = getN s j := by
      intro j hj
      rw [g5 j (fun hh => hp_nccs (hh ▸ hj)), g4 j (fun hh => hcr_nccs (hh ▸ hj))]
      exact hint_ccs j hj
    refine ⟨[Tree.node cr ccs], ?_, ?_, ?_, ?_, ?_, ?_, ?_, ?_, ?_, ?_⟩
    · rw [hfin]
      refine wfTree.mk _ _ ?_ ?_ ?_ ?_ ?_ ?_
      · rw [g5p]
        show (getN s4 p).degree + 1 = _
        rw [g4p, (hkd3 p).2.2.1, hdegP]
        rfl
      · rw [g5p]
        rfl
      · refine ⟨List.chain'_singleton _, ?_⟩
        show rlink s5 cr cr
        refine ⟨?_, ?_⟩
        · rw [g5cr]
        · rw [g5cr]
      · intro c hc
        rcases List.mem_cons.mp hc with rfl | h2
        · show (getN s5 cr).parent = some p
          rw [g5cr]
          show (getN s3 cr).parent = some p
          rw [g3cr]
        · cases h2
      · intro c hc
        rcases List.mem_cons.mp hc with rfl | h2
        · show (getN s5 p).key ≤ (getN s5 cr).key
          rw [(hkv5 p).1, (hkv5 cr).1]
          exact hkey
        · cases h2
      · intro c hc
        rcases List.mem_cons.mp hc with rfl | h2
        · refine wfTree_congr s s5 (Tree.node cr ccs) ?_ ?_
            (wfTree.mk _ _ hdegU hchildU hringU hparU hkeyU hcsU)
          · rw [show (Tree.node cr ccs).rootId = cr from rfl, g5cr]
            show agreeRoot { getN s3 cr with left := cr, right := cr } (getN s cr)
            rw [g3cr]
            exact ⟨rfl, rfl, rfl⟩
          · intro j hj
            rw [hint5_ccs j hj]
            exact ⟨rfl, rfl, rfl, rfl, rfl, rfl⟩
        · cases h2
    · have h1 : Tree.ids (Tree.node p [Tree.node cr ccs]) =
          p :: (Tree.ids (Tree.node cr ccs) ++ []) := by
        rw [Tree.ids, forest_ids_cons, forest_ids_nil]
      have h2 : Tree.ids (Tree.node p []) = [p] := by
        rw [Tree.ids, forest_ids_nil]
      rw [h1, h2]
      exact List.perm_middle.symm
    · rw [hfin, g5p]
      show (getN s4 p).parent = _
      rw [g4p]
      by_cases hjp : p = cr
      · exact absurd hjp hpne_cr
      · exact (hAS3 p hjp).2.2.2.2.1
    · rw [hfin]
      apply ringP_transfer s3 s5 _ ?_ hring3
      intro a ha b hb hab
      refine ⟨?_, ?_⟩
      · by_cases hap : a = p
        · rw [hap, g5p]
          show (getN s4 p).right = b
          rw [g4p]
          rw [hap] at hab
          exact hab.1
        · rw [g5 a hap, g4 a (fun hh => hxny (hh ▸ ha))]
          exact hab.1
      · by_cases hbp : b = p
        · rw [hbp, g5p]
          show (getN s4 p).left = a
          rw [g4p]
          rw [hbp] at hab
          exact hab.2
        · rw [g5 b hbp, g4 b (fun hh => hxny (hh ▸ hb))]
          exact hab.2
    · rw [hfin]
      exact hkv5
    · rw [hfin]
      exact hdeg5
    · rw [hfin]
      exact hdeg5p
    · rw [hfin]
      intro j hjU hjP
      have hjcr : j ≠ cr := fun hh => hjU (hh ▸ hcrU)
      have hjp : j ≠ p := fun hh => hjP (hh ▸ hpP)
      have h5 : getN s5 j = getN s3 j := by
        rw [g5 j hjp, g4 j hjcr]
      rw [h5]
      exact hAS3 j hjcr
    · rw [hfin]
      intro j hjU hjP hjR
      have hjcr : j ≠ cr := fun hh => hjU (hh ▸ hcrU)
      have hjp : j ≠ p := fun hh => hjP (hh ▸ hpP)
      rw [g5 j hjp, g4 j hjcr]
      refine hunt3 j hjcr ?_ ?_
      · exact fun hh => hjR (hh ▸ List.mem_cons_of_mem _ hLmem)
      · exact fun hh => hjR (hh ▸ List.mem_cons_of_mem _ hRmem)
    · rw [hfin]
      exact len5
  | cons c0 csr =>
    have hchild3 : (getN s3 p).child = some c0.rootId := by
      rw [hchild3p, hchildP]
      rfl
    have hndcsp : (Forest.ids (c0 :: csr)).Nodup := by
      rw [Tree.ids] at hndP
      exact (List.nodup_cons.mp hndP).2
    have hrootsP : (c0.rootId :: csr.map Tree.rootId).Nodup := by
      have := roots_nodup _ hndcsp
      rw [List.map_cons] at this
      exact this
    have hroots_subP : ∀ w ∈ c0.rootId :: csr.map Tree.rootId,
        w ∈ Forest.ids (c0 :: csr) := by
      intro w hw
      refine roots_sub_ids (c0 :: csr) w ?_
      rw [List.map_cons]
      exact hw
    have hcr_nring : cr ∉ c0.rootId :: csr.map Tree.rootId := by
      intro hh
      exact hcr_ncsp (hroots_subP cr hh)
    have hring3P : ringP s3 (c0.rootId :: csr.map Tree.rootId) := by
      have hr0 : ringP s (c0.rootId :: csr.map Tree.rootId) := by
        rw [List.map_cons] at hringP2
        exact hringP2
      apply ringP_transfer s s3 _ ?_ hr0
      intro a ha b hb hab
      refine ⟨?_, ?_⟩
      · rw [hint_csp a (hroots_subP a ha)]
        exact hab.1
      · rw [hint_csp b (hroots_subP b hb)]
        exact hab.2
    have hlenring3 : ∀ j ∈ c0.rootId :: csr.map Tree.rootId,
        j < s3.nodes.length := by
      intro j hj
      rw [len3]
      exact hlenT j (List.mem_append_right _ (hcsp_sub j (hroots_subP j hj)))
    obtain ⟨ri4, rAS4, rFr4⟩ := ring_insert s3 c0.rootId cr
      (csr.map Tree.rootId) hring3P hrootsP hcr_nring hlenring3
      (by rw [len3]; exact hcrlen)
    obtain ⟨s4, hs4⟩ : ∃ z, z = insert_into_list s3 c0.rootId cr := ⟨_, rfl⟩
    obtain ⟨s5, hs5⟩ : ∃ z, z = setN s4 p
        { getN s4 p with degree := (getN s4 p).degree + 1 } := ⟨_, rfl⟩
    have hfin : link s cr p = s5 := by
      have hc := hchild3
      rw [hs3, hs2, hs1] at hc
      rw [hs5, hs4, hs3, hs2, hs1]
      unfold link
      dsimp only
      rw [hc]
    have len4 : s4.nodes.length = s.nodes.length := by
      rw [hs4]
      show (insert_into_list s3 c0.rootId cr).nodes.length = s.nodes.length
      unfold insert_into_list
      rw [length_setN, length_setN, length_setN, len3]
    have len5 : s5.nodes.length = s.nodes.length := by
      rw [hs5, length_setN, len4]
    have rAS4' : ∀ j, agreeStatic (getN s4 j) (getN s3 j) := by
      intro j
      rw [hs4]
      exact rAS4 j
    have rFr4' : ∀ j, j ≠ c0.rootId → j ≠ cr → j ≠ (getN s3 c0.rootId).right →
        getN s4 j = getN s3 j := by
      intro j h1 h2 h3
      rw [hs4]
      exact rFr4 j h1 h2 h3
    have hec_s : getN s3 c0.rootId = getN s c0.rootId :=
      hint_csp c0.rootId (hroots_subP c0.rootId (List.mem_cons_self _ _))
    have hec_right_mem : (getN s3 c0.rootId).right ∈
        c0.rootId :: csr.map Tree.rootId := by
      have := (ring_succ s3 c0.rootId (csr.map Tree.rootId) hring3P
        [] c0.rootId (csr.map Tree.rootId) rfl).1
      rw [this]
      exact headD_mem _ _
    have g5p : getN s5 p = { getN s4 p with
        degree := (getN s4 p).degree + 1 } := by
      rw [hs5]
      exact getN_setN_self _ _ _ (by rw [len4]; exact hplen)
    have g5 : ∀ j, j ≠ p → getN s5 j = getN s4 j := by
      intro j hj
      rw [hs5]
      exact getN_setN_ne _ _ _ _ hj
    have g4p : getN s4 p = getN s3 p := by
      refine rFr4' p ?_ hpne_cr ?_
      · exact fun hh => hp_ncsp (hroots_subP _ (hh ▸ List.mem_cons_self _ _))
      · intro hh
        exact hp_ncsp (hroots_subP _ (hh ▸ hec_right_mem))
    have hAS5 : ∀ j, j ≠ p → j ≠ cr → agreeStatic (getN s5 j) (getN s j) := by
      intro j hjp hjcr
      rw [g5 j hjp]
      exact agreeStatic_trans (rAS4' j) (hAS3 j hjcr)
    have hkv5 : ∀ j, (getN s5 j).key = (getN s j).key ∧
        (getN s5 j).value = (getN s j).value := by
      intro j
      by_cases hjp : j = p
      · rw [hjp, g5p]
        refine ⟨?_, ?_⟩
        · show (getN s4 p).key = _
          rw [g4p, (hkd3 p).1]
        · show (getN s4 p).value = _
          rw [g4p, (hkd3 p).2.1]
      · rw [g5 j hjp]
        refine ⟨?_, ?_⟩
        · rw [(rAS4' j).1, (hkd3 j).1]
        · rw [(rAS4' j).2.1, (hkd3 j).2.1]
    have hdeg5 : ∀ j, j ≠ p → (getN s5 j).degree = (getN s j).degree := by
      intro j hjp
      rw [g5 j hjp, (rAS4' j).2.2.1, (hkd3 j).2.2.1]
    have hdeg5p : (getN s5 p).degree = (getN s p).degree + 1 := by
      rw [g5p]
      show (getN s4 p).degree + 1 = _
      rw [g4p, (hkd3 p).2.2.1]
    have hint5_deep : ∀ j, j ∈ Forest.ids ccs ∨
        (j ∈ Forest.ids (c0 :: csr) ∧
          (∀ w ∈ c0 :: csr, j ≠ w.rootId)) → getN s5 j = getN s j := by
      intro j hj
      have hjcs : j ≠ cr ∧ j ≠ (getN s cr).left ∧ j ≠ (getN s cr).right ∧
          j ≠ c0.rootId ∧ j ≠ (getN s3 c0.rootId).right ∧ j ≠ p := by
        rcases hj with hj | ⟨hj, hroots⟩
        · refine ⟨fun hh => hcr_nccs (hh ▸ hj),
            fun hh => hLnint.1 (hh ▸ hj), fun hh => hRnint.1 (hh ▸ hj),
            ?_, ?_, fun hh => hp_nccs (hh ▸ hj)⟩
          · intro hh
            exact hdisjUP (hccs_sub j hj)
              (hcsp_sub _ (hroots_subP _ (hh ▸ List.mem_cons_self _ _)))
          · intro hh
            exact hdisjUP (hccs_sub j hj)
              (hcsp_sub _ (hroots_subP _ (hh ▸ hec_right_mem)))
        · refine ⟨fun hh => hcr_ncsp (hh ▸ hj),
            fun hh => hLnint.2 (hh ▸ hj), fun hh => hRnint.2 (hh ▸ hj),
            hroots c0 (List.mem_cons_self _ _), ?_,
            fun hh => hp_ncsp (hh ▸ hj)⟩
          · intro hh
            rcases List.mem_cons.mp (hec_right_mem) with h1 | h1
            · exact hroots c0 (List.mem_cons_self _ _) (hh.trans h1)
            · obtain ⟨w, hw, hwe⟩ := List.mem_map.mp h1
              exact hroots w (List.mem_cons_of_mem _ hw) (hh.trans hwe.symm)
      rw [g5 j hjcs.2.2.2.2.2, rFr4' j hjcs.2.2.2.1 hjcs.1 hjcs.2.2.2.2.1]
      exact hunt3 j hjcs.1 hjcs.2.1 hjcs.2.2.1
    refine ⟨c0 :: Tree.node cr ccs :: csr, ?_, ?_, ?_, ?_, ?_, ?_, ?_, ?_, ?_, ?_⟩
    · rw [hfin]
      refine wfTree.mk _ _ ?_ ?_ ?_ ?_ ?_ ?_
      · rw [g5p]
        show (getN s4 p).degree + 1 = _
        rw [g4p, (hkd3 p).2.2.1, hdegP]
        rw [List.length_cons, List.length_cons, List.length_cons]
      · rw [g5p]
        show (getN s4 p).child = _
        rw [g4p, hchild3]
        rfl
      · have hmap : (c0 :: Tree.node cr ccs :: csr).map Tree.rootId =
            c0.rootId :: cr :: csr.map Tree.rootId := by
          rw [List.map_cons, List.map_cons]
          rfl
        rw [hmap]
        have hri : ringP s4 (c0.rootId :: cr :: csr.map Tree.rootId) := by
          rw [hs4]
          exact ri4
        apply ringP_transfer s4 s5 _ ?_ hri
        intro a ha b hb hab
        have hmem_notp : ∀ z, z ∈ c0.rootId :: cr :: csr.map Tree.rootId →
            z ≠ p := by
          intro z hz hh
          rcases List.mem_cons.mp hz with h1 | h1
          · apply hp_ncsp
            apply hroots_subP
            rw [← hh, h1]
            exact List.mem_cons_self _ _
          rcases List.mem_cons.mp h1 with h2 | h2
          · apply hcrp
            rw [← h2]
            exact hh
          · apply hp_ncsp
            apply hroots_subP
            rw [← hh]
            exact List.mem_cons_of_mem _ h2
        have hanp : a ≠ p := hmem_notp a ha
        have hbnp : b ≠ p := hmem_notp b hb
        exact ⟨by rw [g5 a hanp]; exact hab.1, by rw [g5 b hbnp]; exact hab.2⟩
      · intro c hc
        rcases List.mem_cons.mp hc with rfl | hc2
        · show (getN s5 c.rootId).parent = some p
          have hne : c.rootId ≠ p := fun hh =>
            hp_ncsp (hroots_subP _ (hh ▸ List.mem_cons_self _ _))
          have hnc : c.rootId ≠ cr := fun hh =>
            hcr_ncsp (hroots_subP _ (hh ▸ List.mem_cons_self _ _))
          rw [g5 _ hne, (rAS4' c.rootId).2.2.2.2.1,
            (hAS3 c.rootId hnc).2.2.2.2.1]
          exact hparP c (List.mem_cons_self _ _)
        rcases List.mem_cons.mp hc2 with rfl | hc3
        · show (getN s5 cr).parent = some p
          rw [g5 cr hcrp, (rAS4' cr).2.2.2.2.1, g3cr]
        · show (getN s5 c.rootId).parent = some p
          have hmemc : c.rootId ∈ c0.rootId :: csr.map Tree.rootId :=
            List.mem_cons_of_mem _ (List.mem_map_of_mem Tree.rootId hc3)
          have hne : c.rootId ≠ p := fun hh =>
            hp_ncsp (hroots_subP _ (hh ▸ hmemc))
          have hnc : c.rootId ≠ cr := fun hh =>
            hcr_ncsp (hroots_subP _ (hh ▸ hmemc))
          rw [g5 _ hne, (rAS4' c.rootId).2.2.2.2.1,
            (hAS3 c.rootId hnc).2.2.2.2.1]
          exact hparP c (List.mem_cons_of_mem _ hc3)
      · intro c hc
        show (getN s5 p).key ≤ (getN s5 c.rootId).key
        rw [(hkv5 p).1, (hkv5 c.rootId).1]
        rcases List.mem_cons.mp hc with rfl | hc2
        · exact hkeyP c (List.mem_cons_self _ _)
        rcases List.mem_cons.mp hc2 with rfl | hc3
        · exact hkey
        · exact hkeyP c (List.mem_cons_of_mem _ hc3)
      · intro c hc
        rcases List.mem_cons.mp hc with rfl | hc2
        · refine wfTree_congr s s5 c ?_ ?_ (hcsP c (List.mem_cons_self _ _))
          · have hne : c.rootId ≠ p := fun hh =>
              hp_ncsp (hroots_subP _ (hh ▸ List.mem_cons_self _ _))
            have hnc : c.rootId ≠ cr := fun hh =>
              hcr_ncsp (hroots_subP _ (hh ▸ List.mem_cons_self _ _))
            exact agreeStatic_to_agreeRoot (hAS5 c.rootId hne hnc)
          · intro j hj
            have hjF : j ∈ Forest.ids (c :: csr) := by
              refine mem_forest_ids_of_mem _ c (List.mem_cons_self _ _) j ?_
              cases c with
              | node ci cci =>
                exact (mem_ids_node ci cci j).mpr (Or.inr hj)
            have heq := hint5_deep j (Or.inr ⟨hjF, fun w hw =>
              interior_root_ne (c :: csr) hndcsp c (List.mem_cons_self _ _)
                j hj w hw⟩)
            rw [heq]
            exact ⟨rfl, rfl, rfl, rfl, rfl, rfl⟩
        rcases List.mem_cons.mp hc2 with rfl | hc3
        · refine wfTree_congr s s5 (Tree.node cr ccs) ?_ ?_
            (wfTree.mk _ _ hdegU hchildU hringU hparU hkeyU hcsU)
          · rw [show (Tree.node cr ccs).rootId = cr from rfl]
            refine ⟨(hkv5 cr).1, hdeg5 cr hcrp, ?_⟩
            rw [g5 cr hcrp, (rAS4' cr).2.2.2.2.2, g3cr]
          · intro j hj
            have heq := hint5_deep j (Or.inl hj)
            rw [heq]
            exact ⟨rfl, rfl, rfl, rfl, rfl, rfl⟩
        · refine wfTree_congr s s5 c ?_ ?_ (hcsP c (List.mem_cons_of_mem _ hc3))
          · have hmemc : c.rootId ∈ c0.rootId :: csr.map Tree.rootId :=
              List.mem_cons_of_mem _ (List.mem_map_of_mem Tree.rootId hc3)
            have hne : c.rootId ≠ p := fun hh =>
              hp_ncsp (hroots_subP _ (hh ▸ hmemc))
            have hnc : c.rootId ≠ cr := fun hh =>
              hcr_ncsp (hroots_subP _ (hh ▸ hmemc))
            exact agreeStatic_to_agreeRoot (hAS5 c.rootId hne hnc)
          · intro j hj
            have hjF : j ∈ Forest.ids (c0 :: csr) := by
              refine mem_forest_ids_of_mem _ c (List.mem_cons_of_mem _ hc3) j ?_
              cases c with
              | node ci cci =>
                exact (mem_ids_node ci cci j).mpr (Or.inr hj)
            have heq := hint5_deep j (Or.inr ⟨hjF, fun w hw =>
              interior_root_ne (c0 :: csr) hndcsp c (List.mem_cons_of_mem _ hc3)
                j hj w hw⟩)
            rw [heq]
            exact ⟨rfl, rfl, rfl, rfl, rfl, rfl⟩
    · have h1 : Tree.ids (Tree.node p (c0 :: Tree.node cr ccs :: csr)) =
          p :: (Tree.ids c0 ++ (Tree.ids (Tree.node cr ccs) ++
            Forest.ids csr)) := by
        rw [Tree.ids, forest_ids_cons, forest_ids_cons]
      have h2 : Tree.ids (Tree.node p (c0 :: csr)) =
          p :: (Tree.ids c0 ++ Forest.ids csr) := by
        rw [Tree.ids, forest_ids_cons]
      rw [h1, h2]
      refine (List.Perm.cons p ?_).trans List.perm_middle.symm
      rw [← List.append_assoc, ← List.append_assoc]
      exact List.Perm.append_right _ List.perm_append_comm
    · rw [hfin, g5p]
      show (getN s4 p).parent = _
      rw [g4p]
      exact (hAS3 p hpne_cr).2.2.2.2.1
    · rw [hfin]
      have hring4 : ringP s4 (y :: restRing) := by
        apply ringP_transfer s3 s4 _ ?_ hring3
        intro a ha b hb hab
        have hfr : ∀ m, m ∈ y :: restRing → getN s4 m = getN s3 m := by
          intro m hm
          refine rFr4' m ?_ ?_ ?_
          · intro hh
            exact ((hRingNoInt m (List.mem_cons_of_mem _ hm)).2)
              (hroots_subP _ (hh ▸ List.mem_cons_self _ _))
          · exact fun hh => hxny (hh ▸ hm)
          · intro hh
            exact ((hRingNoInt m (List.mem_cons_of_mem _ hm)).2)
              (hroots_subP _ (hh ▸ hec_right_mem))
        exact ⟨by rw [hfr a ha]; exact hab.1, by rw [hfr b hb]; exact hab.2⟩
      apply ringP_transfer s4 s5 _ ?_ hring4
      intro a ha b hb hab
      refine ⟨?_, ?_⟩
      · by_cases hap : a = p
        · rw [hap, g5p]
          show (getN s4 p).right = b
          rw [hap] at hab
          exact hab.1
        · rw [g5 a hap]
          exact hab.1
      · by_cases hbp : b = p
        · rw [hbp, g5p]
          show (getN s4 p).left = a
          rw [hbp] at hab
          exact hab.2
        · rw [g5 b hbp]
          exact hab.2
    · rw [hfin]
      exact hkv5
    · rw [hfin]
      exact hdeg5
    · rw [hfin]
      exact hdeg5p
    · rw [hfin]
      intro j hjU hjP
      have hjcr : j ≠ cr := fun hh => hjU (hh ▸ hcrU)
      have hjp : j ≠ p := fun hh => hjP (hh ▸ hpP)
      exact hAS5 j hjp hjcr
    · rw [hfin]
      intro j hjU hjP hjR
      have hjcr : j ≠ cr := fun hh => hjU (hh ▸ hcrU)
      have hjp : j ≠ p := fun hh => hjP (hh ▸ hpP)
      rw [g5 j hjp]
      rw [rFr4' j ?_ hjcr ?_]
      · refine hunt3 j hjcr ?_ ?_
        · exact fun hh => hjR (hh ▸ List.mem_cons_of_mem _ hLmem)
        · exact fun hh => hjR (hh ▸ List.mem_cons_of_mem _ hRmem)
      · intro hh
        exact hjP (hcsp_sub _ (hroots_subP _ (hh ▸ List.mem_cons_self _ _)))
      · intro hh
        exact hjP (hcsp_sub _ (hroots_subP _ (hh ▸ hec_right_mem)))
    · rw [hfin]
      exact len5

theorem get?_lt_some (dt : List (Option Nat)) :
    ∀ e, e < dt.length → ∃ o, dt.get? e = some o := by
  induction dt with
  | nil =>
    intro e he
    rw [List.length] at he
    omega
  | cons o dt' ih =>
    intro e he
    cases e with
    | zero => exact ⟨o, rfl⟩
    | succ e' =>
      rw [List.get?_cons_succ]
      rw [List.length_cons] at he
      exact ih e' (by omega)

theorem get?_oob (dt : List (Option Nat)) :
    ∀ e, dt.length ≤ e → dt.get? e = none := by
  induction dt with
  | nil =>
    intro e _
    rw [List.get?_nil]
  | cons o dt' ih =>
    intro e he
    cases e with
    | zero =>
      rw [List.length_cons] at he
      omega
    | succ e' =>
      rw [List.get?_cons_succ]
      rw [List.length_cons] at he
      exact ih e' (by omega)

theorem interior_mem_ids (w : Tree) (m : Nat)
    (hm : m ∈ Forest.ids w.childTrees) : m ∈ Tree.ids w := by
  cases w with
  | node i cs => exact (mem_ids_node i cs m).mpr (Or.inr hm)

theorem ring_not_interior (u : Tree) (P : List Tree) (O RL : List Nat)
    (hnd : (Tree.ids u ++ Forest.ids P).Nodup)
    (hperm : RL.Perm (u.rootId :: (P.map Tree.rootId ++ O)))
    (hO : ∀ o ∈ O, o ∉ Tree.ids u ++ Forest.ids P) :
    ∀ m ∈ RL, ∀ w, (w = u ∨ w ∈ P) → m ∉ Forest.ids w.childTrees := by
  intro m hm w hw hmint
  have hpoolnd : (Forest.ids (u :: P)).Nodup := by
    rw [forest_ids_cons]
    exact hnd
  have hwpool : w ∈ u :: P := by
    rcases hw with rfl | hw
    · exact List.mem_cons_self _ _
    · exact List.mem_cons_of_mem _ hw
  have hmint' : m ∈ Tree.ids u ++ Forest.ids P := by
    rcases hw with rfl | hw
    · exact List.mem_append_left _ (interior_mem_ids w m hmint)
    · exact List.mem_append_right _
        (mem_forest_ids_of_mem P w hw m (interior_mem_ids w m hmint))
  rcases List.mem_cons.mp (hperm.mem_iff.mp hm) with h1 | h1
  · exact interior_root_ne (u :: P) hpoolnd w hwpool m hmint u
      (List.mem_cons_self _ _) h1
  rcases List.mem_append.mp h1 with h2 | h2
  · obtain ⟨w2, hw2, hw2e⟩ := List.mem_map.mp h2
    exact interior_root_ne (u :: P) hpoolnd w hwpool m hmint w2
      (List.mem_cons_of_mem _ hw2) hw2e.symm
  · exact hO m h2 hmint'

theorem consolidate_link_step (s : Store) (lt wt : Tree) (others : List Tree)
    (RL O : List Nat)
    (hwl : wfTree s lt) (hww : wfTree s wt)
    (hpw : (getN s wt.rootId).parent = none)
    (hoth : ∀ w ∈ others, wfTree s w ∧ (getN s w.rootId).parent = none)
    (hnd : (Tree.ids lt ++ Forest.ids (wt :: others)).Nodup)
    (hkey : (getN s wt.rootId).key ≤ (getN s lt.rootId).key)
    (hlenT : ∀ j ∈ Tree.ids lt ++ Forest.ids (wt :: others), j < s.nodes.length)
    (hring : ringP s RL) (hndRL : RL.Nodup)
    (hlenRL : ∀ j ∈ RL, j < s.nodes.length)
    (hRL : RL.Perm (lt.rootId :: ((wt :: others).map Tree.rootId ++ O)))
    (hO : ∀ o ∈ O, o ∉ Tree.ids lt ++ Forest.ids (wt :: others)) :
    ∃ mt RL2,
      mt.rootId = wt.rootId ∧
      wfTree (link s lt.rootId wt.rootId) mt ∧
      (getN (link s lt.rootId wt.rootId) wt.rootId).parent = none ∧
      (Tree.ids mt).Perm (Tree.ids lt ++ Tree.ids wt) ∧
      (∀ w ∈ others, wfTree (link s lt.rootId wt.rootId) w ∧
        (getN (link s lt.rootId wt.rootId) w.rootId).parent = none) ∧
      ringP (link s lt.rootId wt.rootId) RL2 ∧
      RL2.Perm (wt.rootId :: (others.map Tree.rootId ++ O)) ∧ RL2.Nodup ∧
      (∀ j ∈ RL2, j < (link s lt.rootId wt.rootId).nodes.length) ∧
      (∀ j, (getN (link s lt.rootId wt.rootId) j).key = (getN s j).key ∧
        (getN (link s lt.rootId wt.rootId) j).value = (getN s j).value) ∧
      (∀ j, j ≠ wt.rootId →
        (getN (link s lt.rootId wt.rootId) j).degree = (getN s j).degree) ∧
      (getN (link s lt.rootId wt.rootId) wt.rootId).degree =
        (getN s wt.rootId).degree + 1 ∧
      (∀ j, j ∉ Tree.ids lt ++ Forest.ids (wt :: others) →
        agreeStatic (getN (link s lt.rootId wt.rootId) j) (getN s j)) ∧
      (∀ j, j ∉ Tree.ids lt ++ Forest.ids (wt :: others) → j ∉ RL →
        getN (link s lt.rootId wt.rootId) j = getN s j) ∧
      (link s lt.rootId wt.rootId).nodes.length = s.nodes.length := by
  have hNoInt := ring_not_interior lt (wt :: others) O RL hnd hRL hO
  obtain ⟨hndL, hndWO, hdisjLWO⟩ := List.nodup_append.mp hnd
  have hlmem : lt.rootId ∈ Tree.ids lt := rootId_mem_ids lt
  have hwmemO : wt.rootId ∈ Forest.ids (wt :: others) :=
    mem_forest_ids_of_mem _ wt (List.mem_cons_self _ _) _ (rootId_mem_ids wt)
  have hother_sub : ∀ w ∈ others, ∀ j ∈ Tree.ids w,
      j ∈ Forest.ids (wt :: others) := by
    intro w hw j hj
    exact mem_forest_ids_of_mem _ w (List.mem_cons_of_mem _ hw) j hj
  have hlw_ne : lt.rootId ≠ wt.rootId := fun hh => hdisjLWO hlmem (hh ▸ hwmemO)
  have hcrRL : lt.rootId ∈ RL := hRL.mem_iff.mpr (List.mem_cons_self _ _)
  have hpRL : wt.rootId ∈ RL := by
    refine hRL.mem_iff.mpr (List.mem_cons_of_mem _ (List.mem_append_left _ ?_))
    rw [List.map_cons]
    exact List.mem_cons_self _ _
  obtain ⟨pre, post, hRLsplit⟩ := List.append_of_mem hcrRL
  have hringrot : ringP s (lt.rootId :: post ++ pre) := by
    rw [List.cons_append]
    refine ringP_rotate_to s pre lt.rootId post ?_
    rw [← hRLsplit]
    exact hring
  have hppmem : wt.rootId ∈ post ++ pre := by
    rw [hRLsplit] at hpRL
    rcases List.mem_append.mp hpRL with h1 | h1
    · exact List.mem_append_right _ h1
    · rcases List.mem_cons.mp h1 with h2 | h2
      · exact absurd h2.symm hlw_ne
      · exact List.mem_append_left _ h2
  obtain ⟨y, rest2, hpp⟩ : ∃ y rest2, post ++ pre = y :: rest2 := by
    cases hq : post ++ pre with
    | nil =>
      rw [hq] at hppmem
      cases hppmem
    | cons a b => exact ⟨a, b, rfl⟩
  have hring' : ringP s (lt.rootId :: y :: rest2) := by
    rw [← hpp]
    rw [List.cons_append] at hringrot
    exact hringrot
  have hperm_ring : (lt.rootId :: y :: rest2).Perm RL := by
    rw [← hpp, hRLsplit]
    refine (List.Perm.cons lt.rootId List.perm_append_comm).trans ?_
    exact List.perm_middle.symm
  have hnd' : (lt.rootId :: y :: rest2).Nodup :=
    (List.Perm.nodup_iff hperm_ring).mpr hndRL
  have hlen' : ∀ j ∈ lt.rootId :: y :: rest2, j < s.nodes.length :=
    fun j hj => hlenRL j (hperm_ring.mem_iff.mp hj)
  cases lt with
  | node cr ccs =>
  cases wt with
  | node p csp =>
  have hndLW : (Tree.ids (Tree.node cr ccs) ++ Tree.ids (Tree.node p csp)).Nodup := by
    rw [forest_ids_cons] at hndWO
    obtain ⟨hndW, hndO, hdisjWO⟩ := List.nodup_append.mp hndWO
    refine List.nodup_append.mpr ⟨hndL, hndW, ?_⟩
    intro a ha hb
    exact hdisjLWO ha (by rw [forest_ids_cons]; exact List.mem_append_left _ hb)
  have hlenLW : ∀ j ∈ Tree.ids (Tree.node cr ccs) ++ Tree.ids (Tree.node p csp),
      j < s.nodes.length := by
    intro j hj
    rcases List.mem_append.mp hj with h1 | h1
    · exact hlenT j (List.mem_append_left _ h1)
    · refine hlenT j (List.mem_append_right _ ?_)
      rw [forest_ids_cons]
      exact List.mem_append_left _ h1
  have hRingNoInt : ∀ m ∈ (Tree.node cr ccs).rootId :: y :: rest2,
      m ∉ Forest.ids ccs ∧ m ∉ Forest.ids csp := by
    intro m hm
    have hmRL : m ∈ RL := hperm_ring.mem_iff.mp hm
    constructor
    · exact hNoInt m hmRL (Tree.node cr ccs) (Or.inl rfl)
    · exact hNoInt m hmRL (Tree.node p csp) (Or.inr (List.mem_cons_self _ _))
  obtain ⟨cs', h_wf, h_perm, h_parp, h_ring, h_kv, h_degoff, h_degp, h_AS,
      h_unt, h_len⟩ :=
    link_spec s cr ccs p csp y rest2 hwl hww hndLW hlenLW hkey hring' hnd'
      hlen' hRingNoInt
  rw [show (Tree.node cr ccs).rootId = cr from rfl,
    show (Tree.node p csp).rootId = p from rfl]
  refine ⟨Tree.node p cs', y :: rest2, rfl, h_wf, ?_, h_perm, ?_, h_ring, ?_,
    ?_, ?_, h_kv, h_degoff, h_degp, ?_, ?_, h_len⟩
  · rw [h_parp]
    exact hpw
  · intro w hw
    have hwids : ∀ j ∈ Tree.ids w, j ∉ Tree.ids (Tree.node cr ccs) ∧
        j ∉ Tree.ids (Tree.node p csp) := by
      intro j hj
      have hjWO : j ∈ Forest.ids ((Tree.node p csp) :: others) :=
        hother_sub w hw j hj
      constructor
      · exact fun hh => hdisjLWO hh hjWO
      · intro hh
        rw [forest_ids_cons] at hndWO
        obtain ⟨_, _, hdisjWO⟩ := List.nodup_append.mp hndWO
        exact hdisjWO hh (mem_forest_ids_of_mem others w hw j hj)
    constructor
    · refine wfTree_congr s _ w ?_ ?_ (hoth w hw).1
      · have hroot := hwids w.rootId (rootId_mem_ids w)
        exact agreeStatic_to_agreeRoot (h_AS w.rootId hroot.1 hroot.2)
      · intro j hj
        have hjids : j ∈ Tree.ids w := interior_mem_ids w j hj
        have hjboth := hwids j hjids
        have hjring : j ∉ (Tree.node cr ccs).rootId :: y :: rest2 := by
          intro hh
          have hjRL : j ∈ RL := hperm_ring.mem_iff.mp hh
          exact hNoInt j hjRL w (Or.inr (List.mem_cons_of_mem _ hw)) hj
        rw [h_unt j hjboth.1 hjboth.2 hjring]
        exact ⟨rfl, rfl, rfl, rfl, rfl, rfl⟩
    · have hroot := hwids w.rootId (rootId_mem_ids w)
      rw [(h_AS w.rootId hroot.1 hroot.2).2.2.2.2.1]
      exact (hoth w hw).2
  · have h2 : ((Tree.node p csp) :: others).map Tree.rootId ++ O =
        (Tree.node p csp).rootId :: (others.map Tree.rootId ++ O) := by
      rw [List.map_cons, List.cons_append]
    rw [h2] at hRL
    have h1 : ((Tree.node cr ccs).rootId :: y :: rest2).Perm
        ((Tree.node cr ccs).rootId :: ((Tree.node p csp).rootId ::
          (others.map Tree.rootId ++ O))) := hperm_ring.trans hRL
    exact List.Perm.cons_inv h1
  · exact (List.nodup_cons.mp hnd').2
  · intro j hj
    rw [h_len]
    exact hlen' j (List.mem_cons_of_mem _ hj)
  · intro j hjmem
    refine h_AS j ?_ ?_
    · exact fun hh => hjmem (List.mem_append_left _ hh)
    · intro hh
      refine hjmem (List.mem_append_right _ ?_)
      rw [forest_ids_cons]
      exact List.mem_append_left _ hh
  · intro j hjmem hjRL
    refine h_unt j ?_ ?_ ?_
    · exact fun hh => hjmem (List.mem_append_left _ hh)
    · intro hh
      refine hjmem (List.mem_append_right _ ?_)
      rw [forest_ids_cons]
      exact List.mem_append_left _ hh
    · exact fun hh => hjRL (hperm_ring.mem_iff.mp hh)

theorem consolidate_go_spec :
    ∀ (fuel : Nat) (s : Store) (u : Tree) (P : List Tree)
      (dt : List (Option Nat)) (RL O : List Nat),
    P.length + 1 ≤ fuel →
    wfTree s u →
    (getN s u.rootId).parent = none →
    (∀ w ∈ P, wfTree s w ∧ (getN s w.rootId).parent = none) →
    (Tree.ids u ++ Forest.ids P).Nodup →
    (∀ j ∈ Tree.ids u ++ Forest.ids P, j < s.nodes.length ∧
      (getN s j).value.isSome = true) →
    ringP s RL →
    RL.Nodup →
    (∀ j ∈ RL, j < s.nodes.length) →
    RL.Perm (u.rootId :: (P.map Tree.rootId ++ O)) →
    (∀ o ∈ O, o ∉ Tree.ids u ++ Forest.ids P) →
    (dt.filterMap id).Perm (P.map Tree.rootId) →
    (∀ e z, dt.get? e = some (some z) → (getN s z).degree = e) →
    ∃ s2 dt2 P2 RL3,
      consolidate_go fuel s u.rootId ((getN s u.rootId).degree) dt =
        .ok (s2, dt2) ∧
      (∀ w ∈ P2, wfTree s2 w ∧ (getN s2 w.rootId).parent = none) ∧
      (Forest.ids P2).Perm (Tree.ids u ++ Forest.ids P) ∧
      (dt2.filterMap id).Perm (P2.map Tree.rootId) ∧
      (∀ e z, dt2.get? e = some (some z) → (getN s2 z).degree = e) ∧
      ringP s2 RL3 ∧ RL3.Perm (P2.map Tree.rootId ++ O) ∧
      (∀ j, (getN s2 j).key = (getN s j).key ∧
        (getN s2 j).value = (getN s j).value) ∧
      (∀ j, j ∉ Tree.ids u ++ Forest.ids P →
        agreeStatic (getN s2 j) (getN s j)) ∧
      (∀ j, j ∉ Tree.ids u ++ Forest.ids P → j ∉ RL →
        getN s2 j = getN s j) ∧
      s2.nodes.length = s.nodes.length ∧
      P2.length ≤ P.length + 1 := by
  intro fuel
  induction fuel with
  | zero =>
    intro s u P dt RL O hfuel
    omega
  | succ f ih =>
    intro s u P dt RL O hfuel hwfu hparu hwfP hnd hbv hring hndRL hlenRL
      hpermRL hO htab1 htab2
    obtain ⟨dt0, hdt0⟩ : ∃ z, z =
        (if dt.length ≤ (getN s u.rootId).degree
         then dt ++ List.replicate
           ((getN s u.rootId).degree + 1 - dt.length) none
         else dt) := ⟨_, rfl⟩
    have hfm0 : dt0.filterMap id = dt.filterMap id := by
      rw [hdt0]
      split
      · exact filterMap_id_append_replicate _ _
      · rfl
    have hslot0 : ∀ e z, dt0.get? e = some (some z) →
        (getN s z).degree = e := by
      intro e z hz
      rw [hdt0] at hz
      by_cases hle : dt.length ≤ (getN s u.rootId).degree
      · rw [if_pos hle] at hz
        by_cases he : e < dt.length
        · rw [get?_append_left _ _ _ he] at hz
          exact htab2 e z hz
        · by_cases he2 : e < dt.length +
              ((getN s u.rootId).degree + 1 - dt.length)
          · rw [get?_append_right_replicate _ _ _ (by omega) he2] at hz
            injection hz with hz2
            cases hz2
          · rw [get?_oob _ e (by
              rw [List.length_append, List.length_replicate]
              omega)] at hz
            cases hz
      · rw [if_neg hle] at hz
        exact htab2 e z hz
    have hdlt : (getN s u.rootId).degree < dt0.length := by
      rw [hdt0]
      exact resize_bound dt _
    obtain ⟨slot, hslot⟩ := get?_lt_some dt0 _ hdlt
    have heq1 : consolidate_go (f + 1) s u.rootId
        ((getN s u.rootId).degree) dt =
        (match slot with
         | none => .ok (s, dt0.set ((getN s u.rootId).degree) (some u.rootId))
         | some y0 =>
           consolidate_go f
             (link s
               (if (getN s u.rootId).key > (getN s y0).key
                then ((y0, u.rootId) : Nat × Nat) else (u.rootId, y0)).2
               (if (getN s u.rootId).key > (getN s y0).key
                then ((y0, u.rootId) : Nat × Nat) else (u.rootId, y0)).1)
             (if (getN s u.rootId).key > (getN s y0).key
              then ((y0, u.rootId) : Nat × Nat) else (u.rootId, y0)).1
             ((getN (link s
                 (if (getN s u.rootId).key > (getN s y0).key
                  then ((y0, u.rootId) : Nat × Nat) else (u.rootId, y0)).2
                 (if (getN s u.rootId).key > (getN s y0).key
                  then ((y0, u.rootId) : Nat × Nat) else (u.rootId, y0)).1)
                 (if (getN s u.rootId).key > (getN s y0).key
                  then ((y0, u.rootId) : Nat × Nat) else (u.rootId, y0)).1).degree)
             (dt0.set ((getN s u.rootId).degree) none)) := by
      rw [consolidate_go, ← hdt0]
      simp only [hslot]
      cases slot
      · rfl
      · rfl
    cases slot with
    | none =>
      refine ⟨s, dt0.set ((getN s u.rootId).degree) (some u.rootId), u :: P,
        RL, ?_, ?_, ?_, ?_, ?_, hring, ?_, fun j => ⟨rfl, rfl⟩,
        fun j _ => agreeStatic_refl _, fun j _ _ => rfl, rfl, Nat.le_refl _⟩
      · rw [heq1]
      · intro w hw
        rcases List.mem_cons.mp hw with rfl | hw2
        · exact ⟨hwfu, hparu⟩
        · exact hwfP w hw2
      · rw [forest_ids_cons]
      · refine (dt_set_perm_none_to_some dt0 _ u.rootId hslot).trans ?_
        rw [hfm0, List.map_cons]
        exact List.Perm.cons _ htab1
      · intro e z hz
        by_cases he : (getN s u.rootId).degree = e
        · rw [← he] at hz ⊢
          rw [get?_set_self dt0 _ hdlt] at hz
          injection hz with hz2
          injection hz2 with hz3
          rw [← hz3]
        · rw [get?_set_ne dt0 _ e he] at hz
          exact hslot0 e z hz
      · refine hpermRL.trans ?_
        rw [List.map_cons, List.cons_append]
    | some y0 =>
      have hy0deg : (getN s y0).degree = (getN s u.rootId).degree :=
        hslot0 _ y0 hslot
      have hy0mem : y0 ∈ P.map Tree.rootId := by
        refine htab1.mem_iff.mp ?_
        rw [← hfm0]
        exact mem_filterMap_of_slot dt0 _ y0 hslot
      obtain ⟨w, hwP, hwroot⟩ := List.mem_map.mp hy0mem
      obtain ⟨Ppre, Ppost, hPsplit⟩ := List.append_of_mem hwP
      obtain ⟨hndU, hndP, hdisjUP⟩ := List.nodup_append.mp hnd
      have hPmapnd : (P.map Tree.rootId).Nodup := roots_nodup P hndP
      have hPmap_split : P.map Tree.rootId =
          Ppre.map Tree.rootId ++ w.rootId :: Ppost.map Tree.rootId := by
        rw [hPsplit, List.map_append, List.map_cons]
      have hPmap_perm : (P.map Tree.rootId).Perm
          (w.rootId :: (Ppre.map Tree.rootId ++ Ppost.map Tree.rootId)) := by
        rw [hPmap_split]
        exact List.perm_middle
      have hwnotin : w.rootId ∉ Ppre.map Tree.rootId ++ Ppost.map Tree.rootId := by
        have := (List.Perm.nodup_iff hPmap_perm).mp hPmapnd
        exact (List.nodup_cons.mp this).1
      have hothers_mem : ∀ w2 ∈ Ppre ++ Ppost, w2 ∈ P := by
        intro w2 hw2
        rw [hPsplit]
        rcases List.mem_append.mp hw2 with h1 | h1
        · exact List.mem_append_left _ h1
        · exact List.mem_append_right _ (List.mem_cons_of_mem _ h1)
      have hothers_map : (Ppre ++ Ppost).map Tree.rootId =
          Ppre.map Tree.rootId ++ Ppost.map Tree.rootId := List.map_append _ _ _
      have hpool_perm : (Forest.ids (w :: (Ppre ++ Ppost))).Perm
          (Forest.ids P) := by
        rw [hPsplit, forest_ids_cons, forest_ids_append, forest_ids_append,
          forest_ids_cons, ← List.append_assoc, ← List.append_assoc]
        exact List.Perm.append_right _ List.perm_append_comm
      have hfuel2 : (Ppre ++ Ppost).length + 1 ≤ f := by
        have : P.length = Ppre.length + Ppost.length + 1 := by
          rw [hPsplit, List.length_append, List.length_cons]
          omega
        rw [List.length_append]
        omega
      have htab1' : ((dt0.set ((getN s u.rootId).degree) none).filterMap
          id).Perm ((Ppre ++ Ppost).map Tree.rootId) := by
        have h1 := dt_set_perm_some_to_none dt0 _ y0 hslot
        have h2 : (dt0.filterMap id).Perm (y0 :: (Ppre ++ Ppost).map
            Tree.rootId) := by
          rw [hfm0, hothers_map, ← hwroot]
          exact htab1.trans hPmap_perm
        exact List.Perm.cons_inv ((h1.symm.trans h2))
      have htab2' : ∀ e z, (dt0.set ((getN s u.rootId).degree) none).get? e =
          some (some z) → (getN s z).degree = e ∧ z ≠ w.rootId := by
        intro e z hz
        by_cases he : (getN s u.rootId).degree = e
        · rw [← he, get?_set_self dt0 _ hdlt] at hz
          injection hz with hz2
          cases hz2
        · rw [get?_set_ne dt0 _ e he] at hz
          refine ⟨hslot0 e z hz, ?_⟩
          intro hzz
          have hzmem : z ∈ (dt0.set ((getN s u.rootId).degree)
              none).filterMap id := by
            refine mem_filterMap_of_slot _ e z ?_
            rw [get?_set_ne dt0 _ e he]
            exact hz
          have : z ∈ (Ppre ++ Ppost).map Tree.rootId :=
            htab1'.mem_iff.mp hzmem
          rw [hothers_map] at this
          exact hwnotin (hzz ▸ this)
      have hstep : ∀ (lt wt : Tree) (others : List Tree),
          wfTree s lt → wfTree s wt →
          (getN s wt.rootId).parent = none →
          (∀ w2 ∈ others, wfTree s w2 ∧ (getN s w2.rootId).parent = none) →
          (Tree.ids lt ++ Forest.ids (wt :: others)).Nodup →
          (getN s wt.rootId).key ≤ (getN s lt.rootId).key →
          (∀ j ∈ Tree.ids lt ++ Forest.ids (wt :: others),
            j < s.nodes.length ∧ (getN s j).value.isSome = true) →
          RL.Perm (lt.rootId :: ((wt :: others).map Tree.rootId ++ O)) →
          (∀ o ∈ O, o ∉ Tree.ids lt ++ Forest.ids (wt :: others)) →
          others.length + 1 ≤ f →
          ((dt0.set ((getN s u.rootId).degree) none).filterMap id).Perm
            (others.map Tree.rootId) →
          (∀ e z, (dt0.set ((getN s u.rootId).degree) none).get? e =
            some (some z) → (getN s z).degree = e ∧ z ≠ wt.rootId) →
          (Tree.ids lt ++ Forest.ids (wt :: others)).Perm
            (Tree.ids u ++ Forest.ids P) →
          ∃ s2 dt2 P2 RL3,
            consolidate_go f (link s lt.rootId wt.rootId) wt.rootId
              ((getN (link s lt.rootId wt.rootId) wt.rootId).degree)
              (dt0.set ((getN s u.rootId).degree) none) = .ok (s2, dt2) ∧
            (∀ w2 ∈ P2, wfTree s2 w2 ∧ (getN s2 w2.rootId).parent = none) ∧
            (Forest.ids P2).Perm (Tree.ids u ++ Forest.ids P) ∧
            (dt2.filterMap id).Perm (P2.map Tree.rootId) ∧
            (∀ e z, dt2.get? e = some (some z) → (getN s2 z).degree = e) ∧
            ringP s2 RL3 ∧ RL3.Perm (P2.map Tree.rootId ++ O) ∧
            (∀ j, (getN s2 j).key = (getN s j).key ∧
              (getN s2 j).value = (getN s j).value) ∧
            (∀ j, j ∉ Tree.ids u ++ Forest.ids P →
              agreeStatic (getN s2 j) (getN s j)) ∧
            (∀ j, j ∉ Tree.ids u ++ Forest.ids P → j ∉ RL →
              getN s2 j = getN s j) ∧
            s2.nodes.length = s.nodes.length ∧
            P2.length ≤ others.length + 1 := by
        intro lt wt others hwl hww hpw hoth hnd2 hkey2 hbv2 hRL2 hO2 hfuel3
          htb1 htb2 hperm_ids
        obtain ⟨mt, RL2, hmtroot, hwfmt, hparmt, hidsmt, hothwf, hringL,
            hRL2perm, hRL2nd, hRL2len, hkvL, hdegoffL, hdegpL, hASL, huntL,
            hlenL⟩ :=
          consolidate_link_step s lt wt others RL O hwl hww hpw hoth hnd2
            hkey2 (fun j hj => (hbv2 j hj).1) hring hndRL hlenRL hRL2 hO2
        have hids_mt_others : (Tree.ids mt ++ Forest.ids others).Perm
            (Tree.ids lt ++ Forest.ids (wt :: others)) := by
          refine (List.Perm.append_right _ hidsmt).trans ?_
          rw [List.append_assoc, ← forest_ids_cons]
        have hmem_new_old : ∀ j, j ∈ Tree.ids mt ++ Forest.ids others →
            j ∈ Tree.ids lt ++ Forest.ids (wt :: others) :=
          fun j hj => hids_mt_others.mem_iff.mp hj
        have hRL2sub : ∀ m ∈ RL2, m ∈ RL := by
          intro m hm
          have h1 := hRL2perm.mem_iff.mp hm
          refine hRL2.mem_iff.mpr ?_
          rcases List.mem_cons.mp h1 with h2 | h2
          · refine List.mem_cons_of_mem _ (List.mem_append_left _ ?_)
            rw [List.map_cons, h2, ← hmtroot]
            exact List.mem_cons_self _ _
          rcases List.mem_append.mp h2 with h3 | h3
          · refine List.mem_cons_of_mem _ (List.mem_append_left _ ?_)
            rw [List.map_cons]
            exact List.mem_cons_of_mem _ h3
          · exact List.mem_cons_of_mem _ (List.mem_append_right _ h3)
        obtain ⟨s2, dt2, P2, RL3, hEq, hPool, hPerm, hT1, hT2, hRing, hRLp,
            hKV, hAS, hUnt, hLen, hCnt⟩ :=
          ih (link s lt.rootId wt.rootId) mt others
            (dt0.set ((getN s u.rootId).degree) none) RL2 O hfuel3 hwfmt
            (by rw [hmtroot]; exact hparmt) hothwf
            ((List.Perm.nodup_iff hids_mt_others).mpr hnd2)
            (by
              intro j hj
              have hjold := hmem_new_old j hj
              refine ⟨?_, ?_⟩
              · rw [hlenL]
                exact (hbv2 j hjold).1
              · rw [(hkvL j).2]
                exact (hbv2 j hjold).2)
            hringL hRL2nd hRL2len
            (by rw [hmtroot]; exact hRL2perm)
            (fun o ho hmem => hO2 o ho (hmem_new_old o hmem))
            htb1
            (by
              intro e z hz
              obtain ⟨hdz, hzw⟩ := htb2 e z hz
              rw [hdegoffL z hzw]
              exact hdz)
        refine ⟨s2, dt2, P2, RL3, ?_, hPool, ?_, hT1, hT2, hRing, hRLp, ?_,
          ?_, ?_, ?_, hCnt⟩
        · rw [hmtroot] at hEq
          exact hEq
        · exact hPerm.trans (hids_mt_others.trans hperm_ids)
        · intro j
          exact ⟨(hKV j).1.trans (hkvL j).1, (hKV j).2.trans (hkvL j).2⟩
        · intro j hj
          have hj1 : j ∉ Tree.ids lt ++ Forest.ids (wt :: others) :=
            fun hh => hj (hperm_ids.mem_iff.mp hh)
          have hj2 : j ∉ Tree.ids mt ++ Forest.ids others :=
            fun hh => hj1 (hmem_new_old j hh)
          exact agreeStatic_trans (hAS j hj2) (hASL j hj1)
        · intro j hj hjRL
          have hj1 : j ∉ Tree.ids lt ++ Forest.ids (wt :: others) :=
            fun hh => hj (hperm_ids.mem_iff.mp hh)
          have hj2 : j ∉ Tree.ids mt ++ Forest.ids others :=
            fun hh => hj1 (hmem_new_old j hh)
          have hjRL2 : j ∉ RL2 := fun hh => hjRL (hRL2sub j hh)
          rw [hUnt j hj2 hjRL2]
          exact huntL j hj1 hjRL
        · rw [hLen, hlenL]
      by_cases hgt : (getN s u.rootId).key > (getN s y0).key
      · have heq2 : consolidate_go (f + 1) s u.rootId
            ((getN s u.rootId).degree) dt =
            consolidate_go f (link s u.rootId y0) y0
              ((getN (link s u.rootId y0) y0).degree)
              (dt0.set ((getN s u.rootId).degree) none) := by
          rw [heq1]
          dsimp only
          rw [if_pos hgt]
        have hkey2 : (getN s w.rootId).key ≤ (getN s u.rootId).key := by
          rw [hwroot]
          exact le_of_lt hgt
        have hnd2 : (Tree.ids u ++ Forest.ids (w :: (Ppre ++ Ppost))).Nodup :=
          (List.Perm.nodup_iff (List.Perm.append_left _ hpool_perm)).mpr hnd
        have hperm_ids : (Tree.ids u ++ Forest.ids (w :: (Ppre ++
            Ppost))).Perm (Tree.ids u ++ Forest.ids P) :=
          List.Perm.append_left _ hpool_perm
        obtain ⟨s2, dt2, P2, RL3, hEq, hPool, hPerm, hT1, hT2, hRing, hRLp,
            hKV, hAS, hUnt, hLen, hCnt⟩ :=
          hstep u w (Ppre ++ Ppost) hwfu (hwfP w hwP).1 (hwfP w hwP).2
            (fun w2 hw2 => hwfP w2 (hothers_mem w2 hw2)) hnd2 hkey2
            (fun j hj => hbv j (hperm_ids.mem_iff.mp hj))
            (by
              refine hpermRL.trans ?_
              refine List.Perm.cons _ (List.Perm.append_right _ ?_)
              rw [List.map_cons, hothers_map]
              exact hPmap_perm)
            (fun o ho hmem => hO o ho (hperm_ids.mem_iff.mp hmem))
            hfuel2 htab1' htab2' hperm_ids
        have hPlen : P.length = (Ppre ++ Ppost).length + 1 := by
          rw [hPsplit, List.length_append, List.length_append,
            List.length_cons]
          omega
        refine ⟨s2, dt2, P2, RL3, ?_, hPool, hPerm, hT1, hT2, hRing, hRLp,
          hKV, hAS, hUnt, hLen, by omega⟩
        rw [heq2, ← hwroot]
        exact hEq
      · have heq2 : consolidate_go (f + 1) s u.rootId
            ((getN s u.rootId).degree) dt =
            consolidate_go f (link s y0 u.rootId) u.rootId
              ((getN (link s y0 u.rootId) u.rootId).degree)
              (dt0.set ((getN s u.rootId).degree) none) := by
          rw [heq1]
          dsimp only
          rw [if_neg hgt]
        have hkey2 : (getN s u.rootId).key ≤ (getN s w.rootId).key := by
          rw [hwroot]
          exact le_of_not_lt hgt
        have hperm_ids : (Tree.ids w ++ Forest.ids (u :: (Ppre ++
            Ppost))).Perm (Tree.ids u ++ Forest.ids P) := by
          rw [forest_ids_cons]
          have h1 : (Tree.ids w ++ (Tree.ids u ++
              Forest.ids (Ppre ++ Ppost))).Perm
              (Tree.ids u ++ (Tree.ids w ++ Forest.ids (Ppre ++ Ppost))) := by
            rw [← List.append_assoc, ← List.append_assoc]
            exact List.Perm.append_right _ List.perm_append_comm
          have h2 : (Tree.ids u ++ (Tree.ids w ++
              Forest.ids (Ppre ++ Ppost))).Perm
              (Tree.ids u ++ Forest.ids P) := by
            refine List.Perm.append_left _ ?_
            rw [← forest_ids_cons]
            exact hpool_perm
          exact h1.trans h2
        have hnd2 : (Tree.ids w ++ Forest.ids (u :: (Ppre ++ Ppost))).Nodup :=
          (List.Perm.nodup_iff hperm_ids).mpr hnd
        obtain ⟨s2, dt2, P2, RL3, hEq, hPool, hPerm, hT1, hT2, hRing, hRLp,
            hKV, hAS, hUnt, hLen, hCnt⟩ :=
          hstep w u (Ppre ++ Ppost) (hwfP w hwP).1 hwfu hparu
            (fun w2 hw2 => hwfP w2 (hothers_mem w2 hw2)) hnd2 hkey2
            (fun j hj => hbv j (hperm_ids.mem_iff.mp hj))
            (by
              refine hpermRL.trans ?_
              have h1 : (u.rootId :: (P.map Tree.rootId ++ O)).Perm
                  (u.rootId :: ((w.rootId :: (Ppre ++ Ppost).map Tree.rootId)
                    ++ O)) := by
                refine List.Perm.cons _ (List.Perm.append_right _ ?_)
                rw [hothers_map]
                exact hPmap_perm
              have h2 : (u.rootId :: ((w.rootId ::
                  (Ppre ++ Ppost).map Tree.rootId) ++ O)).Perm
                  (w.rootId :: ((u :: (Ppre ++ Ppost)).map Tree.rootId
                    ++ O)) := by
                rw [List.map_cons, List.cons_append, List.cons_append]
                exact List.Perm.swap _ _ _
              exact h1.trans h2)
            (fun o ho hmem => hO o ho (hperm_ids.mem_iff.mp hmem))
            hfuel2 htab1'
            (by
              intro e z hz
              obtain ⟨h1, h2⟩ := htab2' e z hz
              refine ⟨h1, ?_⟩
              intro hzz
              have hzmem : z ∈ (dt0.set ((getN s u.rootId).degree)
                  none).filterMap id := by
                refine mem_filterMap_of_slot _ e z ?_
                exact hz
              have hzin : z ∈ (Ppre ++ Ppost).map Tree.rootId :=
                htab1'.mem_iff.mp hzmem
              have huin : u.rootId ∈ Forest.ids P := by
                refine roots_sub_ids P _ ?_
                rw [← hzz]
                rw [hothers_map] at hzin
                rcases List.mem_append.mp hzin with h3 | h3
                · rw [hPmap_split]
                  exact List.mem_append_left _ h3
                · rw [hPmap_split]
                  exact List.mem_append_right _ (List.mem_cons_of_mem _ h3)
              exact hdisjUP (rootId_mem_ids u) huin)
            hperm_ids
        have hPlen : P.length = (Ppre ++ Ppost).length + 1 := by
          rw [hPsplit, List.length_append, List.length_append,
            List.length_cons]
          omega
        refine ⟨s2, dt2, P2, RL3, ?_, hPool, hPerm, hT1, hT2, hRing, hRLp,
          hKV, hAS, hUnt, hLen, by omega⟩
        rw [heq2, ← hwroot]
        exact hEq

theorem consolidate_entries_spec :
    ∀ (Pd : List Tree) (fuel : Nat) (s : Store) (P : List Tree)
      (dt : List (Option Nat)) (RL : List Nat),
    P.length + Pd.length + 1 ≤ fuel →
    (∀ w ∈ P ++ Pd, wfTree s w ∧ (getN s w.rootId).parent = none) →
    (Forest.ids (P ++ Pd)).Nodup →
    (∀ j ∈ Forest.ids (P ++ Pd), j < s.nodes.length ∧
      (getN s j).value.isSome = true) →
    ringP s RL → RL.Nodup → (∀ j ∈ RL, j < s.nodes.length) →
    RL.Perm ((P ++ Pd).map Tree.rootId) →
    (dt.filterMap id).Perm (P.map Tree.rootId) →
    (∀ e z, dt.get? e = some (some z) → (getN s z).degree = e) →
    ∃ s2 dt2 P2,
      consolidate_entries fuel (Pd.map Tree.rootId) s dt = .ok (s2, dt2) ∧
      (∀ w ∈ P2, wfTree s2 w ∧ (getN s2 w.rootId).parent = none) ∧
      (Forest.ids P2).Perm (Forest.ids (P ++ Pd)) ∧
      (dt2.filterMap id).Perm (P2.map Tree.rootId) ∧
      (∀ e z, dt2.get? e = some (some z) → (getN s2 z).degree = e) ∧
      (∀ j, (getN s2 j).key = (getN s j).key ∧
        (getN s2 j).value = (getN s j).value) ∧
      s2.nodes.length = s.nodes.length := by
  intro Pd
  induction Pd with
  | nil =>
    intro fuel s P dt RL _ hwf hnd hbv _ _ _ _ htab1 htab2
    refine ⟨s, dt, P, rfl, ?_, ?_, htab1, htab2, fun j => ⟨rfl, rfl⟩, rfl⟩
    · intro w hw
      exact hwf w (List.mem_append_left _ hw)
    · rw [List.append_nil]
  | cons t rest ihp =>
    intro fuel s P dt RL hcnt hwf hnd hbv hring hndRL hlenRL hpermRL
      htab1 htab2
    have htmem : t ∈ P ++ t :: rest :=
      List.mem_append_right _ (List.mem_cons_self _ _)
    have hids_shuffle : (Forest.ids (P ++ t :: rest)).Perm
        ((Tree.ids t ++ Forest.ids P) ++ Forest.ids rest) := by
      rw [forest_ids_append, forest_ids_cons]
      have h1 : (Forest.ids P ++ (Tree.ids t ++ Forest.ids rest)).Perm
          ((Forest.ids P ++ Tree.ids t) ++ Forest.ids rest) := by
        rw [List.append_assoc]
      have h2 : ((Forest.ids P ++ Tree.ids t) ++ Forest.ids rest).Perm
          ((Tree.ids t ++ Forest.ids P) ++ Forest.ids rest) :=
        List.Perm.append_right _ List.perm_append_comm
      exact h1.trans h2
    have hndtp : ((Tree.ids t ++ Forest.ids P) ++ Forest.ids rest).Nodup :=
      (List.Perm.nodup_iff hids_shuffle).mp hnd
    obtain ⟨hndtP, hndrest, hdisj⟩ := List.nodup_append.mp hndtp
    have hbv' : ∀ j ∈ Tree.ids t ++ Forest.ids P, j < s.nodes.length ∧
        (getN s j).value.isSome = true := by
      intro j hj
      refine hbv j ?_
      exact hids_shuffle.mem_iff.mpr (List.mem_append_left _ hj)
    obtain ⟨s1, dt1, P1, RL1, hGoEq, hPool1, hPerm1, hT11, hT21, hRing1,
        hRLp1, hKV1, hAS1, hUnt1, hLen1, hCnt1⟩ :=
      consolidate_go_spec fuel s t P dt RL (rest.map Tree.rootId)
        (by omega)
        (hwf t htmem).1 (hwf t htmem).2
        (fun w hw => hwf w (List.mem_append_left _ hw))
        hndtP hbv' hring hndRL hlenRL
        (by
          refine hpermRL.trans ?_
          rw [List.map_append, List.map_cons]
          exact List.perm_middle)
        (by
          intro o ho hmem
          obtain ⟨w2, hw2, hw2e⟩ := List.mem_map.mp ho
          refine hdisj hmem ?_
          rw [← hw2e]
          exact mem_forest_ids_of_mem rest w2 hw2 _ (rootId_mem_ids w2))
        htab1 htab2
    have hrest_pres : ∀ w ∈ rest, wfTree s1 w ∧
        (getN s1 w.rootId).parent = none := by
      intro w hw
      have hwold := hwf w (List.mem_append_right _ (List.mem_cons_of_mem _ hw))
      have hwids_not : ∀ j ∈ Tree.ids w, j ∉ Tree.ids t ++ Forest.ids P := by
        intro j hj hmem
        exact hdisj hmem (mem_forest_ids_of_mem rest w hw j hj)
      have hroot_not := hwids_not w.rootId (rootId_mem_ids w)
      constructor
      · refine wfTree_congr s s1 w ?_ ?_ hwold.1
        · exact agreeStatic_to_agreeRoot (hAS1 w.rootId hroot_not)
        · intro j hj
          have hjids : j ∈ Tree.ids w := interior_mem_ids w j hj
          have hjnot := hwids_not j hjids
          have hjRL : j ∉ RL := by
            intro hh
            have hroots : j ∈ (P ++ t :: rest).map Tree.rootId :=
              hpermRL.mem_iff.mp hh
            obtain ⟨w2, hw2, hw2e⟩ := List.mem_map.mp hroots
            have hndfull : (Forest.ids (P ++ t :: rest)).Nodup := hnd
            exact interior_root_ne (P ++ t :: rest) hndfull w
              (List.mem_append_right _ (List.mem_cons_of_mem _ hw)) j hj
              w2 hw2 hw2e.symm
          rw [hUnt1 j hjnot hjRL]
          exact ⟨rfl, rfl, rfl, rfl, rfl, rfl⟩
      · rw [(hAS1 w.rootId hroot_not).2.2.2.2.1]
        exact hwold.2
    have hperm_new : (Forest.ids (P1 ++ rest)).Perm
        (Forest.ids (P ++ t :: rest)) := by
      rw [forest_ids_append]
      refine ((List.Perm.append_right _ hPerm1).trans ?_)
      exact hids_shuffle.symm
    have hnd_new : (Forest.ids (P1 ++ rest)).Nodup :=
      (List.Perm.nodup_iff hperm_new).mpr hnd
    have hP1map_sub : ∀ m ∈ P1.map Tree.rootId ++ rest.map Tree.rootId,
        m ∈ Forest.ids (P1 ++ rest) := by
      intro m hm
      refine roots_sub_ids (P1 ++ rest) m ?_
      rw [List.map_append]
      exact hm
    have hRL1nd : (RL1 : List Nat).Nodup := by
      refine (List.Perm.nodup_iff hRLp1).mpr ?_
      rw [← List.map_append]
      exact roots_nodup _ hnd_new
    have hRL1len : ∀ j ∈ RL1, j < s1.nodes.length := by
      intro j hj
      have := hRLp1.mem_iff.mp hj
      have hjids : j ∈ Forest.ids (P1 ++ rest) := hP1map_sub j this
      rw [hLen1]
      refine (hbv j (hperm_new.mem_iff.mp hjids)).1
    obtain ⟨s2, dt2, P2, hEq2, hPool2, hPerm2, hT12, hT22, hKV2, hLen2⟩ :=
      ihp fuel s1 P1 dt1 RL1
        (by
          have h1 : P.length + (rest.length + 1) + 1 ≤ fuel := by
            rw [show (t :: rest).length = rest.length + 1 from
              List.length_cons t rest] at hcnt
            omega
          omega)
        (by
          intro w hw
          rcases List.mem_append.mp hw with h1 | h1
          · exact hPool1 w h1
          · exact hrest_pres w h1)
        hnd_new
        (by
          intro j hj
          refine ⟨?_, ?_⟩
          · rw [hLen1]
            exact (hbv j (hperm_new.mem_iff.mp hj)).1
          · rw [(hKV1 j).2]
            exact (hbv j (hperm_new.mem_iff.mp hj)).2)
        hRing1 hRL1nd hRL1len
        (by
          refine hRLp1.trans ?_
          rw [List.map_append])
        hT11 hT21
    refine ⟨s2, dt2, P2, ?_, hPool2, ?_, hT12, hT22, ?_, ?_⟩
    · rw [List.map_cons, consolidate_entries, hGoEq]
      exact hEq2
    · exact hPerm2.trans hperm_new
    · intro j
      exact ⟨(hKV2 j).1.trans (hKV1 j).1, (hKV2 j).2.trans (hKV1 j).2⟩
    · rw [hLen2, hLen1]

theorem forest_ids_perm (Q1 Q2 : List Tree) (h : Q1.Perm Q2) :
    (Forest.ids Q1).Perm (Forest.ids Q2) := by
  induction h with
  | nil => exact List.Perm.refl _
  | cons x _ ih =>
    rw [forest_ids_cons, forest_ids_cons]
    exact List.Perm.append_left _ ih
  | swap x y l =>
    rw [forest_ids_cons, forest_ids_cons, forest_ids_cons, forest_ids_cons,
      ← List.append_assoc, ← List.append_assoc]
    exact List.Perm.append_right _ List.perm_append_comm
  | trans _ _ ih1 ih2 => exact ih1.trans ih2

theorem exists_tree_align (l : List Nat) :
    ∀ P : List Tree, l.Perm (P.map Tree.rootId) →
    ∃ Q : List Tree, Q.Perm P ∧ Q.map Tree.rootId = l := by
  induction l with
  | nil =>
    intro P hp
    have hmapnil : P.map Tree.rootId = [] := hp.symm.eq_nil
    have hP : P = [] := by
      cases P with
      | nil => rfl
      | cons a b =>
        rw [List.map_cons] at hmapnil
        cases hmapnil
    exact ⟨[], by rw [hP], rfl⟩
  | cons x l' ih =>
    intro P hp
    have hx : x ∈ P.map Tree.rootId := hp.mem_iff.mp (List.mem_cons_self _ _)
    obtain ⟨w, hwP, hwroot⟩ := List.mem_map.mp hx
    obtain ⟨A, B, hsplit⟩ := List.append_of_mem hwP
    have hmap : P.map Tree.rootId =
        A.map Tree.rootId ++ w.rootId :: B.map Tree.rootId := by
      rw [hsplit, List.map_append, List.map_cons]
    have hl' : l'.Perm ((A ++ B).map Tree.rootId) := by
      have h1 : (x :: l').Perm (x :: (A ++ B).map Tree.rootId) := by
        refine hp.trans ?_
        rw [hmap, List.map_append, ← hwroot]
        exact List.perm_middle
      exact List.Perm.cons_inv h1
    obtain ⟨Q', hQ'perm, hQ'map⟩ := ih (A ++ B) hl'
    refine ⟨w :: Q', ?_, ?_⟩
    · refine (List.Perm.cons w hQ'perm).trans ?_
      rw [hsplit]
      exact List.perm_middle.symm
    · rw [List.map_cons, hQ'map, hwroot]

theorem slots_degrees_nodup (dt : List (Option Nat)) (s : Store)
    (hd : ∀ e z, dt.get? e = some (some z) → (getN s z).degree = e)
    (hnd : (dt.filterMap id).Nodup) :
    ((dt.filterMap id).map (fun z => (getN s z).degree)).Nodup := by
  refine List.Nodup.map_on ?_ hnd
  intro x hx y hy hxy
  obtain ⟨e1, he1⟩ := slot_of_mem_filterMap dt x hx
  obtain ⟨e2, he2⟩ := slot_of_mem_filterMap dt y hy
  have hd1 := hd e1 x he1
  have hd2 := hd e2 y he2
  have : e1 = e2 := by
    rw [← hd1, ← hd2]
    exact hxy
  rw [this] at he1
  rw [he1] at he2
  injection he2 with h3
  injection h3

theorem rebuild_go_spec :
    ∀ (Q : List Tree) (s : Store) (h : FibonacciHeap) (Facc : List Tree),
    InvStruct s h Facc →
    (∀ w ∈ Q, wfTree s w ∧ (getN s w.rootId).parent = none) →
    (Forest.ids Q ++ Forest.ids Facc).Nodup →
    (∀ j ∈ Forest.ids Q, j < s.nodes.length ∧
      (getN s j).value.isSome = true) →
    ∃ s2 h2 F2,
      rebuild_go (Q.map Tree.rootId) s h = .ok (s2, h2) ∧
      InvStruct s2 h2 F2 ∧
      F2.Perm (Q ++ Facc) ∧
      (∀ j, (getN s2 j).key = (getN s j).key ∧
        (getN s2 j).value = (getN s j).value ∧
        (getN s2 j).degree = (getN s j).degree) ∧
      s2.nodes.length = s.nodes.length ∧
      h2.total_nodes = h.total_nodes := by
  intro Q
  induction Q with
  | nil =>
    intro s h Facc hInv _ _ _
    exact ⟨s, h, Facc, rfl, hInv, by rw [List.nil_append],
      fun j => ⟨rfl, rfl, rfl⟩, rfl, rfl⟩
  | cons w rest ih =>
    intro s h Facc hFull hwfQ hnd hbvQ
    obtain ⟨hInv0, hmkF⟩ := (InvStruct_iff s h Facc).mp hFull
    have hmemA : ∀ j ∈ Tree.ids w, j ∈ Forest.ids (w :: rest) :=
      fun j hj => mem_forest_ids_of_mem _ w (List.mem_cons_self _ _) j hj
    have hmemB : ∀ j ∈ Forest.ids rest, j ∈ Forest.ids (w :: rest) := by
      intro j hj
      obtain ⟨u, hu, hju⟩ := mem_forest_ids_split rest j hj
      exact mem_forest_ids_of_mem _ u (List.mem_cons_of_mem _ hu) j hju
    have hrootA : w.rootId ∈ Tree.ids w := rootId_mem_ids w
    have hrootlen : w.rootId < s.nodes.length := (hbvQ _ (hmemA _ hrootA)).1
    rw [forest_ids_cons, List.append_assoc] at hnd
    have hACB : ((Tree.ids w ++ Forest.ids Facc) ++ Forest.ids rest).Nodup := by
      rw [List.append_assoc]
      exact (List.Perm.nodup_iff
        (List.Perm.append_left (Tree.ids w) List.perm_append_comm)).mp hnd
    obtain ⟨hAC, hBnd, hdisjACB⟩ := List.nodup_append.mp hACB
    obtain ⟨hAnd, hCnd, hdisjAC⟩ := List.nodup_append.mp hAC
    have hrootC : w.rootId ∉ Forest.ids Facc := hdisjAC hrootA
    have hrootB : w.rootId ∉ Forest.ids rest :=
      hdisjACB (List.mem_append_left _ hrootA)
    obtain ⟨hhead0, hring0, hwfF0, hndF0, hbvF0⟩ := hInv0
    cases hm : h.min with
    | none =>
      have hFaccnil : Facc = [] := by
        rcases hhead0 with ⟨_, hnil⟩ | ⟨t0, racc, hF, hm0⟩
        · exact hnil
        · rw [hm] at hm0
          cases hm0
      obtain ⟨s1, hs1⟩ : ∃ x, x = setN s w.rootId
          { getN s w.rootId with left := w.rootId, right := w.rootId } :=
        ⟨_, rfl⟩
      have len1 : s1.nodes.length = s.nodes.length := by
        rw [hs1]
        exact length_setN _ _ _
      have g1root : getN s1 w.rootId =
          { getN s w.rootId with left := w.rootId, right := w.rootId } := by
        rw [hs1]
        exact getN_setN_self _ _ _ hrootlen
      have g1 : ∀ j, j ≠ w.rootId → getN s1 j = getN s j := by
        intro j hj
        rw [hs1]
        exact getN_setN_ne _ _ _ _ hj
      have hwf1w : wfTree s1 w := by
        rw [hs1]
        exact wfTree_set_static s w _ hAnd rfl rfl rfl
          (hwfQ w (List.mem_cons_self _ _)).1
      have hInv1 : InvStruct s1 { h with min := some w.rootId } [w] := by
        refine ⟨Or.inr ⟨w, [], rfl, rfl, ?_⟩, ?_, ?_, ?_, ?_⟩
        · intro u hu
          rcases List.mem_cons.mp hu with rfl | hu2
          · exact le_refl _
          · cases hu2
        · simp only [List.map_cons, List.map_nil]
          refine ⟨List.chain'_singleton _, ?_⟩
          rw [List.getLastD_nil, rlink, g1root]
          exact ⟨rfl, rfl⟩
        · intro t ht
          rcases List.mem_cons.mp ht with heq | ht2
          · rw [heq]
            refine ⟨hwf1w, ?_⟩
            rw [g1root]
            exact (hwfQ w (List.mem_cons_self _ _)).2
          · cases ht2
        · rw [forest_ids_cons, forest_ids_nil, List.append_nil]
          exact hAnd
        · intro j hj
          rw [forest_ids_cons, forest_ids_nil, List.append_nil] at hj
          rw [len1]
          by_cases hjr : j = w.rootId
          · rw [hjr, g1root]
            exact hbvQ _ (hmemA _ (hjr ▸ hj))
          · rw [g1 j hjr]
            exact hbvQ _ (hmemA _ hj)
      have hwf1rest : ∀ u ∈ rest, wfTree s1 u ∧
          (getN s1 u.rootId).parent = none := by
        intro u hu
        have hg : ∀ j ∈ Tree.ids u, getN s1 j = getN s j := by
          intro j hj
          exact g1 j (fun hh =>
            hrootB (hh ▸ mem_forest_ids_of_mem rest u hu j hj))
        refine ⟨wfTree_eq_congr s s1 u hg (hwfQ u (List.mem_cons_of_mem _ hu)).1, ?_⟩
        rw [hg _ (rootId_mem_ids u)]
        exact (hwfQ u (List.mem_cons_of_mem _ hu)).2
      have hnd1 : (Forest.ids rest ++ Forest.ids [w]).Nodup := by
        rw [forest_ids_cons, forest_ids_nil, List.append_nil]
        have hq : (Tree.ids w ++ Forest.ids rest).Nodup := by
          rw [hFaccnil, forest_ids_nil, List.append_nil] at hnd
          exact hnd
        exact (List.Perm.nodup_iff
          (@List.perm_append_comm _ (Forest.ids rest) (Tree.ids w))).mpr hq
      have hbv1 : ∀ j ∈ Forest.ids rest, j < s1.nodes.length ∧
          (getN s1 j).value.isSome = true := by
        intro j hj
        have hjne : j ≠ w.rootId := fun hh => hrootB (hh ▸ hj)
        rw [len1, g1 j hjne]
        exact hbvQ _ (hmemB _ hj)
      obtain ⟨s2, h2, F2, hEq2, hI2, hperm2, hkvd2, hlen2, htot2⟩ :=
        ih s1 { h with min := some w.rootId } [w] hInv1 hwf1rest hnd1 hbv1
      have hstep : rebuild_go ((w :: rest).map Tree.rootId) s h =
          rebuild_go (rest.map Tree.rootId) s1 { h with min := some w.rootId } := by
        rw [List.map_cons, rebuild_go, hm, hs1]
      refine ⟨s2, h2, F2, by rw [hstep]; exact hEq2, hI2, ?_, ?_, ?_, ?_⟩
      · refine hperm2.trans ?_
        rw [hFaccnil, List.append_nil]
        exact @List.perm_append_comm _ rest [w]
      · intro j
        by_cases hjr : j = w.rootId
        · refine ⟨?_, ?_, ?_⟩
          · rw [(hkvd2 j).1, hjr, g1root]
          · rw [(hkvd2 j).2.1, hjr, g1root]
          · rw [(hkvd2 j).2.2, hjr, g1root]
        · refine ⟨?_, ?_, ?_⟩
          · rw [(hkvd2 j).1, g1 j hjr]
          · rw [(hkvd2 j).2.1, g1 j hjr]
          · rw [(hkvd2 j).2.2, g1 j hjr]
      · rw [hlen2, len1]
      · exact htot2
    | some m =>
      have hAC' : (Tree.ids w ++ Forest.ids Facc).Nodup := hAC
      obtain ⟨F1, hI1, hshape1, hAS1, hroot1, huntS1, huntN1, hlen1, htot1⟩ :=
        add_to_root_list_spec0 s h Facc w ⟨hhead0, hring0, hwfF0, hndF0, hbvF0⟩
          (hwfQ w (List.mem_cons_self _ _)).1 hAC'
          (fun j hj => (hbvQ _ (hmemA _ hj)).1)
          (fun j hj => (hbvQ _ (hmemA _ hj)).2)
      have hKV1 : ∀ j, (getN (add_to_root_list s h w.rootId).1 j).key =
          (getN s j).key := by
        intro j
        by_cases hj : j = w.rootId
        · rw [hj]
          exact hroot1.1
        · exact (hAS1 j hj).1
      have hmk1 : ∀ t1 rest1, F1 = t1 :: rest1 → ∀ u ∈ F1,
          (getN (add_to_root_list s h w.rootId).1 t1.rootId).key ≤
            (getN (add_to_root_list s h w.rootId).1 (Tree.rootId u)).key := by
        refine shape_minkey s _ w Facc F1 hKV1 hmkF ?_
        rcases hshape1 with ⟨hF, hF1, _⟩ | ⟨t0, racc, hF, ⟨hlt, hF1, _⟩ | ⟨hnlt, hF1, _⟩⟩
        · exact Or.inl ⟨hF, hF1⟩
        · exact Or.inr ⟨t0, racc, hF, Or.inl ⟨hlt, hF1⟩⟩
        · exact Or.inr ⟨t0, racc, hF, Or.inr ⟨hnlt, hF1⟩⟩
      have hFull1 : InvStruct (add_to_root_list s h w.rootId).1
          (add_to_root_list s h w.rootId).2 F1 :=
        (InvStruct_iff _ _ _).mpr ⟨hI1, hmk1⟩
      have hF1ne : ∃ t1 rest1, F1 = t1 :: rest1 := by
        rcases hshape1 with ⟨_, hF1, _⟩ | ⟨t0, racc, _, ⟨_, hF1, _⟩ | ⟨_, hF1, _⟩⟩
        · exact ⟨w, [], hF1⟩
        · exact ⟨w, racc ++ [t0], hF1⟩
        · exact ⟨t0, w :: racc, hF1⟩
      obtain ⟨t1, rest1, hF1c⟩ := hF1ne
      have hm1 : (add_to_root_list s h w.rootId).2.min = some t1.rootId := by
        obtain ⟨hhead1, _, _, _, _⟩ := hI1
        rcases hhead1 with ⟨_, hnil⟩ | ⟨t1', rest1', hF1', hm1'⟩
        · rw [hF1c] at hnil
          cases hnil
        · rw [hF1c] at hF1'
          rw [hm1', (List.cons.inj hF1').1]
      have hwmem : w ∈ F1 := by
        rcases hshape1 with ⟨_, hF1, _⟩ | ⟨t0, racc, _, ⟨_, hF1, _⟩ | ⟨_, hF1, _⟩⟩
        · rw [hF1]
          exact List.mem_cons_self _ _
        · rw [hF1]
          exact List.mem_cons_self _ _
        · rw [hF1]
          exact List.mem_cons_of_mem _ (List.mem_cons_self _ _)
      have hnotlt : ¬ (getN (add_to_root_list s h w.rootId).1 w.rootId).key <
          (getN (add_to_root_list s h w.rootId).1 t1.rootId).key :=
        not_lt.mpr (hmk1 t1 rest1 hF1c w hwmem)
      have hstep : rebuild_go ((w :: rest).map Tree.rootId) s h =
          rebuild_go (rest.map Tree.rootId)
            (add_to_root_list s h w.rootId).1
            (add_to_root_list s h w.rootId).2 := by
        rw [List.map_cons, rebuild_go, hm]
        dsimp only
        rw [hm1]
        dsimp only
        rw [if_neg hnotlt]
      have hwf1rest : ∀ u ∈ rest,
          wfTree (add_to_root_list s h w.rootId).1 u ∧
          (getN (add_to_root_list s h w.rootId).1 u.rootId).parent = none := by
        intro u hu
        have hg : ∀ j ∈ Tree.ids u,
            getN (add_to_root_list s h w.rootId).1 j = getN s j := by
          intro j hj
          have hjB : j ∈ Forest.ids rest := mem_forest_ids_of_mem rest u hu j hj
          have hjw : j ≠ w.rootId := fun hh => hrootB (hh ▸ hjB)
          have hjC : j ∉ Forest.ids Facc := fun hh =>
            hdisjACB (List.mem_append_right _ hh) hjB
          rcases hshape1 with ⟨hF, _, _⟩ | ⟨t0, racc, hF, _⟩
          · exact huntN1 hF j hjw
          · refine huntS1 t0 racc hF j hjw ?_ ?_
            · intro hh
              exact hjC (hh ▸ mem_forest_ids_of_mem Facc t0
                (by rw [hF]; exact List.mem_cons_self _ _) _ (rootId_mem_ids t0))
            · have hsucc : (getN s t0.rootId).right =
                  ((racc.map Tree.rootId).headD t0.rootId) := by
                have := ring_succ s t0.rootId (racc.map Tree.rootId)
                  (by rw [hF, List.map_cons] at hring0; exact hring0)
                  [] t0.rootId (racc.map Tree.rootId) rfl
                exact this.1
              rw [hsucc]
              intro hh
              apply hjC
              have hmem : ((racc.map Tree.rootId).headD t0.rootId) ∈
                  t0.rootId :: racc.map Tree.rootId := headD_mem _ _
              rw [← hh] at hmem
              have : j ∈ Facc.map Tree.rootId := by
                rw [hF, List.map_cons]
                exact hmem
              exact roots_sub_ids Facc j this
        refine ⟨wfTree_eq_congr s _ u hg (hwfQ u (List.mem_cons_of_mem _ hu)).1, ?_⟩
        rw [hg _ (rootId_mem_ids u)]
        exact (hwfQ u (List.mem_cons_of_mem _ hu)).2
      have hperm1 : (Forest.ids F1).Perm (Tree.ids w ++ Forest.ids Facc) := by
        refine forest_shape_perm w Facc F1 ?_
        rcases hshape1 with ⟨hF, hF1, _⟩ | ⟨t0, racc, hF, ⟨_, hF1, _⟩ | ⟨_, hF1, _⟩⟩
        · exact Or.inl ⟨hF, hF1⟩
        · exact Or.inr ⟨t0, racc, hF, Or.inl hF1⟩
        · exact Or.inr ⟨t0, racc, hF, Or.inr hF1⟩
      have hnd1 : (Forest.ids rest ++ Forest.ids F1).Nodup := by
        have hp : (Forest.ids rest ++ Forest.ids F1).Perm
            (Forest.ids rest ++ (Tree.ids w ++ Forest.ids Facc)) :=
          List.Perm.append_left _ hperm1
        have hq : (Forest.ids rest ++ (Tree.ids w ++ Forest.ids Facc)).Nodup :=
          (List.Perm.nodup_iff
            (@List.perm_append_comm _ (Forest.ids rest)
              (Tree.ids w ++ Forest.ids Facc))).mpr hACB
        exact (List.Perm.nodup_iff hp).mpr hq
      have hbv1 : ∀ j ∈ Forest.ids rest,
          j < (add_to_root_list s h w.rootId).1.nodes.length ∧
          (getN (add_to_root_list s h w.rootId).1 j).value.isSome = true := by
        intro j hj
        have hjw : j ≠ w.rootId := fun hh => hrootB (hh ▸ hj)
        rw [hlen1, (hAS1 j hjw).2.1]
        exact hbvQ _ (hmemB _ hj)
      obtain ⟨s2, h2, F2, hEq2, hI2, hperm2, hkvd2, hlen2, htot2⟩ :=
        ih (add_to_root_list s h w.rootId).1
          (add_to_root_list s h w.rootId).2 F1 hFull1 hwf1rest hnd1 hbv1
      have htreeperm1 : F1.Perm (w :: Facc) := by
        rcases hshape1 with ⟨hF, hF1, _⟩ | ⟨t0, racc, hF, ⟨_, hF1, _⟩ | ⟨_, hF1, _⟩⟩
        · rw [hF, hF1]
        · rw [hF, hF1]
          refine List.Perm.cons w ?_
          exact @List.perm_append_comm _ racc [t0]
        · rw [hF, hF1]
          exact List.Perm.swap w t0 racc
      refine ⟨s2, h2, F2, by rw [hstep]; exact hEq2, hI2, ?_, ?_, ?_, ?_⟩
      · refine hperm2.trans ?_
        have h1 : (rest ++ F1).Perm (rest ++ (w :: Facc)) :=
          List.Perm.append_left _ htreeperm1
        refine h1.trans ?_
        have h2p : (rest ++ w :: Facc).Perm (w :: (rest ++ Facc)) :=
          List.perm_middle
        exact h2p
      · intro j
        by_cases hjr : j = w.rootId
        · refine ⟨?_, ?_, ?_⟩
          · rw [(hkvd2 j).1, hjr, hroot1.1]
          · rw [(hkvd2 j).2.1, hjr, hroot1.2.1]
          · rw [(hkvd2 j).2.2, hjr, hroot1.2.2.1]
        · refine ⟨?_, ?_, ?_⟩
          · rw [(hkvd2 j).1, (hAS1 j hjr).1]
          · rw [(hkvd2 j).2.1, (hAS1 j hjr).2.1]
          · rw [(hkvd2 j).2.2, (hAS1 j hjr).2.2.1]
      · rw [hlen2, hlen1]
      · rw [htot2, htot1]

theorem consolidate_spec (s : Store) (h : FibonacciHeap) (F : List Tree)
    (hInv0 : InvStruct0 s h F) :
    ∃ s2 h2 F2, consolidate s h = .ok (s2, h2) ∧
      InvStruct s2 h2 F2 ∧
      (Forest.ids F2).Perm (Forest.ids F) ∧
      (∀ j, (getN s2 j).key = (getN s j).key ∧
        (getN s2 j).value = (getN s j).value) ∧
      s2.nodes.length = s.nodes.length ∧
      h2.total_nodes = h.total_nodes ∧
      (F2.map (fun w => (getN s2 w.rootId).degree)).Nodup := by
  obtain ⟨hhead, hring, hwfF, hndF, hbvF⟩ := hInv0
  have htabslots : ∀ e z, (List.replicate (approx_degree_bound h)
      (none : Option Nat)).get? e = some (some z) →
      (getN s z).degree = e := by
    intro e z hez
    by_cases he : e < approx_degree_bound h
    · rw [get?_replicate_none _ _ he] at hez
      injection hez with h1
      cases h1
    · rw [List.get?_eq_none.mpr (by rw [List.length_replicate]; omega)] at hez
      cases hez
  cases hm : h.min with
  | none =>
    have hFnil : F = [] := by
      rcases hhead with ⟨_, hnil⟩ | ⟨t0, rest, _, hm0⟩
      · exact hnil
      · rw [hm] at hm0
        cases hm0
    have hceq : consolidate s h = .ok (s, { h with min := none }) := by
      rw [consolidate, hm]
      dsimp only
      rw [show consolidate_entries (List.length [] + 1) [] s
          (List.replicate (approx_degree_bound h) none) =
          .ok (s, List.replicate (approx_degree_bound h) none) from rfl]
      dsimp only
      rw [filterMap_id_replicate_none, rebuild_go]
    have hInvNil : InvStruct s { h with min := none } [] :=
      ⟨Or.inl ⟨rfl, rfl⟩, trivial, fun t ht => absurd ht
        (List.not_mem_nil t), List.nodup_nil, fun i hi => absurd hi
        (List.not_mem_nil i)⟩
    have hpermNil : (Forest.ids ([] : List Tree)).Perm (Forest.ids F) := by
      rw [hFnil]
    exact ⟨s, { h with min := none }, [], hceq, hInvNil, hpermNil,
      fun j => ⟨rfl, rfl⟩, rfl, rfl, List.nodup_nil⟩
  | some m =>
    obtain ⟨t0, rest, hF, hm0⟩ : ∃ t0 rest, F = t0 :: rest ∧
        h.min = some t0.rootId := by
      rcases hhead with ⟨hn, _⟩ | hx
      · rw [hm] at hn
        cases hn
      · exact hx
    have hmval : m = t0.rootId := Option.some.inj (hm.symm.trans hm0)
    have hringc : ringP s (t0.rootId :: rest.map Tree.rootId) := by
      rw [hF, List.map_cons] at hring
      exact hring
    have hrootsnd : (t0.rootId :: rest.map Tree.rootId).Nodup := by
      have := roots_nodup F hndF
      rw [hF, List.map_cons] at this
      exact this
    have hrootslen : ∀ j ∈ t0.rootId :: rest.map Tree.rootId,
        j < s.nodes.length := by
      intro j hj
      have hj2 : j ∈ F.map Tree.rootId := by
        rw [hF, List.map_cons]
        exact hj
      exact (hbvF j (roots_sub_ids F j hj2)).1
    subst hmval
    have hrw := root_walk_spec s t0.rootId (rest.map Tree.rootId)
      hringc hrootsnd hrootslen
    obtain ⟨s1, dt1, P2, hEq1, hwf1, hperm1, htab1', htab2', hkv1, hlen1'⟩ :=
      consolidate_entries_spec F ((t0.rootId :: rest.map Tree.rootId).length + 1)
        s [] (List.replicate (approx_degree_bound h) none)
        (F.map Tree.rootId)
        (by
          rw [hF]
          simp only [List.length_nil, List.length_cons, List.length_map]
          omega)
        (by
          intro w hw
          rw [List.nil_append] at hw
          exact hwfF w hw)
        (by
          rw [forest_ids_append, forest_ids_nil, List.nil_append]
          exact hndF)
        (by
          intro j hj
          rw [forest_ids_append, forest_ids_nil, List.nil_append] at hj
          exact hbvF j hj)
        hring (roots_nodup F hndF)
        (fun j hj => (hbvF j (roots_sub_ids F j hj)).1)
        (by rw [List.nil_append])
        (by rw [filterMap_id_replicate_none, List.map_nil])
        htabslots
    rw [hF, List.map_cons] at hEq1
    obtain ⟨Q, hQperm, hQmap⟩ := exists_tree_align (dt1.filterMap id) P2 htab1'
    have hidsP2 : (Forest.ids P2).Perm (Forest.ids F) := by
      have hx := hperm1
      rw [List.nil_append] at hx
      exact hx
    have hidsQ : (Forest.ids Q).Perm (Forest.ids P2) :=
      forest_ids_perm _ _ hQperm
    have hndQ : (Forest.ids Q).Nodup :=
      (List.Perm.nodup_iff (hidsQ.trans hidsP2)).mpr hndF
    have hInvMid : InvStruct s1 { h with min := none } [] := by
      refine ⟨Or.inl ⟨rfl, rfl⟩, ?_, ?_, ?_, ?_⟩
      · simp only [List.map_nil]
        exact trivial
      · intro t ht
        cases ht
      · rw [forest_ids_nil]
        exact List.nodup_nil
      · intro i hi
        rw [forest_ids_nil] at hi
        cases hi
    obtain ⟨s2, h2, F2, hEq2, hI2, hperm2, hkvd2, hlen2, htot2⟩ :=
      rebuild_go_spec Q s1 { h with min := none } [] hInvMid
        (by
          intro w hw
          exact hwf1 w (hQperm.subset hw))
        (by
          rw [forest_ids_nil, List.append_nil]
          exact hndQ)
        (by
          intro j hj
          have hjP2 : j ∈ Forest.ids P2 := hidsQ.subset hj
          have hjF : j ∈ Forest.ids F := hidsP2.subset hjP2
          rw [hlen1']
          refine ⟨(hbvF j hjF).1, ?_⟩
          rw [(hkv1 j).2]
          exact (hbvF j hjF).2)
    have hstep : consolidate s h =
        rebuild_go (Q.map Tree.rootId) s1 { h with min := none } := by
      rw [consolidate, hm]
      dsimp only
      rw [hrw]
      dsimp only
      rw [hEq1]
      dsimp only
      rw [hQmap]
    have hF2Q : F2.Perm Q := by
      have hx := hperm2
      rw [List.append_nil] at hx
      exact hx
    refine ⟨s2, h2, F2, by rw [hstep]; exact hEq2, hI2, ?_, ?_, ?_, ?_, ?_⟩
    · exact (forest_ids_perm _ _ hF2Q).trans (hidsQ.trans hidsP2)
    · intro j
      refine ⟨?_, ?_⟩
      · rw [(hkvd2 j).1, (hkv1 j).1]
      · rw [(hkvd2 j).2.1, (hkv1 j).2]
    · rw [hlen2, hlen1']
    · exact htot2
    · have hfmnd : (dt1.filterMap id).Nodup := by
        refine (List.Perm.nodup_iff htab1').mpr ?_
        exact roots_nodup P2 ((List.Perm.nodup_iff hidsP2).mpr hndF)
      have hd1 : ((dt1.filterMap id).map
          (fun z => (getN s1 z).degree)).Nodup :=
        slots_degrees_nodup dt1 s1 htab2' hfmnd
      have hdeg_eq : (fun w : Tree => (getN s2 w.rootId).degree) =
          (fun w : Tree => (getN s1 w.rootId).degree) := by
        funext w
        exact (hkvd2 w.rootId).2.2
      have hQdeg : (Q.map (fun w => (getN s2 w.rootId).degree)).Nodup := by
        rw [hdeg_eq]
        have hmm : Q.map (fun w : Tree => (getN s1 w.rootId).degree) =
            (Q.map Tree.rootId).map (fun z => (getN s1 z).degree) :=
          (List.map_map (fun z => (getN s1 z).degree) Tree.rootId Q).symm
        rw [hmm, hQmap]
        exact hd1
      exact (List.Perm.nodup_iff (List.Perm.map _ hF2Q)).mpr hQdeg

theorem remove_from_root_list_length (s : Store) (node : Nat) :
    (remove_from_root_list s node).1.nodes.length = s.nodes.length := by
  unfold remove_from_root_list
  dsimp only
  by_cases hl : (getN s node).left = node
  · rw [if_pos hl]
    exact length_setN _ _ _
  · rw [if_neg hl]
    dsimp only
    rw [length_setN, length_setN, length_setN]

theorem extract_min_spec (s : Store) (h : FibonacciHeap) (F : List Tree)
    (t0 : Tree) (rest : List Tree)
    (hInv : Inv s h F) (hF : F = t0 :: rest) :
    ∃ v s2 h2 F2,
      (getN s t0.rootId).value = some v ∧
      extract_min s h = .ok (some ((getN s t0.rootId).key, v), s2, h2) ∧
      Inv s2 h2 F2 ∧
      (t0.rootId :: Forest.ids F2).Perm (Forest.ids F) ∧
      (∀ j, (getN s2 j).key = (getN s j).key) ∧
      (∀ j, j ≠ t0.rootId → (getN s2 j).value = (getN s j).value) ∧
      (∀ j ∈ Forest.ids F, (getN s t0.rootId).key ≤ (getN s j).key) ∧
      s2.nodes.length = s.nodes.length ∧
      h2.total_nodes = h.total_nodes - 1 ∧
      (F2.map (fun w => (getN s2 w.rootId).degree)).Nodup := by
  obtain ⟨⟨hhead, hring, hwfF, hndF, hbvF⟩, htotal⟩ := hInv
  subst hF
  obtain ⟨m, cs, ht0⟩ : ∃ m cs, t0 = Tree.node m cs := by
    cases t0 with
    | node a b => exact ⟨a, b, rfl⟩
  subst ht0
  simp only [Tree.rootId]
  have hmin : h.min = some m := by
    rcases hhead with ⟨_, hnil⟩ | ⟨t1, rest1, hF1, hm1, _⟩
    · cases hnil
    · rw [hm1, ← (List.cons.inj hF1).1]
      rfl
  have hmkroots : ∀ u ∈ Tree.node m cs :: rest,
      (getN s m).key ≤ (getN s u.rootId).key := by
    rcases hhead with ⟨_, hnil⟩ | ⟨t1, rest1, hF1, _, hmk1⟩
    · cases hnil
    · intro u hu
      have := hmk1 u hu
      rw [← (List.cons.inj hF1).1] at this
      exact this
  have hidsF : Forest.ids (Tree.node m cs :: rest) =
      (m :: Forest.ids cs) ++ Forest.ids rest := by
    rw [forest_ids_cons, Tree.ids]
  have hndF' : (m :: (Forest.ids cs ++ Forest.ids rest)).Nodup := by
    have hx := hndF
    rw [hidsF, List.cons_append] at hx
    exact hx
  obtain ⟨hmnot, hndCR⟩ := List.nodup_cons.mp hndF'
  obtain ⟨hndC, hndR, hdisjCR⟩ := List.nodup_append.mp hndCR
  have hmnotC : m ∉ Forest.ids cs :=
    fun hh => hmnot (List.mem_append_left _ hh)
  have hmnotR : m ∉ Forest.ids rest :=
    fun hh => hmnot (List.mem_append_right _ hh)
  have hbv' : ∀ j ∈ m :: (Forest.ids cs ++ Forest.ids rest),
      j < s.nodes.length ∧ (getN s j).value.isSome = true := by
    intro j hj
    apply hbvF
    rw [hidsF, List.cons_append]
    exact hj
  have hmlen : m < s.nodes.length := (hbv' m (List.mem_cons_self _ _)).1
  obtain ⟨v, hv⟩ := Option.isSome_iff_exists.mp
    (hbv' m (List.mem_cons_self _ _)).2
  have hwft0 : wfTree s (Tree.node m cs) :=
    (hwfF _ (List.mem_cons_self _ _)).1
  have hpar0 : (getN s m).parent = none :=
    (hwfF _ (List.mem_cons_self _ _)).2
  obtain ⟨hdeg0, hchild0, hringcs, hparcs, hkeycs, hwfcs⟩ :
      (getN s m).degree = cs.length ∧
      (getN s m).child = (cs.head?).map Tree.rootId ∧
      ringP s (cs.map Tree.rootId) ∧
      (∀ c ∈ cs, (getN s (Tree.rootId c)).parent = some m) ∧
      (∀ c ∈ cs, (getN s m).key ≤ (getN s (Tree.rootId c)).key) ∧
      (∀ c ∈ cs, wfTree s c) := by
    cases hwft0 with
    | mk _ _ h1 h2 h3 h4 h5 h6 => exact ⟨h1, h2, h3, h4, h5, h6⟩
  have hminall : ∀ j ∈ Forest.ids (Tree.node m cs :: rest),
      (getN s m).key ≤ (getN s j).key := by
    intro j hj
    rw [hidsF, List.cons_append] at hj
    rcases List.mem_cons.mp hj with rfl | hj2
    · exact le_refl _
    rcases List.mem_append.mp hj2 with hjc | hjr
    · exact wfTree_root_le_all s (Tree.node m cs) hwft0 j
        (by rw [Tree.ids]; exact List.mem_cons_of_mem _ hjc)
    · obtain ⟨u, hu, hju⟩ := mem_forest_ids_split rest j hjr
      exact le_trans (hmkroots u (List.mem_cons_of_mem _ hu))
        (wfTree_root_le_all s u (hwfF u (List.mem_cons_of_mem _ hu)).1 j hju)
  obtain ⟨sa, hsa⟩ : ∃ x, x = setN s m { getN s m with value := none } :=
    ⟨_, rfl⟩
  have lena : sa.nodes.length = s.nodes.length := by
    rw [hsa]
    exact length_setN _ _ _
  have gam : getN sa m = { getN s m with value := none } := by
    rw [hsa]
    exact getN_setN_self _ _ _ hmlen
  have ga : ∀ j, j ≠ m → getN sa j = getN s j := by
    intro j hj
    rw [hsa]
    exact getN_setN_ne _ _ _ _ hj
  obtain ⟨sc, hsc⟩ : ∃ x, x = resetLR
      (setN sa m { getN sa m with child := none }) (cs.map Tree.rootId) :=
    ⟨_, rfl⟩
  have hmnotroots : m ∉ cs.map Tree.rootId :=
    fun hh => hmnotC (roots_sub_ids cs m hh)
  have hrootsndC : (cs.map Tree.rootId).Nodup := roots_nodup cs hndC
  have hrootslenC : ∀ j ∈ cs.map Tree.rootId, j < s.nodes.length :=
    fun j hj => (hbv' j (List.mem_cons_of_mem _
      (List.mem_append_left _ (roots_sub_ids cs j hj)))).1
  have hcc : collect_children sa m = .ok (cs.map Tree.rootId, sc) := by
    cases cs with
    | nil =>
      have hch : (getN sa m).child = none := by
        rw [gam]
        exact hchild0
      rw [List.map_nil]
      rw [collect_children_none sa m hch]
      rw [hsc, List.map_nil, resetLR]
    | cons c0 cs' =>
      have hch : (getN sa m).child = some c0.rootId := by
        rw [gam]
        rw [hchild0]
        rfl
      have hringsa : ringP sa (c0.rootId :: cs'.map Tree.rootId) := by
        refine ringP_transfer s sa _ ?_ ?_
        · intro a ha b hb hab
          have haT : a ∈ (c0 :: cs').map Tree.rootId := by
            rw [List.map_cons]
            exact ha
          have hbT : b ∈ (c0 :: cs').map Tree.rootId := by
            rw [List.map_cons]
            exact hb
          have ham : a ≠ m := fun hh =>
            hmnotC (hh ▸ roots_sub_ids _ a haT)
          have hbm : b ≠ m := fun hh =>
            hmnotC (hh ▸ roots_sub_ids _ b hbT)
          exact ⟨(ga a ham).symm ▸ hab.1, (ga b hbm).symm ▸ hab.2⟩
        · have hx := hringcs
          rw [List.map_cons] at hx
          exact hx
      have hndx : (c0.rootId :: cs'.map Tree.rootId).Nodup := by
        have hx := hrootsndC
        rw [List.map_cons] at hx
        exact hx
      have hlenx : ∀ j ∈ c0.rootId :: cs'.map Tree.rootId,
          j < sa.nodes.length := by
        intro j hj
        rw [lena]
        apply hrootslenC
        rw [List.map_cons]
        exact hj
      have hmx : m ∉ c0.rootId :: cs'.map Tree.rootId := by
        intro hh
        apply hmnotroots
        rw [List.map_cons]
        exact hh
      have := collect_children_spec sa m c0.rootId (cs'.map Tree.rootId)
        hch hringsa hndx hlenx hmx
      rw [List.map_cons, this, hsc, List.map_cons]
  have lensc : sc.nodes.length = s.nodes.length := by
    rw [hsc, resetLR_length, length_setN, lena]
  have gC : ∀ j, j ≠ m → j ∉ cs.map Tree.rootId → getN sc j = getN s j := by
    intro j hjm hjr
    rw [hsc, resetLR_notmem _ _ _ hjr, getN_setN_ne _ _ _ _ hjm]
    exact ga j hjm
  have gCm' : getN sc m = { getN sa m with child := none } := by
    rw [hsc, resetLR_notmem _ _ _ hmnotroots]
    exact getN_setN_self _ _ _ (by rw [lena]; exact hmlen)
  have gCm_key : (getN sc m).key = (getN s m).key := by
    rw [gCm', gam]
  have gCm_left : (getN sc m).left = (getN s m).left := by
    rw [gCm', gam]
  have gCm_right : (getN sc m).right = (getN s m).right := by
    rw [gCm', gam]
  have gCc : ∀ c ∈ cs, getN sc c.rootId =
      { getN s c.rootId with left := c.rootId, right := c.rootId } := by
    intro c hc
    have hcm : c.rootId ≠ m := fun hh =>
      hmnotC (hh ▸ mem_forest_ids_of_mem cs c hc _ (rootId_mem_ids c))
    have hclen : c.rootId < (setN sa m { getN sa m with child := none
      }).nodes.length := by
      rw [length_setN, lena]
      exact hrootslenC _ (List.mem_map_of_mem _ hc)
    rw [hsc, resetLR_mem _ _ _ hrootsndC (List.mem_map_of_mem _ hc) hclen,
      getN_setN_ne _ _ _ _ hcm, ga _ hcm]
  have hstatic_sc : ∀ j, j ≠ m → agreeStatic (getN sc j) (getN s j) := by
    intro j hjm
    by_cases hjr : j ∈ cs.map Tree.rootId
    · obtain ⟨c, hc, hcj⟩ := List.mem_map.mp hjr
      rw [← hcj, gCc c hc]
      exact ⟨rfl, rfl, rfl, rfl, rfl, rfl⟩
    · rw [gC j hjm hjr]
      exact agreeStatic_refl _
  have hval_sc_cs : ∀ j ∈ Forest.ids cs,
      (getN sc j).value = (getN s j).value := by
    intro j hj
    have hjm : j ≠ m := fun hh => hmnotC (hh ▸ hj)
    exact (hstatic_sc j hjm).2.1
  have hwfc_sc : ∀ c ∈ cs, wfTree sc c := by
    intro c hc
    refine wfTree_congr s sc c ?_ ?_ (hwfcs c hc)
    · have hcm : c.rootId ≠ m := fun hh =>
        hmnotC (hh ▸ mem_forest_ids_of_mem cs c hc _ (rootId_mem_ids c))
      have := hstatic_sc c.rootId hcm
      exact ⟨this.1, this.2.2.1, this.2.2.2.2.2⟩
    · intro j hj
      have hjids : j ∈ Tree.ids c := interior_mem_ids c j hj
      have hjC : j ∈ Forest.ids cs := mem_forest_ids_of_mem cs c hc j hjids
      have hjm : j ≠ m := fun hh => hmnotC (hh ▸ hjC)
      have hjr : j ∉ cs.map Tree.rootId := by
        intro hh
        obtain ⟨w, hw, hwj⟩ := List.mem_map.mp hh
        exact interior_root_ne cs hndC c hc j hj w hw hwj.symm
      rw [gC j hjm hjr]
      exact ⟨rfl, rfl, rfl, rfl, rfl, rfl⟩
  have hring' : ringP s (m :: rest.map Tree.rootId) := by
    have hx := hring
    rw [List.map_cons] at hx
    exact hx
  have hrestroots_sub : ∀ x ∈ rest.map Tree.rootId, x ∈ Forest.ids rest :=
    fun x hx => roots_sub_ids rest x hx
  have hringC : ringP sc (m :: rest.map Tree.rootId) := by
    refine ringP_transfer s sc _ ?_ hring'
    intro a ha b hb hab
    have hLR : ∀ x ∈ m :: rest.map Tree.rootId,
        (getN sc x).left = (getN s x).left ∧
        (getN sc x).right = (getN s x).right := by
      intro x hx
      rcases List.mem_cons.mp hx with rfl | hx2
      · exact ⟨gCm_left, gCm_right⟩
      · have hxm : x ≠ m := fun hh => hmnotR (hh ▸ hrestroots_sub x hx2)
        have hxr : x ∉ cs.map Tree.rootId := by
          intro hh
          exact hdisjCR (roots_sub_ids cs x hh) (hrestroots_sub x hx2)
        rw [gC x hxm hxr]
        exact ⟨rfl, rfl⟩
    exact ⟨(hLR a ha).2 ▸ hab.1, (hLR b hb).1 ▸ hab.2⟩
  have hndRL : (m :: rest.map Tree.rootId).Nodup := by
    have hx := roots_nodup _ hndF
    rw [List.map_cons] at hx
    exact hx
  have hlenRLsc : ∀ j ∈ m :: rest.map Tree.rootId, j < sc.nodes.length := by
    intro j hj
    rw [lensc]
    rcases List.mem_cons.mp hj with rfl | hj2
    · exact hmlen
    · exact (hbv' j (List.mem_cons_of_mem _
        (List.mem_append_right _ (hrestroots_sub j hj2)))).1
  obtain ⟨hAS, hunt, hnil2, hcons2⟩ :=
    ring_remove_head sc m (rest.map Tree.rootId) hringC hndRL hlenRLsc
  have hrm1len : (remove_from_root_list sc m).1.nodes.length =
      s.nodes.length := (remove_from_root_list_length sc m).trans lensc
  have hstatic_sd : ∀ j, j ≠ m →
      agreeStatic (getN (remove_from_root_list sc m).1 j) (getN s j) :=
    fun j hj => agreeStatic_trans (hAS j) (hstatic_sc j hj)
  have hkey_sd : ∀ j, (getN (remove_from_root_list sc m).1 j).key =
      (getN s j).key := by
    intro j
    by_cases hj : j = m
    · rw [hj, (hAS m).1, gCm_key]
    · exact (hstatic_sd j hj).1
  have hval_sd : ∀ j, j ≠ m →
      (getN (remove_from_root_list sc m).1 j).value = (getN s j).value :=
    fun j hj => (hstatic_sd j hj).2.1
  have hg_rest_int : ∀ u ∈ rest, ∀ j ∈ Tree.ids u, j ∉ rest.map Tree.rootId →
      getN (remove_from_root_list sc m).1 j = getN s j := by
    intro u hu j hj hjroots
    have hjR : j ∈ Forest.ids rest := mem_forest_ids_of_mem rest u hu j hj
    have hjm : j ≠ m := fun hh => hmnotR (hh ▸ hjR)
    have hjcs : j ∉ cs.map Tree.rootId := by
      intro hh
      exact hdisjCR (roots_sub_ids cs j hh) hjR
    rw [hunt j ?_, gC j hjm hjcs]
    intro hh
    rcases List.mem_cons.mp hh with h1 | h2
    · exact hjm h1
    · exact hjroots h2
  have hwfrest_sd : ∀ u ∈ rest,
      wfTree (remove_from_root_list sc m).1 u ∧
      (getN (remove_from_root_list sc m).1 u.rootId).parent = none := by
    intro u hu
    have hroot_ne : u.rootId ≠ m := fun hh =>
      hmnotR (hh ▸ mem_forest_ids_of_mem rest u hu _ (rootId_mem_ids u))
    have hstat := hstatic_sd u.rootId hroot_ne
    constructor
    · refine wfTree_congr s _ u ?_ ?_ (hwfF u (List.mem_cons_of_mem _ hu)).1
      · exact ⟨hstat.1, hstat.2.2.1, hstat.2.2.2.2.2⟩
      · intro j hj
        have hjids : j ∈ Tree.ids u := interior_mem_ids u j hj
        have hjroots : j ∉ rest.map Tree.rootId := by
          intro hh
          obtain ⟨w, hw, hwj⟩ := List.mem_map.mp hh
          exact interior_root_ne rest hndR u hu j hj w hw hwj.symm
        rw [hg_rest_int u hu j hjids hjroots]
        exact ⟨rfl, rfl, rfl, rfl, rfl, rfl⟩
    · rw [hstat.2.2.2.2.1]
      exact (hwfF u (List.mem_cons_of_mem _ hu)).2
  have hInvSd : InvStruct0 (remove_from_root_list sc m).1
      { h with min := (remove_from_root_list sc m).2 } rest := by
    refine ⟨?_, ?_, hwfrest_sd, hndR, ?_⟩
    · cases rest with
      | nil =>
        exact Or.inl ⟨hnil2 (by rw [List.map_nil]), rfl⟩
      | cons r0 rest' =>
        have hc := hcons2 r0.rootId (rest'.map Tree.rootId)
          (List.map_cons _ _ _)
        exact Or.inr ⟨r0, rest', rfl, hc.1⟩
    · cases rest with
      | nil =>
        rw [List.map_nil]
        exact trivial
      | cons r0 rest' =>
        have hc := hcons2 r0.rootId (rest'.map Tree.rootId)
          (List.map_cons _ _ _)
        rw [List.map_cons]
        exact hc.2
    · intro j hj
      have hjR : j ∈ Forest.ids rest := hj
      have hjm : j ≠ m := fun hh => hmnotR (hh ▸ hjR)
      rw [hrm1len, hval_sd j hjm]
      exact hbv' j (List.mem_cons_of_mem _ (List.mem_append_right _ hjR))
  have hwfc_sd : ∀ c ∈ cs, wfTree (remove_from_root_list sc m).1 c := by
    intro c hc
    refine wfTree_eq_congr sc _ c ?_ (hwfc_sc c hc)
    intro j hj
    have hjC : j ∈ Forest.ids cs := mem_forest_ids_of_mem cs c hc j hj
    refine hunt j ?_
    intro hh
    rcases List.mem_cons.mp hh with h1 | h2
    · exact hmnotC (h1 ▸ hjC)
    · exact hdisjCR hjC (hrestroots_sub j h2)
  obtain ⟨F1, hI1, hperm1, hkvd1, hlenq, htotq⟩ :=
    add_children_spec cs (remove_from_root_list sc m).1
      { h with min := (remove_from_root_list sc m).2 } rest hInvSd hwfc_sd
      (by
        have hg : ∀ j ∈ Forest.ids cs,
            getN (remove_from_root_list sc m).1 j = getN sc j := by
          intro j hj
          refine hunt j ?_
          intro hh
          rcases List.mem_cons.mp hh with h1 | h2
          · exact hmnotC (h1 ▸ hj)
          · exact hdisjCR hj (hrestroots_sub j h2)
        have hp : (Forest.ids cs ++ Forest.ids rest).Nodup := hndCR
        exact hp)
      (by
        intro j hj
        rw [hrm1len]
        exact (hbv' j (List.mem_cons_of_mem _ (List.mem_append_left _ hj))).1)
      (by
        intro j hj
        have hjm : j ≠ m := fun hh => hmnotC (hh ▸ hj)
        rw [hval_sd j hjm]
        exact (hbv' j (List.mem_cons_of_mem _ (List.mem_append_left _ hj))).2)
  have hkeyq : ∀ j, (getN (add_children (cs.map Tree.rootId)
      (remove_from_root_list sc m).1
      { h with min := (remove_from_root_list sc m).2 }).1 j).key =
      (getN s j).key :=
    fun j => ((hkvd1 j).1).trans (hkey_sd j)
  have hvalq : ∀ j, j ≠ m → (getN (add_children (cs.map Tree.rootId)
      (remove_from_root_list sc m).1
      { h with min := (remove_from_root_list sc m).2 }).1 j).value =
      (getN s j).value :=
    fun j hj => ((hkvd1 j).2.1).trans (hval_sd j hj)
  have hlenq' : (add_children (cs.map Tree.rootId)
      (remove_from_root_list sc m).1
      { h with min := (remove_from_root_list sc m).2 }).1.nodes.length =
      s.nodes.length := hlenq.trans hrm1len
  have htotq' : (add_children (cs.map Tree.rootId)
      (remove_from_root_list sc m).1
      { h with min := (remove_from_root_list sc m).2 }).2.total_nodes =
      h.total_nodes := htotq
  have hcardCR : (Forest.ids cs ++ Forest.ids rest).length + 1 =
      (Forest.ids (Tree.node m cs :: rest)).length := by
    rw [hidsF, List.cons_append, List.length_cons]
  have hlenF1 : (Forest.ids F1).length =
      (Forest.ids cs ++ Forest.ids rest).length := hperm1.length_eq
  cases hm3 : (add_children (cs.map Tree.rootId)
      (remove_from_root_list sc m).1
      { h with min := (remove_from_root_list sc m).2 }).2.min with
  | none =>
    have hF1nil : F1 = [] := by
      obtain ⟨hh1, _, _, _, _⟩ := hI1
      rcases hh1 with ⟨_, hnil⟩ | ⟨t1, r1, hF1c, hm1⟩
      · exact hnil
      · rw [hm3] at hm1
        cases hm1
    have hEqN : extract_min s h = .ok (some ((getN s m).key, v),
        (add_children (cs.map Tree.rootId) (remove_from_root_list sc m).1
          { h with min := (remove_from_root_list sc m).2 }).1,
        { min := none, total_nodes := (add_children (cs.map Tree.rootId)
            (remove_from_root_list sc m).1
            { h with min := (remove_from_root_list sc m).2
            }).2.total_nodes - 1 }) := by
      rw [extract_min, hmin]
      dsimp only
      rw [hv]
      dsimp only
      rw [← hsa, hcc]
      dsimp only
      rw [hm3]
    have hCRnil : Forest.ids cs ++ Forest.ids rest = [] := by
      have hx : (Forest.ids cs ++ Forest.ids rest).length = 0 := by
        rw [← hlenF1, hF1nil, forest_ids_nil]
        rfl
      exact List.length_eq_zero.mp hx
    refine ⟨v, _, _, [], hv, hEqN, ⟨?_, ?_⟩, ?_, hkeyq,
      fun j hj => hvalq j hj, hminall, hlenq', ?_, List.nodup_nil⟩
    · exact ⟨Or.inl ⟨rfl, rfl⟩, trivial,
        fun t ht => absurd ht (List.not_mem_nil t), List.nodup_nil,
        fun i hi => absurd hi (List.not_mem_nil i)⟩
    · have h1 : (add_children (cs.map Tree.rootId)
          (remove_from_root_list sc m).1
          { h with min := (remove_from_root_list sc m).2 }).2.total_nodes =
          1 := by
        rw [htotq', htotal, ← hcardCR, hCRnil]
        rfl
      dsimp only
      rw [forest_ids_nil, h1]
      rfl
    · rw [forest_ids_nil, hidsF, List.cons_append, hCRnil]
    · rw [htotq', htotal]
  | some mm =>
    obtain ⟨s2, h2c, F2, hceq, hI2, hperm2, hkv2, hlen2, htot2, hdeg2⟩ :=
      consolidate_spec (add_children (cs.map Tree.rootId)
        (remove_from_root_list sc m).1
        { h with min := (remove_from_root_list sc m).2 }).1
        { min := some mm, total_nodes := (add_children (cs.map Tree.rootId)
            (remove_from_root_list sc m).1
            { h with min := (remove_from_root_list sc m).2
            }).2.total_nodes - 1 } F1
        (by
          obtain ⟨hh1, hr1, hw1, hn1, hb1⟩ := hI1
          refine ⟨?_, hr1, hw1, hn1, hb1⟩
          rcases hh1 with ⟨hm1, _⟩ | ⟨t1, r1, hF1c, hm1⟩
          · rw [hm3] at hm1
            cases hm1
          · refine Or.inr ⟨t1, r1, hF1c, ?_⟩
            rw [hm3] at hm1
            exact hm1)
    have hEqS : extract_min s h = .ok (some ((getN s m).key, v), s2, h2c) := by
      rw [extract_min, hmin]
      dsimp only
      rw [hv]
      dsimp only
      rw [← hsa, hcc]
      dsimp only
      rw [hm3]
      dsimp only
      rw [hceq]
    refine ⟨v, s2, h2c, F2, hv, hEqS, ⟨hI2, ?_⟩, ?_, ?_, ?_, hminall, ?_,
      ?_, hdeg2⟩
    · rw [htot2]
      dsimp only
      rw [htotq', htotal, ← hcardCR, ← hlenF1, hperm2.length_eq]
      omega
    · rw [hidsF, List.cons_append]
      exact List.Perm.cons m (hperm2.trans hperm1)
    · intro j
      rw [(hkv2 j).1]
      exact hkeyq j
    · intro j hj
      rw [(hkv2 j).2]
      exact hvalq j hj
    · rw [hlen2]
      exact hlenq'
    · rw [htot2]
      dsimp only
      rw [htotq']

theorem getLastD_append_cons (pre : List Nat) (z : Nat) (post : List Nat)
    (d : Nat) : (pre ++ z :: post).getLastD d = post.getLastD z := by
  induction pre generalizing d with
  | nil => rw [List.nil_append, List.getLastD_cons]
  | cons p pre' ih => rw [List.cons_append, List.getLastD_cons, ih]

theorem getLast?_cons_eq (a : Nat) (l : List Nat) :
    (a :: l).getLast? = some (l.getLastD a) := by
  induction l generalizing a with
  | nil => rfl
  | cons b l' ih =>
    rw [List.getLast?_cons_cons, ih, List.getLastD_cons]

theorem chain'_rlink_pos (s s' : Store) :
    ∀ l : List Nat,
    (∀ pre x y post, l = pre ++ x :: y :: post → rlink s x y → rlink s' x y) →
    l.Chain' (rlink s) → l.Chain' (rlink s') := by
  intro l
  induction l with
  | nil =>
    intro _ _
    exact List.chain'_nil
  | cons x rest ih =>
    intro hp hch
    cases rest with
    | nil => exact List.chain'_singleton x
    | cons y rest2 =>
      rw [List.chain'_cons] at hch ⊢
      refine ⟨hp [] x y rest2 rfl hch.1, ?_⟩
      refine ih ?_ hch.2
      intro pre a b post heq hab
      exact hp (x :: pre) a b post (by rw [heq, List.cons_append]) hab

theorem concat_splice (s : Store) (h : FibonacciHeap) (ma mb : Nat)
    (ra rb : List Nat) (hm : h.min = some ma)
    (hA : ringP s (ma :: ra)) (hB : ringP s (mb :: rb))
    (hnd : ((ma :: ra) ++ mb :: rb).Nodup)
    (hlen : ∀ j ∈ (ma :: ra) ++ mb :: rb, j < s.nodes.length) :
    ringP (concatenate_root_lists s h mb).1 (ma :: (mb :: rb) ++ ra) ∧
    (∀ j, agreeStatic (getN (concatenate_root_lists s h mb).1 j) (getN s j)) ∧
    (concatenate_root_lists s h mb).1.nodes.length = s.nodes.length ∧
    (∀ j, j ≠ ma → j ≠ mb → j ≠ (getN s mb).left → j ≠ (getN s ma).right →
      getN (concatenate_root_lists s h mb).1 j = getN s j) := by
  obtain ⟨hndA, hndB, hdisjAB⟩ := List.nodup_append.mp hnd
  have hmema : ma ∈ ma :: ra := List.mem_cons_self _ _
  have hmemb : mb ∈ mb :: rb := List.mem_cons_self _ _
  have hmane : ma ≠ mb := fun hh => hdisjAB hmema (hh ▸ hmemb)
  have hOLd : (getN s mb).left = rb.getLastD mb := by
    cases rb with
    | nil => exact hB.2.2
    | cons b0 rb' =>
      have hw := hB.2
      rw [List.getLastD_cons] at hw ⊢
      exact hw.2
  have hSRd : (getN s ma).right = ra.headD ma := by
    cases ra with
    | nil => exact hA.2.1
    | cons r0 ra' => exact (ring_succ s ma (r0 :: ra') hA [] ma (r0 :: ra') rfl).1
  have hOLmem : (getN s mb).left ∈ mb :: rb := by
    rw [hOLd]
    exact getLastD_mem rb mb
  have hSRmem : (getN s ma).right ∈ ma :: ra := by
    rw [hSRd]
    exact headD_mem ma ra
  have hOLA : ∀ x ∈ ma :: ra, x ≠ (getN s mb).left :=
    fun x hx hh => hdisjAB hx (hh ▸ hOLmem)
  have hSRB : ∀ x ∈ mb :: rb, x ≠ (getN s ma).right :=
    fun x hx hh => hdisjAB (hh ▸ hSRmem) hx
  have hmalen : ma < s.nodes.length := hlen ma (List.mem_append_left _ hmema)
  have hmblen : mb < s.nodes.length := hlen mb (List.mem_append_right _ hmemb)
  have hOLlen : (getN s mb).left < s.nodes.length :=
    hlen _ (List.mem_append_right _ hOLmem)
  have hSRlen : (getN s ma).right < s.nodes.length :=
    hlen _ (List.mem_append_left _ hSRmem)
  obtain ⟨s1, hs1⟩ : ∃ x, x = setN s ma { getN s ma with right := mb } :=
    ⟨_, rfl⟩
  obtain ⟨s2, hs2⟩ : ∃ x, x = setN s1 mb { getN s1 mb with left := ma } :=
    ⟨_, rfl⟩
  obtain ⟨s3, hs3⟩ : ∃ x, x = setN s2 ((getN s mb).left)
      { getN s2 ((getN s mb).left) with right := (getN s ma).right } :=
    ⟨_, rfl⟩
  obtain ⟨s4, hs4⟩ : ∃ x, x = setN s3 ((getN s ma).right)
      { getN s3 ((getN s ma).right) with left := (getN s mb).left } :=
    ⟨_, rfl⟩
  have len1 : s1.nodes.length = s.nodes.length := by
    rw [hs1]
    exact length_setN _ _ _
  have len2 : s2.nodes.length = s.nodes.length := by
    rw [hs2, length_setN]
    exact len1
  have len3 : s3.nodes.length = s.nodes.length := by
    rw [hs3, length_setN]
    exact len2
  have len4 : s4.nodes.length = s.nodes.length := by
    rw [hs4, length_setN]
    exact len3
  have g1 : ∀ j, j ≠ ma → getN s1 j = getN s j := by
    intro j hj
    rw [hs1]
    exact getN_setN_ne _ _ _ _ hj
  have g1m : getN s1 ma = { getN s ma with right := mb } := by
    rw [hs1]
    exact getN_setN_self _ _ _ hmalen
  have g2 : ∀ j, j ≠ mb → getN s2 j = getN s1 j := by
    intro j hj
    rw [hs2]
    exact getN_setN_ne _ _ _ _ hj
  have g2m : getN s2 mb = { getN s1 mb with left := ma } := by
    rw [hs2]
    exact getN_setN_self _ _ _ (by rw [len1]; exact hmblen)
  have g3 : ∀ j, j ≠ (getN s mb).left → getN s3 j = getN s2 j := by
    intro j hj
    rw [hs3]
    exact getN_setN_ne _ _ _ _ hj
  have g3m : getN s3 ((getN s mb).left) =
      { getN s2 ((getN s mb).left) with right := (getN s ma).right } := by
    rw [hs3]
    exact getN_setN_self _ _ _ (by rw [len2]; exact hOLlen)
  have g4 : ∀ j, j ≠ (getN s ma).right → getN s4 j = getN s3 j := by
    intro j hj
    rw [hs4]
    exact getN_setN_ne _ _ _ _ hj
  have g4m : getN s4 ((getN s ma).right) =
      { getN s3 ((getN s ma).right) with left := (getN s mb).left } := by
    rw [hs4]
    exact getN_setN_self _ _ _ (by rw [len3]; exact hSRlen)
  have heq : (concatenate_root_lists s h mb).1 = s4 := by
    rw [hs4, hs3, hs2, hs1]
    unfold concatenate_root_lists
    rw [hm]
    dsimp only
    split
    · rfl
    · rfl
  have hR : ∀ x, x ≠ ma → x ≠ (getN s mb).left →
      (getN s4 x).right = (getN s x).right := by
    intro x h1 h2
    by_cases h4 : x = (getN s ma).right
    · rw [h4, g4m]
      have h4ne : (getN s ma).right ≠ ma := h4 ▸ h1
      by_cases h2' : (getN s ma).right = mb
      · exact absurd h2'.symm (hSRB mb hmemb)
      · rw [g3 _ (h4 ▸ h2), g2 _ h2', g1 _ h4ne]
    · by_cases h2' : x = mb
      · rw [g4 x h4, g3 x h2, h2', g2m, g1 mb (Ne.symm hmane)]
      · rw [g4 x h4, g3 x h2, g2 x h2', g1 x h1]
  have hL : ∀ x, x ≠ mb → x ≠ (getN s ma).right →
      (getN s4 x).left = (getN s x).left := by
    intro x h1 h4
    rw [g4 x h4]
    by_cases h3 : x = (getN s mb).left
    · by_cases h2 : (getN s mb).left = mb
      · exact absurd (h3.trans h2) h1
      · by_cases h1' : (getN s mb).left = ma
        · exact absurd h1'.symm (hOLA ma hmema)
        · rw [h3, g3m]
          rw [g2 _ h2, g1 _ h1']
    · by_cases h1' : x = ma
      · rw [h1', g3 ma (hOLA ma hmema), g2 ma hmane, g1m]
      · rw [g3 x h3, g2 x h1, g1 x h1']
  have hFr : ∀ j, j ≠ ma → j ≠ mb → j ≠ (getN s mb).left →
      j ≠ (getN s ma).right → getN s4 j = getN s j := by
    intro j h1 h2 h3 h4
    rw [g4 j h4, g3 j h3, g2 j h2, g1 j h1]
  have hRma : (getN s4 ma).right = mb := by
    by_cases h4 : ma = (getN s ma).right
    · have hx : getN s4 ma = { getN s3 ma with left := (getN s mb).left } := by
        rw [h4]
        exact g4m
      rw [hx]
      have : (getN s3 ma).right = (getN s2 ma).right := by
        rw [g3 ma (hOLA ma hmema)]
      rw [show ({ getN s3 ma with left := (getN s mb).left } :
          FibNode).right = (getN s3 ma).right from rfl, this,
        g2 ma hmane, g1m]
    · rw [g4 ma h4, g3 ma (hOLA ma hmema), g2 ma hmane, g1m]
  have hLmb : (getN s4 mb).left = ma := by
    rw [g4 mb (hSRB mb hmemb)]
    by_cases h3 : mb = (getN s mb).left
    · have hx : getN s3 mb =
          { getN s2 mb with right := (getN s ma).right } := by
        rw [h3]
        exact g3m
      rw [hx]
      rw [show ({ getN s2 mb with right := (getN s ma).right } :
          FibNode).left = (getN s2 mb).left from rfl, g2m]
    · rw [g3 mb h3, g2m]
  have hROL : (getN s4 ((getN s mb).left)).right = (getN s ma).right := by
    rw [g4 _ (Ne.symm (hOLA _ hSRmem)), g3m]
  have hLSR : (getN s4 ((getN s ma).right)).left = (getN s mb).left := by
    rw [g4m]
  have hch1 : List.Chain' (rlink s4) (mb :: rb) := by
    refine chain'_rlink_pos s s4 (mb :: rb) ?_ hB.1
    intro pre x y post heqd hab
    have hxmem : x ∈ mb :: rb := heqd.symm ▸
      (List.mem_append_right pre (List.mem_cons_self x (y :: post)))
    have hymem : y ∈ mb :: rb := heqd.symm ▸
      (List.mem_append_right pre
        (List.mem_cons_of_mem x (List.mem_cons_self y post)))
    have hxma : x ≠ ma := fun hh => hdisjAB (hh ▸ hmema) hxmem
    have hndx : (pre ++ x :: y :: post).Nodup := heqd ▸ hndB
    obtain ⟨_, hnd2, _⟩ := List.nodup_append.mp hndx
    have hxny : x ∉ y :: post := (List.nodup_cons.mp hnd2).1
    have hOLval : (getN s mb).left = post.getLastD y := by
      rw [hOLd]
      have e1 : (mb :: rb).getLastD 0 = (pre ++ x :: y :: post).getLastD 0 := by
        rw [heqd]
      rw [List.getLastD_cons, getLastD_append_cons, List.getLastD_cons] at e1
      exact e1
    have hxOL : x ≠ (getN s mb).left := by
      rw [hOLval]
      intro hh
      exact hxny (hh ▸ getLastD_mem post y)
    have hymb : y ≠ mb := by
      have hyrb : y ∈ rb := by
        cases pre with
        | nil =>
          rw [(List.cons.inj heqd).2]
          exact List.mem_cons_self _ _
        | cons p0 pre' =>
          rw [List.cons_append] at heqd
          rw [(List.cons.inj heqd).2]
          exact List.mem_append_right _
            (List.mem_cons_of_mem _ (List.mem_cons_self _ _))
      intro hh
      exact (List.nodup_cons.mp hndB).1 (hh ▸ hyrb)
    exact ⟨(hR x hxma hxOL).trans hab.1,
      (hL y hymb (hSRB y hymem)).trans hab.2⟩
  have hchra : List.Chain' (rlink s) ra := by
    cases ra with
    | nil => exact List.chain'_nil
    | cons r0 ra' => exact (List.chain'_cons.mp hA.1).2
  have hndra : ra.Nodup := (List.nodup_cons.mp hndA).2
  have hmanotra : ma ∉ ra := (List.nodup_cons.mp hndA).1
  have hch2 : List.Chain' (rlink s4) ra := by
    refine chain'_rlink_pos s s4 ra ?_ hchra
    intro pre x y post heqd hab
    have hxmem : x ∈ ra := heqd.symm ▸
      (List.mem_append_right pre (List.mem_cons_self x (y :: post)))
    have hymem : y ∈ ra := heqd.symm ▸
      (List.mem_append_right pre
        (List.mem_cons_of_mem x (List.mem_cons_self y post)))
    have hxma : x ≠ ma := fun hh => hmanotra (hh ▸ hxmem)
    have hxOL : x ≠ (getN s mb).left :=
      hOLA x (List.mem_cons_of_mem _ hxmem)
    have hymb : y ≠ mb := fun hh =>
      hdisjAB (List.mem_cons_of_mem _ hymem) (hh ▸ hmemb)
    have hndx : (pre ++ x :: y :: post).Nodup := heqd ▸ hndra
    obtain ⟨_, hnd2, hdisjp⟩ := List.nodup_append.mp hndx
    have hySR : y ≠ (getN s ma).right := by
      rw [hSRd]
      cases pre with
      | nil =>
        rw [heqd, List.nil_append]
        intro hh
        exact (List.nodup_cons.mp hnd2).1
          (hh ▸ List.mem_cons_self y post)
      | cons p0 pre' =>
        rw [heqd, List.cons_append]
        intro hh
        exact hdisjp (hh ▸ List.mem_cons_self p0 pre')
          (List.mem_cons_of_mem _ (List.mem_cons_self y post))
    exact ⟨(hR x hxma hxOL).trans hab.1, (hL y hymb hySR).trans hab.2⟩
  have hchain : List.Chain' (rlink s4) (ma :: (mb :: rb) ++ ra) := by
    rw [show ma :: (mb :: rb) ++ ra = (ma :: mb :: rb) ++ ra from by
      rw [List.cons_append]]
    rw [List.chain'_append]
    refine ⟨?_, hch2, ?_⟩
    · rw [List.chain'_cons]
      exact ⟨⟨hRma, hLmb⟩, hch1⟩
    · intro u hu w hw
      rw [getLast?_cons_eq] at hu
      have hu' : u = (mb :: rb).getLastD ma := by
        have := Option.mem_def.mp hu
        injection this with h1
        exact h1.symm
      cases ra with
      | nil => cases hw
      | cons r0 ra' =>
        have hw' : w = r0 := by
          have := Option.mem_def.mp hw
          injection this with h1
          exact h1.symm
        have huOL : u = (getN s mb).left := by
          rw [hu', List.getLastD_cons, hOLd]
        have hwSR : w = (getN s ma).right := by
          rw [hw', hSRd]
          rfl
        rw [huOL, hwSR]
        exact ⟨hROL, hLSR⟩
  have hwrap : rlink s4 (((mb :: rb) ++ ra).getLastD ma) ma := by
    cases ra with
    | nil =>
      rw [List.append_nil, List.getLastD_cons, ← hOLd]
      have hSRma : (getN s ma).right = ma := hSRd
      constructor
      · rw [hROL]
        exact hSRma
      · have hx := hLSR
        rw [hSRma] at hx
        exact hx
    | cons r0 ra' =>
      rw [getLastD_append_cons]
      have hla_mem : ra'.getLastD r0 ∈ r0 :: ra' := getLastD_mem ra' r0
      have hwrapA : rlink s (ra'.getLastD r0) ma := by
        have hw := hA.2
        rw [List.getLastD_cons] at hw
        exact hw
      have hlama : ra'.getLastD r0 ≠ ma := fun hh => hmanotra (hh ▸ hla_mem)
      have hlaOL : ra'.getLastD r0 ≠ (getN s mb).left :=
        hOLA _ (List.mem_cons_of_mem _ hla_mem)
      have hmaSR : ma ≠ (getN s ma).right := by
        rw [hSRd]
        intro hh
        apply hmanotra
        rw [hh]
        exact List.mem_cons_self r0 ra'
      constructor
      · rw [hR _ hlama hlaOL]
        exact hwrapA.1
      · rw [hL ma hmane hmaSR]
        exact hwrapA.2
  rw [heq]
  refine ⟨⟨hchain, hwrap⟩, ?_, len4, hFr⟩
  intro j
  rw [hs4]
  refine agreeStatic_trans (getN_setN_agreeStatic _ _ _ ?_ j) ?_
  · exact ⟨rfl, rfl, rfl, rfl, rfl, rfl⟩
  · rw [hs3]
    refine agreeStatic_trans (getN_setN_agreeStatic _ _ _ ?_ j) ?_
    · exact ⟨rfl, rfl, rfl, rfl, rfl, rfl⟩
    · rw [hs2]
      refine agreeStatic_trans (getN_setN_agreeStatic _ _ _ ?_ j) ?_
      · exact ⟨rfl, rfl, rfl, rfl, rfl, rfl⟩
      · rw [hs1]
        refine getN_setN_agreeStatic _ _ _ ?_ j
        exact ⟨rfl, rfl, rfl, rfl, rfl, rfl⟩

theorem union_spec (s : Store) (a b : FibonacciHeap) (Fa Fb : List Tree)
    (hIa : Inv s a Fa) (hIb : Inv s b Fb)
    (hnd : (Forest.ids Fa ++ Forest.ids Fb).Nodup) :
    ∃ F', Inv (union s a b).1 (union s a b).2 F' ∧
      (Forest.ids F').Perm (Forest.ids Fa ++ Forest.ids Fb) ∧
      (∀ j, (getN (union s a b).1 j).key = (getN s j).key ∧
        (getN (union s a b).1 j).value = (getN s j).value) ∧
      (union s a b).1.nodes.length = s.nodes.length ∧
      (union s a b).2.total_nodes = a.total_nodes + b.total_nodes := by
  obtain ⟨⟨hheadA, hringA, hwfA, hndA', hbvA⟩, htotA⟩ := hIa
  obtain ⟨⟨hheadB, hringB, hwfB, hndB', hbvB⟩, htotB⟩ := hIb
  obtain ⟨hndIA, hndIB, hdisjI⟩ := List.nodup_append.mp hnd
  cases hma : a.min with
  | none =>
    have hFa : Fa = [] := by
      rcases hheadA with ⟨_, h2⟩ | ⟨t1, r1, _, hm1, _⟩
      · exact h2
      · rw [hma] at hm1
        cases hm1
    have hu : union s a b = (s, b) := by
      unfold union
      rw [hma]
    rw [hu]
    refine ⟨Fb, ⟨⟨hheadB, hringB, hwfB, hndB', hbvB⟩, htotB⟩, ?_,
      fun j => ⟨rfl, rfl⟩, rfl, ?_⟩
    · rw [hFa, forest_ids_nil, List.nil_append]
    · have : a.total_nodes = 0 := by
        rw [htotA, hFa, forest_ids_nil]
        rfl
      rw [this]
      dsimp only
      omega
  | some ma0 =>
    cases hmb : b.min with
    | none =>
      have hFb : Fb = [] := by
        rcases hheadB with ⟨_, h2⟩ | ⟨t1, r1, _, hm1, _⟩
        · exact h2
        · rw [hmb] at hm1
          cases hm1
      have hu : union s a b = (s, a) := by
        unfold union
        rw [hma, hmb]
      rw [hu]
      refine ⟨Fa, ⟨⟨hheadA, hringA, hwfA, hndA', hbvA⟩, htotA⟩, ?_,
        fun j => ⟨rfl, rfl⟩, rfl, ?_⟩
      · rw [hFb, forest_ids_nil, List.append_nil]
      · have : b.total_nodes = 0 := by
          rw [htotB, hFb, forest_ids_nil]
          rfl
        rw [this]
        show a.total_nodes = a.total_nodes + 0
        omega
    | some mb0 =>
      obtain ⟨ta, raT, hFa, hma'⟩ : ∃ ta raT, Fa = ta :: raT ∧
          a.min = some ta.rootId := by
        rcases hheadA with ⟨h1, _⟩ | ⟨t1, r1, h1, hm1, _⟩
        · rw [hma] at h1
          cases h1
        · exact ⟨t1, r1, h1, hm1⟩
      obtain ⟨tb, rbT, hFb, hmb'⟩ : ∃ tb rbT, Fb = tb :: rbT ∧
          b.min = some tb.rootId := by
        rcases hheadB with ⟨h1, _⟩ | ⟨t1, r1, h1, hm1, _⟩
        · rw [hmb] at h1
          cases h1
        · exact ⟨t1, r1, h1, hm1⟩
      have hmkA : ∀ u ∈ Fa, (getN s ta.rootId).key ≤ (getN s u.rootId).key := by
        rcases hheadA with ⟨h1, _⟩ | ⟨t1, r1, h1, _, hmk1⟩
        · rw [hma] at h1
          cases h1
        · intro u hu
          have := hmk1 u hu
          rw [hFa] at h1
          rw [← (List.cons.inj h1).1] at this
          exact this
      have hmkB : ∀ u ∈ Fb, (getN s tb.rootId).key ≤ (getN s u.rootId).key := by
        rcases hheadB with ⟨h1, _⟩ | ⟨t1, r1, h1, _, hmk1⟩
        · rw [hmb] at h1
          cases h1
        · intro u hu
          have := hmk1 u hu
          rw [hFb] at h1
          rw [← (List.cons.inj h1).1] at this
          exact this
      have hmb0 : mb0 = tb.rootId := Option.some.inj (hmb.symm.trans hmb')
      subst hmb0
      have hringA' : ringP s (ta.rootId :: raT.map Tree.rootId) := by
        have hx := hringA
        rw [hFa, List.map_cons] at hx
        exact hx
      have hringB' : ringP s (tb.rootId :: rbT.map Tree.rootId) := by
        have hx := hringB
        rw [hFb, List.map_cons] at hx
        exact hx
      have hrootsnd : ((ta.rootId :: raT.map Tree.rootId) ++
          tb.rootId :: rbT.map Tree.rootId).Nodup := by
        rw [show ta.rootId :: raT.map Tree.rootId = Fa.map Tree.rootId from by
          rw [hFa, List.map_cons]]
        rw [show tb.rootId :: rbT.map Tree.rootId = Fb.map Tree.rootId from by
          rw [hFb, List.map_cons]]
        refine List.nodup_append.mpr ⟨roots_nodup Fa hndIA,
          roots_nodup Fb hndIB, ?_⟩
        intro x hxa hxb
        exact hdisjI (roots_sub_ids Fa x hxa) (roots_sub_ids Fb x hxb)
      have hrootslen : ∀ j ∈ (ta.rootId :: raT.map Tree.rootId) ++
          tb.rootId :: rbT.map Tree.rootId, j < s.nodes.length := by
        intro j hj
        rcases List.mem_append.mp hj with h1 | h1
        · refine (hbvA j ?_).1
          apply roots_sub_ids
          rw [hFa, List.map_cons]
          exact h1
        · refine (hbvB j ?_).1
          apply roots_sub_ids
          rw [hFb, List.map_cons]
          exact h1
      obtain ⟨hringU, hASu, hlenu, hfru⟩ := concat_splice s a ta.rootId
        tb.rootId (raT.map Tree.rootId) (rbT.map Tree.rootId) hma'
        hringA' hringB' hrootsnd hrootslen
      have hu : union s a b = ((concatenate_root_lists s a tb.rootId).1,
          { (concatenate_root_lists s a tb.rootId).2 with
            total_nodes := (concatenate_root_lists s a tb.rootId).2.total_nodes
              + b.total_nodes }) := by
        unfold union
        rw [hma, hmb]
      have hkvu : ∀ j, (getN (concatenate_root_lists s a tb.rootId).1 j).key =
          (getN s j).key ∧
          (getN (concatenate_root_lists s a tb.rootId).1 j).value =
          (getN s j).value :=
        fun j => ⟨(hASu j).1, (hASu j).2.1⟩
      have hrootmemA : ∀ u ∈ Fa, u.rootId ∈ Forest.ids Fa :=
        fun u hu0 => mem_forest_ids_of_mem Fa u hu0 _ (rootId_mem_ids u)
      have hrootmemB : ∀ u ∈ Fb, u.rootId ∈ Forest.ids Fb :=
        fun u hu0 => mem_forest_ids_of_mem Fb u hu0 _ (rootId_mem_ids u)
      have hwfU : ∀ u, u ∈ Fa ∨ u ∈ Fb →
          wfTree (concatenate_root_lists s a tb.rootId).1 u ∧
          (getN (concatenate_root_lists s a tb.rootId).1 u.rootId).parent =
            none := by
        intro u hu0
        have hwfs : wfTree s u ∧ (getN s u.rootId).parent = none := by
          rcases hu0 with h1 | h1
          · exact hwfA u h1
          · exact hwfB u h1
        constructor
        · refine wfTree_congr s _ u ?_ ?_ hwfs.1
          · exact ⟨(hASu u.rootId).1, (hASu u.rootId).2.2.1,
              (hASu u.rootId).2.2.2.2.2⟩
          · intro j hj
            have hjids : j ∈ Tree.ids u := interior_mem_ids u j hj
            have hall : u ∈ Fa ++ Fb := by
              rcases hu0 with h1 | h1
              · exact List.mem_append_left _ h1
              · exact List.mem_append_right _ h1
            have hndall : (Forest.ids (Fa ++ Fb)).Nodup := by
              rw [forest_ids_append]
              exact hnd
            have hnotroot : ∀ w ∈ Fa ++ Fb, j ≠ w.rootId :=
              fun w hw => interior_root_ne (Fa ++ Fb) hndall u hall j hj w hw
            have hrw : getN (concatenate_root_lists s a tb.rootId).1 j =
                getN s j := by
              refine hfru j ?_ ?_ ?_ ?_
              · exact hnotroot ta (List.mem_append_left _
                  (by rw [hFa]; exact List.mem_cons_self _ _))
              · exact hnotroot tb (List.mem_append_right _
                  (by rw [hFb]; exact List.mem_cons_self _ _))
              · have hOLmem : (getN s tb.rootId).left ∈
                    tb.rootId :: rbT.map Tree.rootId := by
                  have hOLd : (getN s tb.rootId).left =
                      (rbT.map Tree.rootId).getLastD tb.rootId := by
                    cases hx : rbT.map Tree.rootId with
                    | nil =>
                      have := hringB'.2
                      rw [hx] at this
                      exact this.2
                    | cons b0 rb' =>
                      have hw := hringB'.2
                      rw [hx] at hw
                      rw [List.getLastD_cons] at hw ⊢
                      exact hw.2
                  rw [hOLd]
                  exact getLastD_mem _ _
                intro hh
                obtain ⟨w, hw, hwj⟩ := List.mem_map.mp (by
                  have : (getN s tb.rootId).left ∈ Fb.map Tree.rootId := by
                    rw [hFb, List.map_cons]
                    exact hOLmem
                  rw [← hh] at this
                  exact this)
                exact hnotroot w (List.mem_append_right _ hw) hwj.symm
              · have hSRmem : (getN s ta.rootId).right ∈
                    ta.rootId :: raT.map Tree.rootId := by
                  have hSRd : (getN s ta.rootId).right =
                      (raT.map Tree.rootId).headD ta.rootId := by
                    cases hx : raT.map Tree.rootId with
                    | nil =>
                      have := hringA'.2
                      rw [hx] at this
                      exact this.1
                    | cons r0 ra' =>
                      have := ring_succ s ta.rootId (raT.map Tree.rootId)
                        hringA' [] ta.rootId (raT.map Tree.rootId) rfl
                      rw [hx] at this
                      exact this.1
                  rw [hSRd]
                  exact headD_mem _ _
                intro hh
                obtain ⟨w, hw, hwj⟩ := List.mem_map.mp (by
                  have : (getN s ta.rootId).right ∈ Fa.map Tree.rootId := by
                    rw [hFa, List.map_cons]
                    exact hSRmem
                  rw [← hh] at this
                  exact this)
                exact hnotroot w (List.mem_append_left _ hw) hwj.symm
            rw [hrw]
            exact ⟨rfl, rfl, rfl, rfl, rfl, rfl⟩
        · rw [(hASu u.rootId).2.2.2.2.1]
          exact hwfs.2
      have hbvU : ∀ i, i ∈ Forest.ids Fa ++ Forest.ids Fb →
          i < (concatenate_root_lists s a tb.rootId).1.nodes.length ∧
          (getN (concatenate_root_lists s a tb.rootId).1 i).value.isSome =
            true := by
        intro i hi
        rw [hlenu, (hkvu i).2]
        rcases List.mem_append.mp hi with h1 | h1
        · exact hbvA i h1
        · exact hbvB i h1
      have htotU : (union s a b).2.total_nodes =
          a.total_nodes + b.total_nodes := by
        rw [hu]
        dsimp only
        rw [concat_total]
      have hcmin := concat_min s a tb.rootId ta.rootId hma'
      have hmemF' : ∀ (F' : List Tree), F'.Perm (Fa ++ Fb) → ∀ t ∈ F',
          t ∈ Fa ∨ t ∈ Fb := by
        intro F' hp t ht
        exact List.mem_append.mp (hp.subset ht)
      have hidsF' : ∀ (F' : List Tree), F'.Perm (Fa ++ Fb) →
          (Forest.ids F').Perm (Forest.ids Fa ++ Forest.ids Fb) := by
        intro F' hp
        refine (forest_ids_perm _ _ hp).trans ?_
        rw [forest_ids_append]
      have hInvTail : ∀ (F' : List Tree), F'.Perm (Fa ++ Fb) →
          (∀ t ∈ F', wfTree (concatenate_root_lists s a tb.rootId).1 t ∧
            (getN (concatenate_root_lists s a tb.rootId).1
              (Tree.rootId t)).parent = none) ∧
          (Forest.ids F').Nodup ∧
          (∀ i ∈ Forest.ids F',
            i < (concatenate_root_lists s a tb.rootId).1.nodes.length ∧
            (getN (concatenate_root_lists s a tb.rootId).1 i).value.isSome =
              true) := by
        intro F' hp
        refine ⟨fun t ht => hwfU t (hmemF' F' hp t ht), ?_, ?_⟩
        · exact (List.Perm.nodup_iff (hidsF' F' hp)).mpr hnd
        · intro i hi
          exact hbvU i ((hidsF' F' hp).subset hi)
      have hInvTot : ∀ (F' : List Tree), F'.Perm (Fa ++ Fb) →
          (concatenate_root_lists s a tb.rootId).2.total_nodes +
            b.total_nodes = (Forest.ids F').length := by
        intro F' hp
        rw [concat_total, htotA, htotB, (hidsF' F' hp).length_eq,
          List.length_append]
      have htotU' : (concatenate_root_lists s a tb.rootId).2.total_nodes +
          b.total_nodes = a.total_nodes + b.total_nodes := by
        rw [concat_total]
      rw [hu]
      dsimp only
      by_cases hklt : (getN s tb.rootId).key < (getN s ta.rootId).key
      · have hpermT : (tb :: ((rbT ++ raT) ++ [ta])).Perm (Fa ++ Fb) := by
          have h1 : ((rbT ++ raT) ++ [ta]).Perm (ta :: (rbT ++ raT)) :=
            @List.perm_append_comm _ (rbT ++ raT) [ta]
          have h2 : (tb :: ((rbT ++ raT) ++ [ta])).Perm
              (tb :: ta :: (rbT ++ raT)) := List.Perm.cons tb h1
          have h3 : (tb :: ta :: (rbT ++ raT)).Perm
              (ta :: tb :: (rbT ++ raT)) := List.Perm.swap ta tb _
          have h4 : (ta :: tb :: (rbT ++ raT)).Perm
              (ta :: tb :: (raT ++ rbT)) :=
            List.Perm.cons ta (List.Perm.cons tb List.perm_append_comm)
          have h5 : (ta :: tb :: (raT ++ rbT)).Perm
              (ta :: (raT ++ tb :: rbT)) :=
            List.Perm.cons ta List.perm_middle.symm
          rw [hFa, hFb, List.cons_append]
          exact ((h2.trans h3).trans h4).trans h5
        obtain ⟨hwf', hnd', hbv'⟩ := hInvTail _ hpermT
        refine ⟨tb :: ((rbT ++ raT) ++ [ta]), ⟨⟨?_, ?_, hwf', hnd', hbv'⟩,
          hInvTot _ hpermT⟩, hidsF' _ hpermT, hkvu, hlenu, htotU'⟩
        · refine Or.inr ⟨tb, (rbT ++ raT) ++ [ta], rfl, ?_, ?_⟩
          · show (concatenate_root_lists s a tb.rootId).2.min =
              some tb.rootId
            rw [hcmin, if_pos hklt]
          · intro u hu0
            rw [(hkvu tb.rootId).1, (hkvu u.rootId).1]
            rcases List.mem_cons.mp hu0 with rfl | hu1
            · exact le_refl _
            rcases List.mem_append.mp hu1 with hu2 | hu2
            · rcases List.mem_append.mp hu2 with hu3 | hu3
              · exact hmkB u (by rw [hFb]; exact List.mem_cons_of_mem _ hu3)
              · exact le_trans (le_of_lt hklt)
                  (hmkA u (by rw [hFa]; exact List.mem_cons_of_mem _ hu3))
            · rcases List.mem_cons.mp hu2 with rfl | hu3
              · exact le_of_lt hklt
              · cases hu3
        · have hx := ringP_rotate_to (concatenate_root_lists s a tb.rootId).1
            [ta.rootId] tb.rootId ((rbT.map Tree.rootId) ++ raT.map Tree.rootId)
            (by
              rw [List.singleton_append]
              rw [List.cons_append] at hringU
              exact hringU)
          rw [List.map_cons, List.map_append, List.map_append, List.map_cons,
            List.map_nil]
          exact hx
      · have hpermT : (ta :: ((tb :: rbT) ++ raT)).Perm (Fa ++ Fb) := by
          have h1 : (ta :: ((tb :: rbT) ++ raT)).Perm
              (ta :: (raT ++ tb :: rbT)) :=
            List.Perm.cons ta (@List.perm_append_comm _ (tb :: rbT) raT)
          rw [hFa, hFb, List.cons_append]
          exact h1
        obtain ⟨hwf', hnd', hbv'⟩ := hInvTail _ hpermT
        refine ⟨ta :: ((tb :: rbT) ++ raT), ⟨⟨?_, ?_, hwf', hnd', hbv'⟩,
          hInvTot _ hpermT⟩, hidsF' _ hpermT, hkvu, hlenu, htotU'⟩
        · refine Or.inr ⟨ta, (tb :: rbT) ++ raT, rfl, ?_, ?_⟩
          · show (concatenate_root_lists s a tb.rootId).2.min =
              some ta.rootId
            rw [hcmin, if_neg hklt]
          · intro u hu0
            rw [(hkvu ta.rootId).1, (hkvu u.rootId).1]
            rcases List.mem_cons.mp hu0 with rfl | hu1
            · exact le_refl _
            rcases List.mem_append.mp hu1 with hu2 | hu2
            · rcases List.mem_cons.mp hu2 with rfl | hu3
              · exact not_lt.mp hklt
              · exact le_trans (not_lt.mp hklt)
                  (hmkB u (by rw [hFb]; exact List.mem_cons_of_mem _ hu3))
            · exact hmkA u (by rw [hFa]; exact List.mem_cons_of_mem _ hu2)
        · rw [List.map_cons, List.map_append, List.map_cons]
          exact hringU

theorem insert_list_spec :
    ∀ (l : List (Int × Int)) (s : Store) (h : FibonacciHeap) (F : List Tree),
    Inv s h F →
    ∃ F', Inv (insert_list l (s, h)).1 (insert_list l (s, h)).2 F' ∧
      ((Forest.ids F').map
        (fun j => (getN (insert_list l (s, h)).1 j).key)).Perm
        (l.map Prod.fst ++
          (Forest.ids F).map (fun j => (getN s j).key)) := by
  intro l
  induction l with
  | nil =>
    intro s h F hInv
    refine ⟨F, hInv, ?_⟩
    rw [List.map_nil, List.nil_append]
    exact List.Perm.refl _
  | cons kv rest ih =>
    intro s h F hInv
    obtain ⟨k, v⟩ := kv
    obtain ⟨F1, hI1, _, hperm1, hkvold, hkvnew, hlen1, _⟩ :=
      insert_spec s h F k v hInv
    obtain ⟨F2, hI2, hperm2⟩ := ih (insert s h k v).1 (insert s h k v).2.1 F1 hI1
    have hstep : insert_list ((k, v) :: rest) (s, h) =
        insert_list rest ((insert s h k v).1, (insert s h k v).2.1) := rfl
    rw [hstep]
    refine ⟨F2, hI2, ?_⟩
    refine hperm2.trans ?_
    have hkeys1 : ((Forest.ids F1).map
        (fun j => (getN (insert s h k v).1 j).key)).Perm
        (k :: (Forest.ids F).map (fun j => (getN s j).key)) := by
      have hmap := hperm1.map (fun j => (getN (insert s h k v).1 j).key)
      refine hmap.trans ?_
      rw [List.map_cons]
      have hk : (getN (insert s h k v).1 s.nodes.length).key = k := by
        have := hkvnew
        rw [idKV] at this
        exact congrArg Prod.fst this
      rw [hk]
      refine List.Perm.cons k ?_
      have : ∀ j ∈ Forest.ids F,
          (getN (insert s h k v).1 j).key = (getN s j).key := by
        intro j hj
        have := hkvold j hj
        rw [idKV, idKV] at this
        exact congrArg Prod.fst this
      rw [List.map_congr_left this]
    have h1 : (rest.map Prod.fst ++ (Forest.ids F1).map
        (fun j => (getN (insert s h k v).1 j).key)).Perm
        (rest.map Prod.fst ++
          (k :: (Forest.ids F).map (fun j => (getN s j).key))) :=
      List.Perm.append_left _ hkeys1
    refine h1.trans ?_
    rw [List.map_cons]
    exact List.perm_middle

theorem drain_spec :
    ∀ (fuel : Nat) (s : Store) (h : FibonacciHeap) (F : List Tree),
    Inv s h F → (Forest.ids F).length + 1 ≤ fuel →
    ∃ out : List (Int × Int), drain fuel s h = .ok out ∧
      (out.map Prod.fst).Perm
        ((Forest.ids F).map (fun j => (getN s j).key)) ∧
      List.Sorted (· ≤ ·) (out.map Prod.fst) := by
  intro fuel
  induction fuel with
  | zero =>
    intro s h F _ hle
    omega
  | succ f ih =>
    intro s h F hInv hle
    cases hF : F with
    | nil =>
      subst hF
      have hmin : h.min = none := by
        obtain ⟨⟨hhead, _, _, _, _⟩, _⟩ := hInv
        rcases hhead with ⟨h1, _⟩ | ⟨t0, rest, hF1, _, _⟩
        · exact h1
        · cases hF1
      have hEq : drain (f + 1) s h = .ok [] := by
        rw [drain, extract_min, hmin]
      refine ⟨[], hEq, ?_, List.sorted_nil⟩
      rw [forest_ids_nil, List.map_nil, List.map_nil]
    | cons t0 rest =>
      subst hF
      obtain ⟨v, s2, h2, F2, hv, hEq, hInv2, hperm, hkeys, hvals, hminall,
        hlen, htot, hdeg⟩ := extract_min_spec s h (t0 :: rest) t0 rest hInv rfl
      have hlen2 : (Forest.ids F2).length + 1 ≤ f := by
        have h1 : (t0.rootId :: Forest.ids F2).length =
            (Forest.ids (t0 :: rest)).length := hperm.length_eq
        rw [List.length_cons] at h1
        omega
      obtain ⟨out', hEq', hperm', hsort'⟩ := ih s2 h2 F2 hInv2 hlen2
      have hdrain : drain (f + 1) s h =
          .ok (((getN s t0.rootId).key, v) :: out') := by
        rw [drain, hEq]
        dsimp only
        rw [hEq']
      refine ⟨((getN s t0.rootId).key, v) :: out', hdrain, ?_, ?_⟩
      · rw [List.map_cons]
        refine (List.Perm.cons _ hperm').trans ?_
        have hfun : (fun j => (getN s2 j).key) =
            (fun j => (getN s j).key) := by
          funext j
          exact hkeys j
        rw [hfun]
        have : ((getN s t0.rootId).key ::
            (Forest.ids F2).map (fun j => (getN s j).key)) =
            (t0.rootId :: Forest.ids F2).map (fun j => (getN s j).key) := by
          rw [List.map_cons]
        rw [this]
        exact hperm.map _
      · rw [List.map_cons, List.sorted_cons]
        refine ⟨?_, hsort'⟩
        intro b hb
        have hb2 : b ∈ (Forest.ids F2).map (fun j => (getN s2 j).key) :=
          hperm'.subset hb
        obtain ⟨j, hj, hjb⟩ := List.mem_map.mp hb2
        have hjF : j ∈ Forest.ids (t0 :: rest) :=
          hperm.subset (List.mem_cons_of_mem _ hj)
        rw [← hjb, hkeys j]
        exact hminall j hjF

theorem Inv_empty : Inv emptyStore new [] :=
  ⟨⟨Or.inl ⟨rfl, rfl⟩, trivial, fun t ht => absurd ht (List.not_mem_nil t),
    List.nodup_nil, fun i hi => absurd hi (List.not_mem_nil i)⟩, rfl⟩

/-- C2: inserting any finite list of key/value pairs into a fresh heap and
then extracting until `extract_min` reports emptiness succeeds and returns
the inserted keys as a sorted permutation: the extraction sequence is
non-decreasing and is exactly the multiset of inserted keys. -/
theorem C2_insert_all_extract_all_sorted (l : List (Int × Int)) :
    ∃ out : List (Int × Int),
      drain (l.length + 1) (insert_list l (emptyStore, new)).1
        (insert_list l (emptyStore, new)).2 = .ok out ∧
      (out.map Prod.fst).Perm (l.map Prod.fst) ∧
      List.Sorted (· ≤ ·) (out.map Prod.fst) := by
  obtain ⟨F', hI', hkeys'⟩ := insert_list_spec l emptyStore new [] Inv_empty
  rw [forest_ids_nil, List.map_nil, List.append_nil] at hkeys'
  have hlenF' : (Forest.ids F').length = l.length := by
    have h1 := hkeys'.length_eq
    rw [List.length_map, List.length_map] at h1
    exact h1
  obtain ⟨out, hEq, hperm, hsort⟩ := drain_spec (l.length + 1)
    (insert_list l (emptyStore, new)).1 (insert_list l (emptyStore, new)).2
    F' hI' (by omega)
  exact ⟨out, hEq, hperm.trans hkeys', hsort⟩

theorem Inv_new_any (s : Store) : Inv s new [] :=
  ⟨⟨Or.inl ⟨rfl, rfl⟩, trivial, fun t ht => absurd ht (List.not_mem_nil t),
    List.nodup_nil, fun i hi => absurd hi (List.not_mem_nil i)⟩, rfl⟩

theorem Inv_insert_one : Inv (insert emptyStore new 1 10).1
    (insert emptyStore new 1 10).2.1 [Tree.node 0 []] := by
  refine ⟨⟨Or.inr ⟨Tree.node 0 [], [], rfl, rfl, ?_⟩, ?_, ?_, ?_, ?_⟩, rfl⟩
  · intro u hu
    rcases List.mem_cons.mp hu with rfl | hu2
    · exact le_refl _
    · cases hu2
  · exact ⟨List.chain'_singleton _, ⟨rfl, rfl⟩⟩
  · intro t ht
    rcases List.mem_cons.mp ht with rfl | ht2
    · refine ⟨?_, rfl⟩
      exact wfTree.mk 0 [] rfl rfl trivial
        (fun c hc => absurd hc (List.not_mem_nil c))
        (fun c hc => absurd hc (List.not_mem_nil c))
        (fun c hc => absurd hc (List.not_mem_nil c))
    · cases ht2
  · exact List.nodup_cons.mpr ⟨List.not_mem_nil 0, List.nodup_nil⟩
  · intro i hi
    have : i = 0 := by
      rcases List.mem_cons.mp hi with h1 | h1
      · exact h1
      · cases h1
    rw [this]
    exact ⟨Nat.zero_lt_one, rfl⟩

theorem minall_of_Inv (s : Store) (h : FibonacciHeap) (t0 : Tree)
    (rest : List Tree) (hInv : Inv s h (t0 :: rest)) :
    ∀ j ∈ Forest.ids (t0 :: rest),
      (getN s t0.rootId).key ≤ (getN s j).key := by
  obtain ⟨⟨hhead, _, hwfF, _, _⟩, _⟩ := hInv
  have hmk : ∀ u ∈ t0 :: rest,
      (getN s t0.rootId).key ≤ (getN s u.rootId).key := by
    rcases hhead with ⟨_, h2⟩ | ⟨t1, r1, h1, _, hmk1⟩
    · cases h2
    · intro u hu
      have := hmk1 u hu
      rw [← (List.cons.inj h1).1] at this
      exact this
  intro j hj
  obtain ⟨u, hu, hju⟩ := mem_forest_ids_split _ j hj
  exact le_trans (hmk u hu)
    (wfTree_root_le_all s u (hwfF u hu).1 j hju)

/-- C4: in every state satisfying the heap invariant (the state after each
public operation), `minimum` returns `none` exactly when `is_empty` holds,
and any pair it returns is the stored key/value of a node of the heap whose
key is minimal among all nodes reachable from the root list.  In the
embedding `minimum` is a pure function of the state, so it mutates
nothing. -/
theorem C4_minimum_smallest_iff_empty (s : Store) (h : FibonacciHeap)
    (F : List Tree) (hInv : Inv s h F) :
    (minimum s h = none ↔ is_empty h = true) ∧
    (∀ p, minimum s h = some p →
      ∃ i ∈ Forest.ids F, p = idKV s i ∧
        ∀ j ∈ Forest.ids F, (getN s i).key ≤ (getN s j).key) := by
  obtain ⟨⟨hhead, hring, hwfF, hnd, hbv⟩, htot⟩ := hInv
  rcases hhead with ⟨hm, hFnil⟩ | ⟨t0, rest, hF, hm, hmk⟩
  · have hminnone : minimum s h = none := by
      rw [minimum, hm]
      rfl
    have hempty : is_empty h = true := by
      rw [is_empty, htot, hFnil, forest_ids_nil]
      rfl
    refine ⟨⟨fun _ => hempty, fun _ => hminnone⟩, ?_⟩
    intro p hp
    rw [hminnone] at hp
    cases hp
  · obtain ⟨v, hv⟩ := Option.isSome_iff_exists.mp
      (hbv t0.rootId (by
        rw [hF]
        exact mem_forest_ids_of_mem _ t0 (List.mem_cons_self _ _) _
          (rootId_mem_ids t0))).2
    have hms : minimum s h = some ((getN s t0.rootId).key, v) := by
      rw [minimum, hm]
      show ((getN s t0.rootId).value).map
        (fun value => ((getN s t0.rootId).key, value)) = _
      rw [hv]
      rfl
    have hnonzero : h.total_nodes ≠ 0 := by
      rw [htot, hF, forest_ids_cons]
      cases t0 with
      | node i cs =>
        rw [Tree.ids]
        simp only [List.cons_append, List.length_cons]
        omega
    refine ⟨⟨?_, ?_⟩, ?_⟩
    · intro hx
      rw [hms] at hx
      cases hx
    · intro hx
      rw [is_empty] at hx
      simp only [beq_iff_eq] at hx
      exact absurd hx hnonzero
    · intro p hp
      rw [hms] at hp
      injection hp with hp1
      refine ⟨t0.rootId, by
        rw [hF]
        exact mem_forest_ids_of_mem _ t0 (List.mem_cons_self _ _) _
          (rootId_mem_ids t0), ?_, ?_⟩
      · rw [← hp1, idKV, hv]
        rfl
      · intro j hj
        exact minall_of_Inv s h t0 rest ⟨⟨Or.inr ⟨t0, rest, rfl, hm,
          by rw [hF] at hmk; exact hmk⟩,
          by rw [hF] at hring; exact hring,
          by rw [hF] at hwfF; exact hwfF,
          by rw [hF] at hnd; exact hnd,
          by rw [hF] at hbv; exact hbv⟩,
          by rw [hF] at htot; exact htot⟩ j (hF ▸ hj)

/-- C6: whenever `extract_min` returns a key/value pair, the resulting heap
satisfies the invariant with a forest whose root degrees are pairwise
distinct: consolidation has merged trees of equal degree until at most one
tree of each degree remains (vacuously so when the heap is left empty). -/
theorem C6_unique_root_degrees (s : Store) (h : FibonacciHeap)
    (F : List Tree) (kv : Int × Int) (s2 : Store) (h2 : FibonacciHeap)
    (hInv : Inv s h F)
    (heq : extract_min s h = .ok (some kv, s2, h2)) :
    ∃ F2, Inv s2 h2 F2 ∧
      (F2.map (fun w => (getN s2 w.rootId).degree)).Nodup := by
  cases hF : F with
  | nil =>
    have hmin : h.min = none := by
      obtain ⟨⟨hhead, _, _, _, _⟩, _⟩ := hInv
      rcases hhead with ⟨h1, _⟩ | ⟨t0, rest, hF1, _, _⟩
      · exact h1
      · rw [hF] at hF1
        cases hF1
    rw [extract_min, hmin] at heq
    injection heq with h1
    injection h1 with h2 _
    cases h2
  | cons t0 rest =>
    obtain ⟨v, s2', h2', F2, hv, hEq, hInv2, _, _, _, _, _, _, hdeg⟩ :=
      extract_min_spec s h F t0 rest hInv hF
    rw [heq] at hEq
    injection hEq with h1
    injection h1 with _ hx
    injection hx with h3 h4
    rw [h3, h4]
    exact ⟨F2, hInv2, hdeg⟩

/-- C9: in every invariant state, `len` equals the number of nodes
reachable from the root list through all child rings (the node count of
the representing forest); `insert` increases `len` by exactly one,
`extract_min` on a non-empty heap decreases it by exactly one, and `union`
returns a heap whose `len` is the sum of the two inputs' `len`s. -/
theorem C9_len_counts_reachable_nodes :
    (∀ s h F, Inv s h F → len h = (Forest.ids F).length) ∧
    (∀ s h F k v, Inv s h F → len (insert s h k v).2.1 = len h + 1) ∧
    (∀ s h F kv s2 h2, Inv s h F → is_empty h = false →
      extract_min s h = .ok (kv, s2, h2) → len h2 + 1 = len h) ∧
    (∀ s a b Fa Fb, Inv s a Fa → Inv s b Fb →
      (Forest.ids Fa ++ Forest.ids Fb).Nodup →
      len (union s a b).2 = len a + len b) := by
  refine ⟨?_, ?_, ?_, ?_⟩
  · intro s h F hInv
    exact hInv.2
  · intro s h F k v hInv
    obtain ⟨_, _, _, _, _, _, _, htot⟩ := insert_spec s h F k v hInv
    exact htot
  · intro s h F kv s2 h2 hInv hne heq
    cases hF : F with
    | nil =>
      exfalso
      have htot0 : h.total_nodes = 0 := by
        rw [hInv.2, hF, forest_ids_nil]
        rfl
      rw [is_empty, htot0] at hne
      cases hne
    | cons t0 rest =>
      obtain ⟨v, s2', h2', F2, hv, hEq, hInv2, hperm, _, _, _, _, htot, _⟩ :=
        extract_min_spec s h F t0 rest hInv hF
      rw [heq] at hEq
      injection hEq with h1
      injection h1 with _ hx
      injection hx with h3 h4
      have htot1 : h.total_nodes ≥ 1 := by
        rw [hInv.2, hF, forest_ids_cons]
        cases t0 with
        | node i cs =>
          rw [Tree.ids]
          simp only [List.cons_append, List.length_cons]
          omega
      show h2.total_nodes + 1 = h.total_nodes
      rw [h4, htot]
      omega
  · intro s a b Fa Fb hIa hIb hnd
    obtain ⟨_, _, _, _, _, htot⟩ := union_spec s a b Fa Fb hIa hIb hnd
    exact htot

theorem C4_minimum_smallest_iff_empty_witness :
    (minimum (insert emptyStore new 1 10).1
        (insert emptyStore new 1 10).2.1 = none ↔
      is_empty (insert emptyStore new 1 10).2.1 = true) ∧
    (∀ p, minimum (insert emptyStore new 1 10).1
        (insert emptyStore new 1 10).2.1 = some p →
      ∃ i ∈ Forest.ids [Tree.node 0 []],
        p = idKV (insert emptyStore new 1 10).1 i ∧
        ∀ j ∈ Forest.ids [Tree.node 0 []],
          (getN (insert emptyStore new 1 10).1 i).key ≤
            (getN (insert emptyStore new 1 10).1 j).key) :=
  C4_minimum_smallest_iff_empty _ _ [Tree.node 0 []] Inv_insert_one

theorem C6_unique_root_degrees_witness :
    extract_min (insert emptyStore new 1 10).1
      (insert emptyStore new 1 10).2.1 =
      .ok (some ((1 : Int), (10 : Int)), staleS, staleH) ∧
    ∃ F2, Inv staleS staleH F2 ∧
      (F2.map (fun w => (getN staleS w.rootId).degree)).Nodup :=
  ⟨rfl, C6_unique_root_degrees _ _ [Tree.node 0 []] (1, 10) staleS staleH
    Inv_insert_one rfl⟩

theorem C9_len_counts_reachable_nodes_witness :
    len (insert emptyStore new 1 10).2.1 =
      (Forest.ids [Tree.node 0 []]).length ∧
    len (insert emptyStore new 1 10).2.1 = len new + 1 ∧
    len staleH + 1 = len (insert emptyStore new 1 10).2.1 ∧
    len (union (insert emptyStore new 1 10).1
        (insert emptyStore new 1 10).2.1 new).2 =
      len (insert emptyStore new 1 10).2.1 + len new := by
  refine ⟨C9_len_counts_reachable_nodes.1 _ _ _ Inv_insert_one,
    C9_len_counts_reachable_nodes.2.1 emptyStore new [] 1 10 Inv_empty,
    C9_len_counts_reachable_nodes.2.2.1 _ _ [Tree.node 0 []]
      (some ((1 : Int), (10 : Int))) staleS staleH Inv_insert_one rfl rfl,
    C9_len_counts_reachable_nodes.2.2.2 _ _ new [Tree.node 0 []] []
      Inv_insert_one (Inv_new_any _) (by decide)⟩

theorem forest_prune_id (x : Nat) (cs : List Tree)
    (hpt : ∀ c ∈ cs, x ∉ Tree.ids c → Tree.pruneChild x c = c)
    (hx : x ∉ Forest.ids cs) : Forest.pruneChild x cs = cs := by
  induction cs with
  | nil => rfl
  | cons c cs' ihl =>
    have hxc : x ∉ Tree.ids c := fun hh =>
      hx (mem_forest_ids_of_mem _ c (List.mem_cons_self _ _) _ hh)
    have hx' : x ∉ Forest.ids cs' := fun hh => hx (by
      rw [forest_ids_cons]
      exact List.mem_append_right _ hh)
    have hne : ¬ c.rootId = x := fun hh => hxc (hh ▸ rootId_mem_ids c)
    rw [Forest.pruneChild, if_neg hne,
      hpt c (List.mem_cons_self _ _) hxc,
      ihl (fun c' hc' hh => hpt c' (List.mem_cons_of_mem _ hc') hh) hx']

theorem pruneChild_id (x : Nat) :
    ∀ t, x ∉ Tree.ids t → Tree.pruneChild x t = t := by
  apply tree_ind (P := fun t => x ∉ Tree.ids t → Tree.pruneChild x t = t)
  intro i cs ih hx
  rw [Tree.pruneChild]
  rw [forest_prune_id x cs ih (fun hh => hx (by
    rw [Tree.ids]
    exact List.mem_cons_of_mem _ hh))]

theorem pruneChild_rootId (x : Nat) (t : Tree) :
    (Tree.pruneChild x t).rootId = t.rootId := by
  cases t with
  | node i cs => rfl

theorem forest_prune_at (x : Nat) (u : Tree) :
    ∀ pre post : List Tree, u.rootId = x → (∀ c ∈ pre, x ∉ Tree.ids c) →
    Forest.pruneChild x (pre ++ u :: post) = pre ++ post := by
  intro pre
  induction pre with
  | nil =>
    intro post hux _
    rw [List.nil_append, Forest.pruneChild, if_pos hux, List.nil_append]
  | cons c pre' ih =>
    intro post hux hpre
    have hxc : x ∉ Tree.ids c := hpre c (List.mem_cons_self _ _)
    have hne : ¬ c.rootId = x := fun hh => hxc (hh ▸ rootId_mem_ids c)
    rw [List.cons_append, Forest.pruneChild, if_neg hne,
      pruneChild_id x c hxc,
      ih post hux (fun c' hc' => hpre c' (List.mem_cons_of_mem _ hc')),
      List.cons_append]

theorem tree_ids_nodup_of_mem (cs : List Tree) (c : Tree) (hc : c ∈ cs)
    (hnd : (Forest.ids cs).Nodup) : (Tree.ids c).Nodup := by
  obtain ⟨A, B, rfl⟩ := List.append_of_mem hc
  rw [forest_ids_append, forest_ids_cons] at hnd
  exact (List.nodup_append.mp (List.nodup_append.mp hnd).2.1).1

theorem interior_parent_some (s : Store) :
    ∀ T, wfTree s T → ∀ j ∈ Tree.ids T, j ≠ T.rootId →
    ∃ q, (getN s j).parent = some q ∧ q ∈ Tree.ids T := by
  apply tree_ind (P := fun T => wfTree s T → ∀ j ∈ Tree.ids T,
    j ≠ T.rootId → ∃ q, (getN s j).parent = some q ∧ q ∈ Tree.ids T)
  intro r cs ih hwf j hj hjr
  cases hwf with
  | mk _ _ hdeg hchild hring hpar hkey hcs =>
    rw [Tree.ids] at hj
    rcases List.mem_cons.mp hj with h1 | h1
    · exact absurd h1 hjr
    obtain ⟨c, hc, hjc⟩ := mem_forest_ids_split cs j h1
    by_cases hjcr : j = c.rootId
    · refine ⟨r, ?_, by rw [Tree.ids]; exact List.mem_cons_self _ _⟩
      rw [hjcr]
      exact hpar c hc
    · obtain ⟨q, hq1, hq2⟩ := ih c hc (hcs c hc) j hjc hjcr
      refine ⟨q, hq1, ?_⟩
      rw [Tree.ids]
      exact List.mem_cons_of_mem _ (mem_forest_ids_of_mem cs c hc q hq2)

theorem wfTree_key_dec (s : Store) (i : Nat) (nk : Int)
    (hdec : nk ≤ (getN s i).key)
    (hpar_i : ∀ p, (getN s i).parent = some p → (getN s p).key ≤ nk)
    (hilen : i < s.nodes.length) :
    ∀ T, wfTree s T → (Tree.ids T).Nodup →
      wfTree (setN s i { getN s i with key := nk }) T := by
  apply tree_ind (P := fun T => wfTree s T → (Tree.ids T).Nodup →
    wfTree (setN s i { getN s i with key := nk }) T)
  intro r cs ih hwf hnd
  have g' : ∀ j, j ≠ i →
      getN (setN s i { getN s i with key := nk }) j = getN s j :=
    fun j hj => getN_setN_ne _ _ _ _ hj
  have g'i : getN (setN s i { getN s i with key := nk }) i =
      { getN s i with key := nk } := getN_setN_self _ _ _ hilen
  have hsame : ∀ j, (getN (setN s i { getN s i with key := nk }) j).degree =
      (getN s j).degree ∧
      (getN (setN s i { getN s i with key := nk }) j).child =
        (getN s j).child ∧
      (getN (setN s i { getN s i with key := nk }) j).parent =
        (getN s j).parent ∧
      (getN (setN s i { getN s i with key := nk }) j).left =
        (getN s j).left ∧
      (getN (setN s i { getN s i with key := nk }) j).right =
        (getN s j).right := by
    intro j
    by_cases hj : j = i
    · rw [hj, g'i]
      exact ⟨rfl, rfl, rfl, rfl, rfl⟩
    · rw [g' j hj]
      exact ⟨rfl, rfl, rfl, rfl, rfl⟩
  cases hwf with
  | mk _ _ hdeg hchild hring hpar hkey hcs =>
    rw [Tree.ids] at hnd
    obtain ⟨hrnot, hndcs⟩ := List.nodup_cons.mp hnd
    refine wfTree.mk r cs ?_ ?_ ?_ ?_ ?_ ?_
    · rw [(hsame r).1, hdeg]
    · rw [(hsame r).2.1, hchild]
    · refine ringP_congr s _ _ ?_ hring
      intro j _
      exact ⟨(hsame j).2.2.2.1, (hsame j).2.2.2.2⟩
    · intro c hc
      rw [(hsame c.rootId).2.2.1]
      exact hpar c hc
    · intro c hc
      have hcne : c.rootId ≠ r := by
        intro hh
        exact hrnot (hh ▸ mem_forest_ids_of_mem cs c hc _ (rootId_mem_ids c))
      by_cases hri : r = i
      · rw [hri, g'i]
        show nk ≤ (getN _ (Tree.rootId c)).key
        rw [g' c.rootId (fun hh => hcne (by rw [hh, hri]))]
        exact le_trans hdec (hri ▸ hkey c hc)
      · rw [g' r hri]
        by_cases hci : c.rootId = i
        · rw [hci, g'i]
          show (getN s r).key ≤ nk
          refine hpar_i r ?_
          rw [← hci]
          exact hpar c hc
        · rw [g' c.rootId hci]
          exact hkey c hc
    · intro c hc
      exact ih c hc (hcs c hc) (tree_ids_nodup_of_mem cs c hc hndcs)

theorem InvStruct_set_mark (s : Store) (h : FibonacciHeap) (F : List Tree)
    (x : Nat) (b : Bool) (hInv : InvStruct s h F) (hxlen : x < s.nodes.length) :
    InvStruct (setN s x { getN s x with mark := b }) h F := by
  obtain ⟨hhead, hring, hwfF, hnd, hbv⟩ := hInv
  have g' : ∀ j, j ≠ x →
      getN (setN s x { getN s x with mark := b }) j = getN s j :=
    fun j hj => getN_setN_ne _ _ _ _ hj
  have g'x : getN (setN s x { getN s x with mark := b }) x =
      { getN s x with mark := b } := getN_setN_self _ _ _ hxlen
  have hsame : ∀ j, (getN (setN s x { getN s x with mark := b }) j).key =
      (getN s j).key ∧
      (getN (setN s x { getN s x with mark := b }) j).value =
        (getN s j).value ∧
      (getN (setN s x { getN s x with mark := b }) j).degree =
        (getN s j).degree ∧
      (getN (setN s x { getN s x with mark := b }) j).parent =
        (getN s j).parent ∧
      (getN (setN s x { getN s x with mark := b }) j).child =
        (getN s j).child ∧
      (getN (setN s x { getN s x with mark := b }) j).left =
        (getN s j).left ∧
      (getN (setN s x { getN s x with mark := b }) j).right =
        (getN s j).right := by
    intro j
    by_cases hj : j = x
    · rw [hj, g'x]
      exact ⟨rfl, rfl, rfl, rfl, rfl, rfl, rfl⟩
    · rw [g' j hj]
      exact ⟨rfl, rfl, rfl, rfl, rfl, rfl, rfl⟩
  refine ⟨?_, ?_, ?_, hnd, ?_⟩
  · rcases hhead with ⟨h1, h2⟩ | ⟨t0, rest, hF, hm, hmk⟩
    · exact Or.inl ⟨h1, h2⟩
    · refine Or.inr ⟨t0, rest, hF, hm, ?_⟩
      intro u hu
      rw [(hsame t0.rootId).1, (hsame u.rootId).1]
      exact hmk u hu
  · refine ringP_congr s _ _ ?_ hring
    intro j _
    exact ⟨(hsame j).2.2.2.2.2.1, (hsame j).2.2.2.2.2.2⟩
  · intro t ht
    refine ⟨?_, ?_⟩
    · refine wfTree_congr s _ t ?_ ?_ (hwfF t ht).1
      · exact ⟨(hsame t.rootId).1, (hsame t.rootId).2.2.1,
          (hsame t.rootId).2.2.2.2.1⟩
      · intro j _
        exact ⟨(hsame j).1, (hsame j).2.2.1, (hsame j).2.2.2.1,
          (hsame j).2.2.2.2.1, (hsame j).2.2.2.2.2.1,
          (hsame j).2.2.2.2.2.2⟩
    · rw [(hsame t.rootId).2.2.2.1]
      exact (hwfF t ht).2
  · intro j hj
    rw [length_setN, (hsame j).2.1]
    exact hbv j hj

theorem path_snoc (s : Store) {j m : Nat} {ch : List Nat}
    (hp : PathUp s j m ch) :
    ∀ r, (getN s m).parent = some r → PathUp s j r (ch ++ [r]) := by
  induction hp with
  | refl j =>
    intro r hr
    exact PathUp.step j r r [r] hr (PathUp.refl r)
  | step j q r0 ch hq hrest ih =>
    intro r hr
    rw [List.cons_append]
    exact PathUp.step j q r _ hq (ih r hr)

theorem path_transfer (s s' : Store) {j r : Nat} {ch : List Nat}
    (hp : PathUp s j r ch)
    (hpar : ∀ x ∈ ch, (getN s' x).parent = (getN s x).parent) :
    PathUp s' j r ch := by
  induction hp with
  | refl j => exact PathUp.refl j
  | step j q r0 ch hq hrest ih =>
    refine PathUp.step j q r0 ch ?_ ?_
    · rw [hpar j (List.mem_cons_self _ _)]
      exact hq
    · exact ih (fun x hx => hpar x (List.mem_cons_of_mem _ hx))

theorem path_in_tree (s : Store) :
    ∀ T, wfTree s T → (Tree.ids T).Nodup → ∀ j ∈ Tree.ids T,
    ∃ ch, PathUp s j T.rootId ch ∧ ch.Nodup ∧
      ∀ x ∈ ch, x ∈ Tree.ids T := by
  apply tree_ind (P := fun T => wfTree s T → (Tree.ids T).Nodup →
    ∀ j ∈ Tree.ids T, ∃ ch, PathUp s j T.rootId ch ∧ ch.Nodup ∧
      ∀ x ∈ ch, x ∈ Tree.ids T)
  intro r cs ih hwf hnd j hj
  cases hwf with
  | mk _ _ hdeg hchild hring hpar hkey hcs =>
    rw [Tree.ids] at hj hnd
    obtain ⟨hrnot, hndcs⟩ := List.nodup_cons.mp hnd
    rcases List.mem_cons.mp hj with rfl | h1
    · exact ⟨[j], PathUp.refl j, List.nodup_cons.mpr
        ⟨List.not_mem_nil j, List.nodup_nil⟩,
        fun x hx => by
          rcases List.mem_cons.mp hx with rfl | hx2
          · rw [Tree.ids]
            exact List.mem_cons_self _ _
          · cases hx2⟩
    · obtain ⟨c, hc, hjc⟩ := mem_forest_ids_split cs j h1
      obtain ⟨ch, hp, hchnd, hchmem⟩ := ih c hc (hcs c hc)
        (tree_ids_nodup_of_mem cs c hc hndcs) j hjc
      refine ⟨ch ++ [r], path_snoc s hp r (hpar c hc), ?_, ?_⟩
      · refine List.nodup_append.mpr ⟨hchnd,
          List.nodup_cons.mpr ⟨List.not_mem_nil r, List.nodup_nil⟩, ?_⟩
        intro x hx hx2
        have hxr : x = r := by
          rcases List.mem_cons.mp hx2 with h2 | h2
          · exact h2
          · cases h2
        exact hrnot (hxr ▸ mem_forest_ids_of_mem cs c hc x (hchmem x hx))
      · intro x hx
        rcases List.mem_append.mp hx with h2 | h2
        · rw [Tree.ids]
          exact List.mem_cons_of_mem _ (mem_forest_ids_of_mem cs c hc x
            (hchmem x h2))
        · have hxr : x = r := by
            rcases List.mem_cons.mp h2 with h3 | h3
            · exact h3
            · cases h3
          rw [hxr, Tree.ids]
          exact List.mem_cons_self _ _

theorem root_split_of_parent_none (s : Store) (h : FibonacciHeap)
    (F : List Tree) (j : Nat)
    (hwfF : ∀ t ∈ F, wfTree s t ∧ (getN s (Tree.rootId t)).parent = none)
    (hj : j ∈ Forest.ids F) (hpar : (getN s j).parent = none) :
    ∃ pre u post, F = pre ++ u :: post ∧ u.rootId = j := by
  obtain ⟨T, hT, hjT⟩ := mem_forest_ids_split F j hj
  by_cases hjr : j = T.rootId
  · obtain ⟨A, B, hsplit⟩ := List.append_of_mem hT
    exact ⟨A, T, B, hsplit, hjr.symm⟩
  · obtain ⟨q, hq, _⟩ := interior_parent_some s T (hwfF T hT).1 j hjT hjr
    rw [hpar] at hq
    cases hq

theorem wfShape_of_wfTree (s : Store) :
    ∀ t, wfTree s t → wfShape s t := by
  apply tree_ind (P := fun t => wfTree s t → wfShape s t)
  intro i cs ih hwf
  cases hwf with
  | mk _ _ hdeg hchild hring hpar _ hcs =>
    exact wfShape.mk i cs hdeg hchild hring hpar
      (fun c hc => ih c hc (hcs c hc))

theorem wfShape_congr (s s' : Store) :
    ∀ t : Tree,
      agreeRootS (getN s' t.rootId) (getN s t.rootId) →
      (∀ j ∈ Forest.ids t.childTrees, agreeCoreS (getN s' j) (getN s j)) →
      wfShape s t → wfShape s' t := by
  apply tree_ind (P := fun t => agreeRootS (getN s' t.rootId) (getN s t.rootId) →
      (∀ j ∈ Forest.ids t.childTrees, agreeCoreS (getN s' j) (getN s j)) →
      wfShape s t → wfShape s' t)
  intro i cs ih hroot hrest hwf
  rw [Tree.rootId] at hroot
  rw [Tree.childTrees] at hrest
  cases hwf with
  | mk _ _ hdeg hchild hring hpar hcs =>
    have hcsub : ∀ c ∈ cs, ∀ j ∈ Tree.ids c, agreeCoreS (getN s' j) (getN s j) := by
      intro c hc j hj
      exact hrest j (mem_forest_ids_of_mem cs c hc j hj)
    refine wfShape.mk i cs ?_ ?_ ?_ ?_ ?_
    · rw [hroot.1, hdeg]
    · rw [hroot.2, hchild]
    · refine ringP_congr s s' _ ?_ hring
      intro j hj
      obtain ⟨c, hc, hjc⟩ := List.mem_map.mp hj
      have := hcsub c hc c.rootId (rootId_mem_ids c)
      rw [hjc] at this
      exact ⟨this.2.2.2.1, this.2.2.2.2⟩
    · intro c hc
      rw [(hcsub c hc c.rootId (rootId_mem_ids c)).2.1]
      exact hpar c hc
    · intro c hc
      refine ih c hc ?_ ?_ (hcs c hc)
      · have := hcsub c hc c.rootId (rootId_mem_ids c)
        exact ⟨this.1, this.2.2.1⟩
      · intro j hj
        refine hcsub c hc j ?_
        cases c with
        | node a as =>
          rw [Tree.childTrees] at hj
          rw [Tree.ids]
          exact List.mem_cons_of_mem _ hj

theorem wfShape_eq_congr (s s' : Store) (t : Tree)
    (hg : ∀ j ∈ Tree.ids t, getN s' j = getN s j) :
    wfShape s t → wfShape s' t := by
  cases t with
  | node i cs =>
    apply wfShape_congr
    · rw [hg _ (rootId_mem_ids (Tree.node i cs))]
      exact ⟨rfl, rfl⟩
    · intro j hj
      rw [hg j ((mem_ids_node i cs j).mpr (Or.inr hj))]
      exact ⟨rfl, rfl, rfl, rfl, rfl⟩

theorem interior_parent_someS (s : Store) :
    ∀ T, wfShape s T → ∀ j ∈ Tree.ids T, j ≠ T.rootId →
    ∃ q, (getN s j).parent = some q ∧ q ∈ Tree.ids T := by
  apply tree_ind (P := fun T => wfShape s T → ∀ j ∈ Tree.ids T,
    j ≠ T.rootId → ∃ q, (getN s j).parent = some q ∧ q ∈ Tree.ids T)
  intro r cs ih hwf j hj hjr
  cases hwf with
  | mk _ _ hdeg hchild hring hpar hcs =>
    rw [Tree.ids] at hj
    rcases List.mem_cons.mp hj with h1 | h1
    · exact absurd h1 hjr
    obtain ⟨c, hc, hjc⟩ := mem_forest_ids_split cs j h1
    by_cases hjcr : j = c.rootId
    · refine ⟨r, ?_, by rw [Tree.ids]; exact List.mem_cons_self _ _⟩
      rw [hjcr]
      exact hpar c hc
    · obtain ⟨q, hq1, hq2⟩ := ih c hc (hcs c hc) j hjc hjcr
      refine ⟨q, hq1, ?_⟩
      rw [Tree.ids]
      exact List.mem_cons_of_mem _ (mem_forest_ids_of_mem cs c hc q hq2)

theorem wfTree_parentOrd (s : Store) :
    ∀ T, wfTree s T → ∀ j ∈ Tree.ids T, j ≠ T.rootId →
    ∀ q, (getN s j).parent = some q → (getN s q).key ≤ (getN s j).key := by
  apply tree_ind (P := fun T => wfTree s T → ∀ j ∈ Tree.ids T,
    j ≠ T.rootId → ∀ q, (getN s j).parent = some q →
    (getN s q).key ≤ (getN s j).key)
  intro r cs ih hwf j hj hjr q hq
  cases hwf with
  | mk _ _ hdeg hchild hring hpar hkey hcs =>
    rw [Tree.ids] at hj
    rcases List.mem_cons.mp hj with h1 | h1
    · exact absurd h1 hjr
    obtain ⟨c, hc, hjc⟩ := mem_forest_ids_split cs j h1
    by_cases hjcr : j = c.rootId
    · have hqr : q = r := by
        have h2 := hpar c hc
        rw [← hjcr] at h2
        exact Option.some.inj (hq.symm.trans h2)
      rw [hqr, hjcr]
      exact hkey c hc
    · exact ih c hc (hcs c hc) j hjc hjcr q hq

theorem wfTree_of_shape_ord (s : Store) :
    ∀ T, wfShape s T → (Tree.ids T).Nodup →
    (∀ j ∈ Tree.ids T, j ≠ T.rootId → ∀ q, (getN s j).parent = some q →
      q ∈ Tree.ids T → (getN s q).key ≤ (getN s j).key) →
    wfTree s T := by
  apply tree_ind (P := fun T => wfShape s T → (Tree.ids T).Nodup →
    (∀ j ∈ Tree.ids T, j ≠ T.rootId → ∀ q, (getN s j).parent = some q →
      q ∈ Tree.ids T → (getN s q).key ≤ (getN s j).key) →
    wfTree s T)
  intro r cs ih hwf hnd hord
  cases hwf with
  | mk _ _ hdeg hchild hring hpar hcs =>
    rw [Tree.ids] at hnd
    obtain ⟨hrnot, hndcs⟩ := List.nodup_cons.mp hnd
    have hmemT : ∀ j ∈ Forest.ids cs, j ∈ Tree.ids (Tree.node r cs) := by
      intro j hj
      rw [Tree.ids]
      exact List.mem_cons_of_mem _ hj
    have hneR : ∀ j ∈ Forest.ids cs, j ≠ Tree.rootId (Tree.node r cs) := by
      intro j hj hh
      rw [Tree.rootId] at hh
      exact hrnot (hh ▸ hj)
    refine wfTree.mk r cs hdeg hchild hring hpar ?_ ?_
    · intro c hc
      have hcm : c.rootId ∈ Forest.ids cs :=
        mem_forest_ids_of_mem cs c hc _ (rootId_mem_ids c)
      refine hord c.rootId (hmemT _ hcm) (hneR _ hcm) r (hpar c hc) ?_
      rw [Tree.ids]
      exact List.mem_cons_self _ _
    · intro c hc
      refine ih c hc (hcs c hc) (tree_ids_nodup_of_mem cs c hc hndcs) ?_
      intro j hj hjc q hq hqc
      have hjm : j ∈ Forest.ids cs := mem_forest_ids_of_mem cs c hc j hj
      refine hord j (hmemT _ hjm) (hneR _ hjm) q hq ?_
      exact hmemT _ (mem_forest_ids_of_mem cs c hc q hqc)

theorem remove_from_child_list_spec (s : Store) (p i : Nat)
    (preI postI : List Nat)
    (hchild : (getN s p).child = (preI ++ i :: postI).head?)
    (hring : ringP s (preI ++ i :: postI))
    (hnd : (preI ++ i :: postI).Nodup)
    (hpnot : p ∉ preI ++ i :: postI)
    (hlen : ∀ j ∈ preI ++ i :: postI, j < s.nodes.length)
    (hplen : p < s.nodes.length) :
    ∃ s3, remove_from_child_list s p i = .ok s3 ∧
      ringP s3 (preI ++ postI) ∧
      getN s3 p = { getN s p with child := (preI ++ postI).head? } ∧
      getN s3 i = { getN s i with left := i, right := i, parent := none } ∧
      (∀ j, j ≠ p → j ≠ i → agreeStatic (getN s3 j) (getN s j)) ∧
      (∀ j, j ≠ p → j ∉ preI ++ i :: postI → getN s3 j = getN s j) ∧
      s3.nodes.length = s.nodes.length := by
  have hiMem : i ∈ preI ++ i :: postI :=
    List.mem_append_right _ (List.mem_cons_self _ _)
  have hpi : p ≠ i := fun hh => hpnot (hh ▸ hiMem)
  have hilen : i < s.nodes.length := hlen i hiMem
  have hperm : (preI ++ i :: postI).Perm (i :: (postI ++ preI)) :=
    List.perm_middle.trans (List.Perm.cons i List.perm_append_comm)
  have hringR : ringP s (i :: (postI ++ preI)) := by
    have h1 := ringP_rotate_to s preI i postI hring
    rw [List.cons_append] at h1
    exact h1
  have hndR : (i :: (postI ++ preI)).Nodup := hperm.nodup hnd
  have hmemP : ∀ x, x ∈ i :: (postI ++ preI) → x ∈ preI ++ i :: postI :=
    fun x hx => hperm.mem_iff.mpr hx
  cases hys : postI ++ preI with
  | nil =>
    obtain ⟨hpost, hpre⟩ := List.append_eq_nil.mp hys
    subst hpost
    subst hpre
    rw [List.nil_append] at hring hchild hnd hpnot hlen ⊢
    have hsing : (getN s i).right = i := hring.2.1
    obtain ⟨sa, hsa⟩ : ∃ x, x = setN s p { getN s p with child := none } :=
      ⟨_, rfl⟩
    obtain ⟨s3, hs3⟩ : ∃ x, x = setN sa i
        { getN sa i with left := i, right := i, parent := none } := ⟨_, rfl⟩
    have hgai : getN sa i = getN s i := by
      rw [hsa]
      exact getN_setN_ne _ _ _ _ (Ne.symm hpi)
    have hlena : sa.nodes.length = s.nodes.length := by
      rw [hsa]
      exact length_setN _ _ _
    have hg3i : getN s3 i =
        { getN s i with left := i, right := i, parent := none } := by
      rw [hs3, getN_setN_self _ _ _ (by rw [hlena]; exact hilen), hgai]
    have hg3p : getN s3 p = { getN s p with child := none } := by
      rw [hs3, getN_setN_ne _ _ _ _ hpi, hsa,
        getN_setN_self _ _ _ hplen]
    have hg3other : ∀ j, j ≠ p → j ≠ i → getN s3 j = getN s j := by
      intro j h1 h2
      rw [hs3, getN_setN_ne _ _ _ _ h2, hsa, getN_setN_ne _ _ _ _ h1]
    refine ⟨s3, ?_, trivial, hg3p, hg3i, ?_, ?_, ?_⟩
    · rw [remove_from_child_list]
      dsimp only
      rw [if_pos hsing, ← hsa, ← hs3]
    · intro j h1 h2
      rw [hg3other j h1 h2]
      exact ⟨rfl, rfl, rfl, rfl, rfl, rfl⟩
    · intro j h1 h2
      have h3 : j ≠ i := fun hh => h2 (hh ▸ List.mem_cons_self _ _)
      exact hg3other j h1 h3
    · rw [hs3, length_setN, hlena]
  | cons y rest2 =>
    rw [hys] at hringR hndR hmemP
    have hyi : y ≠ i := by
      intro hh
      exact (List.nodup_cons.mp hndR).1 (hh ▸ List.mem_cons_self _ _)
    have hri : (getN s i).right = y := by
      have h1 := ring_succ s i (y :: rest2) hringR [] i (y :: rest2) rfl
      exact h1.1
    have hsing : ¬ (getN s i).right = i := by
      rw [hri]
      exact hyi
    have hlst : (getN s i).left = rest2.getLastD y := by
      have h2 := hringR.2
      rw [List.getLastD_cons] at h2
      exact h2.2
    have hlmem : (getN s i).left ∈ y :: rest2 := by
      rw [hlst]
      exact getLastD_mem rest2 y
    have hline : (getN s i).left ≠ i := by
      intro hh
      exact (List.nodup_cons.mp hndR).1 (hh ▸ hlmem)
    have hlnep : (getN s i).left ≠ p := by
      intro hh
      exact hpnot (hh ▸ hmemP _ (List.mem_cons_of_mem _ hlmem))
    have hrnep : (getN s i).right ≠ p := by
      intro hh
      exact hpnot (hh ▸ hmemP _
        (List.mem_cons_of_mem _ (hri ▸ List.mem_cons_self y rest2)))
    obtain ⟨s1, hs1⟩ : ∃ x, x = setN s ((getN s i).left)
        { getN s ((getN s i).left) with right := (getN s i).right } := ⟨_, rfl⟩
    obtain ⟨s2, hs2⟩ : ∃ x, x = setN s1 ((getN s i).right)
        { getN s1 ((getN s i).right) with left := (getN s i).left } := ⟨_, rfl⟩
    obtain ⟨hr2, hstat, hunt, hlen2⟩ := ring_splice_out s s1 s2 i y rest2
      hringR hndR (fun j hj => hlen j (hmemP j hj)) hs1 hs2
    have hg2p : getN s2 p = getN s p :=
      hunt p (Ne.symm hlnep) (Ne.symm hrnep)
    have hg2i : getN s2 i = getN s i :=
      hunt i (Ne.symm hline) (fun hh => hsing hh.symm)
    have hmem3 : ∀ j, j ∈ y :: rest2 → j ∈ preI ++ i :: postI :=
      fun j hj => hmemP j (List.mem_cons_of_mem _ hj)
    cases preI with
    | nil =>
      have hpostI : postI = y :: rest2 := by
        rw [List.append_nil] at hys
        exact hys
      subst hpostI
      have hpc : (getN s2 p).child = some i := by
        rw [hg2p, hchild]
        rfl
      obtain ⟨s2a, hs2a⟩ : ∃ x, x = setN s2 p
          { getN s2 p with child := some ((getN s i).right) } := ⟨_, rfl⟩
      obtain ⟨s3, hs3⟩ : ∃ x, x = setN s2a i
          { getN s2a i with left := i, right := i, parent := none } := ⟨_, rfl⟩
      have hlen2a : s2a.nodes.length = s.nodes.length := by
        rw [hs2a, length_setN, hlen2]
      have hg2ai : getN s2a i = getN s i := by
        rw [hs2a, getN_setN_ne _ _ _ _ (Ne.symm hpi), hg2i]
      have hg2aother : ∀ j, j ≠ p → getN s2a j = getN s2 j := by
        intro j h1
        rw [hs2a]
        exact getN_setN_ne _ _ _ _ h1
      have hg3i : getN s3 i =
          { getN s i with left := i, right := i, parent := none } := by
        rw [hs3, getN_setN_self _ _ _ (by rw [hs2a, length_setN, hlen2]; exact hilen),
          hg2ai]
      have hg3p : getN s3 p = { getN s p with child := some y } := by
        rw [hs3, getN_setN_ne _ _ _ _ hpi, hs2a,
          getN_setN_self _ _ _ (by rw [hlen2]; exact hplen), hg2p, hri]
      have hg3other : ∀ j, j ≠ p → j ≠ i → getN s3 j = getN s2 j := by
        intro j h1 h2
        rw [hs3, getN_setN_ne _ _ _ _ h2, hg2aother j h1]
      refine ⟨s3, ?_, ?_, ?_, hg3i, ?_, ?_, ?_⟩
      · rw [remove_from_child_list]
        dsimp only
        rw [if_neg hsing, ← hs1, ← hs2, hpc]
        dsimp only
        rw [if_pos rfl, ← hs2a, ← hs3]
      · rw [List.nil_append]
        refine ringP_congr s2 s3 _ ?_ hr2
        intro j hj
        have h1 : j ≠ p := fun hh => hpnot (hh ▸ hmem3 j hj)
        have h2 : j ≠ i := fun hh =>
          (List.nodup_cons.mp hndR).1 (hh ▸ hj)
        rw [hg3other j h1 h2]
        exact ⟨rfl, rfl⟩
      · rw [List.nil_append]
        exact hg3p
      · intro j h1 h2
        rw [hg3other j h1 h2]
        exact hstat j
      · intro j h1 h2
        rw [List.nil_append] at h2
        have h3 : j ≠ i := fun hh => h2 (hh ▸ List.mem_cons_self _ _)
        rw [hg3other j h1 h3]
        refine hunt j ?_ ?_
        · intro hh
          exact h2 (hh ▸ List.mem_cons_of_mem _ hlmem)
        · intro hh
          rw [hri] at hh
          exact h2 (hh ▸ List.mem_cons_of_mem _ (List.mem_cons_self _ _))
      · rw [hs3, length_setN, hlen2a]
    | cons a preI2 =>
      have hai : a ≠ i := by
        rw [List.cons_append] at hnd
        intro hh
        exact (List.nodup_cons.mp hnd).1 (hh ▸
          List.mem_append_right _ (List.mem_cons_self _ _))
      have hpc : (getN s2 p).child = some a := by
        rw [hg2p, hchild]
        rfl
      obtain ⟨s3, hs3⟩ : ∃ x, x = setN s2 i
          { getN s2 i with left := i, right := i, parent := none } := ⟨_, rfl⟩
      have hg3i : getN s3 i =
          { getN s i with left := i, right := i, parent := none } := by
        rw [hs3, getN_setN_self _ _ _ (by rw [hlen2]; exact hilen), hg2i]
      have hg3other : ∀ j, j ≠ i → getN s3 j = getN s2 j := by
        intro j h1
        rw [hs3]
        exact getN_setN_ne _ _ _ _ h1
      have hg3p : getN s3 p =
          { getN s p with child := ((a :: preI2) ++ postI).head? } := by
        rw [hg3other p hpi, hg2p]
        have h4 : (getN s p).child = some a := by
          rw [hchild]
          rfl
        rw [show ((a :: preI2) ++ postI).head? = some a from rfl, ← h4]
      refine ⟨s3, ?_, ?_, hg3p, hg3i, ?_, ?_, ?_⟩
      · rw [remove_from_child_list]
        dsimp only
        rw [if_neg hsing, ← hs1, ← hs2, hpc]
        dsimp only
        rw [if_neg hai, ← hs3]
      · have hr3 : ringP s3 (y :: rest2) := by
          refine ringP_congr s2 s3 _ ?_ hr2
          intro j hj
          have h2 : j ≠ i := fun hh =>
            (List.nodup_cons.mp hndR).1 (hh ▸ hj)
          rw [hg3other j h2]
          exact ⟨rfl, rfl⟩
        rw [← hys] at hr3
        have h5 := ringP_rotate_to s3 postI a preI2 hr3
        rw [List.cons_append] at h5 ⊢
        exact h5
      · intro j h1 h2
        rw [hg3other j h2]
        exact hstat j
      · intro j h1 h2
        have h3 : j ≠ i := fun hh => h2 (hh ▸ hiMem)
        rw [hg3other j h3]
        refine hunt j ?_ ?_
        · intro hh
          exact h2 (hh ▸ hmem3 _ hlmem)
        · intro hh
          rw [hri] at hh
          exact h2 (hh ▸ hmem3 _ (List.mem_cons_self _ _))
      · rw [hs3, length_setN, hlen2]

theorem forest_prune_inside (x : Nat) (c : Tree) :
    ∀ (pre2 : List Tree), ∀ (post2 : List Tree),
    ¬ c.rootId = x →
    (∀ c' ∈ pre2, x ∉ Tree.ids c') →
    x ∉ Forest.ids post2 →
    Forest.pruneChild x (pre2 ++ c :: post2) =
      pre2 ++ Tree.pruneChild x c :: post2 := by
  intro pre2
  induction pre2 with
  | nil =>
    intro post2 hcr _ hpost
    rw [List.nil_append, Forest.pruneChild, if_neg hcr,
      forest_prune_id x post2 (fun c' _ h => pruneChild_id x c' h) hpost,
      List.nil_append]
  | cons a pre' ih =>
    intro post2 hcr hpre hpost
    have hxa : x ∉ Tree.ids a := hpre a (List.mem_cons_self _ _)
    have hna : ¬ a.rootId = x := fun hh => hxa (hh ▸ rootId_mem_ids a)
    rw [List.cons_append, Forest.pruneChild, if_neg hna,
      pruneChild_id x a hxa,
      ih post2 hcr (fun c' hc' => hpre c' (List.mem_cons_of_mem _ hc')) hpost,
      List.cons_append]

theorem forest_split_facts (pre2 post2 : List Tree) (c : Tree)
    (hnd : (Forest.ids (pre2 ++ c :: post2)).Nodup) :
    (∀ j ∈ Tree.ids c, j ∉ Forest.ids pre2) ∧
    (∀ j ∈ Tree.ids c, j ∉ Forest.ids post2) := by
  rw [forest_ids_append, forest_ids_cons] at hnd
  rcases List.nodup_append.mp hnd with ⟨_, hnd2, hdisj1⟩
  rcases List.nodup_append.mp hnd2 with ⟨_, _, hdisj2⟩
  exact ⟨fun j hj hjp => hdisj1 hjp (List.mem_append_left _ hj),
         fun j hj hjp => hdisj2 hj hjp⟩

theorem nodup_bounded_length (l : List Nat) (n : Nat) (hnd : l.Nodup)
    (hb : ∀ x ∈ l, x < n) : l.length ≤ n := by
  have h1 : l.toFinset.card = l.length := List.toFinset_card_of_nodup hnd
  have h2 : l.toFinset ⊆ Finset.range n := by
    intro x hx
    rw [Finset.mem_range]
    exact hb x (List.mem_toFinset.mp hx)
  have h3 := Finset.card_le_card h2
  rw [h1, Finset.card_range] at h3
  exact h3

theorem tree_cut_main (s : Store) (i p : Nat) :
    ∀ T, wfShape s T → (Tree.ids T).Nodup →
    (∀ j ∈ Tree.ids T, j < s.nodes.length) →
    i ∈ Tree.ids T → i ≠ T.rootId → (getN s i).parent = some p →
    ∃ s3 u, remove_from_child_list s p i = .ok s3 ∧
      ∀ s4, s4 = setN s3 p { getN s3 p with degree := (getN s3 p).degree - 1 } →
        wfShape s4 (Tree.pruneChild i T) ∧
        wfShape s4 u ∧
        u.rootId = i ∧
        (Tree.ids (Tree.pruneChild i T) ++ Tree.ids u).Perm (Tree.ids T) ∧
        p ∈ Tree.ids (Tree.pruneChild i T) ∧
        (∀ j, j ∉ Tree.ids T → getN s4 j = getN s j) ∧
        (∀ j, j ≠ p → j ≠ i → agreeStatic (getN s4 j) (getN s j)) ∧
        getN s4 i = { getN s i with left := i, right := i, parent := none } ∧
        (getN s4 p).key = (getN s p).key ∧
        (getN s4 p).value = (getN s p).value ∧
        (getN s4 p).mark = (getN s p).mark ∧
        (getN s4 p).parent = (getN s p).parent ∧
        (getN s4 p).left = (getN s p).left ∧
        (getN s4 p).right = (getN s p).right ∧
        (getN s4 T.rootId).left = (getN s T.rootId).left ∧
        (getN s4 T.rootId).right = (getN s T.rootId).right ∧
        s4.nodes.length = s.nodes.length := by
  apply tree_ind
  intro r cs ih hshape hnd hblen hi hir hparI
  cases hshape with
  | mk _ _ hdeg hchild hring hpar hcs =>
    rw [Tree.ids] at hnd hi
    obtain ⟨hrnotin, hndcs⟩ := List.nodup_cons.mp hnd
    have hblen2 : ∀ j ∈ Forest.ids cs, j < s.nodes.length := by
      intro j hj
      exact hblen j (by rw [Tree.ids]; exact List.mem_cons_of_mem _ hj)
    have hplenr : r < s.nodes.length :=
      hblen r (by rw [Tree.ids]; exact List.mem_cons_self _ _)
    have hirr : i ≠ r := by
      rw [Tree.rootId] at hir
      exact hir
    have hics : i ∈ Forest.ids cs := by
      rcases List.mem_cons.mp hi with h1 | h1
      · exact absurd h1 hirr
      · exact h1
    obtain ⟨c, hc, hicm⟩ := mem_forest_ids_split cs i hics
    obtain ⟨pre2, post2, rfl⟩ := List.append_of_mem hc
    obtain ⟨hdisjpre, hdisjpost⟩ := forest_split_facts pre2 post2 c hndcs
    have hcmid : c ∈ pre2 ++ c :: post2 :=
      List.mem_append_right _ (List.mem_cons_self _ _)
    have hmemcs : ∀ c' ∈ pre2 ++ post2, c' ∈ pre2 ++ c :: post2 := by
      intro c' h
      rcases List.mem_append.mp h with h | h
      · exact List.mem_append_left _ h
      · exact List.mem_append_right _ (List.mem_cons_of_mem _ h)
    have hprenot : ∀ c' ∈ pre2, i ∉ Tree.ids c' := fun c' hc' hh =>
      hdisjpre i hicm (mem_forest_ids_of_mem pre2 c' hc' i hh)
    have hpostnot : i ∉ Forest.ids post2 := hdisjpost i hicm
    by_cases hic : i = c.rootId
    · -- the node to cut is a direct child of this root
      have h2 := hpar c hc
      rw [← hic] at h2
      have hpr : p = r := Option.some.inj (hparI.symm.trans h2)
      subst hpr
      have hmap : (pre2 ++ c :: post2).map Tree.rootId =
          pre2.map Tree.rootId ++ i :: post2.map Tree.rootId := by
        rw [List.map_append, List.map_cons, ← hic]
      have hch2 : (getN s p).child =
          (pre2.map Tree.rootId ++ i :: post2.map Tree.rootId).head? := by
        rw [← hmap, List.head?_map]
        exact hchild
      have hringI : ringP s
          (pre2.map Tree.rootId ++ i :: post2.map Tree.rootId) := by
        rw [← hmap]
        exact hring
      have hndI : (pre2.map Tree.rootId ++ i :: post2.map Tree.rootId).Nodup := by
        rw [← hmap]
        exact roots_nodup _ hndcs
      have hpnotI : p ∉ pre2.map Tree.rootId ++ i :: post2.map Tree.rootId := by
        intro hmem
        rw [← hmap] at hmem
        exact hrnotin (roots_sub_ids _ p hmem)
      have hlenI : ∀ j ∈ pre2.map Tree.rootId ++ i :: post2.map Tree.rootId,
          j < s.nodes.length := by
        intro j hj
        rw [← hmap] at hj
        exact hblen2 j (roots_sub_ids _ j hj)
      obtain ⟨s3, hok, hr3, hg3p, hg3i, hstat3, hunt3, hlen3⟩ :=
        remove_from_child_list_spec s p i _ _ hch2 hringI hndI hpnotI hlenI hplenr
      have hiring : i ∈ pre2.map Tree.rootId ++ i :: post2.map Tree.rootId :=
        List.mem_append_right _ (List.mem_cons_self _ _)
      have hirp : i ≠ p := fun hh => hpnotI (hh ▸ hiring)
      have hsubPP : ∀ x, x ∈ pre2.map Tree.rootId ++ post2.map Tree.rootId →
          x ∈ pre2.map Tree.rootId ++ i :: post2.map Tree.rootId := by
        intro x hx
        rcases List.mem_append.mp hx with h | h
        · exact List.mem_append_left _ h
        · exact List.mem_append_right _ (List.mem_cons_of_mem _ h)
      have hndmid : (i :: (pre2.map Tree.rootId ++ post2.map Tree.rootId)).Nodup :=
        List.perm_middle.nodup hndI
      have hinotPP : i ∉ pre2.map Tree.rootId ++ post2.map Tree.rootId :=
        (List.nodup_cons.mp hndmid).1
      have hprune_eq : Tree.pruneChild i (Tree.node p (pre2 ++ c :: post2)) =
          Tree.node p (pre2 ++ post2) := by
        rw [Tree.pruneChild, forest_prune_at i c pre2 post2 hic.symm hprenot]
      refine ⟨s3, c, hok, ?_⟩
      intro s4 hs4
      have hlen4 : s4.nodes.length = s.nodes.length := by
        rw [hs4, length_setN, hlen3]
      have hg4p : getN s4 p =
          { getN s3 p with degree := (getN s3 p).degree - 1 } := by
        rw [hs4]
        exact getN_setN_self _ _ _ (by rw [hlen3]; exact hplenr)
      have hg4other : ∀ j, j ≠ p → getN s4 j = getN s3 j := by
        intro j hj
        rw [hs4]
        exact getN_setN_ne _ _ _ _ hj
      have h4i : getN s4 i =
          { getN s i with left := i, right := i, parent := none } := by
        rw [hg4other i hirp, hg3i]
      have hstat4 : ∀ j, j ≠ p → j ≠ i → agreeStatic (getN s4 j) (getN s j) := by
        intro j h1 h3
        rw [hg4other j h1]
        exact hstat3 j h1 h3
      have h4pk : (getN s4 p).key = (getN s p).key := by rw [hg4p, hg3p]
      have h4pv : (getN s4 p).value = (getN s p).value := by rw [hg4p, hg3p]
      have h4pm : (getN s4 p).mark = (getN s p).mark := by rw [hg4p, hg3p]
      have h4pp : (getN s4 p).parent = (getN s p).parent := by rw [hg4p, hg3p]
      have h4pl : (getN s4 p).left = (getN s p).left := by rw [hg4p, hg3p]
      have h4pr : (getN s4 p).right = (getN s p).right := by rw [hg4p, hg3p]
      have hr4 : ringP s4 (pre2.map Tree.rootId ++ post2.map Tree.rootId) := by
        refine ringP_congr s3 s4 _ ?_ hr3
        intro j hj
        have h1 : j ≠ p := fun hh => hpnotI (hsubPP _ (hh ▸ hj))
        rw [hg4other j h1]
        exact ⟨rfl, rfl⟩
      have hintne : ∀ c' ∈ pre2 ++ c :: post2, ∀ j ∈ Forest.ids c'.childTrees,
          j ∉ pre2.map Tree.rootId ++ i :: post2.map Tree.rootId := by
        intro c' hc' j hj hjm
        rw [← hmap] at hjm
        obtain ⟨w, hw, hwj⟩ := List.mem_map.mp hjm
        exact interior_root_ne (pre2 ++ c :: post2) hndcs c' hc' j hj w hw hwj.symm
      have hint4 : ∀ c' ∈ pre2 ++ c :: post2, ∀ j ∈ Forest.ids c'.childTrees,
          getN s4 j = getN s j := by
        intro c' hc' j hj
        have hjids : j ∈ Tree.ids c' := by
          cases c' with
          | node a as =>
            rw [Tree.childTrees] at hj
            rw [Tree.ids]
            exact List.mem_cons_of_mem _ hj
        have h1 : j ≠ p := fun hh =>
          hrnotin (hh ▸ mem_forest_ids_of_mem _ c' hc' j hjids)
        rw [hg4other j h1]
        exact hunt3 j h1 (hintne c' hc' j hj)
      have hshape_pruned : wfShape s4 (Tree.node p (pre2 ++ post2)) := by
        refine wfShape.mk p (pre2 ++ post2) ?_ ?_ ?_ ?_ ?_
        · have hd1 : (getN s4 p).degree = (getN s p).degree - 1 := by
            rw [hg4p, hg3p]
          rw [hd1, hdeg]
          simp only [List.length_append, List.length_cons]
          omega
        · have hc1 : (getN s4 p).child =
              (pre2.map Tree.rootId ++ post2.map Tree.rootId).head? := by
            rw [hg4p, hg3p]
          rw [hc1, ← List.map_append, List.head?_map]
        · rw [List.map_append]
          exact hr4
        · intro c' hc'
          have hin : c'.rootId ∈ pre2.map Tree.rootId ++ post2.map Tree.rootId := by
            rcases List.mem_append.mp hc' with h | h
            · exact List.mem_append_left _ (List.mem_map.mpr ⟨c', h, rfl⟩)
            · exact List.mem_append_right _ (List.mem_map.mpr ⟨c', h, rfl⟩)
          have h1 : c'.rootId ≠ p := fun hh => hpnotI (hsubPP _ (hh ▸ hin))
          have h3 : c'.rootId ≠ i := fun hh => hinotPP (hh ▸ hin)
          rw [(hstat4 c'.rootId h1 h3).2.2.2.2.1]
          exact hpar c' (hmemcs c' hc')
        · intro c' hc'
          refine wfShape_congr s s4 c' ?_ ?_ (hcs c' (hmemcs c' hc'))
          · have hin : c'.rootId ∈
                pre2.map Tree.rootId ++ post2.map Tree.rootId := by
              rcases List.mem_append.mp hc' with h | h
              · exact List.mem_append_left _ (List.mem_map.mpr ⟨c', h, rfl⟩)
              · exact List.mem_append_right _ (List.mem_map.mpr ⟨c', h, rfl⟩)
            have h1 : c'.rootId ≠ p := fun hh => hpnotI (hsubPP _ (hh ▸ hin))
            have h3 : c'.rootId ≠ i := fun hh => hinotPP (hh ▸ hin)
            have h4 := hstat4 c'.rootId h1 h3
            exact ⟨h4.2.2.1, h4.2.2.2.2.2⟩
          · intro j hj
            rw [hint4 c' (hmemcs c' hc') j hj]
            exact ⟨rfl, rfl, rfl, rfl, rfl⟩
      have hshape_u : wfShape s4 c := by
        refine wfShape_congr s s4 c ?_ ?_ (hcs c hcmid)
        · rw [← hic, h4i]
          exact ⟨rfl, rfl⟩
        · intro j hj
          rw [hint4 c hcmid j hj]
          exact ⟨rfl, rfl, rfl, rfl, rfl⟩
      have hperm_out :
          (Tree.ids (Tree.pruneChild i (Tree.node p (pre2 ++ c :: post2))) ++
            Tree.ids c).Perm (Tree.ids (Tree.node p (pre2 ++ c :: post2))) := by
        rw [hprune_eq, Tree.ids, Tree.ids, forest_ids_append, forest_ids_append,
          forest_ids_cons, List.cons_append]
        refine List.Perm.cons p ?_
        rw [List.append_assoc]
        exact List.Perm.append_left _ List.perm_append_comm
      have hp_mem :
          p ∈ Tree.ids (Tree.pruneChild i (Tree.node p (pre2 ++ c :: post2))) := by
        rw [hprune_eq, Tree.ids]
        exact List.mem_cons_self _ _
      have huntT : ∀ j, j ∉ Tree.ids (Tree.node p (pre2 ++ c :: post2)) →
          getN s4 j = getN s j := by
        intro j hj
        rw [Tree.ids] at hj
        have h1 : j ≠ p := fun hh => hj (hh ▸ List.mem_cons_self _ _)
        have h3 : j ∉ pre2.map Tree.rootId ++ i :: post2.map Tree.rootId := by
          intro hjm
          rw [← hmap] at hjm
          exact hj (List.mem_cons_of_mem _ (roots_sub_ids _ j hjm))
        rw [hg4other j h1]
        exact hunt3 j h1 h3
      refine ⟨by rw [hprune_eq]; exact hshape_pruned, hshape_u, hic.symm,
        hperm_out, hp_mem, huntT, hstat4, h4i, h4pk, h4pv, h4pm, h4pp, h4pl,
        h4pr, ?_, ?_, hlen4⟩
      · show (getN s4 p).left = (getN s p).left
        exact h4pl
      · show (getN s4 p).right = (getN s p).right
        exact h4pr
    · -- the node to cut is deeper inside the child `c`
      obtain ⟨q, hq, hqc⟩ := interior_parent_someS s c (hcs c hcmid) i hicm hic
      have hpq : p = q := Option.some.inj (hparI.symm.trans hq)
      have hpc : p ∈ Tree.ids c := hpq ▸ hqc
      have hpcF : p ∈ Forest.ids (pre2 ++ c :: post2) :=
        mem_forest_ids_of_mem _ c hcmid p hpc
      have hpr_ne : p ≠ r := fun hh => hrnotin (hh ▸ hpcF)
      have hcnd : (Tree.ids c).Nodup := tree_ids_nodup_of_mem _ c hcmid hndcs
      have hclen : ∀ j ∈ Tree.ids c, j < s.nodes.length := fun j hj =>
        hblen2 j (mem_forest_ids_of_mem _ c hcmid j hj)
      obtain ⟨s3, u, hok, hrest⟩ := ih c hcmid (hcs c hcmid) hcnd hclen hicm hic hparI
      refine ⟨s3, u, hok, ?_⟩
      intro s4 hs4
      obtain ⟨hshc, hshu, hurid, hpermc, hpmemc, huntc, hstatc, h4i, h4pk, h4pv,
        h4pm, h4pp, h4pl, h4pr, h4crl, h4crr, hlen4⟩ := hrest s4 hs4
      have hrnotc : r ∉ Tree.ids c := fun hh =>
        hrnotin (mem_forest_ids_of_mem _ c hcmid r hh)
      have hg4r : getN s4 r = getN s r := huntc r hrnotc
      have hg4pre : ∀ j ∈ Forest.ids pre2, getN s4 j = getN s j :=
        fun j hj => huntc j (fun hjc => hdisjpre j hjc hj)
      have hg4post : ∀ j ∈ Forest.ids post2, getN s4 j = getN s j :=
        fun j hj => huntc j (fun hjc => hdisjpost j hjc hj)
      have hprune_eq : Tree.pruneChild i (Tree.node r (pre2 ++ c :: post2)) =
          Tree.node r (pre2 ++ Tree.pruneChild i c :: post2) := by
        rw [Tree.pruneChild,
          forest_prune_inside i c pre2 post2 (fun hh => hic hh.symm)
            hprenot hpostnot]
      have hmapnew : (pre2 ++ Tree.pruneChild i c :: post2).map Tree.rootId =
          (pre2 ++ c :: post2).map Tree.rootId := by
        rw [List.map_append, List.map_cons, List.map_append, List.map_cons,
          pruneChild_rootId]
      have hcrootLR : (getN s4 c.rootId).left = (getN s c.rootId).left ∧
          (getN s4 c.rootId).right = (getN s c.rootId).right := ⟨h4crl, h4crr⟩
      have hcrootPar : (getN s4 c.rootId).parent = (getN s c.rootId).parent := by
        by_cases hcp : c.rootId = p
        · rw [hcp]
          exact h4pp
        · have hcni : c.rootId ≠ i := fun hh => hic hh.symm
          exact (hstatc c.rootId hcp hcni).2.2.2.2.1
      have hshape_pruned : wfShape s4
          (Tree.node r (pre2 ++ Tree.pruneChild i c :: post2)) := by
        refine wfShape.mk r (pre2 ++ Tree.pruneChild i c :: post2) ?_ ?_ ?_ ?_ ?_
        · rw [hg4r, hdeg]
          simp only [List.length_append, List.length_cons]
        · rw [hg4r, hchild, ← List.head?_map, ← List.head?_map, hmapnew]
        · rw [hmapnew]
          refine ringP_congr s s4 _ ?_ hring
          intro j hj
          obtain ⟨w, hw, hwj⟩ := List.mem_map.mp hj
          rw [← hwj]
          rcases List.mem_append.mp hw with h | h
          · rw [hg4pre w.rootId
              (mem_forest_ids_of_mem pre2 w h _ (rootId_mem_ids w))]
            exact ⟨rfl, rfl⟩
          · rcases List.mem_cons.mp h with h3 | h3
            · rw [h3]
              exact ⟨hcrootLR.1, hcrootLR.2⟩
            · rw [hg4post w.rootId
                (mem_forest_ids_of_mem post2 w h3 _ (rootId_mem_ids w))]
              exact ⟨rfl, rfl⟩
        · intro w hw
          rcases List.mem_append.mp hw with h | h
          · rw [hg4pre w.rootId
              (mem_forest_ids_of_mem pre2 w h _ (rootId_mem_ids w))]
            exact hpar w (List.mem_append_left _ h)
          · rcases List.mem_cons.mp h with h3 | h3
            · rw [h3, pruneChild_rootId, hcrootPar]
              exact hpar c hcmid
            · rw [hg4post w.rootId
                (mem_forest_ids_of_mem post2 w h3 _ (rootId_mem_ids w))]
              exact hpar w (List.mem_append_right _ (List.mem_cons_of_mem _ h3))
        · intro w hw
          rcases List.mem_append.mp hw with h | h
          · refine wfShape_eq_congr s s4 w ?_ (hcs w (List.mem_append_left _ h))
            intro j hj
            exact hg4pre j (mem_forest_ids_of_mem pre2 w h j hj)
          · rcases List.mem_cons.mp h with h3 | h3
            · rw [h3]
              exact hshc
            · refine wfShape_eq_congr s s4 w ?_
                (hcs w (List.mem_append_right _ (List.mem_cons_of_mem _ h3)))
              intro j hj
              exact hg4post j (mem_forest_ids_of_mem post2 w h3 j hj)
      have hperm_out :
          (Tree.ids (Tree.pruneChild i (Tree.node r (pre2 ++ c :: post2))) ++
            Tree.ids u).Perm (Tree.ids (Tree.node r (pre2 ++ c :: post2))) := by
        rw [hprune_eq, Tree.ids, Tree.ids, forest_ids_append, forest_ids_cons,
          forest_ids_append, forest_ids_cons, List.cons_append]
        refine List.Perm.cons r ?_
        rw [List.append_assoc]
        refine List.Perm.append_left _ ?_
        have h1 : List.Perm
            ((Tree.ids (Tree.pruneChild i c) ++ Forest.ids post2) ++ Tree.ids u)
            (Tree.ids (Tree.pruneChild i c) ++ (Tree.ids u ++ Forest.ids post2)) := by
          rw [List.append_assoc]
          exact List.Perm.append_left _ List.perm_append_comm
        refine h1.trans ?_
        rw [← List.append_assoc]
        exact List.Perm.append_right _ hpermc
      have hp_mem :
          p ∈ Tree.ids (Tree.pruneChild i (Tree.node r (pre2 ++ c :: post2))) := by
        rw [hprune_eq, Tree.ids]
        refine List.mem_cons_of_mem _ ?_
        exact mem_forest_ids_of_mem _ (Tree.pruneChild i c)
          (List.mem_append_right _ (List.mem_cons_self _ _)) p hpmemc
      have huntT : ∀ j, j ∉ Tree.ids (Tree.node r (pre2 ++ c :: post2)) →
          getN s4 j = getN s j := by
        intro j hj
        refine huntc j ?_
        intro hjc
        rw [Tree.ids] at hj
        exact hj (List.mem_cons_of_mem _ (mem_forest_ids_of_mem _ c hcmid j hjc))
      refine ⟨by rw [hprune_eq]; exact hshape_pruned, hshu, hurid, hperm_out,
        hp_mem, huntT, hstatc, h4i, h4pk, h4pv, h4pm, h4pp, h4pl, h4pr, ?_, ?_,
        hlen4⟩
      · show (getN s4 r).left = (getN s r).left
        rw [hg4r]
      · show (getN s4 r).right = (getN s r).right
        rw [hg4r]

theorem cut_wf (s : Store) (i p : Nat) (T : Tree)
    (hsh : wfShape s T) (hnd : (Tree.ids T).Nodup)
    (hblen : ∀ j ∈ Tree.ids T, j < s.nodes.length)
    (hiT : i ∈ Tree.ids T) (hir : i ≠ T.rootId)
    (hparI : (getN s i).parent = some p)
    (hordX : ∀ j ∈ Tree.ids T, j ≠ T.rootId → j ≠ i → ∀ q,
      (getN s j).parent = some q → q ∈ Tree.ids T →
      (getN s q).key ≤ (getN s j).key) :
    ∃ s3 u, remove_from_child_list s p i = .ok s3 ∧
      ∀ s4, s4 = setN s3 p { getN s3 p with degree := (getN s3 p).degree - 1 } →
        wfTree s4 (Tree.pruneChild i T) ∧
        wfTree s4 u ∧
        u.rootId = i ∧
        (Tree.ids (Tree.pruneChild i T) ++ Tree.ids u).Perm (Tree.ids T) ∧
        p ∈ Tree.ids (Tree.pruneChild i T) ∧
        (∀ j, j ∉ Tree.ids T → getN s4 j = getN s j) ∧
        (∀ j, j ≠ p → j ≠ i → agreeStatic (getN s4 j) (getN s j)) ∧
        getN s4 i = { getN s i with left := i, right := i, parent := none } ∧
        (getN s4 p).key = (getN s p).key ∧
        (getN s4 p).value = (getN s p).value ∧
        (getN s4 p).mark = (getN s p).mark ∧
        (getN s4 p).parent = (getN s p).parent ∧
        (getN s4 p).left = (getN s p).left ∧
        (getN s4 p).right = (getN s p).right ∧
        (getN s4 T.rootId).left = (getN s T.rootId).left ∧
        (getN s4 T.rootId).right = (getN s T.rootId).right ∧
        s4.nodes.length = s.nodes.length := by
  obtain ⟨s3, u, hok, hrest⟩ := tree_cut_main s i p T hsh hnd hblen hiT hir hparI
  refine ⟨s3, u, hok, ?_⟩
  intro s4 hs4
  obtain ⟨hshP, hshU, hurid, hpermc, hpmem, hunt, hstat, h4i, h4pk, h4pv, h4pm,
    h4pp, h4pl, h4pr, h4rl, h4rr, hlen4⟩ := hrest s4 hs4
  have hndPU : (Tree.ids (Tree.pruneChild i T) ++ Tree.ids u).Nodup :=
    hpermc.symm.nodup hnd
  obtain ⟨hndP, hndU, hdisjPU⟩ := List.nodup_append.mp hndPU
  have hkey4 : ∀ j, (getN s4 j).key = (getN s j).key := by
    intro j
    by_cases h1 : j = p
    · rw [h1]
      exact h4pk
    by_cases h2 : j = i
    · rw [h2, h4i]
    · exact (hstat j h1 h2).1
  have hpar4 : ∀ j, j ≠ i → (getN s4 j).parent = (getN s j).parent := by
    intro j h2
    by_cases h1 : j = p
    · rw [h1]
      exact h4pp
    · exact (hstat j h1 h2).2.2.2.2.1
  have hmemPT : ∀ j ∈ Tree.ids (Tree.pruneChild i T), j ∈ Tree.ids T :=
    fun j hj => hpermc.mem_iff.mp (List.mem_append_left _ hj)
  have hmemUT : ∀ j ∈ Tree.ids u, j ∈ Tree.ids T :=
    fun j hj => hpermc.mem_iff.mp (List.mem_append_right _ hj)
  have hrootP : (Tree.pruneChild i T).rootId = T.rootId := pruneChild_rootId i T
  have hrootmemP : T.rootId ∈ Tree.ids (Tree.pruneChild i T) := by
    rw [← hrootP]
    exact rootId_mem_ids _
  have hinotP : i ∉ Tree.ids (Tree.pruneChild i T) := by
    intro hh
    exact hdisjPU hh (hurid ▸ rootId_mem_ids u)
  have hwfP : wfTree s4 (Tree.pruneChild i T) := by
    refine wfTree_of_shape_ord s4 _ hshP hndP ?_
    intro j hj hjr q hq hqP
    have hji : j ≠ i := fun hh => hinotP (hh ▸ hj)
    have hqi : q ≠ i := fun hh => hinotP (hh ▸ hqP)
    rw [hkey4 q, hkey4 j]
    rw [hpar4 j hji] at hq
    exact hordX j (hmemPT j hj) (fun hh => hjr (hh.trans hrootP.symm)) hji q hq
      (hmemPT q hqP)
  have hwfU : wfTree s4 u := by
    refine wfTree_of_shape_ord s4 _ hshU hndU ?_
    intro j hj hjr q hq hqU
    have hji : j ≠ i := fun hh => hjr (hh.trans hurid.symm)
    have hjT : j ≠ T.rootId := fun hh => hdisjPU (hh ▸ hrootmemP) hj
    rw [hkey4 q, hkey4 j]
    rw [hpar4 j hji] at hq
    exact hordX j (hmemUT j hj) hjT hji q hq (hmemUT q hqU)
  exact ⟨hwfP, hwfU, hurid, hpermc, hpmem, hunt, hstat, h4i, h4pk, h4pv, h4pm,
    h4pp, h4pl, h4pr, h4rl, h4rr, hlen4⟩

theorem cut_spec_inv (s : Store) (h : FibonacciHeap) (A B : List Tree) (T : Tree)
    (i p : Nat)
    (hhead : ∃ t0 rest0, A ++ T :: B = t0 :: rest0 ∧ h.min = some t0.rootId)
    (hring : ringP s ((A ++ T :: B).map Tree.rootId))
    (hwfA : ∀ t ∈ A, wfTree s t)
    (hwfB : ∀ t ∈ B, wfTree s t)
    (hparA : ∀ t ∈ A ++ T :: B, (getN s t.rootId).parent = none)
    (hshT : wfShape s T)
    (hordX : ∀ j ∈ Tree.ids T, j ≠ T.rootId → j ≠ i → ∀ q,
      (getN s j).parent = some q → q ∈ Tree.ids T →
      (getN s q).key ≤ (getN s j).key)
    (hnd : (Forest.ids (A ++ T :: B)).Nodup)
    (hbv : ∀ j ∈ Forest.ids (A ++ T :: B), j < s.nodes.length ∧
      (getN s j).value.isSome = true)
    (hiT : i ∈ Tree.ids T) (hparI : (getN s i).parent = some p) :
    ∃ s5 h5 F5, cut s h i p = .ok (s5, h5) ∧ InvStruct0 s5 h5 F5 ∧
      (Forest.ids F5).Perm (Forest.ids (A ++ T :: B)) ∧
      (∀ j, (getN s5 j).key = (getN s j).key) ∧
      (∀ j, (getN s5 j).value = (getN s j).value) ∧
      (∀ j, j ≠ i → (getN s5 j).parent = (getN s j).parent) ∧
      (∀ x, x ∈ (A ++ T :: B).map Tree.rootId → x ∈ F5.map Tree.rootId) ∧
      i ∈ F5.map Tree.rootId ∧
      (∀ t5 rest5 t0 rest0, F5 = t5 :: rest5 → A ++ T :: B = t0 :: rest0 →
        (getN s5 t5.rootId).key ≤ (getN s t0.rootId).key) ∧
      s5.nodes.length = s.nodes.length ∧
      h5.total_nodes = h.total_nodes := by
  have hTmem : T ∈ A ++ T :: B := List.mem_append_right _ (List.mem_cons_self _ _)
  have hirT : i ≠ T.rootId := by
    intro hh
    rw [hh, hparA T hTmem] at hparI
    cases hparI
  have hndT : (Tree.ids T).Nodup := tree_ids_nodup_of_mem _ T hTmem hnd
  have hblenT : ∀ j ∈ Tree.ids T, j < s.nodes.length := fun j hj =>
    (hbv j (mem_forest_ids_of_mem _ T hTmem j hj)).1
  obtain ⟨hdisjA, hdisjB⟩ := forest_split_facts A B T hnd
  obtain ⟨s3, u, hok, hrest⟩ :=
    cut_wf s i p T hshT hndT hblenT hiT hirT hparI hordX
  obtain ⟨s4, hs4⟩ : ∃ x, x = setN s3 p
      { getN s3 p with degree := (getN s3 p).degree - 1 } := ⟨_, rfl⟩
  obtain ⟨hwfP, hwfU, hurid, hpermc, hpmem, hunt, hstat, h4i, h4pk, h4pv, h4pm,
    h4pp, h4pl, h4pr, h4rl, h4rr, hlen4⟩ := hrest s4 hs4
  have hkey4 : ∀ j, (getN s4 j).key = (getN s j).key := by
    intro j
    by_cases h1 : j = p
    · rw [h1]
      exact h4pk
    by_cases h2 : j = i
    · rw [h2, h4i]
    · exact (hstat j h1 h2).1
  have hval4 : ∀ j, (getN s4 j).value = (getN s j).value := by
    intro j
    by_cases h1 : j = p
    · rw [h1]
      exact h4pv
    by_cases h2 : j = i
    · rw [h2, h4i]
    · exact (hstat j h1 h2).2.1
  have hpar4 : ∀ j, j ≠ i → (getN s4 j).parent = (getN s j).parent := by
    intro j h2
    by_cases h1 : j = p
    · rw [h1]
      exact h4pp
    · exact (hstat j h1 h2).2.2.2.2.1
  have heval : cut s h i p = .ok (add_to_root_list s4 h i) := by
    rw [cut, hok]
    dsimp only
    rw [← hs4]
  have hrootP : (Tree.pruneChild i T).rootId = T.rootId := pruneChild_rootId i T
  have hmemPT : ∀ j ∈ Tree.ids (Tree.pruneChild i T), j ∈ Tree.ids T :=
    fun j hj => hpermc.mem_iff.mp (List.mem_append_left _ hj)
  have hmemUT : ∀ j ∈ Tree.ids u, j ∈ Tree.ids T :=
    fun j hj => hpermc.mem_iff.mp (List.mem_append_right _ hj)
  have huntA : ∀ j ∈ Forest.ids A, getN s4 j = getN s j :=
    fun j hj => hunt j (fun hjT => hdisjA j hjT hj)
  have huntB : ∀ j ∈ Forest.ids B, getN s4 j = getN s j :=
    fun j hj => hunt j (fun hjT => hdisjB j hjT hj)
  have hmapeq : (A ++ Tree.pruneChild i T :: B).map Tree.rootId =
      (A ++ T :: B).map Tree.rootId := by
    rw [List.map_append, List.map_cons, List.map_append, List.map_cons, hrootP]
  have hpermF : (Forest.ids (A ++ Tree.pruneChild i T :: B) ++ Tree.ids u).Perm
      (Forest.ids (A ++ T :: B)) := by
    rw [forest_ids_append, forest_ids_cons, forest_ids_append, forest_ids_cons]
    rw [List.append_assoc, List.append_assoc]
    refine List.Perm.append_left _ ?_
    have h1 : List.Perm
        ((Tree.ids (Tree.pruneChild i T) ++ Forest.ids B) ++ Tree.ids u)
        (Tree.ids (Tree.pruneChild i T) ++ (Tree.ids u ++ Forest.ids B)) := by
      rw [List.append_assoc]
      exact List.Perm.append_left _ List.perm_append_comm
    rw [← List.append_assoc]
    refine h1.trans ?_
    rw [← List.append_assoc]
    exact List.Perm.append_right _ hpermc
  have hnd4c : (Forest.ids (A ++ Tree.pruneChild i T :: B) ++ Tree.ids u).Nodup :=
    hpermF.symm.nodup hnd
  obtain ⟨hndF4, hndu2, hdisjF4u⟩ := List.nodup_append.mp hnd4c
  have hmemF4 : ∀ j ∈ Forest.ids (A ++ Tree.pruneChild i T :: B),
      j ∈ Forest.ids (A ++ T :: B) :=
    fun j hj => hpermF.mem_iff.mp (List.mem_append_left _ hj)
  have hInv4 : InvStruct0 s4 h (A ++ Tree.pruneChild i T :: B) := by
    obtain ⟨t0, rest0, hF0, hm0⟩ := hhead
    refine ⟨?_, ?_, ?_, hndF4, ?_⟩
    · refine Or.inr ?_
      cases A with
      | nil =>
        rw [List.nil_append] at hF0 ⊢
        refine ⟨Tree.pruneChild i T, B, rfl, ?_⟩
        rw [hrootP, (List.cons.inj hF0).1, ← hm0]
      | cons a A2 =>
        exact ⟨a, A2 ++ Tree.pruneChild i T :: B, rfl, by
          rw [hm0]
          rw [show t0 = a from (List.cons.inj hF0).1.symm]⟩
    · rw [hmapeq]
      refine ringP_congr s s4 _ ?_ hring
      intro j hj
      obtain ⟨w, hw, hwj⟩ := List.mem_map.mp hj
      rw [← hwj]
      rcases List.mem_append.mp hw with h1 | h1
      · rw [huntA w.rootId (mem_forest_ids_of_mem A w h1 _ (rootId_mem_ids w))]
        exact ⟨rfl, rfl⟩
      · rcases List.mem_cons.mp h1 with h2 | h2
        · rw [h2]
          exact ⟨h4rl, h4rr⟩
        · rw [huntB w.rootId (mem_forest_ids_of_mem B w h2 _ (rootId_mem_ids w))]
          exact ⟨rfl, rfl⟩
    · intro t ht
      rcases List.mem_append.mp ht with h1 | h1
      · refine ⟨wfTree_eq_congr s s4 t
          (fun j hj => huntA j (mem_forest_ids_of_mem A t h1 j hj))
          (hwfA t h1), ?_⟩
        rw [huntA t.rootId (mem_forest_ids_of_mem A t h1 _ (rootId_mem_ids t))]
        exact hparA t (List.mem_append_left _ h1)
      · rcases List.mem_cons.mp h1 with h2 | h2
        · rw [h2]
          refine ⟨hwfP, ?_⟩
          rw [hrootP, hpar4 T.rootId (Ne.symm hirT)]
          exact hparA T hTmem
        · refine ⟨wfTree_eq_congr s s4 t
            (fun j hj => huntB j (mem_forest_ids_of_mem B t h2 j hj))
            (hwfB t h2), ?_⟩
          rw [huntB t.rootId (mem_forest_ids_of_mem B t h2 _ (rootId_mem_ids t))]
          exact hparA t (List.mem_append_right _ (List.mem_cons_of_mem _ h2))
    · intro j hj
      have h1 := hbv j (hmemF4 j hj)
      rw [hlen4, hval4 j]
      exact h1
  have hwfU4 : wfTree s4 u := hwfU
  have hndAll : (Tree.ids u ++ Forest.ids (A ++ Tree.pruneChild i T :: B)).Nodup :=
    List.perm_append_comm.nodup hnd4c
  have hlenT5 : ∀ j ∈ Tree.ids u, j < s4.nodes.length := by
    intro j hj
    rw [hlen4]
    exact hblenT j (hmemUT j hj)
  have hvalT5 : ∀ j ∈ Tree.ids u, (getN s4 j).value.isSome = true := by
    intro j hj
    rw [hval4 j]
    exact (hbv j (mem_forest_ids_of_mem _ T hTmem j (hmemUT j hj))).2
  obtain ⟨F5, hInv5, hshape5, hstat5, hself5, hunt5, huntnil5, hlen5, htot5⟩ :=
    add_to_root_list_spec0 s4 h (A ++ Tree.pruneChild i T :: B) u hInv4 hwfU4
      hndAll hlenT5 hvalT5
  rw [hurid] at hInv5 hshape5 hstat5 hself5 hunt5 huntnil5 hlen5 htot5
  have hkey5 : ∀ j, (getN (add_to_root_list s4 h i).1 j).key = (getN s j).key := by
    intro j
    by_cases h2 : j = i
    · rw [h2, hself5.1, hkey4 i]
    · rw [(hstat5 j h2).1, hkey4 j]
  have hval5 : ∀ j, (getN (add_to_root_list s4 h i).1 j).value =
      (getN s j).value := by
    intro j
    by_cases h2 : j = i
    · rw [h2, hself5.2.1, hval4 i]
    · rw [(hstat5 j h2).2.1, hval4 j]
  have hpar5 : ∀ j, j ≠ i → (getN (add_to_root_list s4 h i).1 j).parent =
      (getN s j).parent := by
    intro j h2
    rw [(hstat5 j h2).2.2.2.2.1, hpar4 j h2]
  have hF4ne : A ++ Tree.pruneChild i T :: B ≠ [] := by
    cases A with
    | nil => exact fun hh => List.cons_ne_nil _ _ hh
    | cons a A2 => exact fun hh => List.cons_ne_nil _ _ hh
  rcases hshape5 with ⟨hnil, _, _⟩ | ⟨t0', rest', hF4eq, hcases⟩
  · exact absurd hnil hF4ne
  have hpermu : ∀ G : List Tree, F5 = G →
      (Forest.ids G).Perm (Tree.ids u ++ Forest.ids (A ++ Tree.pruneChild i T :: B)) →
      (Forest.ids F5).Perm (Forest.ids (A ++ T :: B)) := by
    intro G hG hperm2
    rw [hG]
    exact hperm2.trans (List.perm_append_comm.trans hpermF)
  have hkeyhead : ∀ t5 rest5 t0 rest0, F5 = t5 :: rest5 →
      A ++ T :: B = t0 :: rest0 →
      (getN (add_to_root_list s4 h i).1 t5.rootId).key ≤ (getN s t0.rootId).key := by
    intro t5 rest5 t0 rest0 hF5eq hFeq
    have ht0rootF4 : t0'.rootId = t0.rootId := by
      have hmapF : (A ++ Tree.pruneChild i T :: B).map Tree.rootId =
          (t0.rootId :: rest0.map Tree.rootId) := by
        rw [hmapeq, hFeq, List.map_cons]
      rw [hF4eq, List.map_cons] at hmapF
      exact (List.cons.inj hmapF).1
    have ht0ne : t0'.rootId ≠ i := by
      intro hh
      refine hdisjF4u ?_ (hurid ▸ rootId_mem_ids u)
      rw [hF4eq]
      exact mem_forest_ids_of_mem _ t0' (List.mem_cons_self _ _) _
        (hh ▸ rootId_mem_ids t0')
    rcases hcases with ⟨hlt, hF5, _⟩ | ⟨hnlt, hF5, _⟩
    · have ht5u : t5 = u := by
        rw [hF5, List.cons_append] at hF5eq
        exact ((List.cons.inj hF5eq).1).symm
      rw [ht5u, hurid, hself5.1, hkey4 i]
      have h2 : (getN s4 i).key < (getN s4 t0'.rootId).key := hlt
      rw [hkey4 i, hkey4 t0'.rootId, ht0rootF4] at h2
      exact le_of_lt h2
    · have ht5t0 : t5 = t0' := by
        rw [hF5] at hF5eq
        exact ((List.cons.inj hF5eq).1).symm
      rw [ht5t0, (hstat5 t0'.rootId ht0ne).1, hkey4 t0'.rootId, ht0rootF4]
  refine ⟨(add_to_root_list s4 h i).1, (add_to_root_list s4 h i).2, F5, heval,
    hInv5, ?_, hkey5, hval5, hpar5, ?_, ?_, hkeyhead, ?_, ?_⟩
  · rcases hcases with ⟨_, hF5, _⟩ | ⟨_, hF5, _⟩
    · refine hpermu _ hF5 ?_
      rw [forest_ids_append]
      rw [forest_ids_cons]
      rw [forest_ids_cons]
      rw [forest_ids_nil, List.append_nil]
      rw [hF4eq]
      rw [forest_ids_cons]
      rw [List.append_assoc]
      exact List.Perm.append_left _ List.perm_append_comm
    · refine hpermu _ hF5 ?_
      rw [forest_ids_cons, forest_ids_cons, hF4eq, forest_ids_cons]
      rw [← List.append_assoc, ← List.append_assoc]
      exact List.Perm.append_right _ List.perm_append_comm
  · intro x hx
    rw [← hmapeq] at hx
    obtain ⟨w, hwF4, hwx⟩ := List.mem_map.mp hx
    rw [hF4eq] at hwF4
    refine List.mem_map.mpr ⟨w, ?_, hwx⟩
    rcases hcases with ⟨_, hF5, _⟩ | ⟨_, hF5, _⟩
    · rw [hF5]
      rcases List.mem_cons.mp hwF4 with h2 | h2
      · rw [h2]
        exact List.mem_append_right _ (List.mem_cons_self _ _)
      · exact List.mem_append_left _ (List.mem_cons_of_mem _ h2)
    · rw [hF5]
      rcases List.mem_cons.mp hwF4 with h2 | h2
      · rw [h2]
        exact List.mem_cons_self _ _
      · exact List.mem_cons_of_mem _ (List.mem_cons_of_mem _ h2)
  · refine List.mem_map.mpr ⟨u, ?_, hurid⟩
    rcases hcases with ⟨_, hF5, _⟩ | ⟨_, hF5, _⟩
    · rw [hF5]
      exact List.mem_append_left _ (List.mem_cons_self _ _)
    · rw [hF5]
      exact List.mem_cons_of_mem _ (List.mem_cons_self _ _)
  · rw [hlen5, hlen4]
  · exact htot5

theorem InvStruct0_set_mark (s : Store) (h : FibonacciHeap) (F : List Tree)
    (x : Nat) (b : Bool) (hInv : InvStruct0 s h F) (hxlen : x < s.nodes.length) :
    InvStruct0 (setN s x { getN s x with mark := b }) h F := by
  obtain ⟨hhead, hring, hwfF, hnd, hbv⟩ := hInv
  have hsame : ∀ j, (getN (setN s x { getN s x with mark := b }) j).key =
      (getN s j).key ∧
      (getN (setN s x { getN s x with mark := b }) j).value =
        (getN s j).value ∧
      (getN (setN s x { getN s x with mark := b }) j).degree =
        (getN s j).degree ∧
      (getN (setN s x { getN s x with mark := b }) j).parent =
        (getN s j).parent ∧
      (getN (setN s x { getN s x with mark := b }) j).child =
        (getN s j).child ∧
      (getN (setN s x { getN s x with mark := b }) j).left =
        (getN s j).left ∧
      (getN (setN s x { getN s x with mark := b }) j).right =
        (getN s j).right := by
    intro j
    by_cases hj : j = x
    · rw [hj, getN_setN_self _ _ _ hxlen]
      exact ⟨rfl, rfl, rfl, rfl, rfl, rfl, rfl⟩
    · rw [getN_setN_ne _ _ _ _ hj]
      exact ⟨rfl, rfl, rfl, rfl, rfl, rfl, rfl⟩
  refine ⟨?_, ?_, ?_, hnd, ?_⟩
  · rcases hhead with ⟨h1, h2⟩ | ⟨t0, rest, hF, hm⟩
    · exact Or.inl ⟨h1, h2⟩
    · exact Or.inr ⟨t0, rest, hF, hm⟩
  · refine ringP_congr s _ _ ?_ hring
    intro j _
    exact ⟨(hsame j).2.2.2.2.2.1, (hsame j).2.2.2.2.2.2⟩
  · intro t ht
    refine ⟨?_, ?_⟩
    · refine wfTree_congr s _ t ?_ ?_ (hwfF t ht).1
      · exact ⟨(hsame t.rootId).1, (hsame t.rootId).2.2.1,
          (hsame t.rootId).2.2.2.2.1⟩
      · intro j _
        exact ⟨(hsame j).1, (hsame j).2.2.1, (hsame j).2.2.2.1,
          (hsame j).2.2.2.2.1, (hsame j).2.2.2.2.2.1,
          (hsame j).2.2.2.2.2.2⟩
    · rw [(hsame t.rootId).2.2.2.1]
      exact (hwfF t ht).2
  · intro j hj
    rw [length_setN, (hsame j).2.1]
    exact hbv j hj

theorem cascading_cut_spec : ∀ (ch : List Nat),
    ∀ (fuel : Nat) (s : Store) (h : FibonacciHeap) (F : List Tree)
      (node r : Nat),
      InvStruct0 s h F →
      PathUp s node r ch → ch.Nodup →
      (∀ x ∈ ch, x ∈ Forest.ids F) →
      (getN s r).parent = none →
      ch.length ≤ fuel →
      ∃ s2 h2 F2, cascading_cut fuel s h node = .ok (s2, h2) ∧
        InvStruct0 s2 h2 F2 ∧
        (Forest.ids F2).Perm (Forest.ids F) ∧
        (∀ j, (getN s2 j).key = (getN s j).key) ∧
        (∀ j, (getN s2 j).value = (getN s j).value) ∧
        (∀ x, x ∈ F.map Tree.rootId → x ∈ F2.map Tree.rootId) ∧
        (∀ t2 rest2 t0 rest0, F2 = t2 :: rest2 → F = t0 :: rest0 →
          (getN s2 t2.rootId).key ≤ (getN s t0.rootId).key) ∧
        s2.nodes.length = s.nodes.length ∧
        h2.total_nodes = h.total_nodes := by
  intro ch
  induction ch with
  | nil =>
    intro fuel s h F node r hInv hp hnd hmem hrnone hfuel
    cases hp
  | cons x ch' ih =>
    intro fuel s h F node r hInv hp hnd hmem hrnone hfuel
    cases fuel with
    | zero =>
      simp only [List.length_cons] at hfuel
      omega
    | succ fuel2 =>
      cases hp with
      | refl =>
        refine ⟨s, h, F, ?_, hInv, List.Perm.refl _, fun j => rfl, fun j => rfl,
          fun x hx => hx, ?_, rfl, rfl⟩
        · rw [cascading_cut, hrnone]
        · intro t2 rest2 t0 rest0 h1 h2
          rw [h1] at h2
          rw [(List.cons.inj h2).1]
      | step _ q _ _ hq hrest =>
        have hnodeF : x ∈ Forest.ids F := hmem x (List.mem_cons_self _ _)
        have hnodelen : x < s.nodes.length :=
          (hInv.2.2.2.2 x hnodeF).1
        have hnotch : x ∉ ch' := (List.nodup_cons.mp hnd).1
        have hndch : ch'.Nodup := (List.nodup_cons.mp hnd).2
        have hner : r ≠ x := by
          intro hh
          rw [hh, hq] at hrnone
          cases hrnone
        by_cases hmk : (getN s x).mark = false
        · -- mark the x and stop
          refine ⟨setN s x { getN s x with mark := true }, h, F, ?_,
            InvStruct0_set_mark s h F x true hInv hnodelen,
            List.Perm.refl _, ?_, ?_, fun x hx => hx, ?_, length_setN _ _ _,
            rfl⟩
          · rw [cascading_cut, hq]
            dsimp only
            rw [if_pos hmk]
          · intro j
            by_cases hj : j = x
            · rw [hj, getN_setN_self _ _ _ hnodelen]
            · rw [getN_setN_ne _ _ _ _ hj]
          · intro j
            by_cases hj : j = x
            · rw [hj, getN_setN_self _ _ _ hnodelen]
            · rw [getN_setN_ne _ _ _ _ hj]
          · intro t2 rest2 t0 rest0 h1 h2
            rw [h1] at h2
            rw [(List.cons.inj h2).1]
            by_cases hj : t0.rootId = x
            · rw [hj, getN_setN_self _ _ _ hnodelen]
            · rw [getN_setN_ne _ _ _ _ hj]
        · -- cut the x from its parent and recurse
          obtain ⟨T, hT, hnodeT⟩ := mem_forest_ids_split F x hnodeF
          obtain ⟨A, B, hsplit⟩ := List.append_of_mem hT
          subst hsplit
          obtain ⟨hhead, hring, hwfF, hndF, hbv⟩ := hInv
          have hheadE : ∃ t0 rest0, A ++ T :: B = t0 :: rest0 ∧
              h.min = some t0.rootId := by
            rcases hhead with ⟨h1, h2⟩ | hE
            · rw [h2] at hnodeF
              cases hnodeF
            · exact hE
          have hwfT : wfTree s T :=
            (hwfF T (List.mem_append_right _ (List.mem_cons_self _ _))).1
          obtain ⟨s5, h5, F5, hcut, hInv5, hperm5, hkey5, hval5, hpar5,
            hroots5, hnode5, hheadkey5, hlen5, htot5⟩ :=
            cut_spec_inv s h A B T x q hheadE hring
              (fun t ht => (hwfF t (List.mem_append_left _ ht)).1)
              (fun t ht => (hwfF t (List.mem_append_right _
                (List.mem_cons_of_mem _ ht))).1)
              (fun t ht => (hwfF t ht).2)
              (wfShape_of_wfTree s T hwfT)
              (fun j hj hjr _ q' hq' _ =>
                wfTree_parentOrd s T hwfT j hj hjr q' hq')
              hndF hbv hnodeT hq
          have hpch : PathUp s5 q r ch' := by
            refine path_transfer s s5 hrest ?_
            intro y hy
            exact hpar5 y (fun hh => hnotch (hh ▸ hy))
          have hmem5 : ∀ y ∈ ch', y ∈ Forest.ids F5 := by
            intro y hy
            exact hperm5.mem_iff.mpr (hmem y (List.mem_cons_of_mem _ hy))
          have hrnone5 : (getN s5 r).parent = none := by
            rw [hpar5 r hner]
            exact hrnone
          have hfuel5 : ch'.length ≤ fuel2 := by
            simp only [List.length_cons] at hfuel
            omega
          obtain ⟨s2, h2, F2, hrec, hInv2, hperm2, hkey2, hval2, hroots2,
            hheadkey2, hlen2, htot2⟩ :=
            ih fuel2 s5 h5 F5 q r hInv5 hpch hndch hmem5 hrnone5 hfuel5
          refine ⟨s2, h2, F2, ?_, hInv2, hperm2.trans hperm5, ?_, ?_, ?_, ?_,
            ?_, ?_⟩
          · rw [cascading_cut, hq]
            dsimp only
            rw [if_neg hmk, hcut]
            dsimp only
            exact hrec
          · intro j
            rw [hkey2 j, hkey5 j]
          · intro j
            rw [hval2 j, hval5 j]
          · intro x hx
            exact hroots2 x (hroots5 x hx)
          · intro t2 rest2 t0 rest0 h1 h2eq
            have hF5ne : F5 ≠ [] := by
              intro hh
              have := hperm5.mem_iff.mpr hnodeF
              rw [hh] at this
              cases this
            obtain ⟨t5, rest5, hF5eq⟩ : ∃ t5 rest5, F5 = t5 :: rest5 := by
              cases hF5x : F5 with
              | nil => exact absurd hF5x hF5ne
              | cons a l => exact ⟨a, l, rfl⟩
            refine le_trans (hheadkey2 t2 rest2 t5 rest5 h1 hF5eq) ?_
            exact hheadkey5 t5 rest5 t0 rest0 hF5eq h2eq
          · rw [hlen2, hlen5]
          · rw [htot2, htot5]

theorem interior_parent_ne (s : Store) :
    ∀ T, wfTree s T → (Tree.ids T).Nodup → ∀ j ∈ Tree.ids T, j ≠ T.rootId →
    ∃ q, (getN s j).parent = some q ∧ q ∈ Tree.ids T ∧ q ≠ j := by
  apply tree_ind (P := fun T => wfTree s T → (Tree.ids T).Nodup →
    ∀ j ∈ Tree.ids T, j ≠ T.rootId →
    ∃ q, (getN s j).parent = some q ∧ q ∈ Tree.ids T ∧ q ≠ j)
  intro r cs ih hwf hnd j hj hjr
  cases hwf with
  | mk _ _ hdeg hchild hring hpar hkey hcs =>
    rw [Tree.ids] at hj hnd
    obtain ⟨hrnot, hndcs⟩ := List.nodup_cons.mp hnd
    rcases List.mem_cons.mp hj with h1 | h1
    · exact absurd h1 hjr
    obtain ⟨c, hc, hjc⟩ := mem_forest_ids_split cs j h1
    by_cases hjcr : j = c.rootId
    · refine ⟨r, ?_, by rw [Tree.ids]; exact List.mem_cons_self _ _, ?_⟩
      · rw [hjcr]
        exact hpar c hc
      · intro hh
        exact hrnot (hh ▸ h1)
    · obtain ⟨q, hq1, hq2, hq3⟩ := ih c hc (hcs c hc)
        (tree_ids_nodup_of_mem cs c hc hndcs) j hjc hjcr
      refine ⟨q, hq1, ?_, hq3⟩
      rw [Tree.ids]
      exact List.mem_cons_of_mem _ (mem_forest_ids_of_mem cs c hc q hq2)

theorem decrease_key_inv (s : Store) (h : FibonacciHeap) (handle : FibNodeHandle)
    (nk : Int) (F : List Tree) (i : Nat)
    (hInv : Inv s h F)
    (hup : upgrade s handle = some i)
    (hiF : i ∈ Forest.ids F)
    (hk : ¬ nk > (getN s i).key) :
    ∃ s2 h2 F2, decrease_key s h handle nk = .ok (s2, h2) ∧ Inv s2 h2 F2 ∧
      (Forest.ids F2).Perm (Forest.ids F) ∧
      (getN s2 i).key = nk ∧
      (∀ j, j ≠ i → (getN s2 j).key = (getN s j).key) ∧
      (∀ j, (getN s2 j).value = (getN s j).value) ∧
      s2.nodes.length = s.nodes.length ∧
      h2.total_nodes = h.total_nodes := by
  obtain ⟨hInvS, htot⟩ := hInv
  obtain ⟨hhead, hring, hwfF, hndF, hbv⟩ := hInvS
  have hilen : i < s.nodes.length := (hbv i hiF).1
  have hdec : nk ≤ (getN s i).key := not_lt.mp hk
  obtain ⟨t0, rest0, hF0, hm0, hmk0⟩ : ∃ t rest, F = t :: rest ∧
      h.min = some t.rootId ∧
      ∀ u ∈ F, (getN s t.rootId).key ≤ (getN s (Tree.rootId u)).key := by
    rcases hhead with ⟨_, h2⟩ | hE
    · rw [h2] at hiF
      cases hiF
    · exact hE
  have hminall : ∀ j ∈ Forest.ids F,
      (getN s t0.rootId).key ≤ (getN s j).key := by
    intro j hj
    have h1 := minall_of_Inv s h t0 rest0
      (by rw [← hF0]; exact ⟨⟨hhead, hring, hwfF, hndF, hbv⟩, htot⟩)
    refine h1 j ?_
    rw [← hF0]
    exact hj
  obtain ⟨s1, hs1⟩ : ∃ x, x = setN s i { getN s i with key := nk } := ⟨_, rfl⟩
  have g1i : getN s1 i = { getN s i with key := nk } := by
    rw [hs1]
    exact getN_setN_self _ _ _ hilen
  have g1 : ∀ j, j ≠ i → getN s1 j = getN s j := by
    intro j hj
    rw [hs1]
    exact getN_setN_ne _ _ _ _ hj
  have len1 : s1.nodes.length = s.nodes.length := by
    rw [hs1]
    exact length_setN _ _ _
  have hkey1 : ∀ j, j ≠ i → (getN s1 j).key = (getN s j).key := fun j hj => by
    rw [g1 j hj]
  have hk1i : (getN s1 i).key = nk := by
    rw [g1i]
  have hval1 : ∀ j, (getN s1 j).value = (getN s j).value := by
    intro j
    by_cases hj : j = i
    · rw [hj, g1i]
    · rw [g1 j hj]
  have hpar1 : ∀ j, (getN s1 j).parent = (getN s j).parent := by
    intro j
    by_cases hj : j = i
    · rw [hj, g1i]
    · rw [g1 j hj]
  have hLR1 : ∀ j, (getN s1 j).left = (getN s j).left ∧
      (getN s1 j).right = (getN s j).right := by
    intro j
    by_cases hj : j = i
    · rw [hj, g1i]
      exact ⟨rfl, rfl⟩
    · rw [g1 j hj]
      exact ⟨rfl, rfl⟩
  have hring1 : ringP s1 (F.map Tree.rootId) := by
    refine ringP_congr s s1 _ ?_ hring
    intro j _
    exact ⟨(hLR1 j).1, (hLR1 j).2⟩
  have hbv1 : ∀ j ∈ Forest.ids F, j < s1.nodes.length ∧
      (getN s1 j).value.isSome = true := by
    intro j hj
    rw [len1, hval1 j]
    exact hbv j hj
  have hpno1 : ∀ t ∈ F, (getN s1 (Tree.rootId t)).parent = none := fun t ht => by
    rw [hpar1]
    exact (hwfF t ht).2
  cases hpc : (getN s i).parent with
  | none =>
    -- the node is a root: no cut, possibly just a min update
    obtain ⟨A, u, B, hFsplit, hurId⟩ :=
      root_split_of_parent_none s h F i hwfF hiF hpc
    have hwf1 : ∀ t ∈ F, wfTree s1 t := by
      intro t ht
      rw [hs1]
      refine wfTree_key_dec s i nk hdec ?_ hilen t (hwfF t ht).1
        (tree_ids_nodup_of_mem F t ht hndF)
      intro p' hp'
      rw [hpc] at hp'
      cases hp'
    have hndR : (F.map Tree.rootId).Nodup := roots_nodup F hndF
    have hmapF : F.map Tree.rootId =
        A.map Tree.rootId ++ i :: B.map Tree.rootId := by
      rw [hFsplit, List.map_append, List.map_cons, hurId]
    have hndmid : (i :: (A.map Tree.rootId ++ B.map Tree.rootId)).Nodup := by
      refine List.perm_middle.nodup ?_
      rw [← hmapF]
      exact hndR
    have hinotAB : i ∉ A.map Tree.rootId ++ B.map Tree.rootId :=
      (List.nodup_cons.mp hndmid).1
    have hp1none : (getN s1 i).parent = none := by
      rw [hpar1 i, hpc]
    have hmemBA : ∀ w ∈ B ++ A, w ∈ F := by
      intro w hw
      rw [hFsplit]
      rcases List.mem_append.mp hw with h1 | h1
      · exact List.mem_append_right _ (List.mem_cons_of_mem _ h1)
      · exact List.mem_append_left _ h1
    have hrootBA : ∀ w ∈ B ++ A, w.rootId ≠ i := by
      intro w hw hh
      refine hinotAB ?_
      rcases List.mem_append.mp hw with h1 | h1
      · exact List.mem_append_right _ (hh ▸ List.mem_map.mpr ⟨w, h1, rfl⟩)
      · exact List.mem_append_left _ (hh ▸ List.mem_map.mpr ⟨w, h1, rfl⟩)
    by_cases hsw : (getN s1 i).key < (getN s1 t0.rootId).key
    · -- the decreased key becomes the new minimum
      have heval : decrease_key s h handle nk =
          .ok (s1, { h with min := some i }) := by
        rw [decrease_key, hup]
        dsimp only
        rw [if_neg hk]
        rw [← hs1, hp1none]
        dsimp only
        rw [hm0]
        dsimp only
        rw [if_pos hsw]
      have ht0ne : t0.rootId ≠ i := by
        intro hh
        rw [hh] at hsw
        exact absurd hsw (lt_irrefl _)
      have hswK : nk < (getN s t0.rootId).key := by
        rw [← hkey1 t0.rootId ht0ne, ← hk1i]
        exact hsw
      have hpermF2 : List.Perm F (u :: (B ++ A)) := by
        rw [hFsplit]
        refine List.perm_middle.trans ?_
        exact List.Perm.cons u List.perm_append_comm
      have hpermIds : (Forest.ids (u :: (B ++ A))).Perm (Forest.ids F) :=
        (forest_ids_perm _ _ hpermF2).symm
      have hmemF2 : ∀ w ∈ u :: (B ++ A), w ∈ F := by
        intro w hw
        rcases List.mem_cons.mp hw with h1 | h1
        · rw [h1, hFsplit]
          exact List.mem_append_right _ (List.mem_cons_self _ _)
        · exact hmemBA w h1
      refine ⟨s1, { h with min := some i }, u :: (B ++ A), heval,
        ⟨⟨?_, ?_, ?_, ?_, ?_⟩, ?_⟩, hpermIds, hk1i, hkey1, hval1, len1, rfl⟩
      · refine Or.inr ⟨u, B ++ A, rfl, ?_, ?_⟩
        · show some i = some u.rootId
          rw [hurId]
        · intro w hw
          rw [hurId, hk1i]
          rcases List.mem_cons.mp hw with h1 | h1
          · rw [h1, hurId, hk1i]
          · rw [hkey1 _ (hrootBA w h1)]
            exact le_of_lt (lt_of_lt_of_le hswK (hmk0 w (hmemBA w h1)))
      · rw [List.map_cons, List.map_append, hurId]
        have h1 : ringP s1 (A.map Tree.rootId ++ i :: B.map Tree.rootId) := by
          rw [← hmapF]
          exact hring1
        have h2 := ringP_rotate_to s1 _ _ _ h1
        rw [List.cons_append] at h2
        exact h2
      · intro t ht
        exact ⟨hwf1 t (hmemF2 t ht), hpno1 t (hmemF2 t ht)⟩
      · exact hpermIds.symm.nodup hndF
      · intro j hj
        exact hbv1 j (hpermIds.mem_iff.mp hj)
      · show h.total_nodes = (Forest.ids (u :: (B ++ A))).length
        rw [htot]
        exact (hpermIds.length_eq).symm
    · -- the minimum pointer is unchanged
      have heval : decrease_key s h handle nk = .ok (s1, h) := by
        rw [decrease_key, hup]
        dsimp only
        rw [if_neg hk]
        rw [← hs1, hp1none]
        dsimp only
        rw [hm0]
        dsimp only
        rw [if_neg hsw]
      refine ⟨s1, h, F, heval, ⟨⟨?_, hring1, ?_, hndF, hbv1⟩, ?_⟩,
        List.Perm.refl _, hk1i, hkey1, hval1, len1, rfl⟩
      · refine Or.inr ⟨t0, rest0, hF0, hm0, ?_⟩
        intro w hw
        by_cases hwi : w.rootId = i
        · rw [hwi]
          exact not_lt.mp hsw
        · rw [hkey1 _ hwi]
          by_cases ht0i : t0.rootId = i
          · rw [ht0i, hk1i]
            refine le_trans hdec ?_
            have := hmk0 w hw
            rw [ht0i] at this
            exact this
          · rw [hkey1 _ ht0i]
            exact hmk0 w hw
      · intro t ht
        refine ⟨?_, hpno1 t ht⟩
        rw [hs1]
        refine wfTree_key_dec s i nk hdec ?_ hilen t (hwfF t ht).1
          (tree_ids_nodup_of_mem F t ht hndF)
        intro p' hp'
        rw [hpc] at hp'
        cases hp'
      · exact htot
  | some p =>
    -- the node is interior
    obtain ⟨T, hT, hiT⟩ := mem_forest_ids_split F i hiF
    obtain ⟨A, B, hFsplit⟩ := List.append_of_mem hT
    have hwfT : wfTree s T := (hwfF T hT).1
    have hndT : (Tree.ids T).Nodup := tree_ids_nodup_of_mem F T hT hndF
    have hirT : i ≠ T.rootId := by
      intro hh
      have h2 := (hwfF T hT).2
      rw [← hh] at h2
      rw [h2] at hpc
      cases hpc
    obtain ⟨q, hq, hqT, hqi⟩ := interior_parent_ne s T hwfT hndT i hiT hirT
    have hqp : q = p := Option.some.inj (hq.symm.trans hpc)
    subst hqp
    have hkp1 : (getN s1 q).key = (getN s q).key := hkey1 q hqi
    have hqF : q ∈ Forest.ids F := mem_forest_ids_of_mem F T hT q hqT
    have ht0ne : t0.rootId ≠ i := by
      intro hh
      have h2 := (hwfF t0 (by rw [hF0]; exact List.mem_cons_self _ _)).2
      rw [hh] at h2
      rw [h2] at hpc
      cases hpc
    have hparI1 : (getN s1 i).parent = some q := by
      rw [hpar1 i]
      exact hpc
    by_cases hcutc : nk < (getN s q).key
    · -- cut branch
      obtain ⟨hdisjTA, hdisjTB⟩ := forest_split_facts A B T (by
        rw [← hFsplit]
        exact hndF)
      have hsplit0 : A ++ T :: B = t0 :: rest0 := by
        rw [← hFsplit]
        exact hF0
      have hcore1 : ∀ j, agreeCoreS (getN s1 j) (getN s j) := by
        intro j
        by_cases hj : j = i
        · rw [hj, g1i]
          exact ⟨rfl, rfl, rfl, rfl, rfl⟩
        · rw [g1 j hj]
          exact ⟨rfl, rfl, rfl, rfl, rfl⟩
      have hshT1 : wfShape s1 T := by
        refine wfShape_congr s s1 T ?_ ?_ (wfShape_of_wfTree s T hwfT)
        · exact ⟨(hcore1 T.rootId).1, (hcore1 T.rootId).2.2.1⟩
        · intro j _
          exact hcore1 j
      have hordX1 : ∀ j ∈ Tree.ids T, j ≠ T.rootId → j ≠ i → ∀ q',
          (getN s1 j).parent = some q' → q' ∈ Tree.ids T →
          (getN s1 q').key ≤ (getN s1 j).key := by
        intro j hj hjr hji q' hq' hq'T
        rw [hpar1 j] at hq'
        rw [hkey1 j hji]
        by_cases hq'i : q' = i
        · rw [hq'i, hk1i]
          refine le_trans hdec ?_
          refine wfTree_parentOrd s T hwfT j hj hjr i ?_
          rw [← hq'i]
          exact hq'
        · rw [hkey1 q' hq'i]
          exact wfTree_parentOrd s T hwfT j hj hjr q' hq'
      obtain ⟨s5, h5, F5, hcutok, hInv5, hperm5, hkey5, hval5, hpar5, hroots5,
        hi5, hheadkey5, hlen5, htot5⟩ :=
        cut_spec_inv s1 h A B T i q ⟨t0, rest0, hsplit0, hm0⟩
          (by rw [← hFsplit]; exact hring1)
          (fun t ht => by
            refine wfTree_eq_congr s s1 t (fun j hj => g1 j ?_) (hwfF t (by
              rw [hFsplit]
              exact List.mem_append_left _ ht)).1
            intro hh
            exact hdisjTA j (hh ▸ hiT) (mem_forest_ids_of_mem A t ht j hj))
          (fun t ht => by
            refine wfTree_eq_congr s s1 t (fun j hj => g1 j ?_) (hwfF t (by
              rw [hFsplit]
              exact List.mem_append_right _ (List.mem_cons_of_mem _ ht))).1
            intro hh
            exact hdisjTB j (hh ▸ hiT) (mem_forest_ids_of_mem B t ht j hj))
          (fun t ht => hpno1 t (by rw [hFsplit]; exact ht))
          hshT1 hordX1
          (by rw [← hFsplit]; exact hndF)
          (by
            intro j hj
            rw [← hFsplit] at hj
            exact hbv1 j hj)
          hiT hparI1
      have hcond1 : (getN s1 i).key < (getN s1 q).key := by
        rw [hk1i, hkp1]
        exact hcutc
      obtain ⟨hhead5, hring5, hwfF5, hnd5, hbv5⟩ := hInv5
      have hiF5 : i ∈ Forest.ids F5 := by
        refine hperm5.mem_iff.mpr ?_
        rw [← hFsplit]
        exact hiF
      have hqF5 : q ∈ Forest.ids F5 := by
        refine hperm5.mem_iff.mpr ?_
        rw [← hFsplit]
        exact hqF
      obtain ⟨T5, hT5, hqT5⟩ := mem_forest_ids_split F5 q hqF5
      have hwfT5 : wfTree s5 T5 := (hwfF5 T5 hT5).1
      have hndT5 : (Tree.ids T5).Nodup := tree_ids_nodup_of_mem F5 T5 hT5 hnd5
      obtain ⟨ch, hpath, hchnd, hchsub⟩ := path_in_tree s5 T5 hwfT5 hndT5 q hqT5
      have hchF5 : ∀ x ∈ ch, x ∈ Forest.ids F5 :=
        fun x hx => mem_forest_ids_of_mem F5 T5 hT5 x (hchsub x hx)
      have hrnone5 : (getN s5 T5.rootId).parent = none := (hwfF5 T5 hT5).2
      have hfuelb : ch.length ≤ s5.nodes.length + 1 := by
        refine le_trans (nodup_bounded_length ch s5.nodes.length hchnd ?_)
          (Nat.le_succ _)
        intro x hx
        exact (hbv5 x (hchF5 x hx)).1
      obtain ⟨s6, h6, F6, hcasc, hInv6, hperm6, hkey6, hval6, hroots6,
        hheadkey6, hlen6, htot6⟩ :=
        cascading_cut_spec ch (s5.nodes.length + 1) s5 h5 F5 q T5.rootId
          ⟨hhead5, hring5, hwfF5, hnd5, hbv5⟩ hpath hchnd hchF5 hrnone5 hfuelb
      obtain ⟨hhead6, hring6, hwfF6, hnd6, hbv6⟩ := hInv6
      have hiF6 : i ∈ Forest.ids F6 := hperm6.mem_iff.mpr hiF5
      obtain ⟨t6, rest6, hF6, hm6⟩ : ∃ t rest, F6 = t :: rest ∧
          h6.min = some t.rootId := by
        rcases hhead6 with ⟨_, h2⟩ | hE
        · rw [h2] at hiF6
          cases hiF6
        · exact hE
      have hk6 : ∀ j, (getN s6 j).key = (getN s1 j).key := by
        intro j
        rw [hkey6 j, hkey5 j]
      have hv6 : ∀ j, (getN s6 j).value = (getN s j).value := by
        intro j
        rw [hval6 j, hval5 j, hval1 j]
      have hk6ne : ∀ j, j ≠ i → (getN s6 j).key = (getN s j).key := by
        intro j hj
        rw [hk6 j, hkey1 j hj]
      have hk6i : (getN s6 i).key = nk := by
        rw [hk6 i, hk1i]
      obtain ⟨t5h, rest5h, hF5s, _⟩ : ∃ t rest, F5 = t :: rest ∧
          h5.min = some t.rootId := by
        rcases hhead5 with ⟨_, h2⟩ | hE
        · rw [h2] at hiF5
          cases hiF5
        · exact hE
      have hheadK : (getN s6 t6.rootId).key ≤ (getN s t0.rootId).key := by
        refine le_trans (hheadkey6 t6 rest6 t5h rest5h hF6 hF5s) ?_
        refine le_trans (hheadkey5 t5h rest5h t0 rest0 hF5s hsplit0) ?_
        rw [hkey1 t0.rootId ht0ne]
      have hpermIds6 : (Forest.ids F6).Perm (Forest.ids F) := by
        refine hperm6.trans ?_
        refine hperm5.trans ?_
        rw [hFsplit]
      have hkeyroot6 : ∀ w ∈ F6, w.rootId ≠ i →
          (getN s t0.rootId).key ≤ (getN s6 w.rootId).key := by
        intro w hw hwne
        rw [hk6ne _ hwne]
        refine hminall w.rootId ?_
        refine hpermIds6.mem_iff.mp ?_
        exact mem_forest_ids_of_mem F6 w hw _ (rootId_mem_ids w)
      have heval0 : decrease_key s h handle nk =
          match h6.min with
          | some min_node =>
            if (getN s6 i).key < (getN s6 min_node).key then
              .ok (s6, { h6 with min := some i })
            else .ok (s6, h6)
          | none => .ok (s6, { h6 with min := some i }) := by
        rw [decrease_key, hup]
        dsimp only
        rw [if_neg hk]
        rw [← hs1, hparI1]
        dsimp only
        rw [if_pos hcond1, hcutok]
        dsimp only
        rw [hcasc]
      by_cases hfin : (getN s6 i).key < (getN s6 t6.rootId).key
      · -- the decreased node becomes the minimum
        have heval : decrease_key s h handle nk =
            .ok (s6, { h6 with min := some i }) := by
          rw [heval0, hm6]
          dsimp only
          rw [if_pos hfin]
        have hnkK : nk < (getN s t0.rootId).key := by
          rw [← hk6i]
          exact lt_of_lt_of_le hfin hheadK
        have hiR6 : i ∈ F6.map Tree.rootId := hroots6 i hi5
        obtain ⟨w, hwF6, hwid⟩ := List.mem_map.mp hiR6
        obtain ⟨C, D, hF6split⟩ := List.append_of_mem hwF6
        have hpermF2 : List.Perm F6 (w :: (D ++ C)) := by
          rw [hF6split]
          refine List.perm_middle.trans ?_
          exact List.Perm.cons w List.perm_append_comm
        have hpermIds2 : (Forest.ids (w :: (D ++ C))).Perm (Forest.ids F6) :=
          (forest_ids_perm _ _ hpermF2).symm
        have hmemF6 : ∀ v ∈ w :: (D ++ C), v ∈ F6 := by
          intro v hv
          rcases List.mem_cons.mp hv with h1 | h1
          · rw [h1, hF6split]
            exact List.mem_append_right _ (List.mem_cons_self _ _)
          · rw [hF6split]
            rcases List.mem_append.mp h1 with h2 | h2
            · exact List.mem_append_right _ (List.mem_cons_of_mem _ h2)
            · exact List.mem_append_left _ h2
        have hndR6 : (F6.map Tree.rootId).Nodup := roots_nodup F6 hnd6
        have hmap6 : F6.map Tree.rootId =
            C.map Tree.rootId ++ i :: D.map Tree.rootId := by
          rw [hF6split, List.map_append, List.map_cons, hwid]
        have hinotCD : i ∉ C.map Tree.rootId ++ D.map Tree.rootId := by
          refine (List.nodup_cons.mp (List.perm_middle.nodup ?_)).1
          rw [← hmap6]
          exact hndR6
        have hrootDC : ∀ v ∈ D ++ C, v.rootId ≠ i := by
          intro v hv hh
          refine hinotCD ?_
          rcases List.mem_append.mp hv with h1 | h1
          · exact List.mem_append_right _ (hh ▸ List.mem_map.mpr ⟨v, h1, rfl⟩)
          · exact List.mem_append_left _ (hh ▸ List.mem_map.mpr ⟨v, h1, rfl⟩)
        refine ⟨s6, { h6 with min := some i }, w :: (D ++ C), heval,
          ⟨⟨?_, ?_, ?_, ?_, ?_⟩, ?_⟩, hpermIds2.trans hpermIds6, hk6i, hk6ne,
          hv6, ?_, ?_⟩
        · refine Or.inr ⟨w, D ++ C, rfl, ?_, ?_⟩
          · show some i = some w.rootId
            rw [hwid]
          · intro v hv
            rw [hwid, hk6i]
            rcases List.mem_cons.mp hv with h1 | h1
            · rw [h1, hwid, hk6i]
            · refine le_of_lt (lt_of_lt_of_le hnkK ?_)
              have h2 := hkeyroot6 v (hmemF6 v (List.mem_cons_of_mem _ h1))
                (hrootDC v h1)
              exact h2
        · rw [List.map_cons, List.map_append, hwid]
          have h1 : ringP s6 (C.map Tree.rootId ++ i :: D.map Tree.rootId) := by
            rw [← hmap6]
            exact hring6
          have h2 := ringP_rotate_to s6 _ _ _ h1
          rw [List.cons_append] at h2
          exact h2
        · intro t ht
          exact hwfF6 t (hmemF6 t ht)
        · exact hpermIds2.symm.nodup hnd6
        · intro j hj
          exact hbv6 j (hpermIds2.mem_iff.mp hj)
        · show h6.total_nodes = (Forest.ids (w :: (D ++ C))).length
          rw [htot6, htot5, htot, hpermIds2.length_eq, hpermIds6.length_eq]
        · rw [hlen6, hlen5, len1]
        · show h6.total_nodes = h.total_nodes
          rw [htot6, htot5]
      · -- the minimum pointer keeps its target
        have heval : decrease_key s h handle nk = .ok (s6, h6) := by
          rw [heval0, hm6]
          dsimp only
          rw [if_neg hfin]
        refine ⟨s6, h6, F6, heval, ⟨⟨?_, hring6, hwfF6, hnd6, hbv6⟩, ?_⟩,
          hpermIds6, hk6i, hk6ne, hv6, ?_, ?_⟩
        · refine Or.inr ⟨t6, rest6, hF6, hm6, ?_⟩
          intro v hv
          by_cases hvi : v.rootId = i
          · rw [hvi, hk6i]
            rw [hk6i] at hfin
            exact not_lt.mp hfin
          · refine le_trans hheadK ?_
            exact hkeyroot6 v (hF6 ▸ hv) hvi
        · show h6.total_nodes = (Forest.ids F6).length
          rw [htot6, htot5, htot, hpermIds6.length_eq]
        · rw [hlen6, hlen5, len1]
        · show h6.total_nodes = h.total_nodes
          rw [htot6, htot5]
    · -- no cut: the key write keeps heap order with the parent
      have hcond1 : ¬ ((getN s1 i).key < (getN s1 q).key) := by
        rw [hk1i, hkp1]
        exact hcutc
      have hKpq : (getN s t0.rootId).key ≤ (getN s q).key := hminall q hqF
      have hqle : (getN s q).key ≤ nk := not_lt.mp hcutc
      have hnosw : ¬ ((getN s1 i).key < (getN s1 t0.rootId).key) := by
        rw [hk1i, hkey1 _ ht0ne]
        exact not_lt.mpr (le_trans hKpq hqle)
      have heval : decrease_key s h handle nk = .ok (s1, h) := by
        rw [decrease_key, hup]
        dsimp only
        rw [if_neg hk]
        rw [← hs1, hparI1]
        dsimp only
        rw [if_neg hcond1]
        dsimp only
        rw [hm0]
        dsimp only
        rw [if_neg hnosw]
      have hwf1 : ∀ t ∈ F, wfTree s1 t := by
        intro t ht
        rw [hs1]
        refine wfTree_key_dec s i nk hdec ?_ hilen t (hwfF t ht).1
          (tree_ids_nodup_of_mem F t ht hndF)
        intro p' hp'
        have hp'q : p' = q := Option.some.inj (hpc.symm.trans hp') |>.symm
        rw [hp'q]
        exact hqle
      refine ⟨s1, h, F, heval, ⟨⟨?_, hring1, ?_, hndF, hbv1⟩, ?_⟩,
        List.Perm.refl _, hk1i, hkey1, hval1, len1, rfl⟩
      · refine Or.inr ⟨t0, rest0, hF0, hm0, ?_⟩
        intro w hw
        rw [hkey1 _ ht0ne]
        by_cases hwi : w.rootId = i
        · rw [hwi, hk1i]
          exact le_trans hKpq hqle
        · rw [hkey1 _ hwi]
          exact hmk0 w hw
      · intro t ht
        exact ⟨hwf1 t ht, hpno1 t ht⟩
      · exact htot

/-- C3: after every public operation — `new`, `insert`, `union`, `extract_min`,
and `decrease_key` satisfying its precondition — the heap invariant holds, and
under that invariant every non-root node (a node whose `parent` pointer is set)
has a key no smaller than its parent's key. -/
theorem C3_heap_order_after_operations :
    (∀ s h F, Inv s h F → ∀ j ∈ Forest.ids F, ∀ p,
      (getN s j).parent = some p → (getN s p).key ≤ (getN s j).key) ∧
    Inv emptyStore new [] ∧
    (∀ s h F k v, Inv s h F →
      ∃ F', Inv (insert s h k v).1 (insert s h k v).2.1 F') ∧
    (∀ s a b Fa Fb, Inv s a Fa → Inv s b Fb →
      (Forest.ids Fa ++ Forest.ids Fb).Nodup →
      ∃ F', Inv (union s a b).1 (union s a b).2 F') ∧
    (∀ s h F t0 rest, Inv s h F → F = t0 :: rest →
      ∃ kv s2 h2 F2, extract_min s h = .ok (some kv, s2, h2) ∧ Inv s2 h2 F2) ∧
    (∀ s h F handle nk i, Inv s h F → upgrade s handle = some i →
      i ∈ Forest.ids F → ¬ nk > (getN s i).key →
      ∃ s2 h2 F2, decrease_key s h handle nk = .ok (s2, h2) ∧ Inv s2 h2 F2) := by
  refine ⟨?_, Inv_empty, ?_, ?_, ?_, ?_⟩
  · intro s h F hInv j hj p hp
    obtain ⟨⟨_, _, hwfF, hndF, _⟩, _⟩ := hInv
    obtain ⟨T, hT, hjT⟩ := mem_forest_ids_split F j hj
    have hjr : j ≠ T.rootId := by
      intro hh
      have h2 := (hwfF T hT).2
      rw [← hh] at h2
      rw [h2] at hp
      cases hp
    exact wfTree_parentOrd s T (hwfF T hT).1 j hjT hjr p hp
  · intro s h F k v hInv
    obtain ⟨F', hI, _⟩ := insert_spec s h F k v hInv
    exact ⟨F', hI⟩
  · intro s a b Fa Fb hIa hIb hnd
    obtain ⟨F', hI, _⟩ := union_spec s a b Fa Fb hIa hIb hnd
    exact ⟨F', hI⟩
  · intro s h F t0 rest hInv hF
    obtain ⟨v, s2, h2, F2, _, hok, hI, _⟩ :=
      extract_min_spec s h F t0 rest hInv hF
    exact ⟨_, s2, h2, F2, hok, hI⟩
  · intro s h F handle nk i hInv hup hiF hk
    obtain ⟨s2, h2, F2, hok, hI, _⟩ :=
      decrease_key_inv s h handle nk F i hInv hup hiF hk
    exact ⟨s2, h2, F2, hok, hI⟩

theorem C3_heap_order_after_operations_witness :
    (∃ s2 h2 F2,
      decrease_key (insert emptyStore new 1 10).1
        (insert emptyStore new 1 10).2.1 ⟨0⟩ 0 = .ok (s2, h2) ∧
      Inv s2 h2 F2) ∧
    (∀ j ∈ Forest.ids [Tree.node 0 []], ∀ p,
      (getN (insert emptyStore new 1 10).1 j).parent = some p →
      (getN (insert emptyStore new 1 10).1 p).key ≤
        (getN (insert emptyStore new 1 10).1 j).key) :=
  ⟨C3_heap_order_after_operations.2.2.2.2.2 _ _ [Tree.node 0 []] ⟨0⟩ 0 0
      Inv_insert_one rfl (by decide) (by decide),
    C3_heap_order_after_operations.1 _ _ [Tree.node 0 []] Inv_insert_one⟩

end FibHeap
